import Mathlib

/-!
# nbvh: N-dimensional bounding volume hierarchy

A shallow embedding of `src/nbvh/nvec.hh`, `src/nbvh/aabb.impl.hh`, `src/bvh.hh` and
`src/bvh.impl.hh`, followed by theorems about the build and the two traversals.

Conventions of the embedding.

* The element type `T` of the templates is any linearly ordered ring, with exact
  arithmetic; the theorems that involve a division take a linearly ordered field. The
  constants `std::numeric_limits<T>::max()` and `(T)(0.5)` are the parameters `MAX` and
  `half`.
* `VectorN<T, N>` is a function `Fin N → T`.
* `std::vector` is a `List`; an iterator into `mPrimitives` is its position (a `Nat`).
* `int` values are `Int`; sizes are assumed to fit in an `int`.
* An operation whose C++ behaviour is undefined (an index outside a vector, a division by
  zero whose quotient is used) and a recursion or loop that has used up its fuel return
  `none`.
* A callback with mutable state is a function that takes and returns the state.
* The library algorithms `std::nth_element` and `std::partition` are parameters.
* The two overloads of `Bvh::build` are `build` (the vector is moved) and `build_copy` (an
  iterator range is copied).
* The loops of the traversals come a second time with a record of the values `curr`
  takes (`searchLoopPops`, `intersectLoopPops`); `logQuery` and `logCollide` give a callback
  a record of its calls. The records change nothing of what is computed.
* For the behaviour that rests on IEEE-754 infinities, NaNs and rounding, `Ieee T` adds a
  NaN and the two infinities to the finite numbers. The slab test is embedded over it as
  `Ieee.is_intersecting` (exact operations) and, with the rounding of the operations as a
  parameter, as `Ieee.is_intersecting_inv` and `Ieee.is_intersecting_dir`; `Bvh::intersect`
  is embedded over it as `Ieee.intersect`, where a zero component of `dir` gives an
  infinite `inv`; the cost scan of the SAH strategy computes its costs over it (`sahCost`),
  where a side without primitives costs `inf * 0`, a NaN. `binary64` is the rounding of
  `double`.
* The concrete instances use `T = Int` or `T = ℚ`. With `T = Int` the only quotients that
  are evaluated are `1 / 1`, `1 / (-1)` and quotients of non-negative numbers, on which the
  division of `Int` and the division of a C++ `int` agree. The instances of the SAH strategy
  and of the floating-point traversal use `ℚ`.
-/

namespace Nbvh

/-! ## Vectors (`nvec.hh`) -/

/-- The aggregate `VectorN<T, N>`: `N` components of type `T`. -/
abbrev VectorN (T : Type) (N : Nat) := Fin N → T

section Order

variable {T : Type} [LinearOrder T] {N : Nat}

/-- The library function `std::min(x, y)`: `y` when `y < x`, otherwise `x`. -/
def stdMin (x y : T) : T := if y < x then y else x

/-- The library function `std::max(x, y)`: `y` when `x < y`, otherwise `x`. -/
def stdMax (x y : T) : T := if x < y then y else x

/-- Elementwise `min(a, b)` of two vectors (`op_impl_bop` with `std::min`). -/
def vmin (a b : VectorN T N) : VectorN T N := fun i => stdMin (a i) (b i)

/-- Elementwise `max(a, b)` of two vectors (`op_impl_bop` with `std::max`). -/
def vmax (a b : VectorN T N) : VectorN T N := fun i => stdMax (a i) (b i)

/-- The comparison `a <= b` of `aabb.impl.hh`: the fold `r && x <= y` over all
components, starting from `true`. -/
def vle (a b : VectorN T N) : Bool :=
  (List.finRange N).foldl (fun r i => r && decide (a i ≤ b i)) true

/-- The reduction `max(p)`: `op_impl_rdc` with `std::max`, starting from `p[0]`. -/
def vmaxr [NeZero N] (p : VectorN T N) : T :=
  (List.finRange N).foldl (fun r i => stdMax r (p i)) (p 0)

/-- The reduction `min(p)`: `op_impl_rdc` with `std::min`, starting from `p[0]`. -/
def vminr [NeZero N] (p : VectorN T N) : T :=
  (List.finRange N).foldl (fun r i => stdMin r (p i)) (p 0)

/-- The function `argmax(p)`: `op_impl_arg` with `x < y`, i.e. `k = p[k] < p[I] ? I : k`
for `I = 0, ..., N-1`, starting from `k = 0`. -/
def argmax [NeZero N] (p : VectorN T N) : Fin N :=
  (List.finRange N).foldl (fun k i => if p k < p i then i else k) 0

/-- The function `argmin(p)`: `op_impl_arg` with `x > y`, i.e. `k = p[k] > p[I] ? I : k`
for `I = 0, ..., N-1`, starting from `k = 0`. -/
def argmin [NeZero N] (p : VectorN T N) : Fin N :=
  (List.finRange N).foldl (fun k i => if p k > p i then i else k) 0

end Order

/-! ## Axis-aligned boxes (`aabb.hh`, `aabb.impl.hh`) -/

/-- The struct `Aabb<T, N>`: `p0` is `p[0]` (the low corner), `p1` is `p[1]` (the high
corner). -/
@[ext]
structure Aabb (T : Type) (N : Nat) where
  p0 : VectorN T N
  p1 : VectorN T N

section Box

variable {T : Type} [LinearOrderedRing T] {N : Nat}

/-- The constructor `make_vector<T, N>(s)`: `op_impl_set` gives component `I` the value
`s + (T)0 * I`. -/
def make_vector (s : T) : VectorN T N := fun i => s + 0 * ((i : Nat) : T)

/-- The function `merge(b_0, b_1)`. -/
def merge (b_0 b_1 : Aabb T N) : Aabb T N :=
  { p0 := vmin b_0.p0 b_1.p0, p1 := vmax b_0.p1 b_1.p1 }

/-- The constructor `make_aabb<T, N>()`; `MAX` stands for
`std::numeric_limits<T>::max()`. -/
def make_aabb (MAX : T) : Aabb T N :=
  { p0 := make_vector MAX, p1 := make_vector (-MAX) }

/-- The constructor `make_aabb(v)` of a single point. -/
def make_aabb_point (v : VectorN T N) : Aabb T N := { p0 := v, p1 := v }

/-- The function `diagonal(b)`. -/
def diagonal (b : Aabb T N) : VectorN T N := fun i => b.p1 i - b.p0 i

/-- The function `longest_axis(b)`. -/
def longest_axis [NeZero N] (b : Aabb T N) : Fin N := argmax (diagonal b)

/-- The closed overlap test `is_intersecting(b_0, b_1)` of two boxes. -/
def is_intersecting (b_0 b_1 : Aabb T N) : Bool :=
  vle b_0.p0 b_1.p1 && vle b_1.p0 b_0.p1

/-- The closed containment test `is_inside(b, v)` of a point. -/
def is_inside (b : Aabb T N) (v : VectorN T N) : Bool :=
  vle b.p0 v && vle v b.p1

/-- The overload `is_valid(b)`: `b[0] <= b[1]`. -/
def is_valid (b : Aabb T N) : Bool := vle b.p0 b.p1

/-- The function `intersect(b_0, b_1)` on boxes. -/
def intersect_aabb (b_0 b_1 : Aabb T N) : Aabb T N :=
  { p0 := vmax b_0.p0 b_1.p0, p1 := vmin b_0.p1 b_1.p1 }

/-- The variadic constructor `make_aabb(v, vs...)`: `{ min(v, vs...), max(v, vs...) }`,
where the variadic `min(a, b, rest...)` is `min(min(a, b), rest...)` and likewise `max`. -/
def make_aabb_points (v : VectorN T N) (vs : List (VectorN T N)) : Aabb T N :=
  { p0 := vs.foldl vmin v, p1 := vs.foldl vmax v }

end Box

/-! ## Floating-point values (IEEE-754) -/

/-- A value of an IEEE-754 floating-point type `T` as far as the slab test and the cost scan
of the SAH strategy tell values apart: a NaN, the two infinities, and the finite numbers
(a zero of either sign is `fin 0`; where the sign of a zero matters, as a divisor, it is
given apart). -/
inductive Ieee (T : Type) where
  | nan : Ieee T
  | negInf : Ieee T
  | fin : T → Ieee T
  | posInf : Ieee T
  deriving DecidableEq

section IeeeSlab

variable {T : Type} [LinearOrderedRing T] {N : Nat}

/-- The difference `x - y` of two floating-point values: `inf - inf` of the same sign is a
NaN. -/
def Ieee.sub : Ieee T → Ieee T → Ieee T
  | .nan, _ => .nan
  | _, .nan => .nan
  | .posInf, .posInf => .nan
  | .posInf, _ => .posInf
  | .negInf, .negInf => .nan
  | .negInf, _ => .negInf
  | .fin _, .posInf => .negInf
  | .fin _, .negInf => .posInf
  | .fin a, .fin b => .fin (a - b)

/-- The product of an infinity whose sign is positive when `pos` holds and a finite number
`a`: an infinity with the product of the signs, and a NaN when `a` is zero. -/
def Ieee.mulInf (pos : Bool) (a : T) : Ieee T :=
  if 0 < a then (if pos then .posInf else .negInf)
  else if a < 0 then (if pos then .negInf else .posInf)
  else .nan

/-- The product `x * y` of two floating-point values: `0 * inf` is a NaN. -/
def Ieee.mul : Ieee T → Ieee T → Ieee T
  | .nan, _ => .nan
  | _, .nan => .nan
  | .posInf, .posInf => .posInf
  | .posInf, .negInf => .negInf
  | .negInf, .posInf => .negInf
  | .negInf, .negInf => .posInf
  | .posInf, .fin a => Ieee.mulInf true a
  | .negInf, .fin a => Ieee.mulInf false a
  | .fin a, .posInf => Ieee.mulInf true a
  | .fin a, .negInf => Ieee.mulInf false a
  | .fin a, .fin b => .fin (a * b)

/-- The sum `x + y` of two floating-point values: the sum of two infinities of opposite
sign is a NaN. -/
def Ieee.add : Ieee T → Ieee T → Ieee T
  | .nan, _ => .nan
  | _, .nan => .nan
  | .posInf, .negInf => .nan
  | .posInf, _ => .posInf
  | .negInf, .posInf => .nan
  | .negInf, _ => .negInf
  | .fin _, .posInf => .posInf
  | .fin _, .negInf => .negInf
  | .fin a, .fin b => .fin (a + b)

/-- The quotient `x / y` of two floating-point values; `negZero` tells whether a divisor
that is zero is `-0`. A finite number other than zero over a zero is an infinity with the
quotient of the signs; `0 / 0` and `inf / inf` are NaNs; a finite number over an infinity is
zero. -/
def Ieee.div [Div T] (negZero : Bool) : Ieee T → Ieee T → Ieee T
  | .nan, _ => .nan
  | _, .nan => .nan
  | .posInf, .posInf => .nan
  | .posInf, .negInf => .nan
  | .negInf, .posInf => .nan
  | .negInf, .negInf => .nan
  | .posInf, .fin d =>
    if d = 0 then (if negZero then .negInf else .posInf) else Ieee.mulInf true d
  | .negInf, .fin d =>
    if d = 0 then (if negZero then .posInf else .negInf) else Ieee.mulInf false d
  | .fin _, .posInf => .fin 0
  | .fin _, .negInf => .fin 0
  | .fin a, .fin d => if d = 0 then Ieee.mulInf (!negZero) a else .fin (a / d)

/-- The value that a floating-point type whose largest finite number is `MAX` holds for
the exact finite result `x` of an operation, rounding apart: the infinity of the sign of `x`
when `x` is beyond `MAX` in magnitude. -/
def Ieee.overflow (MAX : T) (x : T) : Ieee T :=
  if MAX < x then .posInf else if x < -MAX then .negInf else .fin x

/-- The number `x` is within the finite range of a floating-point type whose largest finite
number is `MAX`. -/
def Ieee.InRange (MAX x : T) : Prop := -MAX ≤ x ∧ x ≤ MAX

/-- The overflow of the result of an operation on floating-point values: `Ieee.overflow` of
a finite result; an infinity or a NaN stays. -/
def Ieee.ovf (MAX : T) : Ieee T → Ieee T
  | .fin x => Ieee.overflow MAX x
  | x => x

/-- The rounding of the result of an operation on floating-point values: `rnd` maps the
exact finite result to the number the type holds for it (the exponent range is taken as
unbounded); an infinity or a NaN stays. -/
def Ieee.round (rnd : T → T) : Ieee T → Ieee T
  | .fin a => .fin (rnd a)
  | x => x

/-- The comparison `x < y` of two floating-point values: false when one is a NaN. -/
def Ieee.lt : Ieee T → Ieee T → Bool
  | .nan, _ => false
  | _, .nan => false
  | .negInf, .negInf => false
  | .negInf, _ => true
  | .fin _, .negInf => false
  | .fin a, .fin b => decide (a < b)
  | .fin _, .posInf => true
  | .posInf, _ => false

/-- The comparison `x <= y` of two floating-point values: false when one is a NaN. -/
def Ieee.le : Ieee T → Ieee T → Bool
  | .nan, _ => false
  | _, .nan => false
  | .negInf, _ => true
  | .fin _, .negInf => false
  | .fin a, .fin b => decide (a ≤ b)
  | .fin _, .posInf => true
  | .posInf, .posInf => true
  | .posInf, _ => false

/-- The library function `std::min(x, y)` on floating-point values: `y` when `y < x`,
otherwise `x`. -/
def Ieee.stdMin (x y : Ieee T) : Ieee T := if Ieee.lt y x then y else x

/-- The library function `std::max(x, y)` on floating-point values: `y` when `x < y`,
otherwise `x`. -/
def Ieee.stdMax (x y : Ieee T) : Ieee T := if Ieee.lt x y then y else x

/-- The vector `k0 = (b[0] - org) * inv` of `is_intersecting(b, org, inv, dist, true)`, for
a floating-point `T`. -/
def Ieee.k0 (b : Aabb (Ieee T) N) (org inv : VectorN (Ieee T) N) : VectorN (Ieee T) N :=
  fun i => Ieee.mul (Ieee.sub (b.p0 i) (org i)) (inv i)

/-- The vector `k1 = (b[1] - org) * inv` of `is_intersecting(b, org, inv, dist, true)`, for
a floating-point `T`. -/
def Ieee.k1 (b : Aabb (Ieee T) N) (org inv : VectorN (Ieee T) N) : VectorN (Ieee T) N :=
  fun i => Ieee.mul (Ieee.sub (b.p1 i) (org i)) (inv i)

/-- The value `t0 = max(min(k0, k1))` of `is_intersecting(b, org, inv, dist, true)`, for a
floating-point `T`: the reduction `r = std::max(r, p[I])` over all components, starting
from `p[0]`. -/
def Ieee.t0 [NeZero N] (b : Aabb (Ieee T) N) (org inv : VectorN (Ieee T) N) : Ieee T :=
  (List.finRange N).foldl
    (fun r i => Ieee.stdMax r (Ieee.stdMin (Ieee.k0 b org inv i) (Ieee.k1 b org inv i)))
    (Ieee.stdMin (Ieee.k0 b org inv 0) (Ieee.k1 b org inv 0))

/-- The value `t1 = min(max(k0, k1))` of `is_intersecting(b, org, inv, dist, true)`, for a
floating-point `T`: the reduction `r = std::min(r, p[I])` over all components, starting
from `p[0]`. -/
def Ieee.t1 [NeZero N] (b : Aabb (Ieee T) N) (org inv : VectorN (Ieee T) N) : Ieee T :=
  (List.finRange N).foldl
    (fun r i => Ieee.stdMin r (Ieee.stdMax (Ieee.k0 b org inv i) (Ieee.k1 b org inv i)))
    (Ieee.stdMax (Ieee.k0 b org inv 0) (Ieee.k1 b org inv 0))

/-- The overload `is_intersecting(b, org, inv, dist, true)` for a floating-point `T`:
`t1 > 0 && t1 >= t0 && dist > t0`. -/
def Ieee.is_intersecting [NeZero N] (b : Aabb (Ieee T) N) (org inv : VectorN (Ieee T) N)
    (dist : Ieee T) : Bool :=
  Ieee.lt (.fin 0) (Ieee.t1 b org inv) && Ieee.le (Ieee.t0 b org inv) (Ieee.t1 b org inv) &&
    Ieee.lt (Ieee.t0 b org inv) dist

/-- The last three statements of both overloads of the ray/box test `is_intersecting`, for
a floating-point `T`: `t0 = max(min(k0, k1))` and `t1 = min(max(k0, k1))`, the reductions
`r = std::max(r, p[I])` and `r = std::min(r, p[I])` over all components starting from `p[0]`,
and `t1 > 0 && t1 >= t0 && dist > t0`. -/
def Ieee.slab [NeZero N] (k0 k1 : VectorN (Ieee T) N) (dist : Ieee T) : Bool :=
  let t0 := (List.finRange N).foldl
    (fun r i => Ieee.stdMax r (Ieee.stdMin (k0 i) (k1 i))) (Ieee.stdMin (k0 0) (k1 0))
  let t1 := (List.finRange N).foldl
    (fun r i => Ieee.stdMin r (Ieee.stdMax (k0 i) (k1 i))) (Ieee.stdMax (k0 0) (k1 0))
  Ieee.lt (.fin 0) t1 && Ieee.le t0 t1 && Ieee.lt t0 dist

/-- The overload `is_intersecting(b, org, inv, dist, true)` for a floating-point `T` whose
operations round with `rnd`: `k0 = (b[0] - org) * inv` and `k1 = (b[1] - org) * inv`, each
difference and each product rounded. -/
def Ieee.is_intersecting_inv [NeZero N] (rnd : T → T) (b : Aabb (Ieee T) N)
    (org inv : VectorN (Ieee T) N) (dist : Ieee T) : Bool :=
  Ieee.slab
    (fun i => Ieee.round rnd (Ieee.mul (Ieee.round rnd (Ieee.sub (b.p0 i) (org i))) (inv i)))
    (fun i => Ieee.round rnd (Ieee.mul (Ieee.round rnd (Ieee.sub (b.p1 i) (org i))) (inv i)))
    dist

/-- The overload `is_intersecting(b, org, dir, dist)` for a floating-point `T` whose
operations round with `rnd`: `k0 = (b[0] - org) / dir` and `k1 = (b[1] - org) / dir`, each
difference and each quotient rounded; `negZero i` tells whether a component `dir[i]` that is
zero is `-0`. -/
def Ieee.is_intersecting_dir [NeZero N] [Div T] (rnd : T → T) (negZero : Fin N → Bool)
    (b : Aabb (Ieee T) N) (org dir : VectorN (Ieee T) N) (dist : Ieee T) : Bool :=
  Ieee.slab
    (fun i => Ieee.round rnd
      (Ieee.div (negZero i) (Ieee.round rnd (Ieee.sub (b.p0 i) (org i))) (dir i)))
    (fun i => Ieee.round rnd
      (Ieee.div (negZero i) (Ieee.round rnd (Ieee.sub (b.p1 i) (org i))) (dir i)))
    dist

/-- A vector of finite numbers as a vector of floating-point values. -/
def Ieee.ofVec (v : VectorN T N) : VectorN (Ieee T) N := fun i => .fin (v i)

/-- A box with finite corners as a box of floating-point values. -/
def Ieee.ofBox (b : Aabb T N) : Aabb (Ieee T) N := { p0 := Ieee.ofVec b.p0, p1 := Ieee.ofVec b.p1 }

/-- The vector `inv = make_vector<T, N>(1) / dir` of `Bvh::intersect` for a floating-point
`T` whose operations round with `rnd`; `negZero i` tells whether a component `dir[i]` that
is zero is `-0`. A zero component gives an infinity. -/
def Ieee.inv [Div T] (rnd : T → T) (negZero : Fin N → Bool) (dir : VectorN T N) :
    VectorN (Ieee T) N :=
  fun i => Ieee.round rnd
    (Ieee.div (negZero i) (.fin ((make_vector 1 : VectorN T N) i)) (.fin (dir i)))

/-- The values `k0` and `k1` of the slab test of `Bvh::intersect` on the box `b` are computed
without rounding error: with the operations rounded by `rnd`, the vector `inv = 1 / dir`
included, they are what exact operations give. -/
@[reducible]
def Ieee.SlabExact [Div T] (rnd : T → T) (negZero : Fin N → Bool) (b : Aabb T N)
    (org dir : VectorN T N) : Prop :=
  ∀ i,
    Ieee.round rnd (Ieee.mul (Ieee.round rnd (Ieee.sub (.fin (b.p0 i)) (.fin (org i))))
        (Ieee.inv rnd negZero dir i)) =
      Ieee.mul (Ieee.sub (.fin (b.p0 i)) (.fin (org i))) (Ieee.inv (fun x => x) negZero dir i) ∧
    Ieee.round rnd (Ieee.mul (Ieee.round rnd (Ieee.sub (.fin (b.p1 i)) (.fin (org i))))
        (Ieee.inv rnd negZero dir i)) =
      Ieee.mul (Ieee.sub (.fin (b.p1 i)) (.fin (org i))) (Ieee.inv (fun x => x) negZero dir i)

end IeeeSlab

/-! ## Nodes and the tree (`bvh.hh`) -/

/-- The struct `BvhNode<T, N>`. -/
structure BvhNode (T : Type) (N : Nat) where
  b : Aabb T N
  i0 : Int
  i1 : Int

/-- The class `Bvh<Primitive, T, N>`: its two member vectors. -/
structure Bvh (P T : Type) (N : Nat) where
  mPrimitives : List P
  mNodes : List (BvhNode T N)

section Build

variable {P T : Type} [LinearOrderedRing T] {N : Nat}

/-- The node made by `mNodes.emplace_back()`: value-initialised box, `i0 = 0`, `i1 = 0`. -/
def BvhNode.fresh : BvhNode T N :=
  { b := { p0 := fun _ => 0, p1 := fun _ => 0 }, i0 := 0, i1 := 0 }

/-- A default-constructed `Bvh`: both vectors empty. -/
def Bvh.empty : Bvh P T N := { mPrimitives := [], mNodes := [] }

/-- The function `length(node)`. -/
def length (node : BvhNode T N) : Int := -node.i1

/-- The function `is_leaf(node)`: `neglen(node) < 0`. -/
def is_leaf (node : BvhNode T N) : Bool := decide (node.i1 < 0)

/-- The function `set_leaf(node, objIdx, objNum)`. -/
def set_leaf (node : BvhNode T N) (objIdx objNum : Int) : BvhNode T N :=
  { node with i0 := objIdx, i1 := -objNum }

/-- The elements at positions `[b, e)` of a vector. -/
def slice (l : List P) (b e : Nat) : List P := (l.take e).drop b

/-- An access `mNodes[k] = f(mNodes[k])`; `none` when `k` is not an index of the vector. -/
def modifyNode (nodes : List (BvhNode T N)) (k : Nat) (f : BvhNode T N → BvhNode T N) :
    Option (List (BvhNode T N)) :=
  match nodes[k]? with
  | none => none
  | some nd => some (nodes.set k (f nd))

/-- The loop `for (iter = biter; iter != eiter; ++iter) bbox = merge(bbox, bound(*iter))`
starting from `make_aabb()`, over positions `[b, e)`. -/
def rangeBox (bound : P → Aabb T N) (MAX : T) (prims : List P) (b e : Nat) : Aabb T N :=
  (slice prims b e).foldl (fun bbox p => merge bbox (bound p)) (make_aabb MAX)

/-- The method `Bvh::recursive_build`. The state `self` holds `mPrimitives` and `mNodes`;
`biter`, `eiter` are positions in `mPrimitives`. The first argument is the recursion fuel.
The callback `split` returns the reordered vector and the position `piter`. -/
def recursive_build (bound : P → Aabb T N)
    (split : List P → Nat → Nat → Option (List P × Nat)) (threshold : Int) (MAX : T) :
    Nat → Bvh P T N → Nat → Nat → Nat → Int → Option (Bvh P T N)
  | 0, _, _, _, _, _ => none
  | fuel + 1, self, biter, eiter, curr, depth =>
    let n : Int := (eiter : Int) - (biter : Int)
    let m : Int := (biter : Int)
    match (if n > threshold then split self.mPrimitives biter eiter
           else some (self.mPrimitives, eiter)) with
    | none => none
    | some (prims, piter) =>
      if piter = biter ∨ piter = eiter then
        if biter ≤ eiter ∧ eiter ≤ prims.length then
          (modifyNode self.mNodes curr
              (fun nd => { set_leaf nd m n with b := rangeBox bound MAX prims biter eiter })).map
            (fun nodes => { mPrimitives := prims, mNodes := nodes })
        else none
      else
        (modifyNode self.mNodes curr (fun nd => { nd with b := make_aabb MAX })).bind
        fun nodes1 =>
        let left : Nat := nodes1.length
        (modifyNode nodes1 curr (fun nd => { nd with i0 := (left : Int) })).bind fun nodes2 =>
        (recursive_build bound split threshold MAX fuel
          { mPrimitives := prims, mNodes := nodes2 ++ [BvhNode.fresh] }
          biter piter left (depth + 1)).bind fun s1 =>
        (s1.mNodes[left]?).bind fun ndL =>
        (modifyNode s1.mNodes curr (fun nd => { nd with b := merge nd.b ndL.b })).bind
        fun nodes3 =>
        let right : Nat := nodes3.length
        (modifyNode nodes3 curr (fun nd => { nd with i1 := (right : Int) })).bind fun nodes4 =>
        (recursive_build bound split threshold MAX fuel
          { mPrimitives := s1.mPrimitives, mNodes := nodes4 ++ [BvhNode.fresh] }
          piter eiter right (depth + 1)).bind fun s2 =>
        (s2.mNodes[right]?).bind fun ndR =>
        (modifyNode s2.mNodes curr (fun nd => { nd with b := merge nd.b ndR.b })).map
          (fun nodes5 => { mPrimitives := s2.mPrimitives, mNodes := nodes5 })

/-- The move overload of `Bvh::build`. Returns the tree and the caller's vector, which
`std::swap` leaves holding the old `mPrimitives`. -/
def build (bound : P → Aabb T N) (split : List P → Nat → Nat → Option (List P × Nat))
    (threshold : Int) (MAX : T) (fuel : Nat) (self : Bvh P T N) (primitives : List P) :
    Option (Bvh P T N × List P) :=
  if primitives.isEmpty then some (self, primitives)
  else
    (recursive_build bound split threshold MAX fuel
      { mPrimitives := primitives, mNodes := self.mNodes ++ [BvhNode.fresh] }
      0 primitives.length 0 0).map (fun s => (s, self.mPrimitives))

/-- The iterator overload of `Bvh::build`; `range` holds the elements of `[biter, eiter)`.
Its first statement is `if (primitives.empty()) return;`, and this overload has no
parameter or local of that name: inside the class the name denotes the accessor
`primitives()`, which returns `mPrimitives`, so the test is read as
`primitives().empty()`. Then `mPrimitives.clear()`, `mNodes.emplace_back()`, the copy of the
range to the back of `mPrimitives`, and the call of `recursive_build`. -/
def build_copy (bound : P → Aabb T N) (split : List P → Nat → Nat → Option (List P × Nat))
    (threshold : Int) (MAX : T) (fuel : Nat) (self : Bvh P T N) (range : List P) :
    Option (Bvh P T N) :=
  if self.mPrimitives.isEmpty then some self
  else
    recursive_build bound split threshold MAX fuel
      { mPrimitives := range, mNodes := self.mNodes ++ [BvhNode.fresh] }
      0 range.length 0 0

/-- The accessor `Bvh::aabb()`. -/
def Bvh.aabb (MAX : T) (self : Bvh P T N) : Aabb T N :=
  match self.mNodes with
  | [] => make_aabb MAX
  | nd :: _ => nd.b

/-- The accessor `Bvh::is_empty()`. -/
def Bvh.is_empty (self : Bvh P T N) : Bool := self.mNodes.isEmpty

end Build

/-! ## Traversals (`bvh.impl.hh`, `aabb.impl.hh`) -/

section Traversal

variable {P T S : Type} [LinearOrderedRing T] {N : Nat}

/-- An access `mNodes[i]` with an `int` index; `none` when `i` is not an index of the
vector. -/
def nodeAt (nodes : List (BvhNode T N)) (i : Int) : Option (BvhNode T N) :=
  if 0 ≤ i then nodes[i.toNat]? else none

/-- The primitives `mPrimitives[i]` for `i = ib, ..., ie - 1`, as read by the loop
`for (int i = ib; i < ie; ++i)`; `none` when some `i` is not an index of the vector. -/
def leafPrims (prims : List P) (ib ie : Int) : Option (List P) :=
  if ie ≤ ib then some []
  else if 0 ≤ ib ∧ ie ≤ (prims.length : Int) then some (slice prims ib.toNat ie.toNat)
  else none

/-- The overload `is_intersecting(b, org, inv, dist, true)`: the slab test with the inverse
direction. -/
def is_intersecting_inv [NeZero N] (b : Aabb T N) (org inv : VectorN T N) (dist : T) : Bool :=
  let k0 : VectorN T N := fun i => (b.p0 i - org i) * inv i
  let k1 : VectorN T N := fun i => (b.p1 i - org i) * inv i
  let t0 := vmaxr (vmin k0 k1)
  let t1 := vminr (vmax k0 k1)
  decide (t1 > 0) && decide (t1 ≥ t0) && decide (dist > t0)

/-- The leaf loop of `Bvh::intersect`: `if (collide(mPrimitives[i], org, dir, dist)) hit =
true` for the primitives of the leaf, in order. The callback `collide` takes the distance
and its own state and returns its result, the new distance and its new state. -/
def collideLeaf (collide : P → VectorN T N → VectorN T N → T → S → Bool × T × S)
    (org dir : VectorN T N) : List P → Bool → T → S → Bool × T × S
  | [], hit, dist, s => (hit, dist, s)
  | p :: ps, hit, dist, s =>
    let r := collide p org dir dist s
    collideLeaf collide org dir ps (if r.1 then true else hit) r.2.1 r.2.2

/-- The `while (!recursive.empty())` loop of `Bvh::intersect`. The stack is a list whose
head is the top; the first argument is the number of nodes the loop may still pop. -/
def intersectLoop [NeZero N] (collide : P → VectorN T N → VectorN T N → T → S → Bool × T × S)
    (self : Bvh P T N) (org dir inv : VectorN T N) (neg : Fin N → Bool) :
    Nat → List Int → Bool → T → S → Option (Bool × T × S)
  | _, [], hit, dist, s => some (hit, dist, s)
  | 0, _ :: _, _, _, _ => none
  | fuel + 1, curr :: rest, hit, dist, s =>
    match nodeAt self.mNodes curr with
    | none => none
    | some node =>
      if is_intersecting_inv node.b org inv dist then
        if is_leaf node then
          match leafPrims self.mPrimitives node.i0 (node.i0 + length node) with
          | none => none
          | some ps =>
            let r := collideLeaf collide org dir ps hit dist s
            intersectLoop collide self org dir inv neg fuel rest r.1 r.2.1 r.2.2
        else
          let dim := longest_axis node.b
          if neg dim then
            intersectLoop collide self org dir inv neg fuel (node.i1 :: node.i0 :: rest)
              hit dist s
          else
            intersectLoop collide self org dir inv neg fuel (node.i0 :: node.i1 :: rest)
              hit dist s
      else intersectLoop collide self org dir inv neg fuel rest hit dist s

/-- The method `Bvh::intersect` with the arithmetic of `T` taken as exact, `1 / dir` being
the quotient of `T`; the method with the arithmetic of a floating-point type (a zero
component of `dir` gives an infinite `inv`, and the operations round) is `Ieee.intersect`.
Returns the result, the final `dist` and the final state of `collide`. -/
def intersect [NeZero N] [Div T]
    (collide : P → VectorN T N → VectorN T N → T → S → Bool × T × S) (fuel : Nat)
    (self : Bvh P T N) (org dir : VectorN T N) (dist : T) (s : S) : Option (Bool × T × S) :=
  if self.mNodes.isEmpty then some (false, dist, s)
  else
    let neg : Fin N → Bool := fun i => decide (dir i < 0)
    let inv : VectorN T N := fun i => (make_vector 1 : VectorN T N) i / dir i
    intersectLoop collide self org dir inv neg fuel [0] false dist s

/-- The `while (!recursive.empty())` loop of `Bvh::intersect` for a floating-point `T`
whose operations round with `rnd`: the loop `intersectLoop` with the slab test
`Ieee.is_intersecting_inv` on the node's box, the origin and the distance, all finite, and
the vector `inv`, which may hold infinities. -/
def Ieee.intersectLoop [NeZero N] (rnd : T → T)
    (collide : P → VectorN T N → VectorN T N → T → S → Bool × T × S)
    (self : Bvh P T N) (org dir : VectorN T N) (inv : VectorN (Ieee T) N) (neg : Fin N → Bool) :
    Nat → List Int → Bool → T → S → Option (Bool × T × S)
  | _, [], hit, dist, s => some (hit, dist, s)
  | 0, _ :: _, _, _, _ => none
  | fuel + 1, curr :: rest, hit, dist, s =>
    match nodeAt self.mNodes curr with
    | none => none
    | some node =>
      if Ieee.is_intersecting_inv rnd (Ieee.ofBox node.b) (Ieee.ofVec org) inv (.fin dist) then
        if is_leaf node then
          match leafPrims self.mPrimitives node.i0 (node.i0 + length node) with
          | none => none
          | some ps =>
            let r := collideLeaf collide org dir ps hit dist s
            Ieee.intersectLoop rnd collide self org dir inv neg fuel rest r.1 r.2.1 r.2.2
        else
          let dim := longest_axis node.b
          if neg dim then
            Ieee.intersectLoop rnd collide self org dir inv neg fuel
              (node.i1 :: node.i0 :: rest) hit dist s
          else
            Ieee.intersectLoop rnd collide self org dir inv neg fuel
              (node.i0 :: node.i1 :: rest) hit dist s
      else Ieee.intersectLoop rnd collide self org dir inv neg fuel rest hit dist s

/-- The method `Bvh::intersect` for a floating-point `T` whose operations round with `rnd`;
`negZero i` tells whether a component `dir[i]` that is zero is `-0`. The vector `neg` is
`dir < 0` componentwise (false of a zero of either sign) and `inv` is `1 / dir`, an
infinity where `dir` is zero. Returns the result, the final `dist` and the final state of
`collide`. -/
def Ieee.intersect [NeZero N] [Div T] (rnd : T → T) (negZero : Fin N → Bool)
    (collide : P → VectorN T N → VectorN T N → T → S → Bool × T × S) (fuel : Nat)
    (self : Bvh P T N) (org dir : VectorN T N) (dist : T) (s : S) : Option (Bool × T × S) :=
  if self.mNodes.isEmpty then some (false, dist, s)
  else
    let neg : Fin N → Bool := fun i => decide (dir i < 0)
    Ieee.intersectLoop rnd collide self org dir (Ieee.inv rnd negZero dir) neg fuel [0] false
      dist s

/-- The callback `RangeQuery`: its arm on boxes and its arm on primitives, each taking and
returning the state of the callback. -/
structure RangeQuery (P T : Type) (N : Nat) (S : Type) where
  onBox : Aabb T N → S → Bool × S
  onPrim : P → S → Bool × S

/-- The leaf loop of `Bvh::search`: `if (query(mPrimitives[i])) hit = true`. -/
def searchLeaf (query : RangeQuery P T N S) : List P → Bool → S → Bool × S
  | [], hit, s => (hit, s)
  | p :: ps, hit, s =>
    let r := query.onPrim p s
    searchLeaf query ps (if r.1 then true else hit) r.2

/-- The `while (!recursive.empty())` loop of `Bvh::search`. -/
def searchLoop (query : RangeQuery P T N S) (self : Bvh P T N) :
    Nat → List Int → Bool → S → Option (Bool × S)
  | _, [], hit, s => some (hit, s)
  | 0, _ :: _, _, _ => none
  | fuel + 1, curr :: rest, hit, s =>
    match nodeAt self.mNodes curr with
    | none => none
    | some node =>
      let q := query.onBox node.b s
      if q.1 then
        if is_leaf node then
          match leafPrims self.mPrimitives node.i0 (node.i0 + length node) with
          | none => none
          | some ps =>
            let r := searchLeaf query ps hit q.2
            searchLoop query self fuel rest r.1 r.2
        else searchLoop query self fuel (node.i0 :: node.i1 :: rest) hit q.2
      else searchLoop query self fuel rest hit q.2

/-- The method `Bvh::search`. Returns the result and the final state of `query`. -/
def search (query : RangeQuery P T N S) (fuel : Nat) (self : Bvh P T N) (s : S) :
    Option (Bool × S) :=
  if self.mNodes.isEmpty then some (false, s)
  else searchLoop query self fuel [0] false s

/-- The loop of `Bvh::search` together with the values that `curr` takes, in the order in
which they are popped: the loop `searchLoop` with that record added to its result. -/
def searchLoopPops (query : RangeQuery P T N S) (self : Bvh P T N) :
    Nat → List Int → Bool → S → Option (List Int × Bool × S)
  | _, [], hit, s => some ([], hit, s)
  | 0, _ :: _, _, _ => none
  | fuel + 1, curr :: rest, hit, s =>
    match nodeAt self.mNodes curr with
    | none => none
    | some node =>
      let q := query.onBox node.b s
      if q.1 then
        if is_leaf node then
          match leafPrims self.mPrimitives node.i0 (node.i0 + length node) with
          | none => none
          | some ps =>
            let r := searchLeaf query ps hit q.2
            (searchLoopPops query self fuel rest r.1 r.2).map (fun t => (curr :: t.1, t.2))
        else (searchLoopPops query self fuel (node.i0 :: node.i1 :: rest) hit q.2).map
          (fun t => (curr :: t.1, t.2))
      else (searchLoopPops query self fuel rest hit q.2).map (fun t => (curr :: t.1, t.2))

/-- The method `Bvh::search` together with the values that `curr` takes, in the order in
which they are popped. -/
def searchPops (query : RangeQuery P T N S) (fuel : Nat) (self : Bvh P T N) (s : S) :
    Option (List Int × Bool × S) :=
  if self.mNodes.isEmpty then some ([], false, s)
  else searchLoopPops query self fuel [0] false s

/-- The loop of `Bvh::intersect` together with the values that `curr` takes, in the order
in which they are popped: the loop `intersectLoop` with that record added to its result. -/
def intersectLoopPops [NeZero N]
    (collide : P → VectorN T N → VectorN T N → T → S → Bool × T × S)
    (self : Bvh P T N) (org dir inv : VectorN T N) (neg : Fin N → Bool) :
    Nat → List Int → Bool → T → S → Option (List Int × Bool × T × S)
  | _, [], hit, dist, s => some ([], hit, dist, s)
  | 0, _ :: _, _, _, _ => none
  | fuel + 1, curr :: rest, hit, dist, s =>
    match nodeAt self.mNodes curr with
    | none => none
    | some node =>
      if is_intersecting_inv node.b org inv dist then
        if is_leaf node then
          match leafPrims self.mPrimitives node.i0 (node.i0 + length node) with
          | none => none
          | some ps =>
            let r := collideLeaf collide org dir ps hit dist s
            (intersectLoopPops collide self org dir inv neg fuel rest r.1 r.2.1 r.2.2).map
              (fun t => (curr :: t.1, t.2))
        else
          let dim := longest_axis node.b
          if neg dim then
            (intersectLoopPops collide self org dir inv neg fuel (node.i1 :: node.i0 :: rest)
              hit dist s).map (fun t => (curr :: t.1, t.2))
          else
            (intersectLoopPops collide self org dir inv neg fuel (node.i0 :: node.i1 :: rest)
              hit dist s).map (fun t => (curr :: t.1, t.2))
      else (intersectLoopPops collide self org dir inv neg fuel rest hit dist s).map
        (fun t => (curr :: t.1, t.2))

/-- The method `Bvh::intersect` together with the values that `curr` takes, in the order in
which they are popped. -/
def intersectPops [NeZero N] [Div T]
    (collide : P → VectorN T N → VectorN T N → T → S → Bool × T × S) (fuel : Nat)
    (self : Bvh P T N) (org dir : VectorN T N) (dist : T) (s : S) :
    Option (List Int × Bool × T × S) :=
  if self.mNodes.isEmpty then some ([], false, dist, s)
  else
    let neg : Fin N → Bool := fun i => decide (dir i < 0)
    let inv : VectorN T N := fun i => (make_vector 1 : VectorN T N) i / dir i
    intersectLoopPops collide self org dir inv neg fuel [0] false dist s

end Traversal

/-! ## Predicates used to state the properties of the build -/

section Predicates

variable {P T : Type} [LinearOrderedRing T] {N : Nat}

/-- The vector `l'` has the length of `l`, agrees with `l` outside positions `[b, e)`, and
holds a permutation of the elements of `l` at positions `[b, e)`. -/
def RangePerm (l l' : List P) (b e : Nat) : Prop :=
  l'.length = l.length ∧ (∀ i, i < b ∨ e ≤ i → l'[i]? = l[i]?) ∧
    (slice l' b e).Perm (slice l b e)


/-- The contract of a split callback: on a non-empty range `[b, e)` of the vector it
returns, it only permutes the range and returns a position in `[b, e]`. -/
def SplitContract (split : List P → Nat → Nat → Option (List P × Nat)) : Prop :=
  ∀ prims b e, b < e → e ≤ prims.length →
    ∃ prims2 m, split prims b e = some (prims2, m) ∧ RangePerm prims prims2 b e ∧
      b ≤ m ∧ m ≤ e


/-- The contract of a split callback as far as termination needs it: it returns a vector of
the same length and a position in `[b, e]`. -/
def SplitIndexContract {P : Type} (split : List P → Nat → Nat → Option (List P × Nat)) : Prop :=
  ∀ prims b e, b < e → e ≤ prims.length →
    ∃ prims2 m, split prims b e = some (prims2, m) ∧ prims2.length = prims.length ∧
      b ≤ m ∧ m ≤ e

/-- A split callback that never fails to split the ranges `recursive_build` calls it on:
on a range `[b, e)` of more than `threshold` primitives, the position it returns is
strictly inside the range. -/
def SplitStrict (split : List P → Nat → Nat → Option (List P × Nat)) (threshold : Int) :
    Prop :=
  ∀ (prims : List P) (b e : Nat) (prims2 : List P) (m : Nat),
    (e : Int) - (b : Int) > threshold →
    split prims b e = some (prims2, m) → b < m ∧ m < e

/-- A split callback that, called on a range of one primitive, leaves the vector as it is
and returns one end of the range. -/
def SplitSingleton (split : List P → Nat → Nat → Option (List P × Nat)) : Prop :=
  ∀ (prims : List P) (b : Nat), b < prims.length →
    ∃ m, split prims b (b + 1) = some (prims, m) ∧ (m = b ∨ m = b + 1)

/-- The flat node array `nodes` holds, at indices `[k, hi)`, a subtree rooted at `k` over the
primitive positions `[b, e)`: a leaf records its range, an inner node has its left child at
`k + 1` and its right child at `r`, and every box is the merged box of the node's range. -/
inductive Subtree (bound : P → Aabb T N) (MAX : T) (nodes : List (BvhNode T N))
    (prims : List P) : Nat → Nat → Nat → Nat → Prop
  | leaf (k b e : Nat) (nd : BvhNode T N) (hk : nodes[k]? = some nd) (hbe : b < e)
      (he : e ≤ prims.length) (h0 : nd.i0 = (b : Int))
      (h1 : nd.i1 = -((e : Int) - (b : Int)))
      (hb : nd.b = rangeBox bound MAX prims b e) :
      Subtree bound MAX nodes prims k (k + 1) b e
  | inner (k r hi b m e : Nat) (nd : BvhNode T N) (hk : nodes[k]? = some nd)
      (h0 : nd.i0 = ((k + 1 : Nat) : Int)) (h1 : nd.i1 = (r : Int))
      (hb : nd.b = rangeBox bound MAX prims b e)
      (hl : Subtree bound MAX nodes prims (k + 1) r b m)
      (hr : Subtree bound MAX nodes prims r hi m e) :
      Subtree bound MAX nodes prims k hi b e


end Predicates

/-! ## The shape of the node array -/

section Shape

variable {T : Type} {N : Nat}

/-- The child pointers of node `k` as the traversals read them: `i0` and `i1` of an inner
node (`!is_leaf`), none for a leaf or for `k` outside the array. -/
def children (nodes : List (BvhNode T N)) (k : Nat) : List Int :=
  match nodes[k]? with
  | some nd => if is_leaf nd then [] else [nd.i0, nd.i1]
  | none => []

/-- The index `j` is a child pointer of node `k`. -/
def IsChild (nodes : List (BvhNode T N)) (k j : Nat) : Prop := (j : Int) ∈ children nodes k

/-- The number of leaf nodes of a node array. -/
def leafCount (nodes : List (BvhNode T N)) : Nat := nodes.countP is_leaf

end Shape

/-! ## Predicates and reference definitions used to state the properties of the traversals -/

section TraversalPredicates

variable {P T S : Type} [LinearOrderedRing T] {N : Nat}

/-- A state of `intersect` (result so far, distance, state of `collide`) and a later one:
the distance has not gone up, a hit stays a hit, and a smaller distance comes with a hit. -/
def HitMono (a b : Bool × T × S) : Prop :=
  b.2.1 ≤ a.2.1 ∧ (a.1 = true → b.1 = true) ∧ (b.2.1 < a.2.1 → b.1 = true)

/-- The callback `collide` that the nearest-hit property speaks of: it "returns true iff the
ray-primitive distance is strictly less than current `dist` and updates `dist` to that
value", and records the primitive as the hit-id (as `TriangleCollide` of
`test_bvh/main.cc` does with `fc`). `rayDist p org dir` is the ray-primitive distance,
`none` when the ray misses `p`. -/
def nearestCollide (rayDist : P → VectorN T N → VectorN T N → Option T) :
    P → VectorN T N → VectorN T N → T → Option P → Bool × T × Option P :=
  fun p org dir dist hitId =>
    match rayDist p org dir with
    | some t => if t < dist then (true, t, some p) else (false, dist, hitId)
    | none => (false, dist, hitId)

/-- The reference of the nearest-hit property, the "brute-force linear scan over all
primitives": `collide` is called on every primitive in storage order, and the result is
true when one call returned true. -/
def linearScan (collide : P → VectorN T N → VectorN T N → T → S → Bool × T × S)
    (org dir : VectorN T N) (prims : List P) (dist : T) (s : S) : Bool × T × S :=
  prims.foldl
    (fun a p => ((collide p org dir a.2.1 a.2.2).1 || a.1, (collide p org dir a.2.1 a.2.2).2.1,
      (collide p org dir a.2.1 a.2.2).2.2))
    (false, dist, s)

/-- A state of `intersect` with the callback `nearestCollide` and a later one: the distance
has not gone up; if it is the same, nothing has changed; if it is smaller, there is a hit,
and the hit-id is a primitive of `prims` at exactly that distance. -/
def NearestRel (rayDist : P → VectorN T N → VectorN T N → Option T) (org dir : VectorN T N)
    (prims : List P) (a b : Bool × T × Option P) : Prop :=
  b.2.1 ≤ a.2.1 ∧ (b.2.1 = a.2.1 → b = a) ∧
    (b.2.1 < a.2.1 → b.1 = true ∧ ∃ p ∈ prims, b.2.2 = some p ∧ rayDist p org dir = some b.2.1)

/-- The range query of the completeness property for the query box `Q`: its arm on boxes is
`is_intersecting(box, Q)`, its arm on primitives is the test `test` of the primitive against
`Q`. Its state is the list of the primitives its arm on primitives was called on. -/
def overlapQuery (Q : Aabb T N) (test : P → Bool) : RangeQuery P T N (List P) :=
  { onBox := fun box log => (is_intersecting box Q, log),
    onPrim := fun p log => (test p, log ++ [p]) }

/-- A range query that keeps a record of the calls of its arm on primitives: the query
`query` with, next to its own state, the list of the primitives the arm was called on, each
with what the arm returned. -/
def logQuery (query : RangeQuery P T N S) : RangeQuery P T N (S × List (P × Bool)) :=
  { onBox := fun box st => ((query.onBox box st.1).1, ((query.onBox box st.1).2, st.2)),
    onPrim := fun p st =>
      ((query.onPrim p st.1).1,
        ((query.onPrim p st.1).2, st.2 ++ [(p, (query.onPrim p st.1).1)])) }

/-- A callback `collide` that keeps a record of its calls: the callback `collide` with,
next to its own state, the list of the primitives it was called on, each with what it
returned. -/
def logCollide (collide : P → VectorN T N → VectorN T N → T → S → Bool × T × S) :
    P → VectorN T N → VectorN T N → T → S × List (P × Bool) →
      Bool × T × (S × List (P × Bool)) :=
  fun p org dir dist st =>
    ((collide p org dir dist st.1).1, (collide p org dir dist st.1).2.1,
      ((collide p org dir dist st.1).2.2, st.2 ++ [(p, (collide p org dir dist st.1).1)]))

end TraversalPredicates

/-! ## Split strategies (`bvh.impl.hh`) -/

section Splits

variable {P T : Type} [LinearOrderedRing T] {N : Nat}

/-- The function `centroid(b)`: `(b[0] + b[1]) * (T)(0.5)`; `half` stands for the value of
the conversion `(T)(0.5)`. -/
def centroid (half : T) (b : Aabb T N) : VectorN T N := fun i => (b.p0 i + b.p1 i) * half

/-- The overload `area(b)` for `N = 3`. -/
def area3 (b : Aabb T 3) : T :=
  (diagonal b 0 * diagonal b 1 + diagonal b 0 * diagonal b 2 + diagonal b 1 * diagonal b 2) * 2

/-- The overload `area(b)` for `N = 2`. -/
def area2 (b : Aabb T 2) : T := (diagonal b 0 + diagonal b 1) * 2

/-- The library algorithms `std::nth_element` and `std::partition`, which are not part of
the repository. Each takes the elements of its iterator range and returns them reordered;
`nth_element` also takes the offset of `nth` in the range, and `partition` also returns the
offset of the partition point in the range. -/
structure StdAlgorithms (P : Type) where
  nth_element : (P → P → Bool) → List P → Nat → List P
  partition : (P → Bool) → List P → List P × Nat

/-- What the C++ standard says of both algorithms as far as the place of the elements goes:
the range is permuted, and the partition point lies in the range. -/
def StdAlgorithms.Permutes (std : StdAlgorithms P) : Prop :=
  (∀ cmp l k, (std.nth_element cmp l k).Perm l) ∧
  (∀ pred l, (std.partition pred l).1.Perm l ∧ (std.partition pred l).2 ≤ l.length)

/-- A comparison that induces a strict weak ordering, which the library algorithms ask of
their comparison: irreflexive, transitive, and with a transitive equivalence `!(a < b) &&
!(b < a)`. -/
def StrictWeak (cmp : P → P → Bool) : Prop :=
  (∀ a, cmp a a = false) ∧
  (∀ a b c, cmp a b = true → cmp b c = true → cmp a c = true) ∧
  (∀ a b c, cmp a b = false → cmp b a = false → cmp b c = false → cmp c b = false →
    cmp a c = false ∧ cmp c a = false)

/-- What the C++ standard says of the order `std::nth_element` leaves, for a comparison that
induces a strict weak ordering and `nth` in the range: no element from `nth` on is less
than an element up to `nth`. (The standard states it for `i` before `nth` and `j` from
`nth` on, and adds that `*nth` is the element that a full sort would put there, whence the
same for `i = nth`.) -/
def StdAlgorithms.Selects (std : StdAlgorithms P) : Prop :=
  ∀ (cmp : P → P → Bool), StrictWeak cmp → ∀ (l : List P) (k : Nat), k < l.length →
    ∀ (i j : Nat) (x y : P), i ≤ k → k ≤ j →
      (std.nth_element cmp l k)[i]? = some x → (std.nth_element cmp l k)[j]? = some y →
      cmp y x = false

/-- What the C++ standard says of the order `std::partition` leaves: the elements before
the partition point it returns satisfy the predicate, and those from it on do not. -/
def StdAlgorithms.Partitions (std : StdAlgorithms P) : Prop :=
  ∀ (pred : P → Bool) (l : List P) (i : Nat) (x : P),
    (std.partition pred l).1[i]? = some x → (pred x = true ↔ i < (std.partition pred l).2)

/-- One implementation of the library algorithms: `nth_element` sorts the range by
insertion, `partition` is the stable partition. -/
def refStd : StdAlgorithms P :=
  { nth_element := fun cmp l _ => l.insertionSort (fun a b => cmp b a = false)
    partition := fun pred l =>
      (l.filter pred ++ l.filter (fun x => !pred x), (l.filter pred).length) }

/-- The comparison of `std::nth_element` in the three strategies:
`centroid(bound(a))[dim] < centroid(bound(b))[dim]`. -/
def centroidLess (bound : P → Aabb T N) (half : T) (dim : Fin N) (a b : P) : Bool :=
  decide (centroid half (bound a) dim < centroid half (bound b) dim)

/-- The method `EqualCountsSplit::operator()`; `none` when `[biter, eiter)` is not a range
of the vector. -/
def EqualCountsSplit [NeZero N] (std : StdAlgorithms P) (bound : P → Aabb T N) (MAX half : T) :
    List P → Nat → Nat → Option (List P × Nat) :=
  fun primitives biter eiter =>
    if biter ≤ eiter ∧ eiter ≤ primitives.length then
      let cbox := rangeBox bound MAX primitives biter eiter
      let dim := longest_axis cbox
      let n := eiter - biter
      let piter := biter + n / 2
      let range := std.nth_element (centroidLess bound half dim)
        (slice primitives biter eiter) (n / 2)
      some (primitives.take biter ++ range ++ primitives.drop eiter, piter)
    else none

/-- The method `MiddlePointSplit::operator()`; `none` when `[biter, eiter)` is not a range
of the vector. -/
def MiddlePointSplit [NeZero N] (std : StdAlgorithms P) (bound : P → Aabb T N) (MAX half : T) :
    List P → Nat → Nat → Option (List P × Nat) :=
  fun primitives biter eiter =>
    if biter ≤ eiter ∧ eiter ≤ primitives.length then
      let cbox := rangeBox bound MAX primitives biter eiter
      let dim := longest_axis cbox
      let mid := (cbox.p0 dim + cbox.p1 dim) * half
      let part := std.partition (fun p => decide (centroid half (bound p) dim < mid))
        (slice primitives biter eiter)
      let miter := biter + part.2
      if miter = biter ∨ miter = eiter then
        let n := eiter - biter
        let piter := biter + n / 2
        let range := std.nth_element (centroidLess bound half dim) part.1 (n / 2)
        some (primitives.take biter ++ range ++ primitives.drop eiter, piter)
      else some (primitives.take biter ++ part.1 ++ primitives.drop eiter, miter)
    else none

/-- The conversion `static_cast<int>(x)`: truncation toward zero. -/
def toInt [FloorRing T] (x : T) : Int := if 0 ≤ x then Int.floor x else Int.ceil x

/-- The bucket index of a primitive in `SAHSplit::operator()`:
`b = static_cast<int>(nBuckets * offset[dim])` with
`offset = (centroid(bound(p)) - cbox.p[0]) / diagonal(cbox)`, and `nBuckets - 1` when
`b == nBuckets`. `none` when `diagonal(cbox)[dim]` is zero: the quotient is then no number
and its conversion to `int` is undefined. `T` is a floating-point type: the division of the
other components of the vector, whose results are not read, has no effect there, also when
`diagonal(cbox)` is zero in such a component. -/
def sahBucket [Div T] [FloorRing T] (bound : P → Aabb T N) (half : T) (nBuckets : Nat)
    (cbox : Aabb T N) (dim : Fin N) (p : P) : Option Int :=
  if diagonal cbox dim = 0 then none
  else
    let offset : VectorN T N :=
      fun i => (centroid half (bound p) i - cbox.p0 i) / diagonal cbox i
    let b : Int := toInt ((nBuckets : T) * offset dim)
    some (if b = (nBuckets : Int) then (nBuckets : Int) - 1 else b)

/-- The first loop of `SAHSplit::operator()`: `boxes[b] = merge(boxes[b], bound(*iter));
++counts[b]` for every primitive of the range; `none` when a bucket index is not an index
of the two vectors. -/
def sahFill (bound : P → Aabb T N) (bucket : P → Option Int) :
    List P → List (Aabb T N) × List Int → Option (List (Aabb T N) × List Int)
  | [], acc => some acc
  | p :: ps, acc =>
    match bucket p with
    | none => none
    | some b =>
      if b < 0 then none
      else
        match acc.1[b.toNat]?, acc.2[b.toNat]? with
        | some box, some c =>
          sahFill bound bucket ps
            (acc.1.set b.toNat (merge box (bound p)), acc.2.set b.toNat (c + 1))
        | _, _ => none

/-- The cost `area(bbox0) * count0 + area(bbox1) * count1` of splitting the buckets into
`[0, b]` and `[b + 1, nBuckets - 1]`, for a floating-point `T` whose largest finite number
is `MAX`, rounding apart. The boxes of the scan are merges of valid boxes or the box
`make_aabb()`; for them the value `area(bbox)` is the exact `area bbox` when that is within
`MAX` in magnitude and the infinity of its sign otherwise. So it is for the box
`make_aabb()`, whose diagonal `-MAX - MAX` overflows to `-inf`: the two overloads of `area`
give `+inf` (`N = 3`, products of two diagonals) and `-inf` (`N = 2`, a sum of two
diagonals). A side that holds no primitive has that box and the count 0, and `inf * 0` is a
NaN. -/
def sahCost (area : Aabb T N → T) (MAX : T) (boxes : List (Aabb T N)) (counts : List Int)
    (b : Nat) : Ieee T :=
  let bbox0 := (boxes.take (b + 1)).foldl merge (make_aabb MAX)
  let count0 : Int := (counts.take (b + 1)).foldl (fun c x => c + x) 0
  let bbox1 := (boxes.drop (b + 1)).foldl merge (make_aabb MAX)
  let count1 : Int := (counts.drop (b + 1)).foldl (fun c x => c + x) 0
  Ieee.ovf MAX (Ieee.add
    (Ieee.ovf MAX (Ieee.mul (Ieee.overflow MAX (area bbox0)) (.fin (count0 : T))))
    (Ieee.ovf MAX (Ieee.mul (Ieee.overflow MAX (area bbox1)) (.fin (count1 : T)))))

/-- The second loop of `SAHSplit::operator()`: the `splitBucketId` it ends with, starting
from `minCost = MAX` and `splitBucketId = 0`. The test `minCost > cost` is false of a cost
that is a NaN. -/
def sahSplitBucket (area : Aabb T N → T) (MAX : T) (boxes : List (Aabb T N))
    (counts : List Int) (nBuckets : Nat) : Nat :=
  ((List.range (nBuckets - 1)).foldl
    (fun (acc : Ieee T × Nat) b =>
      if Ieee.lt (sahCost area MAX boxes counts b) acc.1 then
        (sahCost area MAX boxes counts b, b)
      else acc)
    (Ieee.fin MAX, 0)).2

/-- The method `SAHSplit::operator()`; `area` is the overload of `area` for the dimension
`N`, `nBuckets` the member of that name. `none` when `[biter, eiter)` is not a range of the
vector or a bucket index has no value or is out of range. -/
def SAHSplit [NeZero N] [Div T] [FloorRing T] (std : StdAlgorithms P) (bound : P → Aabb T N)
    (area : Aabb T N → T) (MAX half : T) (nBuckets : Nat) :
    List P → Nat → Nat → Option (List P × Nat) :=
  fun primitives biter eiter =>
    if biter ≤ eiter ∧ eiter ≤ primitives.length then
      let cbox := rangeBox bound MAX primitives biter eiter
      let dim := longest_axis cbox
      let bucket := sahBucket bound half nBuckets cbox dim
      match sahFill bound bucket (slice primitives biter eiter)
          (List.replicate nBuckets (make_aabb MAX), List.replicate nBuckets 0) with
      | none => none
      | some filled =>
        let splitBucketId := sahSplitBucket area MAX filled.1 filled.2 nBuckets
        let part := std.partition
          (fun p => match bucket p with
            | some b => decide (b ≤ (splitBucketId : Int))
            | none => false)
          (slice primitives biter eiter)
        let siter := biter + part.2
        if siter = biter ∨ siter = eiter then
          let n := eiter - biter
          let piter := biter + n / 2
          let range := std.nth_element (centroidLess bound half dim) part.1 (n / 2)
          some (primitives.take biter ++ range ++ primitives.drop eiter, piter)
        else some (primitives.take biter ++ part.1 ++ primitives.drop eiter, siter)
    else none

/-- The split dimension `dim` that the three strategies compute for the range `[b, e)`:
`longest_axis(cbox)`, with `cbox` the merge of `bound(*iter)` over the range. -/
def splitDim [NeZero N] (bound : P → Aabb T N) (MAX : T) (prims : List P) (b e : Nat) : Fin N :=
  longest_axis (rangeBox bound MAX prims b e)

/-- The value `mid` of `MiddlePointSplit::operator()`:
`(cbox.p[0][dim] + cbox.p[1][dim]) * (T)(0.5)`. -/
def middle [NeZero N] (bound : P → Aabb T N) (MAX half : T) (prims : List P) (b e : Nat) : T :=
  ((rangeBox bound MAX prims b e).p0 (splitDim bound MAX prims b e) +
    (rangeBox bound MAX prims b e).p1 (splitDim bound MAX prims b e)) * half

/-- The centroid bounding box of a range as the specification words it: "the AABB enclosing
the centroids of the primitive AABBs", the merge of `make_aabb(centroid(bound(p)))` over the
primitives at positions `[b, e)`. -/
def centroidBox (bound : P → Aabb T N) (MAX half : T) (prims : List P) (b e : Nat) :
    Aabb T N :=
  (slice prims b e).foldl
    (fun box p => merge box (make_aabb_point (centroid half (bound p)))) (make_aabb MAX)

/-- Whether the bucket index of the primitive `p` is on the side `side` of a candidate
split. -/
def sahInSide (bucket : P → Option Int) (side : Int → Bool) (p : P) : Bool :=
  match bucket p with
  | some k => side k
  | none => false

/-- The union box of one side of a candidate split of the SAH strategy, as the specification
words it: the union of the boxes of the primitives of the range whose bucket index is on
that side (the merge of `bound(p)` over them, from `make_aabb()`). -/
def sahSideBox (bound : P → Aabb T N) (MAX : T) (bucket : P → Option Int) (side : Int → Bool)
    (range : List P) : Aabb T N :=
  (range.filter (sahInSide bucket side)).foldl (fun box p => merge box (bound p))
    (make_aabb MAX)

/-- The primitive count of one side of a candidate split of the SAH strategy, as the
specification words it: the number of primitives of the range whose bucket index is on that
side. -/
def sahSideCount (bucket : P → Option Int) (side : Int → Bool) (range : List P) : Int :=
  ((range.filter (sahInSide bucket side)).length : Int)

/-- The cost of the candidate split `b` of the SAH strategy as the specification words it,
in exact arithmetic: `area(B0) * c0 + area(B1) * c1`, with `B0`, `c0` the union box and the
primitive count of the buckets `[0, b]` and `B1`, `c1` those of the buckets
`[b + 1, nBuckets - 1]`. -/
def sahCostSpec (bound : P → Aabb T N) (area : Aabb T N → T) (MAX : T)
    (bucket : P → Option Int) (range : List P) (b : Nat) : T :=
  area (sahSideBox bound MAX bucket (fun k => decide (k ≤ (b : Int))) range) *
      ((sahSideCount bucket (fun k => decide (k ≤ (b : Int))) range : Int) : T) +
    area (sahSideBox bound MAX bucket (fun k => decide ((b : Int) < k)) range) *
      ((sahSideCount bucket (fun k => decide ((b : Int) < k)) range : Int) : T)

/-- What a split strategy does to the vector whenever it returns: it only permutes the
range `[b, e)` and returns a position in `[b, e]`. -/
def SplitFrame (split : List P → Nat → Nat → Option (List P × Nat)) : Prop :=
  ∀ l b e l2 m, b ≤ e → e ≤ l.length → split l b e = some (l2, m) →
    RangePerm l l2 b e ∧ b ≤ m ∧ m ≤ e

end Splits

/-! ## A small instance, used to exercise the theorems -/

section Instances

/-- A one-dimensional instance: a primitive is an integer coordinate and its box is that
point. -/
def pointBound : Int → Aabb Int 1 := fun p => make_aabb_point (fun _ => p)

/-- A split callback that leaves the vector as it is and returns the middle position. -/
def halfSplit {P : Type} : List P → Nat → Nat → Option (List P × Nat) :=
  fun prims b e => some (prims, b + (e - b) / 2)

/-- A one-dimensional instance with tagged primitives: a primitive is a pair of an id and
a coordinate, and its box is the point at that coordinate. -/
def tagBound {T : Type} [LinearOrderedRing T] : Nat × T → Aabb T 1 :=
  fun p => make_aabb_point (fun _ => p.2)

/-- The distance along a one-dimensional ray with `dir = 1` or `dir = -1` at which it
meets the tagged point `p`. -/
def rayDistance {T : Type} [LinearOrderedRing T] :
    Nat × T → VectorN T 1 → VectorN T 1 → Option T :=
  fun p org dir => some ((p.2 - org 0) * dir 0)

/-- A three-dimensional instance: a primitive is an integer and its box is the point with
that first coordinate. -/
def axisBound : Int → Aabb ℚ 3 :=
  fun p => make_aabb_point (fun i => if i = 0 then (p : ℚ) else 0)

/-- The instance `tagBound` with rational coordinates. -/
def tagBoundRat : Nat × ℚ → Aabb ℚ 1 := tagBound

/-- Three tagged points in increasing order of their coordinate. -/
def sortedTags : List (Nat × ℚ) := [(0, 1), (1, 2), (2, 3)]

/-- A two-dimensional instance: primitive `p` is the box `[0, 10] × [2 p, 2 p + 1]`, a
strip that is long in dimension 0 and stacked along dimension 1. -/
def stripBound : Nat → Aabb ℚ 2 :=
  fun p => { p0 := fun i => if i = 0 then 0 else 2 * (p : ℚ),
             p1 := fun i => if i = 0 then 10 else 2 * (p : ℚ) + 1 }

/-- A three-dimensional instance: primitive `p` is the unit cube `[p, p + 1] × [0, 1] ×
[0, 1]`. -/
def cubeBound : Int → Aabb ℚ 3 :=
  fun p => { p0 := fun i => if i = 0 then (p : ℚ) else 0,
             p1 := fun i => if i = 0 then (p : ℚ) + 1 else 1 }

/-- A range query on integer points whose arm on boxes always returns true and whose arm on
primitives tests whether the point is 2; it has no state of its own. -/
def everyQuery : RangeQuery Int Int 1 Unit :=
  { onBox := fun _ s => (true, s),
    onPrim := fun p s => (decide (p = 2), s) }

/-- A two-dimensional box on floating-point values: the square `[0, 2] × [0, 2]`. -/
def squareBox : Aabb (Ieee Int) 2 := { p0 := fun _ => Ieee.fin 0, p1 := fun _ => Ieee.fin 2 }

/-- The vector `inv = 1 / dir` of the direction `(0, 1)`: `+inf` in dimension 0 and 1 in
dimension 1. -/
def upInv : VectorN (Ieee Int) 2 := fun j => if j = 0 then Ieee.posInf else Ieee.fin 1

/-- The vector `inv = 1 / dir` of the direction `(-0, 1)`: `-inf` in dimension 0 and 1 in
dimension 1. -/
def upInvNeg : VectorN (Ieee Int) 2 := fun j => if j = 0 then Ieee.negInf else Ieee.fin 1

/-- The ray origin `(x, -1)` below the square. -/
def originAt (x : Int) : VectorN (Ieee Int) 2 :=
  fun j => if j = 0 then Ieee.fin x else Ieee.fin (-1)

/-- The number of halvings that bring `n` below 2, counted while the fuel lasts: with fuel
`n`, the integer part of the binary logarithm of `n`. -/
def halvings : Nat → Nat → Nat
  | 0, _ => 0
  | fuel + 1, n => if n < 2 then 0 else halvings fuel (n / 2) + 1

/-- The exponent `e` with `2 ^ e ≤ |q| < 2 ^ (e + 1)` of a rational `q` other than zero. -/
def binade (q : ℚ) : Int :=
  let e0 : Int := (halvings q.num.natAbs q.num.natAbs : Int) - (halvings q.den q.den : Int)
  if (2 : ℚ) ^ e0 ≤ |q| then e0 else e0 - 1

/-- Rounding to the nearest integer, a tie going to the even one. -/
def roundEven (x : ℚ) : Int :=
  let f : Int := Int.floor x
  if x - (f : ℚ) < 1 / 2 then f
  else if 1 / 2 < x - (f : ℚ) then f + 1
  else if f % 2 = 0 then f else f + 1

/-- The rounding of IEEE-754 binary64 (`double`), round to nearest with ties to even: the
nearest number with a significand of 53 bits. The exponent range is taken as unbounded. -/
def binary64 (q : ℚ) : ℚ :=
  if q = 0 then 0
  else (roundEven (q / (2 : ℚ) ^ (binade q - 52)) : ℚ) * (2 : ℚ) ^ (binade q - 52)

/-- A two-dimensional instance: a primitive is a point of the plane and its box is that
point. -/
def planeBound : ℚ × ℚ → Aabb ℚ 2 :=
  fun p => make_aabb_point (fun i => if i = 0 then p.1 else p.2)

/-- The distance along a ray of the plane at which it meets the point `p`, when it does. -/
def planeRayDistance : ℚ × ℚ → VectorN ℚ 2 → VectorN ℚ 2 → Option ℚ :=
  fun p org dir =>
    if dir 0 ≠ 0 then
      if org 1 + (p.1 - org 0) / dir 0 * dir 1 = p.2 then some ((p.1 - org 0) / dir 0) else none
    else if dir 1 ≠ 0 then
      if org 0 = p.1 then some ((p.2 - org 1) / dir 1) else none
    else none

/-- A three-dimensional instance: primitive `p` is the segment `[p, p + 4] × [0, 0] ×
[0, 0]`, a box of area 0. -/
def segmentBound : Int → Aabb ℚ 3 :=
  fun p => { p0 := fun i => if i = 0 then (p : ℚ) else 0,
             p1 := fun i => if i = 0 then (p : ℚ) + 4 else 0 }

/-- The distance along a ray of the plane that goes up (`dir[0]` zero, `dir[1]` positive)
from a point between the two long sides at which it meets the lower side of the strip `p` of
the instance `stripBound`. -/
def stripRayDistance : Nat → VectorN ℚ 2 → VectorN ℚ 2 → Option ℚ :=
  fun p org dir =>
    if dir 0 = 0 ∧ 0 < dir 1 ∧ 0 < org 0 ∧ org 0 < 10 then some ((2 * (p : ℚ) - org 1) / dir 1)
    else none

/-- The direction `(0, 1)` of a ray of the plane. -/
def upRay : VectorN ℚ 2 := fun i => if i = 0 then 0 else 1

/-- The origin `(5, -1)` of a ray of the plane, below the strips of the instance
`stripBound` and between their long sides. -/
def belowStrips : VectorN ℚ 2 := fun i => if i = 0 then 5 else -1

end Instances

/-! ## Basic facts about vectors, boxes and ranges -/

section OrderFacts

variable {T : Type} [LinearOrder T] {N : Nat}

theorem stdMin_eq_min (x y : T) : stdMin x y = min x y := by
  unfold stdMin
  split_ifs with h
  · exact (min_eq_right h.le).symm
  · exact (min_eq_left (not_lt.mp h)).symm

theorem stdMax_eq_max (x y : T) : stdMax x y = max x y := by
  unfold stdMax
  split_ifs with h
  · exact (max_eq_right h.le).symm
  · exact (max_eq_left (not_lt.mp h)).symm

theorem foldl_and_eq {α : Type} (f : α → Bool) (l : List α) (r : Bool) :
    l.foldl (fun r i => r && f i) r = (r && l.all f) := by
  induction l generalizing r with
  | nil => simp
  | cons a l ih => simp [ih, Bool.and_assoc]

theorem vle_iff (a b : VectorN T N) : vle a b = true ↔ ∀ i, a i ≤ b i := by
  unfold vle
  rw [foldl_and_eq]
  simp

end OrderFacts

section BoxFacts

variable {T : Type} [LinearOrderedRing T] {N : Nat}

@[simp] theorem make_vector_apply (s : T) (i : Fin N) : (make_vector s : VectorN T N) i = s := by
  simp [make_vector]

theorem merge_p0 (a b : Aabb T N) (i : Fin N) : (merge a b).p0 i = min (a.p0 i) (b.p0 i) := by
  simp [merge, vmin, stdMin_eq_min]

theorem merge_p1 (a b : Aabb T N) (i : Fin N) : (merge a b).p1 i = max (a.p1 i) (b.p1 i) := by
  simp [merge, vmax, stdMax_eq_max]

theorem merge_comm (a b : Aabb T N) : merge a b = merge b a := by
  ext i
  · simp [merge_p0, min_comm]
  · simp [merge_p1, max_comm]

theorem merge_assoc (a b c : Aabb T N) : merge (merge a b) c = merge a (merge b c) := by
  ext i
  · simp [merge_p0, min_assoc]
  · simp [merge_p1, max_assoc]

theorem merge_self (a : Aabb T N) : merge a a = a := by
  ext i
  · simp [merge_p0]
  · simp [merge_p1]

end BoxFacts

section RangeFacts

variable {P : Type}

theorem getElem?_slice (l : List P) (b e j : Nat) :
    (slice l b e)[j]? = if b + j < e then l[b + j]? else none := by
  simp [slice, List.getElem?_drop, List.getElem?_take]

theorem slice_congr {l l' : List P} {b e : Nat}
    (h : ∀ i, b ≤ i → i < e → l'[i]? = l[i]?) : slice l' b e = slice l b e := by
  apply List.ext_getElem?
  intro j
  rw [getElem?_slice, getElem?_slice]
  split_ifs with hj
  · exact h _ (Nat.le_add_right b j) hj
  · rfl

theorem length_slice (l : List P) (b e : Nat) (he : e ≤ l.length) :
    (slice l b e).length = e - b := by
  simp [slice, List.length_drop, List.length_take, Nat.min_eq_left he]

theorem slice_append (l : List P) {b m e : Nat} (hbm : b ≤ m) (hme : m ≤ e) :
    slice l b e = slice l b m ++ slice l m e := by
  apply List.ext_getElem?
  intro j
  by_cases hlen : j < (slice l b m).length
  · rw [List.getElem?_append_left hlen, getElem?_slice, getElem?_slice]
    have h1 : b + j < m := by
      by_contra hc
      have : (slice l b m)[j]? = none := by rw [getElem?_slice, if_neg hc]
      rw [List.getElem?_eq_none_iff] at this
      omega
    rw [if_pos h1, if_pos (by omega)]
  · have hlen2 : (slice l b m).length ≤ j := Nat.le_of_not_lt hlen
    rw [List.getElem?_append_right hlen2, getElem?_slice, getElem?_slice]
    have hlen3 : (slice l b m).length = min m l.length - b := by
      simp [slice, List.length_drop, List.length_take]
    by_cases hml : m ≤ l.length
    · rw [Nat.min_eq_left hml] at hlen3
      have e1 : m + (j - (slice l b m).length) = b + j := by omega
      rw [e1]
    · have hl : l.length < m := Nat.lt_of_not_le hml
      have n1 : l[b + j]? = none := by
        rw [List.getElem?_eq_none_iff]
        rw [Nat.min_eq_right hl.le] at hlen3
        omega
      have n2 : l[m + (j - (slice l b m).length)]? = none := by
        rw [List.getElem?_eq_none_iff]; omega
      rw [n1, n2]; simp

theorem slice_zero_length (l : List P) : slice l 0 l.length = l := by
  simp [slice]

theorem mem_slice_iff (l : List P) (b e : Nat) (p : P) :
    p ∈ slice l b e ↔ ∃ i, b ≤ i ∧ i < e ∧ l[i]? = some p := by
  rw [List.mem_iff_getElem?]
  constructor
  · rintro ⟨j, hj⟩
    rw [getElem?_slice] at hj
    split_ifs at hj with h
    exact ⟨b + j, Nat.le_add_right b j, h, hj⟩
  · rintro ⟨i, hb, he, hi⟩
    refine ⟨i - b, ?_⟩
    rw [getElem?_slice]
    have : b + (i - b) = i := by omega
    rw [this, if_pos he, hi]

theorem RangePerm.refl_range (l : List P) (b e : Nat) : RangePerm l l b e :=
  ⟨rfl, fun _ _ => rfl, List.Perm.refl _⟩

theorem RangePerm.trans_range {l l' l'' : List P} {b e : Nat} (h1 : RangePerm l l' b e)
    (h2 : RangePerm l' l'' b e) : RangePerm l l'' b e :=
  ⟨h2.1.trans h1.1, fun i hi => (h2.2.1 i hi).trans (h1.2.1 i hi), h2.2.2.trans h1.2.2⟩

theorem RangePerm.mono {l l' : List P} {b e b' e' : Nat} (h : RangePerm l l' b' e')
    (hb : b ≤ b') (hbe : b' ≤ e') (he : e' ≤ e) : RangePerm l l' b e := by
  refine ⟨h.1, fun i hi => h.2.1 i (by omega), ?_⟩
  rw [slice_append l' (Nat.le_trans hb hbe) he, slice_append l' hb hbe,
    slice_append l (Nat.le_trans hb hbe) he, slice_append l hb hbe]
  have e1 : slice l' b b' = slice l b b' := slice_congr (fun i _ hi => h.2.1 i (Or.inl hi))
  have e2 : slice l' e' e = slice l e' e := slice_congr (fun i hi _ => h.2.1 i (Or.inr hi))
  rw [e1, e2]
  exact (List.Perm.append (List.Perm.append (List.Perm.refl _) h.2.2) (List.Perm.refl _))

theorem RangePerm.perm {l l' : List P} (h : RangePerm l l' 0 l.length) : l'.Perm l := by
  have h2 := h.2.2
  rw [← h.1, slice_zero_length, h.1, slice_zero_length] at h2
  exact h2

/-- Replacing positions `[b, e)` of `l` by a permutation `mid` of them. -/
theorem rangePerm_splice (l mid : List P) {b e : Nat} (hbe : b ≤ e) (he : e ≤ l.length)
    (hmid : mid.Perm (slice l b e)) : RangePerm l (l.take b ++ mid ++ l.drop e) b e := by
  have hml : mid.length = e - b := by rw [hmid.length_eq, length_slice l b e he]
  have htl : (l.take b).length = b := by
    rw [List.length_take]; exact Nat.min_eq_left (Nat.le_trans hbe he)
  refine ⟨?_, ?_, ?_⟩
  · simp [List.length_append, List.length_take, List.length_drop, hml]; omega
  · intro i hi
    rcases hi with hi | hi
    · rw [List.append_assoc, List.getElem?_append_left (by omega)]
      simp [List.getElem?_take, hi]
    · rw [List.getElem?_append_right (by simp [List.length_append, htl, hml]; omega)]
      rw [List.getElem?_drop]
      congr 1
      simp [List.length_append, htl, hml]; omega
  · have : slice (l.take b ++ mid ++ l.drop e) b e = mid := by
      apply List.ext_getElem?
      intro j
      rw [getElem?_slice]
      by_cases hj : b + j < e
      · rw [if_pos hj, List.getElem?_append_left (by simp [List.length_append, htl, hml]; omega),
          List.getElem?_append_right (by omega)]
        congr 1
        omega
      · rw [if_neg hj, eq_comm, List.getElem?_eq_none_iff]; omega
    rw [this]; exact hmid

end RangeFacts

section TreeFacts

variable {P T : Type} [LinearOrderedRing T] {N : Nat}

theorem foldl_merge_absorb (bound : P → Aabb T N) (mk : Aabb T N) (l : List P) :
    ∀ x : Aabb T N, merge x mk = x →
      l.foldl (fun bb p => merge bb (bound p)) x
        = merge x (l.foldl (fun bb p => merge bb (bound p)) mk) := by
  induction l with
  | nil => intro x hx; simp [hx]
  | cons p l ih =>
    intro x hx
    simp only [List.foldl_cons]
    have hx2 : merge (merge x (bound p)) mk = merge x (bound p) := by
      rw [merge_assoc, merge_comm (bound p) mk, ← merge_assoc, hx]
    have hm : merge (merge mk (bound p)) mk = merge mk (bound p) := by
      rw [merge_comm, ← merge_assoc, merge_self]
    rw [ih _ hx2, ih (merge mk (bound p)) hm, ← merge_assoc x, ← merge_assoc x, hx]

theorem rangeBox_absorb (bound : P → Aabb T N) (MAX : T) (prims : List P) (b e : Nat) :
    merge (make_aabb MAX) (rangeBox bound MAX prims b e) = rangeBox bound MAX prims b e := by
  unfold rangeBox
  exact (foldl_merge_absorb bound (make_aabb MAX) _ (make_aabb MAX) (merge_self _)).symm

theorem rangeBox_append (bound : P → Aabb T N) (MAX : T) (prims : List P) {b m e : Nat}
    (hbm : b ≤ m) (hme : m ≤ e) :
    rangeBox bound MAX prims b e
      = merge (rangeBox bound MAX prims b m) (rangeBox bound MAX prims m e) := by
  have h := rangeBox_absorb bound MAX prims b m
  unfold rangeBox at h ⊢
  rw [slice_append prims hbm hme, List.foldl_append]
  apply foldl_merge_absorb
  rw [merge_comm]; exact h

theorem rangeBox_congr (bound : P → Aabb T N) (MAX : T) {prims prims2 : List P} {b e : Nat}
    (h : ∀ i, b ≤ i → i < e → prims2[i]? = prims[i]?) :
    rangeBox bound MAX prims2 b e = rangeBox bound MAX prims b e := by
  unfold rangeBox
  rw [slice_congr h]

theorem foldl_merge_le (bound : P → Aabb T N) (l : List P) :
    ∀ (x : Aabb T N) (i : Fin N),
      (l.foldl (fun bb p => merge bb (bound p)) x).p0 i ≤ x.p0 i ∧
      x.p1 i ≤ (l.foldl (fun bb p => merge bb (bound p)) x).p1 i := by
  induction l with
  | nil => intro x i; simp
  | cons p l ih =>
    intro x i
    simp only [List.foldl_cons]
    have h := ih (merge x (bound p)) i
    rw [merge_p0, merge_p1] at h
    exact ⟨le_trans h.1 (min_le_left _ _), le_trans (le_max_left _ _) h.2⟩

theorem foldl_merge_encloses (bound : P → Aabb T N) (l : List P) :
    ∀ (x : Aabb T N) (p : P), p ∈ l → ∀ i : Fin N,
      (l.foldl (fun bb q => merge bb (bound q)) x).p0 i ≤ (bound p).p0 i ∧
      (bound p).p1 i ≤ (l.foldl (fun bb q => merge bb (bound q)) x).p1 i := by
  induction l with
  | nil => intro x p hp; simp at hp
  | cons q l ih =>
    intro x p hp i
    simp only [List.foldl_cons]
    rcases List.mem_cons.mp hp with h | h
    · subst h
      have h := foldl_merge_le bound l (merge x (bound p)) i
      rw [merge_p0, merge_p1] at h
      exact ⟨le_trans h.1 (min_le_right _ _), le_trans (le_max_right _ _) h.2⟩
    · exact ih _ p h i

theorem rangeBox_encloses (bound : P → Aabb T N) (MAX : T) (prims : List P) (b e : Nat)
    (p : P) (hp : p ∈ slice prims b e) (i : Fin N) :
    (rangeBox bound MAX prims b e).p0 i ≤ (bound p).p0 i ∧
      (bound p).p1 i ≤ (rangeBox bound MAX prims b e).p1 i :=
  foldl_merge_encloses bound (slice prims b e) (make_aabb MAX) p hp i

theorem Subtree.bounds {bound : P → Aabb T N} {MAX : T} {nodes : List (BvhNode T N)}
    {prims : List P} {k hi b e : Nat} (h : Subtree bound MAX nodes prims k hi b e) :
    k < hi ∧ hi ≤ nodes.length ∧ b < e ∧ e ≤ prims.length := by
  induction h with
  | leaf k b e nd hk hbe he h0 h1 hb =>
    have : k < nodes.length := (List.getElem?_eq_some.mp hk).1
    exact ⟨Nat.lt_succ_self k, this, hbe, he⟩
  | inner k r hi b m e nd hk h0 h1 hb hl hr ihl ihr =>
    exact ⟨by omega, ihr.2.1, by omega, ihr.2.2.2⟩

theorem Subtree.root {bound : P → Aabb T N} {MAX : T} {nodes : List (BvhNode T N)}
    {prims : List P} {k hi b e : Nat} (h : Subtree bound MAX nodes prims k hi b e) :
    ∃ nd, nodes[k]? = some nd ∧ nd.b = rangeBox bound MAX prims b e := by
  cases h with
  | leaf k b e nd hk hbe he h0 h1 hb => exact ⟨nd, hk, hb⟩
  | inner k r hi b m e nd hk h0 h1 hb hl hr => exact ⟨nd, hk, hb⟩

theorem Subtree.frame {bound : P → Aabb T N} {MAX : T} {nodes nodes2 : List (BvhNode T N)}
    {prims prims2 : List P} {k hi b e : Nat} (h : Subtree bound MAX nodes prims k hi b e)
    (hn : ∀ j, k ≤ j → j < hi → nodes2[j]? = nodes[j]?)
    (hp : ∀ i, b ≤ i → i < e → prims2[i]? = prims[i]?)
    (hlen : prims2.length = prims.length) :
    Subtree bound MAX nodes2 prims2 k hi b e := by
  induction h with
  | leaf k b e nd hk hbe he h0 h1 hb =>
    refine Subtree.leaf k b e nd ?_ hbe (by omega) h0 h1 ?_
    · rw [hn k (le_refl _) (Nat.lt_succ_self k)]; exact hk
    · rw [hb, rangeBox_congr bound MAX hp]
  | inner k r hi b m e nd hk h0 h1 hb hl hr ihl ihr =>
    have bl := hl.bounds
    have br := hr.bounds
    refine Subtree.inner k r hi b m e nd ?_ h0 h1 ?_ ?_ ?_
    · rw [hn k (le_refl _) (by omega)]; exact hk
    · rw [hb, rangeBox_congr bound MAX hp]
    · exact ihl (fun j h1 h2 => hn j (by omega) (by omega)) (fun i h1 h2 => hp i h1 (by omega))
    · exact ihr (fun j h1 h2 => hn j (by omega) h2) (fun i h1 h2 => hp i (by omega) h2)

omit [LinearOrderedRing T] in
theorem modifyNode_inv {nodes r : List (BvhNode T N)} {k : Nat}
    {f : BvhNode T N → BvhNode T N} (h : modifyNode nodes k f = some r) :
    ∃ nd, nodes[k]? = some nd ∧ r = nodes.set k (f nd) := by
  unfold modifyNode at h
  cases hk : nodes[k]? with
  | none => rw [hk] at h; exact absurd h (by simp)
  | some nd =>
    rw [hk] at h
    simp only [Option.some.injEq] at h
    exact ⟨nd, rfl, h.symm⟩

omit [LinearOrderedRing T] in
theorem modifyNode_eq {nodes : List (BvhNode T N)} {k : Nat} {nd : BvhNode T N}
    (h : nodes[k]? = some nd) (f : BvhNode T N → BvhNode T N) :
    modifyNode nodes k f = some (nodes.set k (f nd)) := by
  simp [modifyNode, h]

/-- The method `recursive_build` on a non-empty range, with a split callback that meets its
contract on every range of more than `threshold` primitives that satisfies `G`, a property
of the primitives of a range that does not depend on their order and passes to the two
parts of a range: with fuel for every primitive it returns, it has only permuted the range,
it has left the nodes before `curr` as they were, and the nodes from `curr` on are a subtree
over the range. -/
theorem recursive_build_spec_on (bound : P → Aabb T N)
    (split : List P → Nat → Nat → Option (List P × Nat)) (threshold : Int) (MAX : T)
    (G : List P → Prop) (hGperm : ∀ l l2 : List P, l2.Perm l → G l → G l2)
    (hGsplit : ∀ l1 l2 : List P, G (l1 ++ l2) → G l1 ∧ G l2)
    (hs : ∀ (prims : List P) (b e : Nat), b < e → e ≤ prims.length →
      (e : Int) - (b : Int) > threshold → G (slice prims b e) →
      ∃ prims2 m, split prims b e = some (prims2, m) ∧ RangePerm prims prims2 b e ∧
        b ≤ m ∧ m ≤ e) :
    ∀ (fuel : Nat) (self : Bvh P T N) (biter eiter curr : Nat) (depth : Int),
      biter < eiter → eiter ≤ self.mPrimitives.length → curr + 1 = self.mNodes.length →
      eiter - biter ≤ fuel → G (slice self.mPrimitives biter eiter) →
      ∃ s, recursive_build bound split threshold MAX fuel self biter eiter curr depth = some s ∧
        RangePerm self.mPrimitives s.mPrimitives biter eiter ∧
        (∀ j, j < curr → s.mNodes[j]? = self.mNodes[j]?) ∧
        Subtree bound MAX s.mNodes s.mPrimitives curr s.mNodes.length biter eiter := by
  intro fuel
  induction fuel with
  | zero => intro self b e curr depth hbe _ _ hf _; omega
  | succ fuel ih =>
    intro self b e curr depth hbe he hc hf hG
    obtain ⟨prims, piter, hsp, hrp, hbp, hpe⟩ :
        ∃ prims piter, (if ((e : Int) - (b : Int)) > threshold then split self.mPrimitives b e
            else some (self.mPrimitives, e)) = some (prims, piter) ∧
          RangePerm self.mPrimitives prims b e ∧ b ≤ piter ∧ piter ≤ e := by
      split_ifs with hn
      · exact hs self.mPrimitives b e hbe he hn hG
      · exact ⟨_, _, rfl, RangePerm.refl_range _ _ _, hbe.le, le_refl _⟩
    have hlen : prims.length = self.mPrimitives.length := hrp.1
    have hcl : curr < self.mNodes.length := by omega
    obtain ⟨nd0, hnd0⟩ : ∃ nd0, self.mNodes[curr]? = some nd0 :=
      ⟨_, List.getElem?_eq_getElem hcl⟩
    rw [recursive_build]
    simp only [hsp]
    by_cases hleaf : piter = b ∨ piter = e
    · rw [if_pos hleaf, if_pos ⟨hbe.le, by omega⟩, modifyNode_eq hnd0]
      refine ⟨_, rfl, hrp, ?_, ?_⟩
      · intro j hj
        simp only
        rw [List.getElem?_set_ne (by omega)]
      · simp only [List.length_set]
        rw [← hc]
        refine Subtree.leaf curr b e _ (List.getElem?_set_self hcl) hbe (by omega) ?_ ?_ rfl
        · simp [set_leaf]
        · simp [set_leaf]
    · rw [if_neg hleaf]
      have hbp2 : b < piter := by
        rcases Nat.lt_or_ge b piter with h | h
        · exact h
        · exact absurd (Or.inl (by omega)) hleaf
      have hpe2 : piter < e := by
        rcases Nat.lt_or_ge piter e with h | h
        · exact h
        · exact absurd (Or.inr (by omega)) hleaf
      have hG2 : G (slice prims b e) := hGperm _ _ hrp.2.2 hG
      have hG3 : G (slice prims b piter) ∧ G (slice prims piter e) :=
        hGsplit _ _ (by rw [← slice_append prims hbp2.le hpe2.le]; exact hG2)
      rw [modifyNode_eq hnd0, Option.some_bind]
      rw [modifyNode_eq (List.getElem?_set_self hcl), Option.some_bind]
      simp only [List.length_set, List.set_set]
      obtain ⟨s1, hs1, hrp1, hfr1, hst1⟩ := ih
        { mPrimitives := prims,
          mNodes := self.mNodes.set curr
            { b := make_aabb MAX, i0 := (self.mNodes.length : Int), i1 := nd0.i1 }
              ++ [BvhNode.fresh] }
        b piter self.mNodes.length (depth + 1) hbp2 (by simp only; omega) (by simp) (by omega)
        hG3.1
      simp only at hrp1 hfr1
      rw [hs1, Option.some_bind]
      have hb1 := hst1.bounds
      obtain ⟨ndL, hndL, hbL⟩ := hst1.root
      have hc1 : s1.mNodes[curr]? = some
          { b := make_aabb MAX, i0 := (self.mNodes.length : Int), i1 := nd0.i1 } := by
        rw [hfr1 curr hcl, List.getElem?_append_left (by simp; exact hcl)]
        exact List.getElem?_set_self hcl
      have hcl1 : curr < s1.mNodes.length := by omega
      rw [hndL, Option.some_bind, modifyNode_eq hc1, Option.some_bind,
        modifyNode_eq (List.getElem?_set_self hcl1), Option.some_bind]
      simp only [List.length_set, List.set_set]
      obtain ⟨s2, hs2, hrp2, hfr2, hst2⟩ := ih
        { mPrimitives := s1.mPrimitives,
          mNodes := s1.mNodes.set curr
            { b := merge (make_aabb MAX) ndL.b, i0 := (self.mNodes.length : Int),
              i1 := (s1.mNodes.length : Int) } ++ [BvhNode.fresh] }
        piter e s1.mNodes.length (depth + 1) hpe2 (by simp only; rw [hrp1.1]; omega) (by simp)
        (by omega)
        (by
          have e1 : slice s1.mPrimitives piter e = slice prims piter e :=
            slice_congr (fun i hi _ => hrp1.2.1 i (Or.inr hi))
          simp only
          rw [e1]
          exact hG3.2)
      simp only at hrp2 hfr2
      rw [hs2, Option.some_bind]
      have hb2 := hst2.bounds
      obtain ⟨ndR, hndR, hbR⟩ := hst2.root
      have hc2 : s2.mNodes[curr]? = some
          { b := merge (make_aabb MAX) ndL.b, i0 := (self.mNodes.length : Int),
            i1 := (s1.mNodes.length : Int) } := by
        rw [hfr2 curr hcl1, List.getElem?_append_left (by simp; exact hcl1)]
        exact List.getElem?_set_self hcl1
      have hcl2 : curr < s2.mNodes.length := by omega
      rw [hndR, Option.some_bind, modifyNode_eq hc2, Option.map_some']
      refine ⟨_, rfl, ?_, ?_, ?_⟩
      · -- the primitives
        exact (hrp.trans_range (hrp1.mono (le_refl _) hbp2.le hpe2.le)).trans_range
          (hrp2.mono hbp2.le hpe2.le (le_refl _))
      · -- the frame of the node array
        intro j hj
        simp only
        rw [List.getElem?_set_ne (by omega), hfr2 j (by omega),
          List.getElem?_append_left (by simp; omega), List.getElem?_set_ne (by omega),
          hfr1 j (by omega), List.getElem?_append_left (by simp; omega),
          List.getElem?_set_ne (by omega)]
      · -- the subtree
        simp only [List.length_set]
        have hprims2 : ∀ i, i < piter → s2.mPrimitives[i]? = s1.mPrimitives[i]? :=
          fun i hi => hrp2.2.1 i (Or.inl hi)
        have hL : Subtree bound MAX
            (s2.mNodes.set curr
              { b := merge (merge (make_aabb MAX) ndL.b) ndR.b,
                i0 := (self.mNodes.length : Int), i1 := (s1.mNodes.length : Int) })
            s2.mPrimitives (curr + 1) s1.mNodes.length b piter := by
          rw [hc]
          refine hst1.frame ?_ (fun i _ hi => hprims2 i hi) hrp2.1
          intro j hj1 hj2
          rw [List.getElem?_set_ne (by omega), hfr2 j hj2,
            List.getElem?_append_left (by simp; omega), List.getElem?_set_ne (by omega)]
        have hR : Subtree bound MAX
            (s2.mNodes.set curr
              { b := merge (merge (make_aabb MAX) ndL.b) ndR.b,
                i0 := (self.mNodes.length : Int), i1 := (s1.mNodes.length : Int) })
            s2.mPrimitives s1.mNodes.length s2.mNodes.length piter e := by
          refine hst2.frame ?_ (fun i _ _ => rfl) rfl
          intro j hj1 hj2
          rw [List.getElem?_set_ne (by omega)]
        refine Subtree.inner curr s1.mNodes.length s2.mNodes.length b piter e _
          (List.getElem?_set_self hcl2) ?_ rfl ?_ hL hR
        · simp only; rw [← hc]
        · simp only
          rw [hbL, hbR, rangeBox_absorb, rangeBox_append bound MAX s2.mPrimitives hbp2.le hpe2.le,
            rangeBox_congr bound MAX (fun i _ hi => hprims2 i hi)]

theorem recursive_build_spec (bound : P → Aabb T N)
    (split : List P → Nat → Nat → Option (List P × Nat)) (threshold : Int) (MAX : T)
    (hs : SplitContract split) :
    ∀ (fuel : Nat) (self : Bvh P T N) (biter eiter curr : Nat) (depth : Int),
      biter < eiter → eiter ≤ self.mPrimitives.length → curr + 1 = self.mNodes.length →
      eiter - biter ≤ fuel →
      ∃ s, recursive_build bound split threshold MAX fuel self biter eiter curr depth = some s ∧
        RangePerm self.mPrimitives s.mPrimitives biter eiter ∧
        (∀ j, j < curr → s.mNodes[j]? = self.mNodes[j]?) ∧
        Subtree bound MAX s.mNodes s.mPrimitives curr s.mNodes.length biter eiter :=
  fun fuel self biter eiter curr depth h1 h2 h3 h4 =>
    recursive_build_spec_on bound split threshold MAX (fun _ => True) (fun _ _ _ _ => trivial)
      (fun _ _ _ => ⟨trivial, trivial⟩) (fun prims b e hbe he _ _ => hs prims b e hbe he)
      fuel self biter eiter curr depth h1 h2 h3 h4 trivial

end TreeFacts

section TreeFacts2

variable {P T : Type} [LinearOrderedRing T] {N : Nat}

theorem Subtree.sub {bound : P → Aabb T N} {MAX : T} {nodes : List (BvhNode T N)}
    {prims : List P} {k hi b e : Nat} (h : Subtree bound MAX nodes prims k hi b e) :
    ∀ j, k ≤ j → j < hi →
      ∃ hi2 b2 e2, Subtree bound MAX nodes prims j hi2 b2 e2 ∧ hi2 ≤ hi ∧ b ≤ b2 ∧ e2 ≤ e := by
  induction h with
  | leaf k b e nd hk hbe he h0 h1 hb =>
    intro j hj1 hj2
    have : j = k := by omega
    subst this
    exact ⟨j + 1, b, e, Subtree.leaf j b e nd hk hbe he h0 h1 hb, le_refl _, le_refl _, le_refl _⟩
  | inner k r hi b m e nd hk h0 h1 hb hl hr ihl ihr =>
    intro j hj1 hj2
    have bl := hl.bounds
    have br := hr.bounds
    rcases Nat.eq_or_lt_of_le hj1 with hjk | hjk
    · subst hjk
      exact ⟨hi, b, e, Subtree.inner k r hi b m e nd hk h0 h1 hb hl hr, le_refl _, le_refl _,
        le_refl _⟩
    · rcases Nat.lt_or_ge j r with hjr | hjr
      · obtain ⟨hi2, b2, e2, hs, h1, h2, h3⟩ := ihl j hjk hjr
        exact ⟨hi2, b2, e2, hs, by omega, h2, by omega⟩
      · obtain ⟨hi2, b2, e2, hs, h1, h2, h3⟩ := ihr j hjr hj2
        exact ⟨hi2, b2, e2, hs, h1, by omega, h3⟩

/-- What a subtree says about the node at its root: a leaf with its range, or an inner node
with its two children and their ranges. -/
theorem Subtree.node_cases {bound : P → Aabb T N} {MAX : T} {nodes : List (BvhNode T N)}
    {prims : List P} {k hi b e : Nat} (h : Subtree bound MAX nodes prims k hi b e)
    {nd : BvhNode T N} (hnd : nodes[k]? = some nd) :
    (nd.i1 < 0 ∧ hi = k + 1 ∧ nd.i0 = (b : Int) ∧ nd.i1 = -((e : Int) - (b : Int)) ∧
        nd.b = rangeBox bound MAX prims b e) ∨
    (∃ r m : Nat, 0 ≤ nd.i1 ∧ nd.i0 = ((k + 1 : Nat) : Int) ∧ nd.i1 = (r : Int) ∧
        nd.b = rangeBox bound MAX prims b e ∧
        Subtree bound MAX nodes prims (k + 1) r b m ∧
        Subtree bound MAX nodes prims r hi m e) := by
  cases h with
  | leaf k b e nd2 hk hbe he h0 h1 hb =>
    have : nd2 = nd := Option.some.inj (hk.symm.trans hnd)
    subst this
    exact Or.inl ⟨by omega, rfl, h0, h1, hb⟩
  | inner k r hi b m e nd2 hk h0 h1 hb hl hr =>
    have : nd2 = nd := Option.some.inj (hk.symm.trans hnd)
    subst this
    exact Or.inr ⟨r, m, by omega, h0, h1, hb, hl, hr⟩

theorem Subtree.leaf_range {bound : P → Aabb T N} {MAX : T} {nodes : List (BvhNode T N)}
    {prims : List P} {k hi b e : Nat} (h : Subtree bound MAX nodes prims k hi b e)
    {j : Nat} {nd : BvhNode T N} (hj1 : k ≤ j) (hj2 : j < hi) (hnd : nodes[j]? = some nd)
    (hleaf : nd.i1 < 0) :
    ∃ b2 e2 : Nat, b ≤ b2 ∧ b2 < e2 ∧ e2 ≤ e ∧ nd.i0 = (b2 : Int) ∧
      nd.i1 = -((e2 : Int) - (b2 : Int)) := by
  obtain ⟨hi2, b2, e2, hs, _, h2, h3⟩ := h.sub j hj1 hj2
  have bs := hs.bounds
  rcases hs.node_cases hnd with hc | ⟨r, m, hc, _⟩
  · exact ⟨b2, e2, h2, bs.2.2.1, h3, hc.2.2.1, hc.2.2.2.1⟩
  · omega

theorem Subtree.cover {bound : P → Aabb T N} {MAX : T} {nodes : List (BvhNode T N)}
    {prims : List P} {k hi b e : Nat} (h : Subtree bound MAX nodes prims k hi b e) :
    ∀ i, b ≤ i → i < e → ∃ j nd, k ≤ j ∧ j < hi ∧ nodes[j]? = some nd ∧ nd.i1 < 0 ∧
      nd.i0 ≤ (i : Int) ∧ (i : Int) < nd.i0 + -nd.i1 := by
  induction h with
  | leaf k b e nd hk hbe he h0 h1 hb =>
    intro i hi1 hi2
    exact ⟨k, nd, le_refl _, Nat.lt_succ_self k, hk, by omega, by omega, by omega⟩
  | inner k r hi b m e nd hk h0 h1 hb hl hr ihl ihr =>
    intro i hi1 hi2
    have bl := hl.bounds
    have br := hr.bounds
    rcases Nat.lt_or_ge i m with him | him
    · obtain ⟨j, nd2, h1, h2, h3⟩ := ihl i hi1 him
      exact ⟨j, nd2, by omega, by omega, h3⟩
    · obtain ⟨j, nd2, h1, h2, h3⟩ := ihr i him hi2
      exact ⟨j, nd2, by omega, by omega, h3⟩

theorem Subtree.leaf_unique {bound : P → Aabb T N} {MAX : T} {nodes : List (BvhNode T N)}
    {prims : List P} {k hi b e : Nat} (h : Subtree bound MAX nodes prims k hi b e) :
    ∀ (j j2 : Nat) (nd nd2 : BvhNode T N) (i : Int), k ≤ j → j < hi → k ≤ j2 → j2 < hi →
      nodes[j]? = some nd → nodes[j2]? = some nd2 → nd.i1 < 0 → nd2.i1 < 0 →
      nd.i0 ≤ i → i < nd.i0 + -nd.i1 → nd2.i0 ≤ i → i < nd2.i0 + -nd2.i1 → j = j2 := by
  induction h with
  | leaf k b e nd hk hbe he h0 h1 hb =>
    intro j j2 _ _ _ h1 h2 h3 h4 _ _ _ _ _ _ _ _
    omega
  | inner k r hi b m e nd hk h0 h1 hb hl hr ihl ihr =>
    intro j j2 n1 n2 i hj1 hj2 hj3 hj4 hn1 hn2 hl1 hl2 ha hb2 hc hd
    have bl := hl.bounds
    have br := hr.bounds
    have hjk : j ≠ k := by
      rintro rfl
      have : nd = n1 := Option.some.inj (hk.symm.trans hn1)
      subst this; omega
    have hjk2 : j2 ≠ k := by
      rintro rfl
      have : nd = n2 := Option.some.inj (hk.symm.trans hn2)
      subst this; omega
    rcases Nat.lt_or_ge j r with hjr | hjr <;> rcases Nat.lt_or_ge j2 r with hjr2 | hjr2
    · exact ihl j j2 n1 n2 i (by omega) hjr (by omega) hjr2 hn1 hn2 hl1 hl2 ha hb2 hc hd
    · obtain ⟨b1, e1, _, _, q3, q4, q5⟩ := hl.leaf_range (by omega) hjr hn1 hl1
      obtain ⟨b2, e2, p1, _, _, p4, p5⟩ := hr.leaf_range hjr2 hj4 hn2 hl2
      omega
    · obtain ⟨b1, e1, _, _, q3, q4, q5⟩ := hl.leaf_range (by omega) hjr2 hn2 hl2
      obtain ⟨b2, e2, p1, _, _, p4, p5⟩ := hr.leaf_range hjr hj2 hn1 hl1
      omega
    · exact ihr j j2 n1 n2 i hjr hj2 hjr2 hj4 hn1 hn2 hl1 hl2 ha hb2 hc hd

/-- A build on a default-constructed tree: it returns, the caller's vector is left empty,
the primitives are permuted, and the node array is one subtree rooted at 0. -/
theorem build_fresh_spec (bound : P → Aabb T N)
    (split : List P → Nat → Nat → Option (List P × Nat)) (threshold : Int) (MAX : T)
    (hs : SplitContract split) (fuel : Nat) (prims : List P) (hne : prims ≠ [])
    (hf : prims.length ≤ fuel) :
    ∃ s, build bound split threshold MAX fuel Bvh.empty prims = some (s, []) ∧
      RangePerm prims s.mPrimitives 0 prims.length ∧
      Subtree bound MAX s.mNodes s.mPrimitives 0 s.mNodes.length 0 prims.length := by
  have hpos : 0 < prims.length := List.length_pos.mpr hne
  obtain ⟨s, h1, h2, _, h4⟩ := recursive_build_spec bound split threshold MAX hs fuel
    { mPrimitives := prims, mNodes := [BvhNode.fresh] } 0 prims.length 0 0 hpos (le_refl _)
    rfl (by omega)
  refine ⟨s, ?_, h2, h4⟩
  unfold build
  have : prims.isEmpty = false := by
    cases prims with
    | nil => exact absurd rfl hne
    | cons a l => rfl
  simp only [this, Bvh.empty, List.nil_append]
  rw [if_neg (by simp), h1]
  rfl

end TreeFacts2

section BuildTheorems

variable {P T : Type} [LinearOrderedRing T] {N : Nat}

theorem halfSplit_contract {P : Type} : SplitContract (halfSplit : List P → _) := by
  intro prims b e hbe he
  refine ⟨prims, b + (e - b) / 2, rfl, RangePerm.refl_range _ _ _, Nat.le_add_right _ _, ?_⟩
  have : (e - b) / 2 ≤ e - b := Nat.div_le_self _ _
  omega

theorem SplitContract.index {split : List P → Nat → Nat → Option (List P × Nat)}
    (h : SplitContract split) : SplitIndexContract split := by
  intro prims b e hbe he
  obtain ⟨p2, m, h1, h2, h3, h4⟩ := h prims b e hbe he
  exact ⟨p2, m, h1, h2.1, h3, h4⟩

omit [LinearOrderedRing T] in
theorem nodeAt_natCast (nodes : List (BvhNode T N)) (k : Nat) :
    nodeAt nodes (k : Int) = nodes[k]? := by
  simp [nodeAt]

theorem merge_make_aabb_of_le (MAX : T) (x : Aabb T N)
    (h : ∀ i, x.p0 i ≤ MAX ∧ -MAX ≤ x.p1 i) : merge (make_aabb MAX) x = x := by
  ext i
  · rw [merge_p0]; simp [make_aabb, (h i).1]
  · rw [merge_p1]; simp [make_aabb, (h i).2]

/-- C1: for a non-empty primitive sequence `p :: ps` built on a default-constructed tree,
with a split callback that only permutes its own range and returns a position in
`[begin, end]` and a bound callback whose boxes have coordinates within `[-MAX, +MAX]`, the
build returns and `nodes[0].b` is the merge of `bound q` over all primitives `q`. -/
theorem root_box_eq_union (bound : P → Aabb T N)
    (split : List P → Nat → Nat → Option (List P × Nat)) (threshold : Int) (MAX : T)
    (fuel : Nat) (p : P) (ps : List P) (hs : SplitContract split)
    (hb : ∀ q ∈ p :: ps, ∀ i, (-MAX ≤ (bound q).p0 i ∧ (bound q).p0 i ≤ MAX) ∧
      (-MAX ≤ (bound q).p1 i ∧ (bound q).p1 i ≤ MAX))
    (hf : (p :: ps).length ≤ fuel) :
    ∃ s, build bound split threshold MAX fuel Bvh.empty (p :: ps) = some (s, []) ∧
      ∃ root, s.mNodes[0]? = some root ∧
        root.b = ps.foldl (fun bbox q => merge bbox (bound q)) (bound p) := by
  obtain ⟨s, h1, h2, h3⟩ := build_fresh_spec bound split threshold MAX hs fuel (p :: ps)
    (List.cons_ne_nil _ _) hf
  obtain ⟨root, hr, hbox⟩ := h3.root
  refine ⟨s, h1, root, hr, ?_⟩
  have hperm : s.mPrimitives.Perm (p :: ps) := h2.perm
  haveI : RightCommutative (fun (bbox : Aabb T N) (q : P) => merge bbox (bound q)) :=
    ⟨fun a x y => by
      show merge (merge a (bound x)) (bound y) = merge (merge a (bound y)) (bound x)
      rw [merge_assoc, merge_comm (bound x), ← merge_assoc]⟩
  rw [hbox]
  unfold rangeBox
  rw [← h2.1, slice_zero_length, hperm.foldl_eq, List.foldl_cons,
    merge_make_aabb_of_le MAX (bound p)
      (fun i => ⟨(hb p (List.mem_cons_self _ _) i).1.2, (hb p (List.mem_cons_self _ _) i).2.1⟩)]

/-- C2: after a build on a default-constructed tree (with a split callback that keeps its
contract), the box of every inner node `k` (`nodes[k].i1 >= 0`) is the merge of the boxes
of the nodes at `nodes[k].i0` and `nodes[k].i1`. -/
theorem inner_box_eq_merge_children (bound : P → Aabb T N)
    (split : List P → Nat → Nat → Option (List P × Nat)) (threshold : Int) (MAX : T)
    (fuel : Nat) (prims : List P) (hs : SplitContract split) (hf : prims.length ≤ fuel) :
    ∃ s, build bound split threshold MAX fuel Bvh.empty prims = some (s, []) ∧
      ∀ (k : Nat) (nd : BvhNode T N), s.mNodes[k]? = some nd → 0 ≤ nd.i1 →
        ∃ l r, nodeAt s.mNodes nd.i0 = some l ∧ nodeAt s.mNodes nd.i1 = some r ∧
          nd.b = merge l.b r.b := by
  by_cases hne : prims = []
  · subst hne
    exact ⟨Bvh.empty, rfl, fun k nd hk _ => by simp [Bvh.empty] at hk⟩
  obtain ⟨s, h1, _, h3⟩ := build_fresh_spec bound split threshold MAX hs fuel prims hne hf
  refine ⟨s, h1, ?_⟩
  intro k nd hk hi1
  have hkl : k < s.mNodes.length := (List.getElem?_eq_some.mp hk).1
  obtain ⟨hi2, b2, e2, hsub, _, _, _⟩ := h3.sub k (Nat.zero_le _) hkl
  rcases hsub.node_cases hk with hc | ⟨r, m, _, h0, hr1, hb, hl, hr⟩
  · omega
  · obtain ⟨ndl, hndl, hbl⟩ := hl.root
    obtain ⟨ndr, hndr, hbr⟩ := hr.root
    have bl := hl.bounds
    have br := hr.bounds
    refine ⟨ndl, ndr, ?_, ?_, ?_⟩
    · rw [h0, nodeAt_natCast]; exact hndl
    · rw [hr1, nodeAt_natCast]; exact hndr
    · rw [hb, hbl, hbr]
      exact rangeBox_append bound MAX s.mPrimitives (by omega) (by omega)

/-- C3: after a build of `n >= 1` primitives on a default-constructed tree (with a split
callback that keeps its contract), every leaf range `[i0, i0 + (-i1))` is non-empty and lies
in `[0, n)`, every primitive index lies in exactly one leaf range, and the ranges of two
different leaves are disjoint. -/
theorem leaf_ranges_partition (bound : P → Aabb T N)
    (split : List P → Nat → Nat → Option (List P × Nat)) (threshold : Int) (MAX : T)
    (fuel : Nat) (prims : List P) (hs : SplitContract split) (hne : prims ≠ [])
    (hf : prims.length ≤ fuel) :
    ∃ s, build bound split threshold MAX fuel Bvh.empty prims = some (s, []) ∧
      (∀ (k : Nat) (nd : BvhNode T N), s.mNodes[k]? = some nd → is_leaf nd = true →
        0 ≤ nd.i0 ∧ 1 ≤ length nd ∧ nd.i0 + length nd ≤ (prims.length : Int)) ∧
      (∀ i : Nat, i < prims.length →
        ∃! k : Nat, ∃ nd : BvhNode T N, s.mNodes[k]? = some nd ∧ is_leaf nd = true ∧
          nd.i0 ≤ (i : Int) ∧ (i : Int) < nd.i0 + length nd) ∧
      (∀ (k k2 : Nat) (nd nd2 : BvhNode T N), s.mNodes[k]? = some nd →
        s.mNodes[k2]? = some nd2 →
        is_leaf nd = true → is_leaf nd2 = true → k ≠ k2 →
        ∀ i : Int, ¬ ((nd.i0 ≤ i ∧ i < nd.i0 + length nd) ∧
          (nd2.i0 ≤ i ∧ i < nd2.i0 + length nd2))) := by
  obtain ⟨s, h1, _, h3⟩ := build_fresh_spec bound split threshold MAX hs fuel prims hne hf
  refine ⟨s, h1, ?_, ?_, ?_⟩
  · intro k nd hk hl
    have hkl : k < s.mNodes.length := (List.getElem?_eq_some.mp hk).1
    have hl2 : nd.i1 < 0 := by simpa [is_leaf] using hl
    obtain ⟨b2, e2, q1, q2, q3, q4, q5⟩ := h3.leaf_range (Nat.zero_le _) hkl hk hl2
    unfold length
    omega
  · intro i hi
    obtain ⟨j, nd, _, hj, hn, hl, ha, hb⟩ := h3.cover i (Nat.zero_le _) hi
    refine ⟨j, ⟨nd, hn, by simpa [is_leaf] using hl, ha, by simpa [length] using hb⟩, ?_⟩
    rintro j2 ⟨nd2, hn2, hl2, ha2, hb2⟩
    have hj2 : j2 < s.mNodes.length := (List.getElem?_eq_some.mp hn2).1
    have hl3 : nd2.i1 < 0 := by simpa [is_leaf] using hl2
    exact h3.leaf_unique j2 j nd2 nd i (Nat.zero_le _) hj2 (Nat.zero_le _) hj hn2 hn hl3 hl
      ha2 (by simpa [length] using hb2) ha hb
  · intro k k2 nd nd2 hk hk2 hl hl2 hne2 i hi
    have hkl : k < s.mNodes.length := (List.getElem?_eq_some.mp hk).1
    have hkl2 : k2 < s.mNodes.length := (List.getElem?_eq_some.mp hk2).1
    have hl3 : nd.i1 < 0 := by simpa [is_leaf] using hl
    have hl4 : nd2.i1 < 0 := by simpa [is_leaf] using hl2
    exact hne2 (h3.leaf_unique k k2 nd nd2 i (Nat.zero_le _) hkl (Nat.zero_le _) hkl2 hk hk2
      hl3 hl4 hi.1.1 (by simpa [length] using hi.1.2) hi.2.1 (by simpa [length] using hi.2.2))

/-- The theorem `root_box_eq_union` at the three points 3, 1, 2 of a line. -/
theorem root_box_eq_union_witness :
    ∃ s, build pointBound halfSplit 1 100 3 Bvh.empty [3, 1, 2] = some (s, []) ∧
      ∃ root, s.mNodes[0]? = some root ∧
        root.b = [1, 2].foldl (fun bbox q => merge bbox (pointBound q)) (pointBound 3) :=
  root_box_eq_union pointBound halfSplit 1 100 3 3 [1, 2] halfSplit_contract (by decide)
    (by decide)

/-- The theorem `inner_box_eq_merge_children` at the three points 3, 1, 2 of a line. -/
theorem inner_box_eq_merge_children_witness :
    ∃ s, build pointBound halfSplit 1 100 3 Bvh.empty [3, 1, 2] = some (s, []) ∧
      ∀ (k : Nat) (nd : BvhNode Int 1), s.mNodes[k]? = some nd → 0 ≤ nd.i1 →
        ∃ l r, nodeAt s.mNodes nd.i0 = some l ∧ nodeAt s.mNodes nd.i1 = some r ∧
          nd.b = merge l.b r.b :=
  inner_box_eq_merge_children pointBound halfSplit 1 100 3 [3, 1, 2] halfSplit_contract
    (by decide)

/-- The theorem `leaf_ranges_partition` at the three points 3, 1, 2 of a line. -/
theorem leaf_ranges_partition_witness :
    ∃ s, build pointBound halfSplit 1 100 3 Bvh.empty [3, 1, 2] = some (s, []) ∧
      (∀ (k : Nat) (nd : BvhNode Int 1), s.mNodes[k]? = some nd → is_leaf nd = true →
        0 ≤ nd.i0 ∧ 1 ≤ length nd ∧ nd.i0 + length nd ≤ (([3, 1, 2] : List Int).length : Int)) ∧
      (∀ i : Nat, i < ([3, 1, 2] : List Int).length →
        ∃! k : Nat, ∃ nd : BvhNode Int 1, s.mNodes[k]? = some nd ∧ is_leaf nd = true ∧
          nd.i0 ≤ (i : Int) ∧ (i : Int) < nd.i0 + length nd) ∧
      (∀ (k k2 : Nat) (nd nd2 : BvhNode Int 1), s.mNodes[k]? = some nd →
        s.mNodes[k2]? = some nd2 →
        is_leaf nd = true → is_leaf nd2 = true → k ≠ k2 →
        ∀ i : Int, ¬ ((nd.i0 ≤ i ∧ i < nd.i0 + length nd) ∧
          (nd2.i0 ≤ i ∧ i < nd2.i0 + length nd2))) :=
  leaf_ranges_partition pointBound halfSplit 1 100 3 [3, 1, 2] halfSplit_contract
    (by decide) (by decide)

theorem recursive_build_terminates (bound : P → Aabb T N)
    (split : List P → Nat → Nat → Option (List P × Nat)) (threshold : Int) (MAX : T)
    (hs : SplitIndexContract split) :
    ∀ (fuel : Nat) (self : Bvh P T N) (biter eiter curr : Nat) (depth : Int),
      biter < eiter → eiter ≤ self.mPrimitives.length → curr < self.mNodes.length →
      eiter - biter ≤ fuel →
      ∃ s, recursive_build bound split threshold MAX fuel self biter eiter curr depth = some s ∧
        s.mPrimitives.length = self.mPrimitives.length ∧
        self.mNodes.length ≤ s.mNodes.length := by
  intro fuel
  induction fuel with
  | zero => intro self b e curr depth hbe _ _ hf; omega
  | succ fuel ih =>
    intro self b e curr depth hbe he hcl hf
    obtain ⟨prims, piter, hsp, hlen, hbp, hpe⟩ :
        ∃ prims piter, (if ((e : Int) - (b : Int)) > threshold then split self.mPrimitives b e
            else some (self.mPrimitives, e)) = some (prims, piter) ∧
          prims.length = self.mPrimitives.length ∧ b ≤ piter ∧ piter ≤ e := by
      split_ifs with hn
      · exact hs self.mPrimitives b e hbe he
      · exact ⟨_, _, rfl, rfl, hbe.le, le_refl _⟩
    obtain ⟨nd0, hnd0⟩ : ∃ nd0, self.mNodes[curr]? = some nd0 :=
      ⟨_, List.getElem?_eq_getElem hcl⟩
    rw [recursive_build]
    simp only [hsp]
    by_cases hleaf : piter = b ∨ piter = e
    · rw [if_pos hleaf, if_pos ⟨hbe.le, by omega⟩, modifyNode_eq hnd0]
      exact ⟨_, rfl, hlen, by simp⟩
    · rw [if_neg hleaf]
      have hbp2 : b < piter := by
        rcases Nat.lt_or_ge b piter with h | h
        · exact h
        · exact absurd (Or.inl (by omega)) hleaf
      have hpe2 : piter < e := by
        rcases Nat.lt_or_ge piter e with h | h
        · exact h
        · exact absurd (Or.inr (by omega)) hleaf
      rw [modifyNode_eq hnd0, Option.some_bind]
      rw [modifyNode_eq (List.getElem?_set_self hcl), Option.some_bind]
      simp only [List.length_set, List.set_set]
      obtain ⟨s1, hs1, hl1, hn1⟩ := ih
        { mPrimitives := prims,
          mNodes := self.mNodes.set curr
            { b := make_aabb MAX, i0 := (self.mNodes.length : Int), i1 := nd0.i1 }
              ++ [BvhNode.fresh] }
        b piter self.mNodes.length (depth + 1) hbp2 (by simp only; omega) (by simp) (by omega)
      simp only [List.length_append, List.length_set, List.length_singleton] at hl1 hn1
      rw [hs1, Option.some_bind]
      obtain ⟨ndL, hndL⟩ : ∃ ndL, s1.mNodes[self.mNodes.length]? = some ndL :=
        ⟨_, List.getElem?_eq_getElem (by omega)⟩
      have hcl1 : curr < s1.mNodes.length := by omega
      obtain ⟨nd1, hnd1⟩ : ∃ nd1, s1.mNodes[curr]? = some nd1 :=
        ⟨_, List.getElem?_eq_getElem hcl1⟩
      rw [hndL, Option.some_bind, modifyNode_eq hnd1, Option.some_bind,
        modifyNode_eq (List.getElem?_set_self hcl1), Option.some_bind]
      simp only [List.length_set, List.set_set]
      obtain ⟨s2, hs2, hl2, hn2⟩ := ih
        { mPrimitives := s1.mPrimitives,
          mNodes := s1.mNodes.set curr
            { b := merge nd1.b ndL.b, i0 := nd1.i0, i1 := (s1.mNodes.length : Int) }
              ++ [BvhNode.fresh] }
        piter e s1.mNodes.length (depth + 1) hpe2 (by simp only; omega) (by simp) (by omega)
      simp only [List.length_append, List.length_set, List.length_singleton] at hl2 hn2
      rw [hs2, Option.some_bind]
      obtain ⟨ndR, hndR⟩ : ∃ ndR, s2.mNodes[s1.mNodes.length]? = some ndR :=
        ⟨_, List.getElem?_eq_getElem (by omega)⟩
      obtain ⟨nd2, hnd2⟩ : ∃ nd2, s2.mNodes[curr]? = some nd2 :=
        ⟨_, List.getElem?_eq_getElem (by omega)⟩
      rw [hndR, Option.some_bind, modifyNode_eq hnd2, Option.map_some']
      exact ⟨_, rfl, by simp only; omega, by simp only [List.length_set]; omega⟩

/-- C9: for every threshold (also `threshold <= 0`), every tree, every non-empty primitive
sequence and every split callback that returns a position in `[begin, end]` (and does not
resize the vector), the build returns: a fuel equal to the number of primitives is enough,
since each recursive call is on a non-empty range strictly shorter than its parent's. -/
theorem build_terminates (bound : P → Aabb T N)
    (split : List P → Nat → Nat → Option (List P × Nat)) (threshold : Int) (MAX : T)
    (self : Bvh P T N) (prims : List P) (fuel : Nat) (hs : SplitIndexContract split)
    (hne : prims ≠ []) (hf : prims.length ≤ fuel) :
    ∃ s, build bound split threshold MAX fuel self prims = some (s, self.mPrimitives) := by
  have hpos : 0 < prims.length := List.length_pos.mpr hne
  obtain ⟨s, h1, _, _⟩ := recursive_build_terminates bound split threshold MAX hs fuel
    { mPrimitives := prims, mNodes := self.mNodes ++ [BvhNode.fresh] } 0 prims.length 0 0 hpos
    (le_refl _) (by simp) (by omega)
  refine ⟨s, ?_⟩
  unfold build
  have : prims.isEmpty = false := by
    cases prims with
    | nil => exact absurd rfl hne
    | cons a l => rfl
  simp only [this]
  rw [if_neg (by simp), h1]
  rfl

/-- The theorem `build_terminates` at the threshold -5 and three points of a line. -/
theorem build_terminates_witness :
    ∃ s, build pointBound halfSplit (-5) 100 3 (Bvh.empty : Bvh Int Int 1) [3, 1, 2]
      = some (s, (Bvh.empty : Bvh Int Int 1).mPrimitives) :=
  build_terminates pointBound halfSplit (-5) 100 Bvh.empty [3, 1, 2] 3
    halfSplit_contract.index (by decide) (by decide)

end BuildTheorems

section ReduceFacts

variable {T : Type} [LinearOrder T] {N : Nat}

theorem foldl_stdMax_le_iff {α : Type} (f : α → T) (l : List α) (r t : T) :
    l.foldl (fun r i => stdMax r (f i)) r ≤ t ↔ r ≤ t ∧ ∀ i ∈ l, f i ≤ t := by
  induction l generalizing r with
  | nil => simp
  | cons a l ih =>
    rw [List.foldl_cons, ih, stdMax_eq_max, max_le_iff]
    simp only [List.mem_cons, forall_eq_or_imp]
    tauto

theorem le_foldl_stdMin_iff {α : Type} (f : α → T) (l : List α) (r t : T) :
    t ≤ l.foldl (fun r i => stdMin r (f i)) r ↔ t ≤ r ∧ ∀ i ∈ l, t ≤ f i := by
  induction l generalizing r with
  | nil => simp
  | cons a l ih =>
    rw [List.foldl_cons, ih, stdMin_eq_min, le_min_iff]
    simp only [List.mem_cons, forall_eq_or_imp]
    tauto

theorem vmaxr_le_iff [NeZero N] (p : VectorN T N) (t : T) : vmaxr p ≤ t ↔ ∀ i, p i ≤ t := by
  unfold vmaxr
  rw [foldl_stdMax_le_iff]
  constructor
  · intro h i; exact h.2 i (List.mem_finRange i)
  · intro h; exact ⟨h 0, fun i _ => h i⟩

theorem le_vminr_iff [NeZero N] (p : VectorN T N) (t : T) : t ≤ vminr p ↔ ∀ i, t ≤ p i := by
  unfold vminr
  rw [le_foldl_stdMin_iff]
  constructor
  · intro h i; exact h.2 i (List.mem_finRange i)
  · intro h; exact ⟨h 0, fun i _ => h i⟩

end ReduceFacts

section SlabFacts

variable {T : Type} [LinearOrderedField T] {N : Nat} [NeZero N]

/-- The slab test accepts a box that holds a point `org + t * dir` of the ray with
`0 < t < dist`, when no component of the direction is zero. -/
theorem slab_of_point_inside (b : Aabb T N) (org dir : VectorN T N) (dist t : T)
    (hdir : ∀ i, dir i ≠ 0) (ht0 : 0 < t) (htd : t < dist)
    (hin : ∀ i, b.p0 i ≤ org i + t * dir i ∧ org i + t * dir i ≤ b.p1 i) :
    is_intersecting_inv b org (fun i => (make_vector 1 : VectorN T N) i / dir i) dist
      = true := by
  have hlo : vmaxr (vmin (fun i => (b.p0 i - org i) * ((make_vector 1 : VectorN T N) i / dir i))
      (fun i => (b.p1 i - org i) * ((make_vector 1 : VectorN T N) i / dir i))) ≤ t := by
    rw [vmaxr_le_iff]
    intro i
    simp only [vmin, stdMin_eq_min, make_vector_apply, mul_one_div, min_le_iff]
    rcases lt_or_gt_of_ne (hdir i) with hd | hd
    · right
      rw [div_le_iff_of_neg hd]
      linarith [(hin i).2]
    · left
      rw [div_le_iff₀ hd]
      linarith [(hin i).1]
  have hhi : t ≤ vminr (vmax (fun i => (b.p0 i - org i) * ((make_vector 1 : VectorN T N) i / dir i))
      (fun i => (b.p1 i - org i) * ((make_vector 1 : VectorN T N) i / dir i))) := by
    rw [le_vminr_iff]
    intro i
    simp only [vmax, stdMax_eq_max, make_vector_apply, mul_one_div, le_max_iff]
    rcases lt_or_gt_of_ne (hdir i) with hd | hd
    · left
      rw [le_div_iff_of_neg hd]
      linarith [(hin i).1]
    · right
      rw [le_div_iff₀ hd]
      linarith [(hin i).2]
  unfold is_intersecting_inv
  simp only [Bool.and_eq_true, decide_eq_true_eq]
  exact ⟨⟨lt_of_lt_of_le ht0 hhi, le_trans hlo hhi⟩, lt_of_le_of_lt hlo htd⟩

end SlabFacts

section IntersectFacts

variable {P T S : Type} [LinearOrderedField T] {N : Nat} [NeZero N]

omit [NeZero N] in
theorem collideLeaf_spec (collide : P → VectorN T N → VectorN T N → T → S → Bool × T × S)
    (org dir : VectorN T N) (R : Bool × T × S → Bool × T × S → Prop)
    (hrefl : ∀ a, R a a) (htrans : ∀ a b c, R a b → R b c → R a c)
    (hmono : ∀ a b, R a b → b.2.1 ≤ a.2.1) (targets : P → T → Prop)
    (htar : ∀ p t, targets p t → ∀ d s, t < d → (collide p org dir d s).2.1 ≤ t)
    (l : List P)
    (hstep : ∀ p ∈ l, ∀ hit d s, R (hit, d, s)
      (if (collide p org dir d s).1 then true else hit, (collide p org dir d s).2.1,
        (collide p org dir d s).2.2)) :
    ∀ hit d s, R (hit, d, s) (collideLeaf collide org dir l hit d s) ∧
      ∀ p t, targets p t → p ∈ l → t < d →
        (collideLeaf collide org dir l hit d s).2.1 ≤ t := by
  induction l with
  | nil =>
    intro hit d s
    exact ⟨hrefl _, fun p t _ hp => absurd hp (List.not_mem_nil p)⟩
  | cons q l ih =>
    intro hit d s
    have ih2 := ih (fun p hp => hstep p (List.mem_cons_of_mem q hp))
      (if (collide q org dir d s).1 then true else hit) (collide q org dir d s).2.1
      (collide q org dir d s).2.2
    have hq := hstep q (List.mem_cons_self q l) hit d s
    have hm := hmono _ _ ih2.1
    simp only at hm
    refine ⟨htrans _ _ _ hq ih2.1, ?_⟩
    intro p t hpt hp htd
    show (collideLeaf collide org dir l _ _ _).2.1 ≤ t
    rcases List.mem_cons.mp hp with rfl | hpl
    · exact le_trans hm (htar p t hpt d s htd)
    · rcases lt_or_le t (collide q org dir d s).2.1 with h | h
      · exact ih2.2 p t hpt hpl h
      · exact le_trans hm h

omit [NeZero N] in
theorem HitMono.refl_hit (a : Bool × T × S) : HitMono a a :=
  ⟨le_refl _, fun h => h, fun h => absurd h (lt_irrefl _)⟩

omit [NeZero N] in
theorem HitMono.trans_hit {a b c : Bool × T × S} (hab : HitMono a b) (hbc : HitMono b c) :
    HitMono a c := by
  refine ⟨le_trans hbc.1 hab.1, fun h => hbc.2.1 (hab.2.1 h), fun h => ?_⟩
  rcases lt_or_le c.2.1 b.2.1 with h2 | h2
  · exact hbc.2.2 h2
  · exact hbc.2.1 (hab.2.2 (lt_of_le_of_lt h2 h))

omit [NeZero N] in
theorem HitMono.step_hit (collide : P → VectorN T N → VectorN T N → T → S → Bool × T × S)
    (org dir : VectorN T N) (q : P) (hit : Bool) (d : T) (s : S)
    (hcol : (collide q org dir d s).2.1 ≤ d ∧
      ((collide q org dir d s).1 = false → (collide q org dir d s).2.1 = d)) :
    HitMono (hit, d, s)
      (if (collide q org dir d s).1 then true else hit, (collide q org dir d s).2.1,
        (collide q org dir d s).2.2) := by
  refine ⟨hcol.1, fun h => ?_, fun h => ?_⟩
  · simp only at h; simp [h]
  · simp only at h
    cases hc : (collide q org dir d s).1 with
    | true => simp
    | false => exact absurd (hcol.2 hc) (ne_of_lt h)

omit [NeZero N] in
theorem is_inside_iff (b : Aabb T N) (v : VectorN T N) :
    is_inside b v = true ↔ ∀ i, b.p0 i ≤ v i ∧ v i ≤ b.p1 i := by
  unfold is_inside
  rw [Bool.and_eq_true, vle_iff, vle_iff]
  exact ⟨fun h i => ⟨h.1 i, h.2 i⟩, fun h => ⟨fun i => (h i).1, fun i => (h i).2⟩⟩

end IntersectFacts

section NearestFacts

variable {P T : Type} [LinearOrderedRing T] {N : Nat}

theorem nearestCollide_mono (rayDist : P → VectorN T N → VectorN T N → Option T) (q : P)
    (org dir : VectorN T N) (d : T) (s : Option P) :
    (nearestCollide rayDist q org dir d s).2.1 ≤ d ∧
      ((nearestCollide rayDist q org dir d s).1 = false →
        (nearestCollide rayDist q org dir d s).2.1 = d) := by
  unfold nearestCollide
  cases rayDist q org dir with
  | none => simp
  | some t =>
    by_cases h : t < d
    · simp [h, h.le]
    · simp [h]

theorem nearestCollide_hit (rayDist : P → VectorN T N → VectorN T N → Option T) (p : P)
    (org dir : VectorN T N) (t : T) (hp : rayDist p org dir = some t) (d : T) (s : Option P)
    (htd : t < d) : (nearestCollide rayDist p org dir d s).2.1 ≤ t := by
  unfold nearestCollide
  rw [hp]
  simp [htd]

omit [LinearOrderedRing T] in
theorem linearScan_eq_collideLeaf {S : Type}
    (collide : P → VectorN T N → VectorN T N → T → S → Bool × T × S)
    (org dir : VectorN T N) (prims : List P) (dist : T) (s : S) :
    linearScan collide org dir prims dist s = collideLeaf collide org dir prims false dist s := by
  unfold linearScan
  generalize false = hit
  induction prims generalizing hit dist s with
  | nil => rfl
  | cons p ps ih =>
    rw [List.foldl_cons, collideLeaf]
    simp only
    rw [ih]
    cases (collide p org dir dist s).1 <;> simp

theorem NearestRel.refl_nearest (rayDist : P → VectorN T N → VectorN T N → Option T)
    (org dir : VectorN T N) (prims : List P) (a : Bool × T × Option P) :
    NearestRel rayDist org dir prims a a :=
  ⟨le_refl _, fun _ => rfl, fun h => absurd h (lt_irrefl _)⟩

theorem NearestRel.trans_nearest {rayDist : P → VectorN T N → VectorN T N → Option T}
    {org dir : VectorN T N} {prims : List P} {a b c : Bool × T × Option P}
    (hab : NearestRel rayDist org dir prims a b) (hbc : NearestRel rayDist org dir prims b c) :
    NearestRel rayDist org dir prims a c := by
  refine ⟨le_trans hbc.1 hab.1, fun h => ?_, fun h => ?_⟩
  · have h1 : b.2.1 = a.2.1 := le_antisymm hab.1 (h ▸ hbc.1)
    have h2 : c.2.1 = b.2.1 := h.trans h1.symm
    rw [hbc.2.1 h2, hab.2.1 h1]
  · rcases lt_or_eq_of_le hbc.1 with h2 | h2
    · exact hbc.2.2 h2
    · rw [hbc.2.1 h2]
      rw [h2] at h
      exact hab.2.2 h

theorem NearestRel.step_nearest (rayDist : P → VectorN T N → VectorN T N → Option T)
    (org dir : VectorN T N) (prims : List P) (p : P) (hp : p ∈ prims) (hit : Bool) (d : T)
    (s : Option P) :
    NearestRel rayDist org dir prims (hit, d, s)
      (if (nearestCollide rayDist p org dir d s).1 then true else hit,
        (nearestCollide rayDist p org dir d s).2.1,
        (nearestCollide rayDist p org dir d s).2.2) := by
  unfold nearestCollide
  cases hr : rayDist p org dir with
  | none => simpa using NearestRel.refl_nearest rayDist org dir prims (hit, d, s)
  | some t =>
    by_cases h : t < d
    · simp only [h, if_true]
      exact ⟨h.le, fun h2 => absurd h2 (ne_of_lt h), fun _ => ⟨rfl, p, hp, rfl, hr⟩⟩
    · simpa [h] using NearestRel.refl_nearest rayDist org dir prims (hit, d, s)

/-- Two final states that are both related to the same initial state and both at most every
ray-primitive distance below the initial distance: the results and distances agree, and so
do the hit-ids when only one primitive is at that distance. -/
theorem NearestRel.unique {rayDist : P → VectorN T N → VectorN T N → Option T}
    {org dir : VectorN T N} {prims : List P} {a0 a b : Bool × T × Option P}
    (ha : NearestRel rayDist org dir prims a0 a) (hb : NearestRel rayDist org dir prims a0 b)
    (hta : ∀ p ∈ prims, ∀ t, rayDist p org dir = some t → t < a0.2.1 → a.2.1 ≤ t)
    (htb : ∀ p ∈ prims, ∀ t, rayDist p org dir = some t → t < a0.2.1 → b.2.1 ≤ t) :
    a.1 = b.1 ∧ a.2.1 = b.2.1 ∧
      ((∀ p ∈ prims, ∀ q ∈ prims, rayDist p org dir = some a.2.1 →
        rayDist q org dir = some a.2.1 → p = q) → a.2.2 = b.2.2) := by
  have hd : a.2.1 = b.2.1 := by
    apply le_antisymm
    · rcases lt_or_eq_of_le hb.1 with h | h
      · obtain ⟨_, p, hp, _, hr⟩ := hb.2.2 h
        exact hta p hp _ hr h
      · rw [h]; exact ha.1
    · rcases lt_or_eq_of_le ha.1 with h | h
      · obtain ⟨_, p, hp, _, hr⟩ := ha.2.2 h
        exact htb p hp _ hr h
      · rw [h]; exact hb.1
  rcases lt_or_eq_of_le ha.1 with h | h
  · obtain ⟨h1, p, hp, hi, hr⟩ := ha.2.2 h
    obtain ⟨h2, q, hq, hj, hs⟩ := hb.2.2 (hd ▸ h)
    refine ⟨h1.trans h2.symm, hd, fun hu => ?_⟩
    rw [hi, hj, hu p hp q hq hr (hd ▸ hs)]
  · have e1 := ha.2.1 h
    have e2 := hb.2.1 (hd.symm.trans h)
    rw [e1, e2]
    exact ⟨rfl, rfl, fun _ => rfl⟩

end NearestFacts

section SearchFacts

variable {P T : Type} [LinearOrderedRing T] {N : Nat}

theorem is_intersecting_iff (b_0 b_1 : Aabb T N) :
    is_intersecting b_0 b_1 = true ↔
      (∀ i, b_0.p0 i ≤ b_1.p1 i) ∧ (∀ i, b_1.p0 i ≤ b_0.p1 i) := by
  unfold is_intersecting
  rw [Bool.and_eq_true, vle_iff, vle_iff]

theorem searchLeaf_overlapQuery (Q : Aabb T N) (test : P → Bool) (l : List P) :
    ∀ (hit : Bool) (log : List P),
      (searchLeaf (overlapQuery Q test) l hit log).2 = log ++ l := by
  induction l with
  | nil => intro hit log; simp [searchLeaf]
  | cons p l ih =>
    intro hit log
    rw [searchLeaf]
    simp only [overlapQuery] at ih ⊢
    rw [ih]
    simp

/-- Popping the root `k` of a subtree in `search` with the query `overlapQuery Q test`: the
loop goes on with the rest of the stack after at most `hi - k` pops, the log has only grown,
and it holds every primitive of the subtree whose box overlaps `Q`. -/
theorem searchLoop_subtree (bound : P → Aabb T N) (MAX : T) (self : Bvh P T N)
    (Q : Aabb T N) (test : P → Bool) {k hi b e : Nat}
    (h : Subtree bound MAX self.mNodes self.mPrimitives k hi b e) :
    ∀ (rest : List Int) (hit : Bool) (log : List P),
      ∃ (c : Nat) (a : Bool × List P), c ≤ hi - k ∧
        (∀ F res, searchLoop (overlapQuery Q test) self F rest a.1 a.2 = some res →
          searchLoop (overlapQuery Q test) self (F + c) ((k : Int) :: rest) hit log
            = some res) ∧
        (∀ x ∈ log, x ∈ a.2) ∧
        ∀ p ∈ slice self.mPrimitives b e, is_intersecting (bound p) Q = true → p ∈ a.2 := by
  have hbox : ∀ (nd : BvhNode T N) (b e : Nat),
      nd.b = rangeBox bound MAX self.mPrimitives b e →
      is_intersecting nd.b Q ≠ true →
      ∀ p ∈ slice self.mPrimitives b e, is_intersecting (bound p) Q = true → False := by
    intro nd b e hb hno p hp hq
    apply hno
    rw [is_intersecting_iff] at hq ⊢
    rw [hb]
    exact ⟨fun i => le_trans (rangeBox_encloses bound MAX _ b e p hp i).1 (hq.1 i),
      fun i => le_trans (hq.2 i) (rangeBox_encloses bound MAX _ b e p hp i).2⟩
  induction h with
  | leaf k b e nd hk hbe he h0 h1 hb =>
    intro rest hit log
    have hnode : nodeAt self.mNodes (k : Int) = some nd := by rw [nodeAt_natCast]; exact hk
    have hleaf : is_leaf nd = true := by simp [is_leaf, h1]; omega
    have hlp : leafPrims self.mPrimitives nd.i0 (nd.i0 + length nd)
        = some (slice self.mPrimitives b e) := by
      have e1 : nd.i0 + length nd = (e : Int) := by rw [h0, length, h1]; omega
      rw [e1, h0]
      unfold leafPrims
      rw [if_neg (by omega), if_pos ⟨by omega, by omega⟩]
      simp
    by_cases hs : is_intersecting nd.b Q = true
    · refine ⟨1, searchLeaf (overlapQuery Q test) (slice self.mPrimitives b e) hit log,
        by omega, ?_, ?_, ?_⟩
      · intro F res hres
        rw [searchLoop]
        simp only [hnode, hleaf, hlp, if_true]
        have : ((overlapQuery Q test).onBox nd.b log) = (true, log) := by
          simp [overlapQuery, hs]
        simp only [this, if_true]
        exact hres
      · intro x hx
        rw [searchLeaf_overlapQuery]
        exact List.mem_append_left _ hx
      · intro p hp _
        rw [searchLeaf_overlapQuery]
        exact List.mem_append_right _ hp
    · refine ⟨1, (hit, log), by omega, ?_, fun x hx => hx, ?_⟩
      · intro F res hres
        rw [searchLoop]
        have : ((overlapQuery Q test).onBox nd.b log) = (false, log) := by
          simp [overlapQuery, hs]
        simp only [hnode, this]
        exact hres
      · intro p hp hq
        exact absurd (hbox nd b e hb hs p hp hq) id
  | inner k r hi b m e nd hk h0 h1 hb hl hr ihl ihr =>
    intro rest hit log
    have bl := hl.bounds
    have br := hr.bounds
    have hnode : nodeAt self.mNodes (k : Int) = some nd := by rw [nodeAt_natCast]; exact hk
    have hleaf : is_leaf nd = false := by simp [is_leaf, h1]
    by_cases hs : is_intersecting nd.b Q = true
    · obtain ⟨c1, a1, hc1, k1, m1, t1⟩ := ihl ((r : Int) :: rest) hit log
      obtain ⟨c2, a2, hc2, k2, m2, t2⟩ := ihr rest a1.1 a1.2
      refine ⟨c1 + c2 + 1, a2, by omega, ?_, fun x hx => m2 x (m1 x hx), ?_⟩
      · intro F res hres
        have e1 : F + (c1 + c2 + 1) = (F + c2 + c1) + 1 := by omega
        rw [e1, searchLoop]
        have : ((overlapQuery Q test).onBox nd.b log) = (true, log) := by
          simp [overlapQuery, hs]
        simp only [hnode, hleaf, this, if_true, h0, h1]
        exact k1 _ _ (k2 _ _ hres)
      · intro p hp hq
        rw [slice_append self.mPrimitives bl.2.2.1.le br.2.2.1.le, List.mem_append] at hp
        rcases hp with hp | hp
        · exact m2 p (t1 p hp hq)
        · exact t2 p hp hq
    · refine ⟨1, (hit, log), by omega, ?_, fun x hx => hx, ?_⟩
      · intro F res hres
        rw [searchLoop]
        have : ((overlapQuery Q test).onBox nd.b log) = (false, log) := by
          simp [overlapQuery, hs]
        simp only [hnode, this]
        exact hres
      · intro p hp hq
        exact absurd (hbox nd b e hb hs p hp hq) id

/-- C6: range-search completeness. On a tree built on a default-constructed `Bvh` (with a
split callback that keeps its contract), for every query box `Q` and every primitive test,
`search` with the query whose arm on boxes is `is_intersecting(box, Q)` returns, and it has
called the arm on primitives on every primitive `p` whose `bound p` overlaps `Q`. -/
theorem search_visits_overlapping (bound : P → Aabb T N)
    (split : List P → Nat → Nat → Option (List P × Nat)) (threshold : Int) (MAX : T)
    (fuel : Nat) (prims : List P) (hs : SplitContract split) (hf : prims.length ≤ fuel)
    (Q : Aabb T N) (test : P → Bool) :
    ∃ s, build bound split threshold MAX fuel Bvh.empty prims = some (s, []) ∧
      ∀ fuel2, s.mNodes.length ≤ fuel2 →
        ∃ hit log, search (overlapQuery Q test) fuel2 s [] = some (hit, log) ∧
          ∀ p ∈ prims, is_intersecting (bound p) Q = true → p ∈ log := by
  by_cases hne : prims = []
  · subst hne
    exact ⟨Bvh.empty, rfl, fun fuel2 _ =>
      ⟨false, [], rfl, fun p hp => absurd hp (List.not_mem_nil p)⟩⟩
  obtain ⟨s, h1, h2, h3⟩ := build_fresh_spec bound split threshold MAX hs fuel prims hne hf
  refine ⟨s, h1, ?_⟩
  intro fuel2 hf2
  obtain ⟨c, a, hc, hk, _, ht⟩ := searchLoop_subtree bound MAX s Q test h3 [] false []
  have hb := h3.bounds
  have hne2 : s.mNodes.isEmpty = false := by
    cases hn : s.mNodes with
    | nil => rw [hn] at hb; simp at hb
    | cons x l => rfl
  refine ⟨a.1, a.2, ?_, ?_⟩
  · unfold search
    rw [hne2]
    simp only [Bool.false_eq_true, if_false]
    have h4 := hk (fuel2 - c) a (by rw [searchLoop])
    have e1 : fuel2 - c + c = fuel2 := by omega
    rw [e1] at h4
    simpa using h4
  · intro p hp hq
    apply ht p _ hq
    rw [← h2.1, slice_zero_length]
    exact h2.perm.symm.subset hp

/-- The theorem `search_visits_overlapping` at three points of a line and the query box
that is the point 2. -/
theorem search_visits_overlapping_witness :
    ∃ s, build pointBound halfSplit 1 (100 : Int) 3 Bvh.empty [3, 1, 2] = some (s, []) ∧
      ∀ fuel2, s.mNodes.length ≤ fuel2 →
        ∃ hit log, search (overlapQuery (make_aabb_point (fun _ => 2)) (fun _ => true))
            fuel2 s [] = some (hit, log) ∧
          ∀ p ∈ [3, 1, 2],
            is_intersecting (pointBound p) (make_aabb_point (fun _ => 2)) = true → p ∈ log :=
  search_visits_overlapping pointBound halfSplit 1 (100 : Int) 3 [3, 1, 2] halfSplit_contract
    (by decide) (make_aabb_point (fun _ => 2)) (fun _ => true)

end SearchFacts

section EmptyAndRebuild

variable {P T : Type} [LinearOrderedRing T] {N : Nat}

/-- C7: the move overload of `build` with an empty vector on a default-constructed `Bvh`
returns and leaves the tree empty: `is_empty()` is true, `mNodes` and `mPrimitives` are
empty, `aabb()` is `make_aabb()` (low corner `+MAX`, high corner `-MAX`), and `intersect`
and `search` return false for every callback, with `dist` and the state of the callback
unchanged (no callback has run), whatever the fuel. -/
theorem build_empty_leaves_tree_empty [Div T] [NeZero N] (bound : P → Aabb T N)
    (split : List P → Nat → Nat → Option (List P × Nat)) (threshold : Int) (MAX : T)
    (fuel : Nat) :
    ∃ s : Bvh P T N, build bound split threshold MAX fuel Bvh.empty [] = some (s, []) ∧
      s.is_empty = true ∧ s.mNodes = [] ∧ s.mPrimitives = [] ∧
      s.aabb MAX = make_aabb MAX ∧
      (∀ i, (s.aabb MAX).p0 i = MAX ∧ (s.aabb MAX).p1 i = -MAX) ∧
      (∀ (S : Type) (collide : P → VectorN T N → VectorN T N → T → S → Bool × T × S)
        (fuel2 : Nat) (org dir : VectorN T N) (dist : T) (s0 : S),
        intersect collide fuel2 s org dir dist s0 = some (false, dist, s0)) ∧
      (∀ (S : Type) (query : RangeQuery P T N S) (fuel2 : Nat) (s0 : S),
        search query fuel2 s s0 = some (false, s0)) := by
  refine ⟨Bvh.empty, rfl, rfl, rfl, rfl, rfl, ?_, ?_, ?_⟩
  · intro i
    simp [Bvh.aabb, Bvh.empty, make_aabb]
  · intro S collide fuel2 org dir dist s0
    rfl
  · intro S query fuel2 s0
    rfl

/-- The theorem `build_empty_leaves_tree_empty` in one dimension over `Int`. -/
theorem build_empty_leaves_tree_empty_witness :
    ∃ s : Bvh Int Int 1, build pointBound halfSplit 1 (100 : Int) 0 Bvh.empty [] = some (s, []) ∧
      s.is_empty = true ∧ s.mNodes = [] ∧ s.mPrimitives = [] ∧
      s.aabb (100 : Int) = make_aabb 100 ∧
      (∀ i, (s.aabb (100 : Int)).p0 i = 100 ∧ (s.aabb (100 : Int)).p1 i = -100) ∧
      (∀ (S : Type) (collide : Int → VectorN Int 1 → VectorN Int 1 → Int → S → Bool × Int × S)
        (fuel2 : Nat) (org dir : VectorN Int 1) (dist : Int) (s0 : S),
        intersect collide fuel2 s org dir dist s0 = some (false, dist, s0)) ∧
      (∀ (S : Type) (query : RangeQuery Int Int 1 S) (fuel2 : Nat) (s0 : S),
        search query fuel2 s s0 = some (false, s0)) :=
  build_empty_leaves_tree_empty pointBound halfSplit 1 (100 : Int) 0

omit [LinearOrderedRing T] in
theorem modifyNode_some {nodes r : List (BvhNode T N)} {k : Nat}
    {f : BvhNode T N → BvhNode T N} (h : modifyNode nodes k f = some r) :
    k < nodes.length ∧ r.length = nodes.length := by
  unfold modifyNode at h
  cases hk : nodes[k]? with
  | none => rw [hk] at h; exact absurd h (by simp)
  | some nd =>
    rw [hk] at h
    simp only [Option.some.injEq] at h
    subst h
    exact ⟨(List.getElem?_eq_some.mp hk).1, List.length_set _ _ _⟩

omit [LinearOrderedRing T] in
theorem modifyNode_isSome {nodes : List (BvhNode T N)} {k : Nat} (hk : k < nodes.length)
    (f : BvhNode T N → BvhNode T N) :
    ∃ r, modifyNode nodes k f = some r ∧ r.length = nodes.length :=
  ⟨_, modifyNode_eq (List.getElem?_eq_getElem hk) f, List.length_set _ _ _⟩

/-- The primitives that `recursive_build` leaves, and the number of nodes it appends, do not
depend on the node array it starts from nor on the node it is asked to fill. -/
theorem recursive_build_nodes_irrelevant (bound : P → Aabb T N)
    (split : List P → Nat → Nat → Option (List P × Nat)) (threshold : Int) (MAX : T) :
    ∀ (fuel : Nat) (A B : Bvh P T N) (b e cA cB : Nat) (depth : Int) (A2 : Bvh P T N),
      A.mPrimitives = B.mPrimitives → cB < B.mNodes.length →
      recursive_build bound split threshold MAX fuel A b e cA depth = some A2 →
      ∃ B2, recursive_build bound split threshold MAX fuel B b e cB depth = some B2 ∧
        B2.mPrimitives = A2.mPrimitives ∧
        B2.mNodes.length + A.mNodes.length = A2.mNodes.length + B.mNodes.length ∧
        A.mNodes.length ≤ A2.mNodes.length := by
  intro fuel
  induction fuel with
  | zero =>
    intro A B b e cA cB depth A2 _ _ hA
    rw [recursive_build] at hA
    exact absurd hA (by simp)
  | succ fuel ih =>
    intro A B b e cA cB depth A2 hAB hcB hA
    rw [recursive_build] at hA ⊢
    simp only at hA ⊢
    rw [← hAB]
    cases hsp : (if ((e : Int) - (b : Int)) > threshold then split A.mPrimitives b e
        else some (A.mPrimitives, e)) with
    | none => rw [hsp] at hA; exact absurd hA (by simp)
    | some r =>
      obtain ⟨prims, piter⟩ := r
      rw [hsp] at hA
      simp only at hA ⊢
      by_cases hleaf : piter = b ∨ piter = e
      · rw [if_pos hleaf] at hA ⊢
        by_cases hrange : b ≤ e ∧ e ≤ prims.length
        · rw [if_pos hrange] at hA ⊢
          obtain ⟨nodes, hm, hA2⟩ := Option.map_eq_some'.mp hA
          obtain ⟨nodesB, hmB, hlB⟩ := modifyNode_isSome hcB
            (fun nd => { set_leaf nd (b : Int) ((e : Int) - (b : Int)) with
              b := rangeBox bound MAX prims b e })
          rw [hmB]
          subst hA2
          refine ⟨_, rfl, rfl, ?_, ?_⟩
          · simp only; rw [hlB, (modifyNode_some hm).2]; omega
          · simp only; rw [(modifyNode_some hm).2]
        · rw [if_neg hrange] at hA; exact absurd hA (by simp)
      · rw [if_neg hleaf] at hA ⊢
        obtain ⟨n1, h1, hA⟩ := Option.bind_eq_some.mp hA
        obtain ⟨n2, h2, hA⟩ := Option.bind_eq_some.mp hA
        obtain ⟨s1, h3, hA⟩ := Option.bind_eq_some.mp hA
        obtain ⟨ndL, h4, hA⟩ := Option.bind_eq_some.mp hA
        obtain ⟨n3, h5, hA⟩ := Option.bind_eq_some.mp hA
        obtain ⟨n4, h6, hA⟩ := Option.bind_eq_some.mp hA
        obtain ⟨s2, h7, hA⟩ := Option.bind_eq_some.mp hA
        obtain ⟨ndR, h8, hA⟩ := Option.bind_eq_some.mp hA
        obtain ⟨n5, h9, hA⟩ := Option.map_eq_some'.mp hA
        have l1 := (modifyNode_some h1).2
        have l2 := (modifyNode_some h2).2
        have l3 := (modifyNode_some h5).2
        have l4 := (modifyNode_some h6).2
        have l5 := (modifyNode_some h9).2
        -- the same steps from `B`
        obtain ⟨m1, g1, k1⟩ := modifyNode_isSome hcB (fun nd => { nd with b := make_aabb MAX })
        rw [g1, Option.some_bind]
        obtain ⟨m2, g2, k2⟩ := modifyNode_isSome (show cB < m1.length by omega)
          (fun nd => { nd with i0 := (m1.length : Int) })
        rw [g2, Option.some_bind]
        obtain ⟨t1, g3, p1, e1, q1⟩ := ih
          { mPrimitives := prims, mNodes := n2 ++ [BvhNode.fresh] }
          { mPrimitives := prims, mNodes := m2 ++ [BvhNode.fresh] }
          b piter n1.length m1.length (depth + 1) s1 rfl (by simp; omega) h3
        simp only [List.length_append, List.length_singleton] at e1 q1
        rw [g3, Option.some_bind]
        obtain ⟨mdL, g4⟩ : ∃ x, t1.mNodes[m1.length]? = some x :=
          ⟨_, List.getElem?_eq_getElem (by omega)⟩
        rw [g4, Option.some_bind]
        obtain ⟨m3, g5, k3⟩ := modifyNode_isSome (show cB < t1.mNodes.length by omega)
          (fun nd => { nd with b := merge nd.b mdL.b })
        rw [g5, Option.some_bind]
        obtain ⟨m4, g6, k4⟩ := modifyNode_isSome (show cB < m3.length by omega)
          (fun nd => { nd with i1 := (m3.length : Int) })
        rw [g6, Option.some_bind]
        obtain ⟨t2, g7, p2, e2, q2⟩ := ih
          { mPrimitives := s1.mPrimitives, mNodes := n4 ++ [BvhNode.fresh] }
          { mPrimitives := t1.mPrimitives, mNodes := m4 ++ [BvhNode.fresh] }
          piter e n3.length m3.length (depth + 1) s2 p1.symm (by simp; omega) h7
        simp only [List.length_append, List.length_singleton] at e2 q2
        rw [g7, Option.some_bind]
        obtain ⟨mdR, g8⟩ : ∃ x, t2.mNodes[m3.length]? = some x :=
          ⟨_, List.getElem?_eq_getElem (by omega)⟩
        rw [g8, Option.some_bind]
        obtain ⟨m5, g9, k5⟩ := modifyNode_isSome (show cB < t2.mNodes.length by omega)
          (fun nd => { nd with b := merge nd.b mdR.b })
        rw [g9, Option.map_some']
        subst hA
        refine ⟨_, rfl, p2, ?_, ?_⟩
        · simp only; omega
        · simp only; omega

/-- The move overload of `build` with a non-empty vector returns, given fuel for every
primitive, and hands the old primitive array back to the caller. -/
theorem build_returns (bound : P → Aabb T N)
    (split : List P → Nat → Nat → Option (List P × Nat)) (threshold : Int) (MAX : T)
    (self : Bvh P T N) (prims : List P) (fuel : Nat) (hs : SplitIndexContract split)
    (hne : prims ≠ []) (hf : prims.length ≤ fuel) :
    ∃ s, build bound split threshold MAX fuel self prims = some (s, self.mPrimitives) := by
  have hpos : 0 < prims.length := List.length_pos.mpr hne
  obtain ⟨s, h1, _, _⟩ := recursive_build_terminates bound split threshold MAX hs fuel
    { mPrimitives := prims, mNodes := self.mNodes ++ [BvhNode.fresh] } 0 prims.length 0 0 hpos
    (le_refl _) (by simp) (by omega)
  refine ⟨s, ?_⟩
  unfold build
  have : prims.isEmpty = false := by
    cases prims with
    | nil => exact absurd rfl hne
    | cons a l => rfl
  simp only [this]
  rw [if_neg (by simp), h1]
  rfl

/-- Whenever `recursive_build` returns, for any split callback: the node array has only
grown, and the nodes other than `curr` that were there are unchanged. -/
theorem recursive_build_nodes_frame (bound : P → Aabb T N)
    (split : List P → Nat → Nat → Option (List P × Nat)) (threshold : Int) (MAX : T) :
    ∀ (fuel : Nat) (self : Bvh P T N) (b e curr : Nat) (depth : Int) (s : Bvh P T N),
      recursive_build bound split threshold MAX fuel self b e curr depth = some s →
      self.mNodes.length ≤ s.mNodes.length ∧
      (∀ j, j < self.mNodes.length → j ≠ curr → s.mNodes[j]? = self.mNodes[j]?) := by
  intro fuel
  induction fuel with
  | zero =>
    intro self b e curr depth s h
    rw [recursive_build] at h
    exact absurd h (by simp)
  | succ fuel ih =>
    intro self b e curr depth s h
    rw [recursive_build] at h
    simp only at h
    cases hsp : (if ((e : Int) - (b : Int)) > threshold then split self.mPrimitives b e
        else some (self.mPrimitives, e)) with
    | none => rw [hsp] at h; exact absurd h (by simp)
    | some r =>
      obtain ⟨prims, piter⟩ := r
      rw [hsp] at h
      simp only at h
      by_cases hleaf : piter = b ∨ piter = e
      · rw [if_pos hleaf] at h
        split_ifs at h with hrange
        · obtain ⟨nodes, h1, h2⟩ := Option.map_eq_some'.mp h
          subst h2
          obtain ⟨nd0, hnd0, hset⟩ := modifyNode_inv h1
          subst hset
          refine ⟨by simp, ?_⟩
          intro j _ hj
          simp only
          rw [List.getElem?_set_ne (Ne.symm hj)]
      · rw [if_neg hleaf] at h
        obtain ⟨n1, g1, h⟩ := Option.bind_eq_some.mp h
        obtain ⟨n2, g2, h⟩ := Option.bind_eq_some.mp h
        obtain ⟨s1, g3, h⟩ := Option.bind_eq_some.mp h
        obtain ⟨ndL, _, h⟩ := Option.bind_eq_some.mp h
        obtain ⟨n3, g4, h⟩ := Option.bind_eq_some.mp h
        obtain ⟨n4, g5, h⟩ := Option.bind_eq_some.mp h
        obtain ⟨s2, g6, h⟩ := Option.bind_eq_some.mp h
        obtain ⟨ndR, _, h⟩ := Option.bind_eq_some.mp h
        obtain ⟨n5, g7, h⟩ := Option.map_eq_some'.mp h
        subst h
        obtain ⟨a1, ha1, e1⟩ := modifyNode_inv g1
        obtain ⟨a2, ha2, e2⟩ := modifyNode_inv g2
        obtain ⟨a3, ha3, e3⟩ := modifyNode_inv g4
        obtain ⟨a4, ha4, e4⟩ := modifyNode_inv g5
        obtain ⟨a5, ha5, e5⟩ := modifyNode_inv g7
        have l1 : n1.length = self.mNodes.length := by rw [e1, List.length_set]
        have l2 : n2.length = self.mNodes.length := by rw [e2, List.length_set, l1]
        obtain ⟨p1, p2⟩ := ih _ _ _ _ _ _ g3
        simp only [List.length_append, List.length_singleton] at p1 p2
        have l3 : n3.length = s1.mNodes.length := by rw [e3, List.length_set]
        have l4 : n4.length = s1.mNodes.length := by rw [e4, List.length_set, l3]
        obtain ⟨q1, q2⟩ := ih _ _ _ _ _ _ g6
        simp only [List.length_append, List.length_singleton] at q1 q2
        have l5 : n5.length = s2.mNodes.length := by rw [e5, List.length_set]
        refine ⟨by simp only; omega, ?_⟩
        intro j hj1 hj2
        simp only
        rw [e5, List.getElem?_set_ne (Ne.symm hj2), q2 j (by omega) (by omega),
          List.getElem?_append_left (by omega), e4, List.getElem?_set_ne (Ne.symm hj2), e3,
          List.getElem?_set_ne (Ne.symm hj2), p2 j (by omega) (by omega),
          List.getElem?_append_left (by omega), e2, List.getElem?_set_ne (Ne.symm hj2), e1,
          List.getElem?_set_ne (Ne.symm hj2)]

/-- C10 (the code at the failing input): `build` does not reset the node array. For every
`Bvh`, also one that already holds a built tree, and every non-empty primitive sequence,
the move overload of `build` returns the same primitive array as on a default-constructed
`Bvh`, but another node array: its length is the old length plus the length of the node
array of the build on a default-constructed `Bvh`, every old node other than node 0 is
still in its place, and when there were old nodes the node that `emplace_back` appended
stays as it was appended, reached from nowhere, since the new root is written to node 0. -/
theorem rebuild_keeps_old_nodes (bound : P → Aabb T N)
    (split : List P → Nat → Nat → Option (List P × Nat)) (threshold : Int) (MAX : T)
    (self : Bvh P T N) (prims : List P) (fuel : Nat) (hs : SplitIndexContract split)
    (hne : prims ≠ []) (hf : prims.length ≤ fuel) :
    ∃ s s2, build bound split threshold MAX fuel self prims = some (s, self.mPrimitives) ∧
      build bound split threshold MAX fuel Bvh.empty prims = some (s2, []) ∧
      s.mPrimitives = s2.mPrimitives ∧
      s.mNodes.length = self.mNodes.length + s2.mNodes.length ∧
      (∀ j, 1 ≤ j → j < self.mNodes.length → s.mNodes[j]? = self.mNodes[j]?) ∧
      (0 < self.mNodes.length → s.mNodes[self.mNodes.length]? = some BvhNode.fresh) := by
  obtain ⟨s2, h2⟩ := build_returns bound split threshold MAX (Bvh.empty : Bvh P T N) prims
    fuel hs hne hf
  have hemp : prims.isEmpty = false := by
    cases prims with
    | nil => exact absurd rfl hne
    | cons a l => rfl
  have h3 : recursive_build bound split threshold MAX fuel
      { mPrimitives := prims, mNodes := ([] : List (BvhNode T N)) ++ [BvhNode.fresh] }
      0 prims.length 0 0 = some s2 := by
    unfold build at h2
    simp only [hemp, Bvh.empty] at h2
    rw [if_neg (by simp)] at h2
    obtain ⟨x, hx, hx2⟩ := Option.map_eq_some'.mp h2
    rw [hx]
    congr 1
    exact (Prod.mk.inj hx2).1
  obtain ⟨s, g1, g2, g3, _⟩ := recursive_build_nodes_irrelevant bound split threshold MAX fuel
    { mPrimitives := prims, mNodes := ([] : List (BvhNode T N)) ++ [BvhNode.fresh] }
    { mPrimitives := prims, mNodes := self.mNodes ++ [BvhNode.fresh] }
    0 prims.length 0 0 0 s2 rfl (by simp) h3
  simp only [List.length_append, List.length_singleton, List.length_nil] at g3
  obtain ⟨_, f2⟩ := recursive_build_nodes_frame bound split threshold MAX fuel _ _ _ _ _ _ g1
  simp only [List.length_append, List.length_singleton] at f2
  refine ⟨s, s2, ?_, h2, g2, by omega, ?_, ?_⟩
  · unfold build
    simp only [hemp]
    rw [if_neg (by simp), g1]
    rfl
  · intro j hj1 hj2
    rw [f2 j (by omega) (by omega), List.getElem?_append_left hj2]
  · intro hpos
    rw [f2 _ (by omega) (by omega), List.getElem?_append_right (le_refl _)]
    simp

/-- The theorem `rebuild_keeps_old_nodes` at a tree that holds one node and one primitive. -/
theorem rebuild_keeps_old_nodes_witness :
    ∃ s s2, build pointBound halfSplit 1 (100 : Int) 3
        { mPrimitives := [7], mNodes := [BvhNode.fresh] } [3, 1, 2] = some (s, [7]) ∧
      build pointBound halfSplit 1 (100 : Int) 3 Bvh.empty [3, 1, 2] = some (s2, []) ∧
      s.mPrimitives = s2.mPrimitives ∧
      s.mNodes.length = ([BvhNode.fresh] : List (BvhNode Int 1)).length + s2.mNodes.length ∧
      (∀ j, 1 ≤ j → j < ([BvhNode.fresh] : List (BvhNode Int 1)).length →
        s.mNodes[j]? = ([BvhNode.fresh] : List (BvhNode Int 1))[j]?) ∧
      (0 < ([BvhNode.fresh] : List (BvhNode Int 1)).length →
        s.mNodes[([BvhNode.fresh] : List (BvhNode Int 1)).length]? = some BvhNode.fresh) :=
  rebuild_keeps_old_nodes pointBound halfSplit 1 (100 : Int)
    { mPrimitives := [7], mNodes := [BvhNode.fresh] } [3, 1, 2] 3 halfSplit_contract.index
    (by decide) (by decide)

/-- The failing input of C10. A `Bvh` built from `[3, 1, 2]` has 5 nodes; the move overload
of `build` with `[5]` on it leaves 6 nodes: node 0 is the new leaf, nodes 1 to 4 are those of
the old tree, and node 5 is the node `emplace_back` appended, still `(0, 0)`. On a
default-constructed `Bvh` the same call leaves the one leaf. Both hold the primitive array
`[5]`. The nodes are listed as `(i0, i1, lo, hi)`. -/
theorem rebuild_differs_from_fresh_build :
    ((build pointBound halfSplit 1 (100 : Int) 3 Bvh.empty [3, 1, 2]).bind
        (fun r => build pointBound halfSplit 1 (100 : Int) 1 r.1 [5])).map
        (fun r => (r.1.mNodes.map (fun nd => (nd.i0, nd.i1, nd.b.p0 0, nd.b.p1 0)),
          r.1.mPrimitives))
      = some ([(0, -1, 5, 5), (0, -1, 3, 3), (3, 4, 1, 2), (1, -1, 1, 1), (2, -1, 2, 2),
          (0, 0, 0, 0)], [5]) ∧
      (build pointBound halfSplit 1 (100 : Int) 1 Bvh.empty [5]).map
        (fun r => (r.1.mNodes.map (fun nd => (nd.i0, nd.i1, nd.b.p0 0, nd.b.p1 0)),
          r.1.mPrimitives))
      = some ([(0, -1, 5, 5)], [5]) := by
  refine ⟨?_, ?_⟩ <;> decide

end EmptyAndRebuild

section SplitFacts

variable {P T : Type} [LinearOrderedRing T] {N : Nat}

theorem refStd_permutes : (refStd : StdAlgorithms P).Permutes := by
  refine ⟨fun cmp l k => List.perm_insertionSort _ l, fun pred l => ⟨?_, ?_⟩⟩
  · exact List.filter_append_perm pred l
  · exact List.length_filter_le pred l

theorem EqualCountsSplit_frame [NeZero N] (std : StdAlgorithms P) (hstd : std.Permutes)
    (bound : P → Aabb T N) (MAX half : T) :
    SplitFrame (EqualCountsSplit std bound MAX half) := by
  intro l b e l2 m hbe he h
  unfold EqualCountsSplit at h
  rw [if_pos ⟨hbe, he⟩] at h
  simp only [Option.some.injEq, Prod.mk.injEq] at h
  obtain ⟨h1, h2⟩ := h
  subst h1 h2
  refine ⟨rangePerm_splice l _ hbe he (hstd.1 _ _ _), Nat.le_add_right _ _, ?_⟩
  have : (e - b) / 2 ≤ e - b := Nat.div_le_self _ _
  omega

theorem EqualCountsSplit_contract [NeZero N] (std : StdAlgorithms P) (hstd : std.Permutes)
    (bound : P → Aabb T N) (MAX half : T) :
    SplitContract (EqualCountsSplit std bound MAX half) := by
  intro l b e hbe he
  have h : ∃ r, EqualCountsSplit std bound MAX half l b e = some r := by
    unfold EqualCountsSplit
    rw [if_pos ⟨hbe.le, he⟩]
    exact ⟨_, rfl⟩
  obtain ⟨⟨l2, m⟩, hr⟩ := h
  exact ⟨l2, m, hr, EqualCountsSplit_frame std hstd bound MAX half l b e l2 m hbe.le he hr⟩

theorem MiddlePointSplit_frame [NeZero N] (std : StdAlgorithms P) (hstd : std.Permutes)
    (bound : P → Aabb T N) (MAX half : T) :
    SplitFrame (MiddlePointSplit std bound MAX half) := by
  intro l b e l2 m hbe he h
  unfold MiddlePointSplit at h
  rw [if_pos ⟨hbe, he⟩] at h
  simp only at h
  split_ifs at h with hdeg
  · simp only [Option.some.injEq, Prod.mk.injEq] at h
    obtain ⟨h1, h2⟩ := h
    subst h1 h2
    refine ⟨rangePerm_splice l _ hbe he ((hstd.1 _ _ _).trans (hstd.2 _ _).1),
      Nat.le_add_right _ _, ?_⟩
    have : (e - b) / 2 ≤ e - b := Nat.div_le_self _ _
    omega
  · simp only [Option.some.injEq, Prod.mk.injEq] at h
    obtain ⟨h1, h2⟩ := h
    subst h1 h2
    refine ⟨rangePerm_splice l _ hbe he (hstd.2 _ _).1, Nat.le_add_right _ _, ?_⟩
    have h3 := (hstd.2 (fun p => decide (centroid half (bound p)
      (longest_axis (rangeBox bound MAX l b e)) <
        ((rangeBox bound MAX l b e).p0 (longest_axis (rangeBox bound MAX l b e)) +
          (rangeBox bound MAX l b e).p1 (longest_axis (rangeBox bound MAX l b e))) * half))
      (slice l b e)).2
    rw [length_slice l b e he] at h3
    omega

theorem MiddlePointSplit_contract [NeZero N] (std : StdAlgorithms P) (hstd : std.Permutes)
    (bound : P → Aabb T N) (MAX half : T) :
    SplitContract (MiddlePointSplit std bound MAX half) := by
  intro l b e hbe he
  have h : ∃ r, MiddlePointSplit std bound MAX half l b e = some r := by
    unfold MiddlePointSplit
    rw [if_pos ⟨hbe.le, he⟩]
    simp only
    split_ifs <;> exact ⟨_, rfl⟩
  obtain ⟨⟨l2, m⟩, hr⟩ := h
  exact ⟨l2, m, hr, MiddlePointSplit_frame std hstd bound MAX half l b e l2 m hbe.le he hr⟩

theorem SAHSplit_frame [NeZero N] [Div T] [FloorRing T] (std : StdAlgorithms P)
    (hstd : std.Permutes) (bound : P → Aabb T N) (area : Aabb T N → T) (MAX half : T)
    (nBuckets : Nat) :
    SplitFrame (SAHSplit std bound area MAX half nBuckets) := by
  intro l b e l2 m hbe he h
  unfold SAHSplit at h
  rw [if_pos ⟨hbe, he⟩] at h
  simp only at h
  split at h
  · exact absurd h (by simp)
  · rename_i filled hfill
    split_ifs at h with hdeg
    · simp only [Option.some.injEq, Prod.mk.injEq] at h
      obtain ⟨h1, h2⟩ := h
      subst h1 h2
      refine ⟨rangePerm_splice l _ hbe he ((hstd.1 _ _ _).trans (hstd.2 _ _).1),
        Nat.le_add_right _ _, ?_⟩
      have : (e - b) / 2 ≤ e - b := Nat.div_le_self _ _
      omega
    · simp only [Option.some.injEq, Prod.mk.injEq] at h
      obtain ⟨h1, h2⟩ := h
      subst h1 h2
      refine ⟨rangePerm_splice l _ hbe he (hstd.2 _ _).1, Nat.le_add_right _ _, ?_⟩
      have h3 := (hstd.2 (fun p =>
        match sahBucket bound half nBuckets (rangeBox bound MAX l b e)
            (longest_axis (rangeBox bound MAX l b e)) p with
        | some b2 => decide (b2 ≤ ((sahSplitBucket area MAX filled.1 filled.2 nBuckets : Nat) : Int))
        | none => false)
        (slice l b e)).2
      rw [length_slice l b e he] at h3
      omega

/-- Whenever `recursive_build` returns, with a split strategy that only permutes its range,
it has only permuted the primitives at positions `[biter, eiter)`. -/
theorem recursive_build_permutes (bound : P → Aabb T N)
    (split : List P → Nat → Nat → Option (List P × Nat)) (threshold : Int) (MAX : T)
    (hs : SplitFrame split) :
    ∀ (fuel : Nat) (self : Bvh P T N) (b e curr : Nat) (depth : Int) (s : Bvh P T N),
      b ≤ e → e ≤ self.mPrimitives.length →
      recursive_build bound split threshold MAX fuel self b e curr depth = some s →
      RangePerm self.mPrimitives s.mPrimitives b e := by
  intro fuel
  induction fuel with
  | zero =>
    intro self b e curr depth s _ _ h
    rw [recursive_build] at h
    exact absurd h (by simp)
  | succ fuel ih =>
    intro self b e curr depth s hbe he h
    rw [recursive_build] at h
    simp only at h
    cases hsp : (if ((e : Int) - (b : Int)) > threshold then split self.mPrimitives b e
        else some (self.mPrimitives, e)) with
    | none => rw [hsp] at h; exact absurd h (by simp)
    | some r =>
      obtain ⟨prims, piter⟩ := r
      rw [hsp] at h
      simp only at h
      have hfr : RangePerm self.mPrimitives prims b e ∧ b ≤ piter ∧ piter ≤ e := by
        split_ifs at hsp with hn
        · exact hs _ _ _ _ _ hbe he hsp
        · simp only [Option.some.injEq, Prod.mk.injEq] at hsp
          obtain ⟨h1, h2⟩ := hsp
          subst h1 h2
          exact ⟨RangePerm.refl_range _ _ _, hbe, le_refl _⟩
      obtain ⟨hrp, hbp, hpe⟩ := hfr
      by_cases hleaf : piter = b ∨ piter = e
      · rw [if_pos hleaf] at h
        split_ifs at h with hrange
        · obtain ⟨nodes, _, h2⟩ := Option.map_eq_some'.mp h
          subst h2
          exact hrp
      · rw [if_neg hleaf] at h
        obtain ⟨n1, _, h⟩ := Option.bind_eq_some.mp h
        obtain ⟨n2, _, h⟩ := Option.bind_eq_some.mp h
        obtain ⟨s1, h3, h⟩ := Option.bind_eq_some.mp h
        obtain ⟨ndL, _, h⟩ := Option.bind_eq_some.mp h
        obtain ⟨n3, _, h⟩ := Option.bind_eq_some.mp h
        obtain ⟨n4, _, h⟩ := Option.bind_eq_some.mp h
        obtain ⟨s2, h7, h⟩ := Option.bind_eq_some.mp h
        obtain ⟨ndR, _, h⟩ := Option.bind_eq_some.mp h
        obtain ⟨n5, _, h⟩ := Option.map_eq_some'.mp h
        subst h
        have r1 := ih _ b piter _ _ s1 hbp (by simp only; rw [hrp.1]; omega) h3
        simp only at r1
        have r2 := ih _ piter e _ _ s2 hpe (by simp only; rw [r1.1, hrp.1]; omega) h7
        simp only at r2
        exact (hrp.trans_range (r1.mono (le_refl _) hbp hpe)).trans_range
          (r2.mono hbp hpe (le_refl _))

/-- Whenever the move overload of `build` returns, with a split strategy that only permutes
its range, the primitive array of the tree is a permutation of the input sequence. -/
theorem build_permutes (bound : P → Aabb T N)
    (split : List P → Nat → Nat → Option (List P × Nat)) (threshold : Int) (MAX : T)
    (hs : SplitFrame split) (fuel : Nat) (prims : List P) (s : Bvh P T N) (rest : List P)
    (h : build bound split threshold MAX fuel Bvh.empty prims = some (s, rest)) :
    s.mPrimitives.Perm prims ∧ s.mPrimitives.length = prims.length := by
  unfold build at h
  cases prims with
  | nil =>
    simp only [List.isEmpty_nil, if_true, Option.some.injEq, Prod.mk.injEq] at h
    rw [← h.1]
    exact ⟨List.Perm.refl _, rfl⟩
  | cons p ps =>
    simp only [List.isEmpty_cons, Bool.false_eq_true, if_false] at h
    obtain ⟨x, hx, hx2⟩ := Option.map_eq_some'.mp h
    have e1 : x = s := (Prod.mk.inj hx2).1
    subst e1
    have r := recursive_build_permutes bound split threshold MAX hs fuel _ 0 (p :: ps).length
      0 0 x (Nat.zero_le _) (le_refl _) hx
    simp only at r
    exact ⟨r.perm, r.1⟩

end SplitFacts

section MergeLaws

variable {T : Type} [LinearOrderedRing T] {N : Nat}

/-- C19: `merge` is commutative and associative: for all boxes `a`, `b`, `c`,
`merge(a, b) = merge(b, a)` and `merge(merge(a, b), c) = merge(a, merge(b, c))`. -/
theorem merge_comm_assoc (a b c : Aabb T N) :
    merge a b = merge b a ∧ merge (merge a b) c = merge a (merge b c) := by
  constructor
  · ext i
    · rw [merge_p0, merge_p0, min_comm]
    · rw [merge_p1, merge_p1, max_comm]
  · ext i
    · rw [merge_p0, merge_p0, merge_p0, merge_p0, min_assoc]
    · rw [merge_p1, merge_p1, merge_p1, merge_p1, max_assoc]

/-- C20 (as amended): for every box `b` whose low corner is at most `MAX` and whose high
corner is at least `-MAX` in every coordinate, `merge(make_aabb(), b) = b` and
`merge(b, make_aabb()) = b`. -/
theorem merge_make_aabb_identity (MAX : T) (b : Aabb T N)
    (h : ∀ i, b.p0 i ≤ MAX ∧ -MAX ≤ b.p1 i) :
    merge (make_aabb MAX) b = b ∧ merge b (make_aabb MAX) = b := by
  have h1 : merge (make_aabb MAX) b = b := merge_make_aabb_of_le MAX b h
  exact ⟨h1, by rw [merge_comm, h1]⟩

theorem merge_make_aabb_identity_witness :
    (∀ i : Fin 1, (pointBound 7).p0 i ≤ (2147483647 : Int) ∧
      -(2147483647 : Int) ≤ (pointBound 7).p1 i) ∧
    merge (make_aabb (2147483647 : Int)) (pointBound 7) = pointBound 7 ∧
      merge (pointBound 7) (make_aabb (2147483647 : Int)) = pointBound 7 :=
  ⟨by decide, merge_make_aabb_identity (2147483647 : Int) (pointBound 7) (by decide)⟩

/-- C20 (counterexample): with `T = int`, `MAX = 2147483647` and `b` the point box at
`-2147483648`, the high corner of `merge(make_aabb(), b)` is `-2147483647`, not the high
corner `-2147483648` of `b`. -/
theorem merge_make_aabb_not_identity :
    (merge (make_aabb (2147483647 : Int)) (pointBound (-2147483648))).p1 0 = -2147483647 ∧
    (pointBound (-2147483648)).p1 0 = -2147483648 ∧
    merge (make_aabb (2147483647 : Int)) (pointBound (-2147483648)) ≠
      pointBound (-2147483648) := by
  refine ⟨by decide, by decide, ?_⟩
  intro h
  have h2 := congrArg (fun x : Aabb Int 1 => x.p1 0) h
  revert h2
  decide

end MergeLaws

section ShapeFacts

variable {P T : Type} [LinearOrderedRing T] {N : Nat}

omit [LinearOrderedRing T] in
theorem isChild_iff (nodes : List (BvhNode T N)) (k j : Nat) :
    IsChild nodes k j ↔
      ∃ nd, nodes[k]? = some nd ∧ 0 ≤ nd.i1 ∧ (nd.i0 = (j : Int) ∨ nd.i1 = (j : Int)) := by
  unfold IsChild children
  cases hk : nodes[k]? with
  | none => simp
  | some nd =>
    by_cases hl : nd.i1 < 0
    · simp [is_leaf, hl]
    · simp only [is_leaf, hl, decide_False, Bool.false_eq_true, if_false, List.mem_cons,
        List.mem_singleton, List.mem_nil_iff, or_false, Option.some.injEq, exists_eq_left']
      constructor
      · rintro (h | h)
        · exact ⟨not_lt.mp hl, Or.inl h.symm⟩
        · exact ⟨not_lt.mp hl, Or.inr h.symm⟩
      · rintro ⟨_, h | h⟩
        · exact Or.inl h.symm
        · exact Or.inr h.symm

/-- The inner nodes of a subtree: the left child is the next index, the right child comes
after it, and both are indices of the subtree. -/
theorem Subtree.inner_node {bound : P → Aabb T N} {MAX : T} {nodes : List (BvhNode T N)}
    {prims : List P} {k hi b e : Nat} (h : Subtree bound MAX nodes prims k hi b e)
    {j : Nat} {nd : BvhNode T N} (hj1 : k ≤ j) (hj2 : j < hi) (hnd : nodes[j]? = some nd)
    (hin : 0 ≤ nd.i1) :
    ∃ r : Nat, nd.i0 = ((j + 1 : Nat) : Int) ∧ nd.i1 = (r : Int) ∧ j + 1 < r ∧ r < hi := by
  obtain ⟨hi2, b2, e2, hs, h1, _, _⟩ := h.sub j hj1 hj2
  rcases hs.node_cases hnd with hc | ⟨r, m, _, h0, h1r, _, hl, hr⟩
  · omega
  · have bl := hl.bounds
    have br := hr.bounds
    exact ⟨r, h0, h1r, bl.1, by omega⟩

theorem Subtree.reachable {bound : P → Aabb T N} {MAX : T} {nodes : List (BvhNode T N)}
    {prims : List P} {k hi b e : Nat} (h : Subtree bound MAX nodes prims k hi b e) :
    ∀ j, k ≤ j → j < hi → Relation.ReflTransGen (IsChild nodes) k j := by
  induction h with
  | leaf k b e nd hk hbe he h0 h1 hb =>
    intro j hj1 hj2
    have : j = k := by omega
    subst this
    exact Relation.ReflTransGen.refl
  | inner k r hi b m e nd hk h0 h1 hb hl hr ihl ihr =>
    intro j hj1 hj2
    have bl := hl.bounds
    have br := hr.bounds
    rcases Nat.eq_or_lt_of_le hj1 with hjk | hjk
    · subst hjk
      exact Relation.ReflTransGen.refl
    · rcases Nat.lt_or_ge j r with hjr | hjr
      · have hc : IsChild nodes k (k + 1) :=
          (isChild_iff nodes k (k + 1)).mpr ⟨nd, hk, by omega, Or.inl h0⟩
        exact Relation.ReflTransGen.head hc (ihl j hjk hjr)
      · have hc : IsChild nodes k r :=
          (isChild_iff nodes k r).mpr ⟨nd, hk, by omega, Or.inr h1⟩
        exact Relation.ReflTransGen.head hc (ihr j hjr hj2)

theorem Subtree.child_lt {bound : P → Aabb T N} {MAX : T} {nodes : List (BvhNode T N)}
    {prims : List P} {e : Nat} (h : Subtree bound MAX nodes prims 0 nodes.length 0 e)
    {k j : Nat} (hc : IsChild nodes k j) : k < j ∧ j < nodes.length := by
  obtain ⟨nd, hk, hin, hor⟩ := (isChild_iff nodes k j).mp hc
  have hklt : k < nodes.length := (List.getElem?_eq_some.mp hk).1
  obtain ⟨r, h0, h1, h2, h3⟩ := h.inner_node (Nat.zero_le k) hklt hk hin
  rcases hor with h | h <;> omega

theorem Subtree.descendant_lt {bound : P → Aabb T N} {MAX : T} {nodes : List (BvhNode T N)}
    {prims : List P} {e : Nat} (h : Subtree bound MAX nodes prims 0 nodes.length 0 e)
    {k j : Nat} (hc : Relation.TransGen (IsChild nodes) k j) : k < j := by
  induction hc with
  | single h1 => exact (h.child_lt h1).1
  | tail _ h2 ih => exact lt_trans ih (h.child_lt h2).1

/-- C13: after a build on a default-constructed tree (with a split callback that only
permutes its own range and returns a position in `[begin, end]`), every node index is
reachable from index 0 by following child pointers, both child pointers of every inner node
are indices of the node array, the range of every leaf lies within the primitive array, and
no node is its own descendant. -/
theorem built_tree_well_formed (bound : P → Aabb T N)
    (split : List P → Nat → Nat → Option (List P × Nat)) (threshold : Int) (MAX : T)
    (fuel : Nat) (prims : List P) (hs : SplitContract split) (hf : prims.length ≤ fuel) :
    ∃ s, build bound split threshold MAX fuel Bvh.empty prims = some (s, []) ∧
      (∀ j, j < s.mNodes.length → Relation.ReflTransGen (IsChild s.mNodes) 0 j) ∧
      (∀ (k : Nat) (nd : BvhNode T N), s.mNodes[k]? = some nd → is_leaf nd = false →
        (∃ l, nodeAt s.mNodes nd.i0 = some l) ∧ (∃ r, nodeAt s.mNodes nd.i1 = some r)) ∧
      (∀ (k : Nat) (nd : BvhNode T N), s.mNodes[k]? = some nd → is_leaf nd = true →
        0 ≤ nd.i0 ∧ nd.i0 + length nd ≤ (s.mPrimitives.length : Int)) ∧
      (∀ k, ¬ Relation.TransGen (IsChild s.mNodes) k k) := by
  rcases List.eq_nil_or_concat prims with hnil | ⟨l, a, hcons⟩
  · subst hnil
    refine ⟨Bvh.empty, rfl, ?_, ?_, ?_, ?_⟩
    · intro j hj
      simp [Bvh.empty] at hj
    · intro k nd hk
      simp [Bvh.empty] at hk
    · intro k nd hk
      simp [Bvh.empty] at hk
    · intro k hc
      have h1 : ∀ a b, Relation.TransGen (IsChild (Bvh.empty : Bvh P T N).mNodes) a b →
          False := by
        intro a b hab
        induction hab with
        | single h => simp [IsChild, children, Bvh.empty] at h
        | tail _ h _ => simp [IsChild, children, Bvh.empty] at h
      exact h1 k k hc
  · have hne : prims ≠ [] := by rw [hcons]; simp
    obtain ⟨s, h1, h2, h3⟩ := build_fresh_spec bound split threshold MAX hs fuel prims hne hf
    have hlen : s.mPrimitives.length = prims.length := h2.1
    refine ⟨s, h1, ?_, ?_, ?_, ?_⟩
    · intro j hj
      exact h3.reachable j (Nat.zero_le j) hj
    · intro k nd hk hin
      have hklt : k < s.mNodes.length := (List.getElem?_eq_some.mp hk).1
      have hin2 : 0 ≤ nd.i1 := by
        simpa [is_leaf] using hin
      obtain ⟨r, e0, e1, q1, q2⟩ := h3.inner_node (Nat.zero_le k) hklt hk hin2
      constructor
      · rw [e0, nodeAt_natCast]
        exact ⟨s.mNodes[k + 1], List.getElem?_eq_getElem (by omega)⟩
      · rw [e1, nodeAt_natCast]
        exact ⟨s.mNodes[r], List.getElem?_eq_getElem q2⟩
    · intro k nd hk hleaf
      have hklt : k < s.mNodes.length := (List.getElem?_eq_some.mp hk).1
      have hl2 : nd.i1 < 0 := by
        simpa [is_leaf] using hleaf
      obtain ⟨b2, e2, q1, q2, q3, q4, q5⟩ := h3.leaf_range (Nat.zero_le k) hklt hk hl2
      unfold length
      omega
    · intro k hc
      exact lt_irrefl k (h3.descendant_lt hc)

theorem built_tree_well_formed_witness :
    SplitContract (halfSplit : List Int → _) ∧ [3, 1, 2].length ≤ 3 ∧
    ∃ s, build pointBound halfSplit 1 (100 : Int) 3 Bvh.empty [3, 1, 2] = some (s, []) ∧
      (∀ j, j < s.mNodes.length → Relation.ReflTransGen (IsChild s.mNodes) 0 j) ∧
      (∀ (k : Nat) (nd : BvhNode Int 1), s.mNodes[k]? = some nd → is_leaf nd = false →
        (∃ l, nodeAt s.mNodes nd.i0 = some l) ∧ (∃ r, nodeAt s.mNodes nd.i1 = some r)) ∧
      (∀ (k : Nat) (nd : BvhNode Int 1), s.mNodes[k]? = some nd → is_leaf nd = true →
        0 ≤ nd.i0 ∧ nd.i0 + length nd ≤ (s.mPrimitives.length : Int)) ∧
      (∀ k, ¬ Relation.TransGen (IsChild s.mNodes) k k) :=
  ⟨halfSplit_contract, by decide,
    built_tree_well_formed pointBound halfSplit 1 (100 : Int) 3 [3, 1, 2] halfSplit_contract
      (by decide)⟩

/-- C14: after a build on a default-constructed tree (with a split callback that only
permutes its own range and returns a position in `[begin, end]`), every inner node `k` has
`k < nodes[k].i0 < nodes[k].i1`, and the primitives of every leaf are one non-empty block of
consecutive positions `[i0, i0 + length)` of the primitive array. -/
theorem inner_children_increasing (bound : P → Aabb T N)
    (split : List P → Nat → Nat → Option (List P × Nat)) (threshold : Int) (MAX : T)
    (fuel : Nat) (prims : List P) (hs : SplitContract split) (hf : prims.length ≤ fuel) :
    ∃ s, build bound split threshold MAX fuel Bvh.empty prims = some (s, []) ∧
      (∀ (k : Nat) (nd : BvhNode T N), s.mNodes[k]? = some nd → is_leaf nd = false →
        (k : Int) < nd.i0 ∧ nd.i0 < nd.i1) ∧
      (∀ (k : Nat) (nd : BvhNode T N), s.mNodes[k]? = some nd → is_leaf nd = true →
        ∃ b e : Nat, nd.i0 = (b : Int) ∧ nd.i0 + length nd = (e : Int) ∧ b < e ∧
          e ≤ s.mPrimitives.length ∧
          leafPrims s.mPrimitives nd.i0 (nd.i0 + length nd) = some (slice s.mPrimitives b e) ∧
          (slice s.mPrimitives b e).length = e - b) := by
  rcases List.eq_nil_or_concat prims with hnil | ⟨l, a, hcons⟩
  · subst hnil
    refine ⟨Bvh.empty, rfl, ?_, ?_⟩
    · intro k nd hk
      simp [Bvh.empty] at hk
    · intro k nd hk
      simp [Bvh.empty] at hk
  · have hne : prims ≠ [] := by rw [hcons]; simp
    obtain ⟨s, h1, h2, h3⟩ := build_fresh_spec bound split threshold MAX hs fuel prims hne hf
    have hlen : s.mPrimitives.length = prims.length := h2.1
    refine ⟨s, h1, ?_, ?_⟩
    · intro k nd hk hin
      have hklt : k < s.mNodes.length := (List.getElem?_eq_some.mp hk).1
      have hin2 : 0 ≤ nd.i1 := by
        simpa [is_leaf] using hin
      obtain ⟨r, e0, e1, q1, q2⟩ := h3.inner_node (Nat.zero_le k) hklt hk hin2
      omega
    · intro k nd hk hleaf
      have hklt : k < s.mNodes.length := (List.getElem?_eq_some.mp hk).1
      have hl2 : nd.i1 < 0 := by
        simpa [is_leaf] using hleaf
      obtain ⟨b2, e2, q1, q2, q3, q4, q5⟩ := h3.leaf_range (Nat.zero_le k) hklt hk hl2
      have he2 : e2 ≤ s.mPrimitives.length := by omega
      have hend : nd.i0 + length nd = (e2 : Int) := by
        unfold length; omega
      refine ⟨b2, e2, q4, hend, q2, he2, ?_, length_slice _ _ _ he2⟩
      rw [hend, q4]
      unfold leafPrims
      rw [if_neg (by omega), if_pos ⟨by omega, by omega⟩]
      simp

theorem inner_children_increasing_witness :
    SplitContract (halfSplit : List Int → _) ∧ [3, 1, 2].length ≤ 3 ∧
    ∃ s, build pointBound halfSplit 1 (100 : Int) 3 Bvh.empty [3, 1, 2] = some (s, []) ∧
      (∀ (k : Nat) (nd : BvhNode Int 1), s.mNodes[k]? = some nd → is_leaf nd = false →
        (k : Int) < nd.i0 ∧ nd.i0 < nd.i1) ∧
      (∀ (k : Nat) (nd : BvhNode Int 1), s.mNodes[k]? = some nd → is_leaf nd = true →
        ∃ b e : Nat, nd.i0 = (b : Int) ∧ nd.i0 + length nd = (e : Int) ∧ b < e ∧
          e ≤ s.mPrimitives.length ∧
          leafPrims s.mPrimitives nd.i0 (nd.i0 + length nd) = some (slice s.mPrimitives b e) ∧
          (slice s.mPrimitives b e).length = e - b) :=
  ⟨halfSplit_contract, by decide,
    inner_children_increasing pointBound halfSplit 1 (100 : Int) 3 [3, 1, 2]
      halfSplit_contract (by decide)⟩

end ShapeFacts

section CountFacts

variable {P T : Type} [LinearOrderedRing T] {N : Nat}

theorem slice_succ_eq {A : Type} (l : List A) (k : Nat) (a : A) (h : l[k]? = some a) :
    slice l k (k + 1) = [a] := by
  apply List.ext_getElem?
  intro j
  rw [getElem?_slice]
  cases j with
  | zero => simp [h]
  | succ j => simp

/-- Counting in a subtree: the nodes are one less than twice the leaves, the leaves are at
most the primitives, and they are as many as the primitives exactly when every leaf holds
one primitive. -/
theorem Subtree.count {bound : P → Aabb T N} {MAX : T} {nodes : List (BvhNode T N)}
    {prims : List P} {k hi b e : Nat} (h : Subtree bound MAX nodes prims k hi b e) :
    (hi - k) + 1 = 2 * leafCount (slice nodes k hi) ∧
      leafCount (slice nodes k hi) ≤ e - b ∧
      (leafCount (slice nodes k hi) = e - b ↔
        ∀ (j : Nat) (nd : BvhNode T N), k ≤ j → j < hi → nodes[j]? = some nd → nd.i1 < 0 →
          nd.i1 = -1) := by
  induction h with
  | leaf k b e nd hk hbe he h0 h1 hb =>
    have hl : is_leaf nd = true := by simp [is_leaf]; omega
    have hc : leafCount (slice nodes k (k + 1)) = 1 := by
      rw [slice_succ_eq nodes k nd hk]
      simp [leafCount, hl]
    rw [hc]
    refine ⟨by omega, by omega, ?_⟩
    constructor
    · intro h2 j nd2 hj1 hj2 hnd _
      have : j = k := by omega
      subst this
      have : nd = nd2 := Option.some.inj (hk.symm.trans hnd)
      subst this
      omega
    · intro h2
      have := h2 k nd (le_refl _) (Nat.lt_succ_self k) hk (by omega)
      omega
  | inner k r hi b m e nd hk h0 h1 hb hl hr ihl ihr =>
    have bl := hl.bounds
    have br := hr.bounds
    have hnl : is_leaf nd = false := by simp [is_leaf]; omega
    have hc : leafCount (slice nodes k hi) =
        leafCount (slice nodes (k + 1) r) + leafCount (slice nodes r hi) := by
      rw [slice_append nodes (Nat.le_succ k) (by omega : k + 1 ≤ hi),
        slice_append nodes (by omega : k + 1 ≤ r) (by omega : r ≤ hi),
        slice_succ_eq nodes k nd hk]
      simp [leafCount, hnl, List.countP_append]
    rw [hc]
    obtain ⟨a1, a2, a3⟩ := ihl
    obtain ⟨c1, c2, c3⟩ := ihr
    refine ⟨by omega, by omega, ?_⟩
    constructor
    · intro h2 j nd2 hj1 hj2 hnd hleaf
      have e1 : leafCount (slice nodes (k + 1) r) = m - b := by omega
      have e2 : leafCount (slice nodes r hi) = e - m := by omega
      rcases Nat.eq_or_lt_of_le hj1 with hjk | hjk
      · subst hjk
        have : nd = nd2 := Option.some.inj (hk.symm.trans hnd)
        subst this
        omega
      · rcases Nat.lt_or_ge j r with hjr | hjr
        · exact a3.mp e1 j nd2 hjk hjr hnd hleaf
        · exact c3.mp e2 j nd2 hjr hj2 hnd hleaf
    · intro h2
      have e1 : leafCount (slice nodes (k + 1) r) = m - b :=
        a3.mpr (fun j nd2 hj1 hj2 hnd hleaf => h2 j nd2 (by omega) (by omega) hnd hleaf)
      have e2 : leafCount (slice nodes r hi) = e - m :=
        c3.mpr (fun j nd2 hj1 hj2 hnd hleaf => h2 j nd2 (by omega) hj2 hnd hleaf)
      omega

/-- C17: after a build of `n ≥ 1` primitives on a default-constructed tree (with a split
callback that only permutes its own range and returns a position in `[begin, end]`), the
number of nodes is `2 * leaves - 1`, it is at most `2 * n - 1`, and it equals `2 * n - 1`
exactly when every leaf holds one primitive. -/
theorem node_count_eq_twice_leaves (bound : P → Aabb T N)
    (split : List P → Nat → Nat → Option (List P × Nat)) (threshold : Int) (MAX : T)
    (fuel : Nat) (prims : List P) (hs : SplitContract split) (hne : prims ≠ [])
    (hf : prims.length ≤ fuel) :
    ∃ s, build bound split threshold MAX fuel Bvh.empty prims = some (s, []) ∧
      (s.mNodes.length : Int) = 2 * (leafCount s.mNodes : Int) - 1 ∧
      (s.mNodes.length : Int) ≤ 2 * (prims.length : Int) - 1 ∧
      ((s.mNodes.length : Int) = 2 * (prims.length : Int) - 1 ↔
        ∀ nd ∈ s.mNodes, is_leaf nd = true → length nd = 1) := by
  obtain ⟨s, h1, h2, h3⟩ := build_fresh_spec bound split threshold MAX hs fuel prims hne hf
  obtain ⟨c1, c2, c3⟩ := h3.count
  rw [slice_zero_length] at c1 c2 c3
  refine ⟨s, h1, by omega, by omega, ?_⟩
  have hall : (∀ nd ∈ s.mNodes, is_leaf nd = true → length nd = 1) ↔
      ∀ (j : Nat) (nd : BvhNode T N), 0 ≤ j → j < s.mNodes.length → s.mNodes[j]? = some nd →
        nd.i1 < 0 → nd.i1 = -1 := by
    constructor
    · intro h j nd _ _ hnd hleaf
      have := h nd (List.getElem?_mem hnd) (by simp [is_leaf]; exact hleaf)
      unfold length at this
      omega
    · intro h nd hmem hleaf
      obtain ⟨j, hj, hnd⟩ := List.getElem_of_mem hmem
      have hl2 : nd.i1 < 0 := by simpa [is_leaf] using hleaf
      have := h j nd (Nat.zero_le j) hj (by rw [List.getElem?_eq_getElem hj, hnd]) hl2
      unfold length
      omega
  rw [hall, ← c3]
  omega

theorem node_count_eq_twice_leaves_witness :
    SplitContract (halfSplit : List Int → _) ∧ [3, 1, 2] ≠ ([] : List Int) ∧
    [3, 1, 2].length ≤ 3 ∧
    ∃ s, build pointBound halfSplit 1 (100 : Int) 3 Bvh.empty [3, 1, 2] = some (s, []) ∧
      (s.mNodes.length : Int) = 2 * (leafCount s.mNodes : Int) - 1 ∧
      (s.mNodes.length : Int) ≤ 2 * (([3, 1, 2] : List Int).length : Int) - 1 ∧
      ((s.mNodes.length : Int) = 2 * (([3, 1, 2] : List Int).length : Int) - 1 ↔
        ∀ nd ∈ s.mNodes, is_leaf nd = true → length nd = 1) :=
  ⟨halfSplit_contract, by decide, by decide,
    node_count_eq_twice_leaves pointBound halfSplit 1 (100 : Int) 3 [3, 1, 2]
      halfSplit_contract (by decide) (by decide)⟩

end CountFacts

section DistFacts

variable {P T S : Type} [LinearOrderedRing T] {N : Nat} [NeZero N]

omit [NeZero N] in
/-- The leaf loop with a callback that lowers `dist` exactly when it returns true: the
distance does not go up, and the result is true exactly when it was true before or the
distance went down. -/
theorem collideLeaf_dist (collide : P → VectorN T N → VectorN T N → T → S → Bool × T × S)
    (org dir : VectorN T N)
    (hcol : ∀ p d s, ((collide p org dir d s).1 = true → (collide p org dir d s).2.1 < d) ∧
      ((collide p org dir d s).1 = false → (collide p org dir d s).2.1 = d))
    (l : List P) :
    ∀ hit d s, (collideLeaf collide org dir l hit d s).2.1 ≤ d ∧
      ((collideLeaf collide org dir l hit d s).1 = true ↔
        (hit = true ∨ (collideLeaf collide org dir l hit d s).2.1 < d)) := by
  induction l with
  | nil =>
    intro hit d s
    simp [collideLeaf]
  | cons q l ih =>
    intro hit d s
    rw [collideLeaf]
    have hq := hcol q d s
    cases hc : (collide q org dir d s).1 with
    | true =>
      have h1 := hq.1 hc
      have h2 := ih true (collide q org dir d s).2.1 (collide q org dir d s).2.2
      simp only [hc, if_true]
      refine ⟨le_trans h2.1 h1.le, ?_⟩
      constructor
      · intro _
        exact Or.inr (lt_of_le_of_lt h2.1 h1)
      · intro _
        exact h2.2.mpr (Or.inl rfl)
    | false =>
      have h1 := hq.2 hc
      have h2 := ih hit (collide q org dir d s).2.1 (collide q org dir d s).2.2
      simp only [hc, Bool.false_eq_true, if_false]
      rw [h1] at h2 ⊢
      exact h2

/-- The loop of `intersect` on any node array, whenever it returns: the distance does not
go up, and the result is true exactly when it was true before or the distance went down. -/
theorem intersectLoop_dist (collide : P → VectorN T N → VectorN T N → T → S → Bool × T × S)
    (self : Bvh P T N) (org dir inv : VectorN T N) (neg : Fin N → Bool)
    (hcol : ∀ p d s, ((collide p org dir d s).1 = true → (collide p org dir d s).2.1 < d) ∧
      ((collide p org dir d s).1 = false → (collide p org dir d s).2.1 = d)) :
    ∀ (fuel : Nat) (stack : List Int) (hit : Bool) (d : T) (s : S) (res : Bool × T × S),
      intersectLoop collide self org dir inv neg fuel stack hit d s = some res →
      res.2.1 ≤ d ∧ (res.1 = true ↔ (hit = true ∨ res.2.1 < d)) := by
  intro fuel
  induction fuel with
  | zero =>
    intro stack hit d s res h
    cases stack with
    | nil =>
      rw [intersectLoop] at h
      cases h
      simp
    | cons c rest =>
      rw [intersectLoop] at h
      cases h
  | succ fuel ih =>
    intro stack hit d s res h
    cases stack with
    | nil =>
      rw [intersectLoop] at h
      cases h
      simp
    | cons c rest =>
      rw [intersectLoop] at h
      cases hn : nodeAt self.mNodes c with
      | none => simp [hn] at h
      | some node =>
        simp only [hn] at h
        split_ifs at h with hs hl hg
        · cases hp : leafPrims self.mPrimitives node.i0 (node.i0 + length node) with
          | none => simp [hp] at h
          | some ps =>
            simp only [hp] at h
            have h1 := collideLeaf_dist collide org dir hcol ps hit d s
            have h2 := ih _ _ _ _ _ h
            refine ⟨le_trans h2.1 h1.1, ?_⟩
            rw [h2.2, h1.2]
            constructor
            · rintro ((h3 | h3) | h3)
              · exact Or.inl h3
              · exact Or.inr (lt_of_le_of_lt h2.1 h3)
              · exact Or.inr (lt_of_lt_of_le h3 h1.1)
            · rintro (h3 | h3)
              · exact Or.inl (Or.inl h3)
              · rcases lt_or_eq_of_le h1.1 with h4 | h4
                · exact Or.inl (Or.inr h4)
                · rw [h4]; exact Or.inr h3
        · exact ih _ _ _ _ _ h
        · exact ih _ _ _ _ _ h
        · exact ih _ _ _ _ _ h

/-- Popping the root `k` of a subtree, for any ray and any callback: the loop goes on with
the rest of the stack after at most `hi - k` pops. -/
theorem intersectLoop_subtree_returns (bound : P → Aabb T N) (MAX : T) (self : Bvh P T N)
    (collide : P → VectorN T N → VectorN T N → T → S → Bool × T × S)
    (org dir inv : VectorN T N) (neg : Fin N → Bool)
    {k hi b e : Nat} (h : Subtree bound MAX self.mNodes self.mPrimitives k hi b e) :
    ∀ (rest : List Int) (hit : Bool) (d : T) (s : S),
      ∃ (c : Nat) (a : Bool × T × S), c ≤ hi - k ∧
        ∀ F res, intersectLoop collide self org dir inv neg F rest a.1 a.2.1 a.2.2 = some res →
          intersectLoop collide self org dir inv neg (F + c) ((k : Int) :: rest) hit d s
            = some res := by
  induction h with
  | leaf k b e nd hk hbe he h0 h1 hb =>
    intro rest hit d s
    have hnode : nodeAt self.mNodes (k : Int) = some nd := by rw [nodeAt_natCast]; exact hk
    have hleaf : is_leaf nd = true := by simp [is_leaf, h1]; omega
    have hlp : leafPrims self.mPrimitives nd.i0 (nd.i0 + length nd)
        = some (slice self.mPrimitives b e) := by
      have e1 : nd.i0 + length nd = (e : Int) := by rw [h0, length, h1]; omega
      rw [e1, h0]
      unfold leafPrims
      rw [if_neg (by omega), if_pos ⟨by omega, by omega⟩]
      simp
    by_cases hs : is_intersecting_inv nd.b org inv d = true
    · refine ⟨1, collideLeaf collide org dir (slice self.mPrimitives b e) hit d s, by omega, ?_⟩
      intro F res hres
      rw [intersectLoop]
      simp only [hnode, hs, hleaf, hlp, if_true]
      exact hres
    · refine ⟨1, (hit, d, s), by omega, ?_⟩
      intro F res hres
      rw [intersectLoop]
      simp only [hnode, hs]
      exact hres
  | inner k r hi b m e nd hk h0 h1 hb hl hr ihl ihr =>
    intro rest hit d s
    have bl := hl.bounds
    have br := hr.bounds
    have hnode : nodeAt self.mNodes (k : Int) = some nd := by rw [nodeAt_natCast]; exact hk
    have hleaf : is_leaf nd = false := by simp [is_leaf, h1]
    by_cases hs : is_intersecting_inv nd.b org inv d = true
    · by_cases hneg : neg (longest_axis nd.b) = true
      · obtain ⟨c2, a2, hc2, k2⟩ := ihr (((k + 1 : Nat) : Int) :: rest) hit d s
        obtain ⟨c1, a1, hc1, k1⟩ := ihl rest a2.1 a2.2.1 a2.2.2
        refine ⟨c1 + c2 + 1, a1, by omega, ?_⟩
        intro F res hres
        have e1 : F + (c1 + c2 + 1) = (F + c1 + c2) + 1 := by omega
        rw [e1, intersectLoop]
        simp only [hnode, hs, hleaf, hneg, if_true, h0, h1]
        exact k2 _ _ (k1 _ _ hres)
      · obtain ⟨c1, a1, hc1, k1⟩ := ihl ((r : Int) :: rest) hit d s
        obtain ⟨c2, a2, hc2, k2⟩ := ihr rest a1.1 a1.2.1 a1.2.2
        refine ⟨c1 + c2 + 1, a2, by omega, ?_⟩
        intro F res hres
        have e1 : F + (c1 + c2 + 1) = (F + c2 + c1) + 1 := by omega
        rw [e1, intersectLoop]
        simp only [hnode, hs, hleaf, hneg, if_true, h0, h1]
        exact k1 _ _ (k2 _ _ hres)
    · refine ⟨1, (hit, d, s), by omega, ?_⟩
      intro F res hres
      rw [intersectLoop]
      simp only [hnode, hs]
      exact hres

/-- C18: let `collide` lower `dist` strictly whenever it returns true and leave it
unchanged whenever it returns false. Then for every tree and every ray, whenever `intersect`
returns, the final `dist` is at most the initial one and the result is false exactly when
`dist` is unchanged; and on a tree built on a default-constructed `Bvh` (with a split
callback that only permutes its own range and returns a position in `[begin, end]`)
`intersect` does return. -/
theorem intersect_dist_unchanged_iff_miss [Div T]
    (collide : P → VectorN T N → VectorN T N → T → S → Bool × T × S) (org dir : VectorN T N)
    (hcol : ∀ p d s, ((collide p org dir d s).1 = true → (collide p org dir d s).2.1 < d) ∧
      ((collide p org dir d s).1 = false → (collide p org dir d s).2.1 = d)) :
    (∀ (self : Bvh P T N) (fuel : Nat) (dist : T) (s0 : S) (res : Bool × T × S),
      intersect collide fuel self org dir dist s0 = some res →
      res.2.1 ≤ dist ∧ (res.1 = false ↔ res.2.1 = dist)) ∧
    (∀ (bound : P → Aabb T N) (split : List P → Nat → Nat → Option (List P × Nat))
      (threshold : Int) (MAX : T) (fuel : Nat) (prims : List P),
      SplitContract split → prims.length ≤ fuel →
      ∃ t, build bound split threshold MAX fuel Bvh.empty prims = some (t, []) ∧
        ∀ (fuel2 : Nat) (dist : T) (s0 : S), t.mNodes.length ≤ fuel2 →
          ∃ res, intersect collide fuel2 t org dir dist s0 = some res) := by
  constructor
  · intro self fuel dist s0 res h
    unfold intersect at h
    split_ifs at h with he
    · cases h
      simp
    · have h2 := intersectLoop_dist collide self org dir _ _ hcol fuel [0] false dist s0 res h
      refine ⟨h2.1, ?_⟩
      constructor
      · intro hf
        rcases lt_or_eq_of_le h2.1 with h3 | h3
        · have := h2.2.mpr (Or.inr h3)
          rw [hf] at this
          cases this
        · exact h3
      · intro heq
        cases hr : res.1 with
        | false => rfl
        | true =>
          rcases h2.2.mp hr with h3 | h3
          · cases h3
          · rw [heq] at h3
            exact absurd h3 (lt_irrefl _)
  · intro bound split threshold MAX fuel prims hs hf
    rcases List.eq_nil_or_concat prims with hnil | ⟨l, a, hcons⟩
    · subst hnil
      refine ⟨Bvh.empty, rfl, ?_⟩
      intro fuel2 dist s0 _
      exact ⟨(false, dist, s0), rfl⟩
    · have hne : prims ≠ [] := by rw [hcons]; simp
      obtain ⟨t, h1, h2, h3⟩ := build_fresh_spec bound split threshold MAX hs fuel prims hne hf
      refine ⟨t, h1, ?_⟩
      intro fuel2 dist s0 hf2
      obtain ⟨c, a, hc, hk⟩ := intersectLoop_subtree_returns bound MAX t collide org dir
        (fun i => (make_vector 1 : VectorN T N) i / dir i) (fun i => decide (dir i < 0)) h3
        [] false dist s0
      have hb := h3.bounds
      have hne2 : t.mNodes.isEmpty = false := by
        cases hn : t.mNodes with
        | nil => rw [hn] at hb; simp at hb
        | cons x l => rfl
      refine ⟨a, ?_⟩
      unfold intersect
      rw [hne2]
      simp only [Bool.false_eq_true, if_false]
      have h4 := hk (fuel2 - c) a (by rw [intersectLoop])
      have e1 : fuel2 - c + c = fuel2 := by omega
      rw [e1] at h4
      simpa using h4

end DistFacts

section DistInstances

theorem intersect_dist_unchanged_iff_miss_witness :
    (∀ (p : Nat × Int) (d : Int) (s : Option (Nat × Int)),
      ((nearestCollide rayDistance p (fun _ : Fin 1 => (0 : Int)) (fun _ => 1) d s).1 = true →
        (nearestCollide rayDistance p (fun _ : Fin 1 => (0 : Int)) (fun _ => 1) d s).2.1 < d) ∧
      ((nearestCollide rayDistance p (fun _ : Fin 1 => (0 : Int)) (fun _ => 1) d s).1 = false →
        (nearestCollide rayDistance p (fun _ : Fin 1 => (0 : Int)) (fun _ => 1) d s).2.1 = d)) ∧
    ((∀ (self : Bvh (Nat × Int) Int 1) (fuel : Nat) (dist : Int) (s0 : Option (Nat × Int))
        (res : Bool × Int × Option (Nat × Int)),
      intersect (nearestCollide rayDistance) fuel self (fun _ => 0) (fun _ => 1) dist s0
        = some res →
      res.2.1 ≤ dist ∧ (res.1 = false ↔ res.2.1 = dist)) ∧
    (∀ (bound : Nat × Int → Aabb Int 1)
      (split : List (Nat × Int) → Nat → Nat → Option (List (Nat × Int) × Nat))
      (threshold : Int) (MAX : Int) (fuel : Nat) (prims : List (Nat × Int)),
      SplitContract split → prims.length ≤ fuel →
      ∃ t, build bound split threshold MAX fuel Bvh.empty prims = some (t, []) ∧
        ∀ (fuel2 : Nat) (dist : Int) (s0 : Option (Nat × Int)), t.mNodes.length ≤ fuel2 →
          ∃ res, intersect (nearestCollide rayDistance) fuel2 t (fun _ => 0) (fun _ => 1)
            dist s0 = some res)) :=
  have hcol : ∀ (p : Nat × Int) (d : Int) (s : Option (Nat × Int)),
      ((nearestCollide rayDistance p (fun _ : Fin 1 => (0 : Int)) (fun _ => 1) d s).1 = true →
        (nearestCollide rayDistance p (fun _ : Fin 1 => (0 : Int)) (fun _ => 1) d s).2.1 < d) ∧
      ((nearestCollide rayDistance p (fun _ : Fin 1 => (0 : Int)) (fun _ => 1) d s).1 = false →
        (nearestCollide rayDistance p (fun _ : Fin 1 => (0 : Int)) (fun _ => 1) d s).2.1
          = d) := by
    intro p d s
    by_cases h : p.2 < d
    · simp [nearestCollide, rayDistance, h]
    · simp [nearestCollide, rayDistance, h]
  ⟨hcol, intersect_dist_unchanged_iff_miss (nearestCollide rayDistance) (fun _ => 0)
    (fun _ => 1) hcol⟩

end DistInstances

section LeafSizeFacts

variable {P T : Type} [LinearOrderedRing T] {N : Nat}

/-- Whenever `recursive_build` returns, with a split callback that never fails to split:
the node array has only grown, the nodes other than `curr` that were there are unchanged,
every leaf among `curr` and the appended nodes holds at most `threshold` primitives, and
`curr` is an inner node when its range holds more than `threshold` primitives. -/
theorem recursive_build_leaf_sizes (bound : P → Aabb T N)
    (split : List P → Nat → Nat → Option (List P × Nat)) (threshold : Int) (MAX : T)
    (hst : SplitStrict split threshold) :
    ∀ (fuel : Nat) (self : Bvh P T N) (b e curr : Nat) (depth : Int) (s : Bvh P T N),
      recursive_build bound split threshold MAX fuel self b e curr depth = some s →
      self.mNodes.length ≤ s.mNodes.length ∧
      (∀ j, j < self.mNodes.length → j ≠ curr → s.mNodes[j]? = self.mNodes[j]?) ∧
      (∀ (j : Nat) (nd : BvhNode T N), j = curr ∨ self.mNodes.length ≤ j →
        s.mNodes[j]? = some nd → nd.i1 < 0 → length nd ≤ threshold) ∧
      (threshold < (e : Int) - (b : Int) → ∀ nd, s.mNodes[curr]? = some nd → 0 ≤ nd.i1) := by
  intro fuel
  induction fuel with
  | zero =>
    intro self b e curr depth s h
    rw [recursive_build] at h
    exact absurd h (by simp)
  | succ fuel ih =>
    intro self b e curr depth s h
    rw [recursive_build] at h
    simp only at h
    cases hsp : (if ((e : Int) - (b : Int)) > threshold then split self.mPrimitives b e
        else some (self.mPrimitives, e)) with
    | none => rw [hsp] at h; exact absurd h (by simp)
    | some r =>
      obtain ⟨prims, piter⟩ := r
      rw [hsp] at h
      simp only at h
      by_cases hleaf : piter = b ∨ piter = e
      · rw [if_pos hleaf] at h
        have hn : ¬ ((e : Int) - (b : Int)) > threshold := by
          intro hn
          rw [if_pos hn] at hsp
          have := hst _ _ _ _ _ hn hsp
          omega
        split_ifs at h with hrange
        · obtain ⟨nodes, h1, h2⟩ := Option.map_eq_some'.mp h
          subst h2
          obtain ⟨nd0, hnd0, hset⟩ := modifyNode_inv h1
          subst hset
          have hcl : curr < self.mNodes.length := (List.getElem?_eq_some.mp hnd0).1
          refine ⟨by simp, ?_, ?_, ?_⟩
          · intro j _ hj
            simp only
            rw [List.getElem?_set_ne (Ne.symm hj)]
          · intro j nd hj hnd _
            simp only [List.length_set] at hnd
            rcases hj with hj | hj
            · subst hj
              rw [List.getElem?_set_self hcl] at hnd
              simp only [Option.some.injEq] at hnd
              subst hnd
              simp only [length, set_leaf, neg_neg]
              omega
            · rw [List.getElem?_eq_none (by simp; omega)] at hnd
              cases hnd
          · intro hlt
            exact absurd hlt hn
      · rw [if_neg hleaf] at h
        obtain ⟨n1, g1, h⟩ := Option.bind_eq_some.mp h
        obtain ⟨n2, g2, h⟩ := Option.bind_eq_some.mp h
        obtain ⟨s1, g3, h⟩ := Option.bind_eq_some.mp h
        obtain ⟨ndL, _, h⟩ := Option.bind_eq_some.mp h
        obtain ⟨n3, g4, h⟩ := Option.bind_eq_some.mp h
        obtain ⟨n4, g5, h⟩ := Option.bind_eq_some.mp h
        obtain ⟨s2, g6, h⟩ := Option.bind_eq_some.mp h
        obtain ⟨ndR, _, h⟩ := Option.bind_eq_some.mp h
        obtain ⟨n5, g7, h⟩ := Option.map_eq_some'.mp h
        subst h
        obtain ⟨a1, ha1, e1⟩ := modifyNode_inv g1
        obtain ⟨a2, ha2, e2⟩ := modifyNode_inv g2
        obtain ⟨a3, ha3, e3⟩ := modifyNode_inv g4
        obtain ⟨a4, ha4, e4⟩ := modifyNode_inv g5
        obtain ⟨a5, ha5, e5⟩ := modifyNode_inv g7
        have hcl : curr < self.mNodes.length := (List.getElem?_eq_some.mp ha1).1
        have l1 : n1.length = self.mNodes.length := by rw [e1, List.length_set]
        have l2 : n2.length = self.mNodes.length := by rw [e2, List.length_set, l1]
        obtain ⟨p1, p2, p3, _⟩ := ih _ _ _ _ _ _ g3
        simp only [List.length_append, List.length_singleton] at p1 p2 p3
        have l3 : n3.length = s1.mNodes.length := by rw [e3, List.length_set]
        have l4 : n4.length = s1.mNodes.length := by rw [e4, List.length_set, l3]
        obtain ⟨q1, q2, q3, _⟩ := ih _ _ _ _ _ _ g6
        simp only [List.length_append, List.length_singleton] at q1 q2 q3
        have l5 : n5.length = s2.mNodes.length := by rw [e5, List.length_set]
        have hcl2 : curr < s2.mNodes.length := by omega
        have f4 : ∀ j, j ≠ curr → n4[j]? = s1.mNodes[j]? := by
          intro j hj
          rw [e4, List.getElem?_set_ne (Ne.symm hj), e3, List.getElem?_set_ne (Ne.symm hj)]
        have f2 : ∀ j, j ≠ curr → n2[j]? = self.mNodes[j]? := by
          intro j hj
          rw [e2, List.getElem?_set_ne (Ne.symm hj), e1, List.getElem?_set_ne (Ne.symm hj)]
        have hcurr : n5[curr]? = some { a5 with b := merge a5.b ndR.b } := by
          rw [e5]
          exact List.getElem?_set_self hcl2
        have ha5i : a5.i1 = (n3.length : Int) := by
          have h5 : s2.mNodes[curr]? = n4[curr]? := by
            rw [q2 curr (by omega) (by omega), List.getElem?_append_left (by omega)]
          rw [h5, e4, List.getElem?_set_self (by omega)] at ha5
          simp only [Option.some.injEq] at ha5
          rw [← ha5]
        refine ⟨by simp only; omega, ?_, ?_, ?_⟩
        · intro j hj1 hj2
          simp only
          rw [e5, List.getElem?_set_ne (Ne.symm hj2), q2 j (by omega) (by omega),
            List.getElem?_append_left (by omega), f4 j hj2, p2 j (by omega) (by omega),
            List.getElem?_append_left (by omega), f2 j hj2]
        · intro j nd hj hnd hlf
          simp only at hnd
          rcases hj with hj | hj
          · subst hj
            rw [hcurr] at hnd
            simp only [Option.some.injEq] at hnd
            subst hnd
            simp only at hlf
            omega
          · have hjc : j ≠ curr := by omega
            rw [e5, List.getElem?_set_ne (Ne.symm hjc)] at hnd
            rcases Nat.lt_or_ge j s1.mNodes.length with hjr | hjr
            · rw [q2 j (by omega) (by omega), List.getElem?_append_left (by omega),
                f4 j hjc] at hnd
              refine p3 j nd ?_ hnd hlf
              omega
            · refine q3 j nd ?_ hnd hlf
              omega
        · intro _ nd hnd
          simp only at hnd
          rw [hcurr] at hnd
          simp only [Option.some.injEq] at hnd
          subst hnd
          simp only
          omega

theorem EqualCountsSplit_strict [NeZero N] (std : StdAlgorithms P) (bound : P → Aabb T N)
    (MAX half : T) (threshold : Int) (ht : 1 ≤ threshold) :
    SplitStrict (EqualCountsSplit std bound MAX half) threshold := by
  intro l b e l2 m hn h
  unfold EqualCountsSplit at h
  split_ifs at h with hg
  simp only [Option.some.injEq, Prod.mk.injEq] at h
  obtain ⟨_, h2⟩ := h
  subst h2
  omega

theorem MiddlePointSplit_strict [NeZero N] (std : StdAlgorithms P) (hstd : std.Permutes)
    (bound : P → Aabb T N) (MAX half : T) (threshold : Int) (ht : 1 ≤ threshold) :
    SplitStrict (MiddlePointSplit std bound MAX half) threshold := by
  intro l b e l2 m hn h
  unfold MiddlePointSplit at h
  by_cases hg : b ≤ e ∧ e ≤ l.length
  swap
  · rw [if_neg hg] at h
    exact absurd h (by simp)
  rw [if_pos hg] at h
  simp only at h
  split_ifs at h with hdeg
  · simp only [Option.some.injEq, Prod.mk.injEq] at h
    obtain ⟨_, h2⟩ := h
    subst h2
    omega
  · simp only [Option.some.injEq, Prod.mk.injEq] at h
    obtain ⟨_, h2⟩ := h
    subst h2
    have h3 := (hstd.2 (fun p => decide (centroid half (bound p)
      (longest_axis (rangeBox bound MAX l b e)) <
        ((rangeBox bound MAX l b e).p0 (longest_axis (rangeBox bound MAX l b e)) +
          (rangeBox bound MAX l b e).p1 (longest_axis (rangeBox bound MAX l b e))) * half))
      (slice l b e)).2
    rw [length_slice l b e hg.2] at h3
    omega

/-- A build on a default-constructed tree with a split callback that never fails to split:
every leaf holds at most `threshold` primitives, and the root is an inner node when there
are more than `threshold` primitives. -/
theorem build_leaf_sizes (bound : P → Aabb T N)
    (split : List P → Nat → Nat → Option (List P × Nat)) (threshold : Int) (MAX : T)
    (hst : SplitStrict split threshold) (fuel : Nat) (prims : List P) (s : Bvh P T N)
    (rest : List P)
    (h : build bound split threshold MAX fuel Bvh.empty prims = some (s, rest)) :
    (∀ nd ∈ s.mNodes, is_leaf nd = true → length nd ≤ threshold) ∧
    (threshold < (prims.length : Int) → ∀ nd, s.mNodes[0]? = some nd → is_leaf nd = false) := by
  unfold build at h
  cases prims with
  | nil =>
    simp only [List.isEmpty_nil, if_true, Option.some.injEq, Prod.mk.injEq] at h
    rw [← h.1]
    constructor
    · intro nd hnd
      simp [Bvh.empty] at hnd
    · intro _ nd hnd
      simp [Bvh.empty] at hnd
  | cons p ps =>
    simp only [List.isEmpty_cons, Bool.false_eq_true, if_false] at h
    obtain ⟨x, hx, hx2⟩ := Option.map_eq_some'.mp h
    have e1 : x = s := (Prod.mk.inj hx2).1
    subst e1
    obtain ⟨_, _, r3, r4⟩ := recursive_build_leaf_sizes bound split threshold MAX hst fuel _ 0
      (p :: ps).length 0 0 x hx
    constructor
    · intro nd hmem hleaf
      obtain ⟨j, hj, hnd⟩ := List.getElem_of_mem hmem
      have hl2 : nd.i1 < 0 := by simpa [is_leaf] using hleaf
      refine r3 j nd ?_ (by rw [List.getElem?_eq_getElem hj, hnd]) hl2
      simp only [Bvh.empty, List.nil_append, List.length_singleton]
      omega
    · intro hlt nd hnd
      have := r4 (by simpa using hlt) nd hnd
      simp [is_leaf, this]

/-- A build of at most `threshold` primitives on a default-constructed tree: the split
callback is not called, and the tree is one leaf over the sequence as it is. -/
theorem build_of_le_threshold (bound : P → Aabb T N)
    (split : List P → Nat → Nat → Option (List P × Nat)) (threshold : Int) (MAX : T)
    (fuel : Nat) (prims : List P) (hne : prims ≠ []) (hle : (prims.length : Int) ≤ threshold)
    (hf : prims.length ≤ fuel) :
    build bound split threshold MAX fuel Bvh.empty prims =
      some ({ mPrimitives := prims,
              mNodes := [{ b := rangeBox bound MAX prims 0 prims.length, i0 := 0,
                           i1 := -(prims.length : Int) }] }, []) := by
  have hpos : 0 < prims.length := List.length_pos.mpr hne
  obtain ⟨f, rfl⟩ : ∃ f, fuel = f + 1 := ⟨fuel - 1, by omega⟩
  unfold build
  have hemp : prims.isEmpty = false := by
    cases prims with
    | nil => exact absurd rfl hne
    | cons a l => rfl
  simp only [hemp, Bool.false_eq_true, if_false, Bvh.empty, List.nil_append]
  rw [recursive_build]
  have hn : ¬ ((prims.length : Int) - ((0 : Nat) : Int) > threshold) := by
    simp only [Nat.cast_zero, sub_zero]
    omega
  simp only [hn, if_false, or_true, if_true, Nat.zero_le, le_refl, and_self]
  simp [modifyNode, set_leaf, BvhNode.fresh]

theorem rangeBox_same_box (bound : P → Aabb T N) (MAX : T) (c : Aabb T N) (prims : List P)
    (hne : prims ≠ []) (hsame : ∀ p ∈ prims, bound p = c) :
    rangeBox bound MAX prims 0 prims.length = merge (make_aabb MAX) c := by
  have key : ∀ (l : List P) (init : Aabb T N), l ≠ [] → (∀ p ∈ l, bound p = c) →
      l.foldl (fun bbox p => merge bbox (bound p)) init = merge init c := by
    intro l
    induction l with
    | nil => intro init h; exact absurd rfl h
    | cons p l ih =>
      intro init _ hs
      rw [List.foldl_cons, hs p (List.mem_cons_self p l)]
      by_cases hl : l = []
      · subst hl
        rfl
      · rw [ih (merge init c) hl (fun q hq => hs q (List.mem_cons_of_mem p hq)), merge_assoc,
          merge_self]
  unfold rangeBox
  rw [slice_zero_length]
  exact key prims _ hne hsame

/-- C15: with the Equal-Counts split and a threshold `t ≥ 1`, for every input the build on a
default-constructed tree returns, given fuel for every primitive, and every leaf of the tree
holds at most `t` primitives. -/
theorem equal_counts_leaves_le_threshold [NeZero N] (std : StdAlgorithms P)
    (hstd : std.Permutes) (bound : P → Aabb T N) (MAX half : T) (threshold : Int)
    (ht : 1 ≤ threshold) (fuel : Nat) (prims : List P) (hf : prims.length ≤ fuel) :
    ∃ s, build bound (EqualCountsSplit std bound MAX half) threshold MAX fuel Bvh.empty prims
        = some (s, []) ∧
      ∀ nd ∈ s.mNodes, is_leaf nd = true → length nd ≤ threshold := by
  have hex : ∃ s, build bound (EqualCountsSplit std bound MAX half) threshold MAX fuel
      Bvh.empty prims = some (s, []) := by
    rcases List.eq_nil_or_concat prims with hnil | ⟨l, a, hcons⟩
    · subst hnil
      exact ⟨Bvh.empty, rfl⟩
    · have hne : prims ≠ [] := by rw [hcons]; simp
      obtain ⟨s, h1, _⟩ := build_fresh_spec bound _ threshold MAX
        (EqualCountsSplit_contract std hstd bound MAX half) fuel prims hne hf
      exact ⟨s, h1⟩
  obtain ⟨s, h1⟩ := hex
  exact ⟨s, h1, (build_leaf_sizes bound _ threshold MAX
    (EqualCountsSplit_strict std bound MAX half threshold ht) fuel prims s [] h1).1⟩

/-- C16 (as amended): let all primitives of a non-empty input be at the same point `v`, and
let the threshold be at least 1. With the Equal-Counts or the Middle-Point split, the build
on a default-constructed tree returns; when there are at most `threshold` primitives the
tree is exactly one node, a leaf with offset 0 that holds all of them in their order; when
there are more, the root is an inner node and there are at least three nodes; and in both
cases every leaf holds at most `threshold` primitives. -/
theorem same_point_single_leaf_iff [NeZero N] (std : StdAlgorithms P) (hstd : std.Permutes)
    (bound : P → Aabb T N) (MAX half : T) (threshold : Int) (ht : 1 ≤ threshold)
    (fuel : Nat) (prims : List P) (v : VectorN T N) (hne : prims ≠ [])
    (hsame : ∀ p ∈ prims, bound p = make_aabb_point v) (hf : prims.length ≤ fuel) :
    ∀ split ∈ [EqualCountsSplit std bound MAX half, MiddlePointSplit std bound MAX half],
      ∃ s, build bound split threshold MAX fuel Bvh.empty prims = some (s, []) ∧
        ((prims.length : Int) ≤ threshold →
          s.mPrimitives = prims ∧
          s.mNodes = [{ b := merge (make_aabb MAX) (make_aabb_point v), i0 := 0,
                        i1 := -(prims.length : Int) }]) ∧
        (threshold < (prims.length : Int) →
          3 ≤ s.mNodes.length ∧ ∀ nd, s.mNodes[0]? = some nd → is_leaf nd = false) ∧
        (∀ nd ∈ s.mNodes, is_leaf nd = true → length nd ≤ threshold) := by
  intro split hsplit
  have hcs : SplitContract split ∧ SplitStrict split threshold := by
    simp only [List.mem_cons, List.mem_singleton, List.not_mem_nil, or_false] at hsplit
    rcases hsplit with rfl | rfl
    · exact ⟨EqualCountsSplit_contract std hstd bound MAX half,
        EqualCountsSplit_strict std bound MAX half threshold ht⟩
    · exact ⟨MiddlePointSplit_contract std hstd bound MAX half,
        MiddlePointSplit_strict std hstd bound MAX half threshold ht⟩
  obtain ⟨s, h1, _, h3⟩ := build_fresh_spec bound split threshold MAX hcs.1 fuel prims hne hf
  have hls := build_leaf_sizes bound split threshold MAX hcs.2 fuel prims s [] h1
  refine ⟨s, h1, ?_, ?_, hls.1⟩
  · intro hle
    have h2 := build_of_le_threshold bound split threshold MAX fuel prims hne hle hf
    rw [h1] at h2
    have h4 := (Prod.mk.inj (Option.some.inj h2)).1
    rw [h4, rangeBox_same_box bound MAX _ prims hne hsame]
    exact ⟨rfl, rfl⟩
  · intro hlt
    have hb := h3.bounds
    obtain ⟨nd, hnd⟩ : ∃ nd, s.mNodes[0]? = some nd :=
      ⟨_, List.getElem?_eq_getElem hb.1⟩
    have hin := hls.2 hlt nd hnd
    have hin2 : 0 ≤ nd.i1 := by simpa [is_leaf] using hin
    obtain ⟨r, _, _, q1, q2⟩ := h3.inner_node (le_refl 0) hb.1 hnd hin2
    exact ⟨by omega, hls.2 hlt⟩

end LeafSizeFacts

section LeafSizeInstances

set_option maxRecDepth 100000

theorem equal_counts_leaves_le_threshold_witness :
    (refStd : StdAlgorithms Int).Permutes ∧ (1 : Int) ≤ 2 ∧
    ([3, 1, 2, 7, 5] : List Int).length ≤ 5 ∧
    ∃ s, build axisBound (EqualCountsSplit refStd axisBound (1000 : ℚ) (1 / 2)) 2 1000 5
        Bvh.empty [3, 1, 2, 7, 5] = some (s, []) ∧
      ∀ nd ∈ s.mNodes, is_leaf nd = true → length nd ≤ 2 :=
  ⟨refStd_permutes, by decide, by decide,
    equal_counts_leaves_le_threshold refStd refStd_permutes axisBound (1000 : ℚ) (1 / 2) 2
      (by decide) 5 [3, 1, 2, 7, 5] (by decide)⟩

theorem same_point_single_leaf_iff_witness :
    (refStd : StdAlgorithms Int).Permutes ∧ (1 : Int) ≤ 2 ∧ [5, 5, 5] ≠ ([] : List Int) ∧
    (∀ p ∈ ([5, 5, 5] : List Int), pointBound p = make_aabb_point (fun _ => 5)) ∧
    ([5, 5, 5] : List Int).length ≤ 3 ∧
    ∀ split ∈ [EqualCountsSplit refStd pointBound (100 : Int) 0,
        MiddlePointSplit refStd pointBound (100 : Int) 0],
      ∃ s, build pointBound split 2 (100 : Int) 3 Bvh.empty [5, 5, 5] = some (s, []) ∧
        ((([5, 5, 5] : List Int).length : Int) ≤ 2 →
          s.mPrimitives = [5, 5, 5] ∧
          s.mNodes = [{ b := merge (make_aabb (100 : Int)) (make_aabb_point (fun _ => 5)),
                        i0 := 0, i1 := -(([5, 5, 5] : List Int).length : Int) }]) ∧
        ((2 : Int) < (([5, 5, 5] : List Int).length : Int) →
          3 ≤ s.mNodes.length ∧ ∀ nd, s.mNodes[0]? = some nd → is_leaf nd = false) ∧
        (∀ nd ∈ s.mNodes, is_leaf nd = true → length nd ≤ 2) :=
  have hsame : ∀ p ∈ ([5, 5, 5] : List Int), pointBound p = make_aabb_point (fun _ => 5) := by
    intro p hp
    simp only [List.mem_cons, List.mem_singleton, List.not_mem_nil, or_false, or_self] at hp
    rw [hp]
    rfl
  ⟨refStd_permutes, by decide, by decide, hsame, by decide,
    same_point_single_leaf_iff refStd refStd_permutes pointBound (100 : Int) 0 2 (by decide) 3
      [5, 5, 5] (fun _ => 5) (by decide) hsame (by decide)⟩

/-- C16 (counterexample): two primitives at the same point 5, threshold 1, element type
`int`: the build with the Equal-Counts split, and likewise with the Middle-Point split,
makes three nodes, an inner root with children 1 and 2 and two leaves of one primitive. -/
theorem same_point_build_splits :
    (build pointBound (EqualCountsSplit refStd pointBound (100 : Int) 0) 1 (100 : Int) 2
        Bvh.empty [5, 5]).map (fun r => (r.1.mPrimitives, r.1.mNodes.map (fun nd => (nd.i0, nd.i1))))
      = some ([5, 5], [(1, 2), (0, -1), (1, -1)]) ∧
    (build pointBound (MiddlePointSplit refStd pointBound (100 : Int) 0) 1 (100 : Int) 2
        Bvh.empty [5, 5]).map (fun r => (r.1.mPrimitives, r.1.mNodes.map (fun nd => (nd.i0, nd.i1))))
      = some ([5, 5], [(1, 2), (0, -1), (1, -1)]) := by
  refine ⟨?_, ?_⟩ <;> decide

end LeafSizeInstances

section CopyBuild

variable {P T : Type} [LinearOrderedRing T] {N : Nat}

/-- C11 (the code at the failing input): on a default-constructed tree the iterator
overload of `build` returns at its first statement for every range, leaving the tree
without nodes and without primitives; on the one-element sequence `[3]` the move overload
builds a tree of one leaf that holds the primitive. -/
theorem build_copy_builds_nothing_on_fresh_tree :
    (∀ (P T : Type) [LinearOrderedRing T] (N : Nat) (bound : P → Aabb T N)
      (split : List P → Nat → Nat → Option (List P × Nat)) (threshold : Int) (MAX : T)
      (fuel : Nat) (range : List P),
      build_copy bound split threshold MAX fuel (Bvh.empty : Bvh P T N) range
        = some Bvh.empty) ∧
    (build_copy pointBound halfSplit 1 (100 : Int) 1 Bvh.empty [3]).map
        (fun s => (s.mPrimitives, s.mNodes.map (fun nd => (nd.i0, nd.i1)))) = some ([], []) ∧
    (build pointBound halfSplit 1 (100 : Int) 1 Bvh.empty [3]).map
        (fun r => (r.1.mPrimitives, r.1.mNodes.map (fun nd => (nd.i0, nd.i1))))
      = some ([3], [(0, -1)]) := by
  refine ⟨?_, ?_, ?_⟩
  · intro P T _ N bound split threshold MAX fuel range
    rfl
  · decide
  · decide

/-- C12 (the code at the failing input): the iterator overload of `build` does not test its
range. On a `Bvh` that holds primitives, called with an empty range and a threshold that is
not negative, it does not return at its first statement: it clears `mPrimitives`, appends a
node and makes node 0 the leaf of the empty range, with `i0 = 0` and `i1 = 0`, which
`is_leaf` takes for an inner node whose two children are node 0 itself. Afterwards the tree
holds no primitive, one node more than before, and `is_empty()` is false. -/
theorem build_copy_empty_range_on_built_tree (bound : P → Aabb T N)
    (split : List P → Nat → Nat → Option (List P × Nat)) (threshold : Int) (MAX : T)
    (fuel : Nat) (self : Bvh P T N) (hne : self.mPrimitives ≠ []) (hth : 0 ≤ threshold) :
    ∃ s, build_copy bound split threshold MAX (fuel + 1) self [] = some s ∧
      s.mPrimitives = [] ∧ s.mNodes.length = self.mNodes.length + 1 ∧ s.is_empty = false ∧
      ∃ nd, s.mNodes[0]? = some nd ∧ nd.i0 = 0 ∧ nd.i1 = 0 ∧ is_leaf nd = false ∧
        nd.b = make_aabb MAX := by
  have hemp : self.mPrimitives.isEmpty = false := by
    cases h : self.mPrimitives with
    | nil => exact absurd h hne
    | cons a l => rfl
  obtain ⟨nd0, hnd0⟩ : ∃ nd0, (self.mNodes ++ [BvhNode.fresh])[0]? = some nd0 :=
    ⟨_, List.getElem?_eq_getElem (by simp)⟩
  unfold build_copy
  simp only [hemp, Bool.false_eq_true, if_false, List.length_nil]
  rw [recursive_build]
  have hn : ¬ (((0 : Nat) : Int) - ((0 : Nat) : Int) > threshold) := by
    simp only [Nat.cast_zero, sub_zero, gt_iff_lt, not_lt]
    exact hth
  simp only [if_neg hn, true_or, if_true, le_refl, List.length_nil, and_self,
    modifyNode_eq hnd0, Option.map_some']
  refine ⟨_, rfl, rfl, by simp, ?_, ?_⟩
  · simp [Bvh.is_empty]
  · refine ⟨_, List.getElem?_set_self (by simp), ?_, ?_, ?_, ?_⟩
    · simp [set_leaf]
    · simp [set_leaf]
    · simp [is_leaf, set_leaf]
    · simp [rangeBox, slice]

/-- The theorem `build_copy_empty_range_on_built_tree` at a tree of one leaf that holds the
primitive 7. -/
theorem build_copy_empty_range_on_built_tree_witness :
    ([7] : List Int) ≠ [] ∧ (0 : Int) ≤ 1 ∧
    ∃ s, build_copy pointBound halfSplit 1 (100 : Int) (0 + 1)
        { mPrimitives := [7],
          mNodes := [{ b := pointBound 7, i0 := 0, i1 := -1 }] } [] = some s ∧
      s.mPrimitives = [] ∧
      s.mNodes.length = ([{ b := pointBound 7, i0 := 0, i1 := -1 }] :
        List (BvhNode Int 1)).length + 1 ∧
      s.is_empty = false ∧
      ∃ nd, s.mNodes[0]? = some nd ∧ nd.i0 = 0 ∧ nd.i1 = 0 ∧ is_leaf nd = false ∧
        nd.b = make_aabb 100 :=
  ⟨by decide, by decide,
    build_copy_empty_range_on_built_tree pointBound halfSplit 1 (100 : Int) 0
      { mPrimitives := [7], mNodes := [{ b := pointBound 7, i0 := 0, i1 := -1 }] }
      (by decide) (by decide)⟩

/-- The failing input of C12. On a default-constructed `Bvh` the iterator overload of
`build` returns at its first statement, for every range, also the empty one. On the tree that
the move overload builds from `[7]`, one leaf, the iterator overload with an empty range
leaves no primitive and the two nodes `(i0, i1) = (0, 0)`, `(0, 0)`, and `is_empty()` is
false. -/
theorem build_copy_empty_range_example :
    (build_copy pointBound halfSplit 1 (100 : Int) 1 Bvh.empty []).map
        (fun s => (s.mPrimitives, s.mNodes.map (fun nd => (nd.i0, nd.i1)), s.is_empty))
      = some ([], [], true) ∧
    (build pointBound halfSplit 1 (100 : Int) 1 Bvh.empty [7]).map
        (fun r => (r.1.mPrimitives, r.1.mNodes.map (fun nd => (nd.i0, nd.i1)), r.1.is_empty))
      = some ([7], [(0, -1)], false) ∧
    ((build pointBound halfSplit 1 (100 : Int) 1 Bvh.empty [7]).bind
        (fun r => build_copy pointBound halfSplit 1 (100 : Int) 1 r.1 [])).map
        (fun s => (s.mPrimitives, s.mNodes.map (fun nd => (nd.i0, nd.i1)), s.is_empty))
      = some ([], [(0, 0), (0, 0)], false) := by
  refine ⟨?_, ?_, ?_⟩ <;> decide

end CopyBuild

section ValidFacts

variable {T : Type} [LinearOrderedRing T] {N : Nat}

theorem foldl_vmin_le (vs : List (VectorN T N)) (v : VectorN T N) (i : Fin N) :
    vs.foldl vmin v i ≤ v i ∧ ∀ q ∈ vs, vs.foldl vmin v i ≤ q i := by
  induction vs generalizing v with
  | nil => simp
  | cons a l ih =>
    rw [List.foldl_cons]
    obtain ⟨h1, h2⟩ := ih (vmin v a)
    have h3 : vmin v a i = min (v i) (a i) := by simp [vmin, stdMin_eq_min]
    rw [h3] at h1
    refine ⟨le_trans h1 (min_le_left _ _), ?_⟩
    intro q hq
    rcases List.mem_cons.mp hq with rfl | hq
    · exact le_trans h1 (min_le_right _ _)
    · exact h2 q hq

theorem le_foldl_vmax (vs : List (VectorN T N)) (v : VectorN T N) (i : Fin N) :
    v i ≤ vs.foldl vmax v i ∧ ∀ q ∈ vs, q i ≤ vs.foldl vmax v i := by
  induction vs generalizing v with
  | nil => simp
  | cons a l ih =>
    rw [List.foldl_cons]
    obtain ⟨h1, h2⟩ := ih (vmax v a)
    have h3 : vmax v a i = max (v i) (a i) := by simp [vmax, stdMax_eq_max]
    rw [h3] at h1
    refine ⟨le_trans (le_max_left _ _) h1, ?_⟩
    intro q hq
    rcases List.mem_cons.mp hq with rfl | hq
    · exact le_trans (le_max_right _ _) h1
    · exact h2 q hq

/-- C21: the point constructors make valid boxes that hold their points, and `merge` keeps
validity: `make_aabb(v)` and `make_aabb(v, vs...)` are valid (`is_valid`), `v` and every
point of `vs` is inside the box made from them (`is_inside`), and `merge(a, b)` is valid
whenever `a` and `b` are. -/
theorem constructors_valid_merge_preserves (v : VectorN T N) (vs : List (VectorN T N))
    (a b : Aabb T N) :
    is_valid (make_aabb_point v) = true ∧ is_inside (make_aabb_point v) v = true ∧
    is_valid (make_aabb_points v vs) = true ∧
    (∀ q ∈ v :: vs, is_inside (make_aabb_points v vs) q = true) ∧
    (is_valid a = true → is_valid b = true → is_valid (merge a b) = true) := by
  refine ⟨?_, ?_, ?_, ?_, ?_⟩
  · simp [is_valid, vle_iff, make_aabb_point]
  · simp [is_inside, vle_iff, make_aabb_point]
  · simp only [is_valid, vle_iff, make_aabb_points]
    intro i
    exact le_trans (foldl_vmin_le vs v i).1 (le_foldl_vmax vs v i).1
  · intro q hq
    simp only [is_inside, Bool.and_eq_true, vle_iff, make_aabb_points]
    rcases List.mem_cons.mp hq with rfl | hq
    · exact ⟨fun i => (foldl_vmin_le vs q i).1, fun i => (le_foldl_vmax vs q i).1⟩
    · exact ⟨fun i => (foldl_vmin_le vs v i).2 q hq, fun i => (le_foldl_vmax vs v i).2 q hq⟩
  · simp only [is_valid, vle_iff]
    intro ha hb i
    rw [merge_p0, merge_p1]
    exact le_trans (min_le_left _ _) (le_trans (ha i) (le_max_left _ _))

/-- C22: for valid boxes `a` and `b`, the box `intersect(a, b)` (elementwise max of the low
corners, min of the high corners) is valid exactly when `a` and `b` overlap in the closed
sense, `is_intersecting(a, b)`. -/
theorem intersect_valid_iff_overlap (a b : Aabb T N) (ha : is_valid a = true)
    (hb : is_valid b = true) :
    (intersect_aabb a b).p0 = vmax a.p0 b.p0 ∧ (intersect_aabb a b).p1 = vmin a.p1 b.p1 ∧
    (is_valid (intersect_aabb a b) = true ↔ is_intersecting a b = true) ∧
    (is_valid (intersect_aabb a b) = false ↔ is_intersecting a b = false) := by
  have key : is_valid (intersect_aabb a b) = true ↔ is_intersecting a b = true := by
    simp only [is_valid, vle_iff] at ha hb
    simp only [is_valid, is_intersecting, intersect_aabb, Bool.and_eq_true, vle_iff, vmax, vmin,
      stdMax_eq_max, stdMin_eq_min, max_le_iff, le_min_iff]
    constructor
    · intro h
      exact ⟨fun i => (h i).2.1, fun i => (h i).1.2⟩
    · intro h i
      exact ⟨⟨ha i, h.2 i⟩, ⟨h.1 i, hb i⟩⟩
  refine ⟨rfl, rfl, key, ?_⟩
  rw [← Bool.not_eq_true, ← Bool.not_eq_true, key]

theorem intersect_valid_iff_overlap_witness :
    is_valid (make_aabb_points (fun _ : Fin 1 => (0 : Int)) [fun _ => 2]) = true ∧
    is_valid (make_aabb_points (fun _ : Fin 1 => (1 : Int)) [fun _ => 3]) = true ∧
    ((intersect_aabb (make_aabb_points (fun _ : Fin 1 => (0 : Int)) [fun _ => 2])
        (make_aabb_points (fun _ => 1) [fun _ => 3])).p0
      = vmax (make_aabb_points (fun _ : Fin 1 => (0 : Int)) [fun _ => 2]).p0
        (make_aabb_points (fun _ : Fin 1 => (1 : Int)) [fun _ => 3]).p0 ∧
    (intersect_aabb (make_aabb_points (fun _ : Fin 1 => (0 : Int)) [fun _ => 2])
        (make_aabb_points (fun _ => 1) [fun _ => 3])).p1
      = vmin (make_aabb_points (fun _ : Fin 1 => (0 : Int)) [fun _ => 2]).p1
        (make_aabb_points (fun _ : Fin 1 => (1 : Int)) [fun _ => 3]).p1 ∧
    (is_valid (intersect_aabb (make_aabb_points (fun _ : Fin 1 => (0 : Int)) [fun _ => 2])
        (make_aabb_points (fun _ => 1) [fun _ => 3])) = true ↔
      is_intersecting (make_aabb_points (fun _ : Fin 1 => (0 : Int)) [fun _ => 2])
        (make_aabb_points (fun _ => 1) [fun _ => 3]) = true) ∧
    (is_valid (intersect_aabb (make_aabb_points (fun _ : Fin 1 => (0 : Int)) [fun _ => 2])
        (make_aabb_points (fun _ => 1) [fun _ => 3])) = false ↔
      is_intersecting (make_aabb_points (fun _ : Fin 1 => (0 : Int)) [fun _ => 2])
        (make_aabb_points (fun _ => 1) [fun _ => 3]) = false)) :=
  ⟨by decide, by decide,
    intersect_valid_iff_overlap (make_aabb_points (fun _ : Fin 1 => (0 : Int)) [fun _ => 2])
      (make_aabb_points (fun _ => 1) [fun _ => 3]) (by decide) (by decide)⟩

end ValidFacts

section ArgFacts

variable {T : Type} [LinearOrder T] {N : Nat}

/-- The loop of `op_impl_arg` over increasing indices `l`, all at least `k0`, with the
comparison `key k < key i`: it ends at the least index among `k0` and `l` whose key is the
greatest. -/
theorem foldl_arg_spec {κ : Type} [LinearOrder κ] (key : Fin N → κ) :
    ∀ (l : List (Fin N)) (k0 : Fin N), l.Pairwise (fun a b => a < b) → (∀ i ∈ l, k0 ≤ i) →
      key k0 ≤ key (l.foldl (fun k i => if key k < key i then i else k) k0) ∧
      (∀ i ∈ l, key i ≤ key (l.foldl (fun k i => if key k < key i then i else k) k0)) ∧
      (∀ i ∈ l, i < l.foldl (fun k i => if key k < key i then i else k) k0 →
        key i < key (l.foldl (fun k i => if key k < key i then i else k) k0)) ∧
      (k0 < l.foldl (fun k i => if key k < key i then i else k) k0 →
        key k0 < key (l.foldl (fun k i => if key k < key i then i else k) k0)) ∧
      k0 ≤ l.foldl (fun k i => if key k < key i then i else k) k0 := by
  intro l
  induction l with
  | nil =>
    intro k0 _ _
    simp
  | cons a l ih =>
    intro k0 hp hk
    rw [List.foldl_cons]
    have hp2 := List.pairwise_cons.mp hp
    have hka : k0 ≤ a := hk a (List.mem_cons_self a l)
    by_cases hlt : key k0 < key a
    · rw [if_pos hlt]
      obtain ⟨h1, h2, h3, h4, h5⟩ := ih a hp2.2 (fun i hi => (hp2.1 i hi).le)
      refine ⟨le_trans hlt.le h1, ?_, ?_, ?_, le_trans hka h5⟩
      · intro i hi
        rcases List.mem_cons.mp hi with rfl | hi
        · exact h1
        · exact h2 i hi
      · intro i hi hik
        rcases List.mem_cons.mp hi with rfl | hi
        · exact h4 hik
        · exact h3 i hi hik
      · intro _
        exact lt_of_lt_of_le hlt h1
    · rw [if_neg hlt]
      obtain ⟨h1, h2, h3, h4, h5⟩ := ih k0 hp2.2
        (fun i hi => hk i (List.mem_cons_of_mem a hi))
      refine ⟨h1, ?_, ?_, h4, h5⟩
      · intro i hi
        rcases List.mem_cons.mp hi with rfl | hi
        · exact le_trans (not_lt.mp hlt) h1
        · exact h2 i hi
      · intro i hi hik
        rcases List.mem_cons.mp hi with rfl | hi
        · exact lt_of_le_of_lt (not_lt.mp hlt) (h4 (lt_of_le_of_lt hka hik))
        · exact h3 i hi hik

theorem argmax_spec [NeZero N] (p : VectorN T N) :
    (∀ j, p j ≤ p (argmax p)) ∧ ∀ j, j < argmax p → p j < p (argmax p) := by
  obtain ⟨_, h2, h3, _, _⟩ := foldl_arg_spec p (List.finRange N) 0
    (List.pairwise_lt_finRange N) (fun i _ => Fin.zero_le' i)
  exact ⟨fun j => h2 j (List.mem_finRange j), fun j hj => h3 j (List.mem_finRange j) hj⟩

theorem argmin_spec [NeZero N] (p : VectorN T N) :
    (∀ j, p (argmin p) ≤ p j) ∧ ∀ j, j < argmin p → p (argmin p) < p j := by
  obtain ⟨_, h2, h3, _, _⟩ := foldl_arg_spec (fun i => OrderDual.toDual (p i))
    (List.finRange N) 0 (List.pairwise_lt_finRange N) (fun i _ => Fin.zero_le' i)
  exact ⟨fun j => h2 j (List.mem_finRange j), fun j hj => h3 j (List.mem_finRange j) hj⟩

/-- C26: for every vector `p` with at least one component, `argmax(p)` is the least index
whose component is the maximum `max(p)`: `p[argmax(p)] = max(p)` and `p[j] < max(p)` for
every `j < argmax(p)`; and `argmin(p)` is the least index whose component is the minimum
`min(p)`. -/
theorem argmax_argmin_least_index [NeZero N] (p : VectorN T N) :
    (p (argmax p) = vmaxr p ∧ ∀ j, j < argmax p → p j < vmaxr p) ∧
    (p (argmin p) = vminr p ∧ ∀ j, j < argmin p → vminr p < p j) := by
  have hmax : p (argmax p) = vmaxr p :=
    le_antisymm ((vmaxr_le_iff p (vmaxr p)).mp (le_refl _) _)
      ((vmaxr_le_iff p _).mpr (argmax_spec p).1)
  have hmin : p (argmin p) = vminr p :=
    le_antisymm ((le_vminr_iff p _).mpr (argmin_spec p).1)
      ((le_vminr_iff p (vminr p)).mp (le_refl _) _)
  refine ⟨⟨hmax, ?_⟩, ⟨hmin, ?_⟩⟩
  · intro j hj
    rw [← hmax]
    exact (argmax_spec p).2 j hj
  · intro j hj
    rw [← hmin]
    exact (argmin_spec p).2 j hj

theorem argmax_argmin_least_index_witness :
    (((fun i : Fin 3 => if i = 0 then (1 : Int) else 5) (argmax (fun i : Fin 3 =>
          if i = 0 then (1 : Int) else 5))
        = vmaxr (fun i : Fin 3 => if i = 0 then (1 : Int) else 5) ∧
      ∀ j, j < argmax (fun i : Fin 3 => if i = 0 then (1 : Int) else 5) →
        (fun i : Fin 3 => if i = 0 then (1 : Int) else 5) j
          < vmaxr (fun i : Fin 3 => if i = 0 then (1 : Int) else 5)) ∧
    ((fun i : Fin 3 => if i = 0 then (1 : Int) else 5) (argmin (fun i : Fin 3 =>
          if i = 0 then (1 : Int) else 5))
        = vminr (fun i : Fin 3 => if i = 0 then (1 : Int) else 5) ∧
      ∀ j, j < argmin (fun i : Fin 3 => if i = 0 then (1 : Int) else 5) →
        vminr (fun i : Fin 3 => if i = 0 then (1 : Int) else 5)
          < (fun i : Fin 3 => if i = 0 then (1 : Int) else 5) j)) ∧
    argmax (fun i : Fin 3 => if i = 0 then (1 : Int) else 5) = 1 ∧
    argmin (fun i : Fin 3 => if i = 0 then (1 : Int) else 5) = 0 :=
  ⟨argmax_argmin_least_index (fun i : Fin 3 => if i = 0 then (1 : Int) else 5), by decide,
    by decide⟩

end ArgFacts

section SlabTheorems

variable {T : Type} [LinearOrderedField T] {N : Nat} [NeZero N]

omit [NeZero N] in
/-- C27 (as amended): over an element type in which `(T)(0.5)` is one half (the
floating-point types, in exact arithmetic), `centroid(b)[i] = (lo[i] + hi[i]) / 2` in every
dimension; over an element type in which `(T)(0.5)` is 0 (the integer types),
`centroid(b)[i] = 0`. -/
theorem centroid_eq_half_sum :
    (∀ (T : Type) [LinearOrderedField T] (N : Nat) (b : Aabb T N) (i : Fin N),
      centroid (1 / 2 : T) b i = (b.p0 i + b.p1 i) / 2) ∧
    (∀ (T : Type) [LinearOrderedRing T] (N : Nat) (b : Aabb T N) (i : Fin N),
      centroid (0 : T) b i = 0) := by
  constructor
  · intro T _ N b i
    simp only [centroid]
    ring
  · intro T _ N b i
    simp [centroid]

/-- C27 (counterexample): with `T = int`, where `(T)(0.5)` is 0, the box with `lo = 2` and
`hi = 4` has `centroid(b)[0] = 0`, while `(lo[0] + hi[0]) / 2 = 3`. -/
theorem centroid_int_is_zero :
    centroid (0 : Int) ({ p0 := fun _ => 2, p1 := fun _ => 4 } : Aabb Int 1) 0 = 0 ∧
    (({ p0 := fun _ => 2, p1 := fun _ => 4 } : Aabb Int 1).p0 0 +
      ({ p0 := fun _ => 2, p1 := fun _ => 4 } : Aabb Int 1).p1 0) / 2 = 3 ∧
    centroid (0 : Int) ({ p0 := fun _ => 2, p1 := fun _ => 4 } : Aabb Int 1) 0 ≠
      (({ p0 := fun _ => 2, p1 := fun _ => 4 } : Aabb Int 1).p0 0 +
        ({ p0 := fun _ => 2, p1 := fun _ => 4 } : Aabb Int 1).p1 0) / 2 := by
  refine ⟨?_, ?_, ?_⟩ <;> decide

/-- C30: in exact arithmetic, for every valid box `b`, origin `org`, direction `dir` with no
zero component, `inv = 1 / dir` elementwise and `dist > 0`, the slab test
`is_intersecting(b, org, inv, dist, true)` is true exactly when some `t` with
`0 < t < dist` has the point `org + t * dir` inside `b` (`is_inside`). -/
theorem slab_test_iff_point_inside (b : Aabb T N) (org dir inv : VectorN T N) (dist : T)
    (hv : is_valid b = true) (hdir : ∀ i, dir i ≠ 0) (hinv : ∀ i, inv i = 1 / dir i)
    (hd : 0 < dist) :
    is_intersecting_inv b org inv dist = true ↔
      ∃ t, 0 < t ∧ t < dist ∧ is_inside b (fun i => org i + t * dir i) = true := by
  have hinv2 : inv = fun i => (make_vector 1 : VectorN T N) i / dir i := by
    funext i
    rw [hinv i, make_vector_apply]
  simp only [is_valid, vle_iff] at hv
  constructor
  · intro h
    unfold is_intersecting_inv at h
    simp only [Bool.and_eq_true, decide_eq_true_eq] at h
    obtain ⟨⟨h1, h2⟩, h3⟩ := h
    set t0 := vmaxr (vmin (fun i => (b.p0 i - org i) * inv i)
      (fun i => (b.p1 i - org i) * inv i)) with ht0
    set t1 := vminr (vmax (fun i => (b.p0 i - org i) * inv i)
      (fun i => (b.p1 i - org i) * inv i)) with ht1
    have hc : 0 < min (dist / 2) t1 := lt_min (by linarith) h1
    have hc2 : min (dist / 2) t1 < dist := lt_of_le_of_lt (min_le_left _ _) (by linarith)
    refine ⟨max t0 (min (dist / 2) t1), lt_of_lt_of_le hc (le_max_right _ _),
      max_lt h3 hc2, ?_⟩
    have hlo : ∀ i, min ((b.p0 i - org i) * inv i) ((b.p1 i - org i) * inv i)
        ≤ max t0 (min (dist / 2) t1) := by
      intro i
      have := (vmaxr_le_iff _ t0).mp (le_refl _) i
      simp only [vmin, stdMin_eq_min] at this
      exact le_trans this (le_max_left _ _)
    have hhi : ∀ i, max t0 (min (dist / 2) t1)
        ≤ max ((b.p0 i - org i) * inv i) ((b.p1 i - org i) * inv i) := by
      intro i
      have := (le_vminr_iff _ t1).mp (le_refl _) i
      simp only [vmax, stdMax_eq_max] at this
      exact le_trans (max_le h2 (min_le_right _ _)) this
    simp only [is_inside, Bool.and_eq_true, vle_iff]
    generalize max t0 (min (dist / 2) t1) = t at hlo hhi
    constructor
    · intro i
      have a1 := hlo i
      have a2 := hhi i
      rw [hinv i, mul_one_div, mul_one_div] at a1 a2
      rcases lt_or_gt_of_ne (hdir i) with hneg | hpos
      · have hk : (b.p1 i - org i) / dir i ≤ (b.p0 i - org i) / dir i :=
          div_le_div_of_nonpos_of_le hneg.le (by linarith [hv i])
        rw [max_eq_left hk, le_div_iff_of_neg hneg] at a2
        linarith
      · have hk : (b.p0 i - org i) / dir i ≤ (b.p1 i - org i) / dir i :=
          div_le_div_of_nonneg_right (by linarith [hv i]) hpos.le
        rw [min_eq_left hk, div_le_iff₀ hpos] at a1
        linarith
    · intro i
      have a1 := hlo i
      have a2 := hhi i
      rw [hinv i, mul_one_div, mul_one_div] at a1 a2
      rcases lt_or_gt_of_ne (hdir i) with hneg | hpos
      · have hk : (b.p1 i - org i) / dir i ≤ (b.p0 i - org i) / dir i :=
          div_le_div_of_nonpos_of_le hneg.le (by linarith [hv i])
        rw [min_eq_right hk, div_le_iff_of_neg hneg] at a1
        linarith
      · have hk : (b.p0 i - org i) / dir i ≤ (b.p1 i - org i) / dir i :=
          div_le_div_of_nonneg_right (by linarith [hv i]) hpos.le
        rw [max_eq_right hk, le_div_iff₀ hpos] at a2
        linarith
  · rintro ⟨t, ht0, htd, hin⟩
    simp only [is_inside, Bool.and_eq_true, vle_iff] at hin
    rw [hinv2]
    exact slab_of_point_inside b org dir dist t hdir ht0 htd (fun i => ⟨hin.1 i, hin.2 i⟩)

theorem slab_test_iff_point_inside_witness :
    is_valid (make_aabb_points (fun _ : Fin 3 => (1 : ℚ)) [fun _ => 2]) = true ∧
    (∀ i : Fin 3, (fun _ : Fin 3 => (1 : ℚ)) i ≠ 0) ∧
    (∀ i : Fin 3, (fun _ : Fin 3 => (1 : ℚ)) i = 1 / (fun _ : Fin 3 => (1 : ℚ)) i) ∧
    (0 : ℚ) < 5 ∧
    (is_intersecting_inv (make_aabb_points (fun _ : Fin 3 => (1 : ℚ)) [fun _ => 2])
        (fun _ => 0) (fun _ => 1) 5 = true ↔
      ∃ t, 0 < t ∧ t < 5 ∧
        is_inside (make_aabb_points (fun _ : Fin 3 => (1 : ℚ)) [fun _ => 2])
          (fun i => (fun _ : Fin 3 => (0 : ℚ)) i + t * (fun _ : Fin 3 => (1 : ℚ)) i) = true) :=
  have hv : is_valid (make_aabb_points (fun _ : Fin 3 => (1 : ℚ)) [fun _ => 2]) = true := by
    simp [is_valid, vle_iff, make_aabb_points, vmin, vmax, stdMin_eq_min, stdMax_eq_max]
  ⟨hv, fun _ => one_ne_zero, fun _ => (div_one 1).symm, by norm_num,
    slab_test_iff_point_inside (make_aabb_points (fun _ : Fin 3 => (1 : ℚ)) [fun _ => 2])
      (fun _ => 0) (fun _ => 1) (fun _ => 1) 5 hv (fun _ => one_ne_zero)
      (fun _ => (div_one 1).symm) (by norm_num)⟩

end SlabTheorems

section LeafRule

variable {P T : Type} [LinearOrderedRing T] {N : Nat}

/-- One call of `recursive_build` whose position `piter` is `biter` or `eiter`: node `curr`
becomes the leaf of the range, with the box of the range, and no node is appended. -/
theorem recursive_build_leaf_step (bound : P → Aabb T N)
    (split : List P → Nat → Nat → Option (List P × Nat)) (threshold : Int) (MAX : T)
    (fuel : Nat) (self : Bvh P T N) (b e curr : Nat) (depth : Int) (nd0 : BvhNode T N)
    (prims2 : List P) (m : Nat)
    (hsp : (if ((e : Int) - (b : Int)) > threshold then split self.mPrimitives b e
        else some (self.mPrimitives, e)) = some (prims2, m))
    (hm : m = b ∨ m = e) (hbe : b ≤ e) (he : e ≤ prims2.length)
    (hnd : self.mNodes[curr]? = some nd0) :
    recursive_build bound split threshold MAX (fuel + 1) self b e curr depth =
      some { mPrimitives := prims2,
             mNodes := self.mNodes.set curr
               { b := rangeBox bound MAX prims2 b e, i0 := (b : Int),
                 i1 := -((e : Int) - (b : Int)) } } := by
  rw [recursive_build]
  simp only [hsp]
  rw [if_pos hm, if_pos ⟨hbe, he⟩, modifyNode_eq hnd]
  simp [set_leaf]

/-- One call of `recursive_build` whose position `piter` is neither `biter` nor `eiter`,
whenever it returns: two nodes or more are appended, and node `curr` is an inner node whose
left child is the first appended node and whose right child comes after it. -/
theorem recursive_build_inner_step (bound : P → Aabb T N)
    (split : List P → Nat → Nat → Option (List P × Nat)) (threshold : Int) (MAX : T)
    (fuel : Nat) (self : Bvh P T N) (b e curr : Nat) (depth : Int)
    (prims2 : List P) (m : Nat) (s : Bvh P T N)
    (hsp : (if ((e : Int) - (b : Int)) > threshold then split self.mPrimitives b e
        else some (self.mPrimitives, e)) = some (prims2, m))
    (hm1 : m ≠ b) (hm2 : m ≠ e)
    (h : recursive_build bound split threshold MAX (fuel + 1) self b e curr depth = some s) :
    self.mNodes.length + 2 ≤ s.mNodes.length ∧
    ∃ nd, s.mNodes[curr]? = some nd ∧ is_leaf nd = false ∧
      nd.i0 = (self.mNodes.length : Int) ∧ nd.i0 < nd.i1 ∧ nd.i1 < (s.mNodes.length : Int) := by
  rw [recursive_build] at h
  simp only [hsp] at h
  rw [if_neg (by rintro (h1 | h1) <;> contradiction)] at h
  obtain ⟨n1, g1, h⟩ := Option.bind_eq_some.mp h
  obtain ⟨n2, g2, h⟩ := Option.bind_eq_some.mp h
  obtain ⟨s1, g3, h⟩ := Option.bind_eq_some.mp h
  obtain ⟨ndL, _, h⟩ := Option.bind_eq_some.mp h
  obtain ⟨n3, g4, h⟩ := Option.bind_eq_some.mp h
  obtain ⟨n4, g5, h⟩ := Option.bind_eq_some.mp h
  obtain ⟨s2, g6, h⟩ := Option.bind_eq_some.mp h
  obtain ⟨ndR, _, h⟩ := Option.bind_eq_some.mp h
  obtain ⟨n5, g7, h⟩ := Option.map_eq_some'.mp h
  subst h
  obtain ⟨a1, ha1, e1⟩ := modifyNode_inv g1
  obtain ⟨a2, ha2, e2⟩ := modifyNode_inv g2
  obtain ⟨a3, ha3, e3⟩ := modifyNode_inv g4
  obtain ⟨a4, ha4, e4⟩ := modifyNode_inv g5
  obtain ⟨a5, ha5, e5⟩ := modifyNode_inv g7
  have hcl : curr < self.mNodes.length := (List.getElem?_eq_some.mp ha1).1
  have l1 : n1.length = self.mNodes.length := by rw [e1, List.length_set]
  have l2 : n2.length = self.mNodes.length := by rw [e2, List.length_set, l1]
  obtain ⟨p1, p2⟩ := recursive_build_nodes_frame bound split threshold MAX _ _ _ _ _ _ _ g3
  simp only [List.length_append, List.length_singleton] at p1 p2
  have l3 : n3.length = s1.mNodes.length := by rw [e3, List.length_set]
  have l4 : n4.length = s1.mNodes.length := by rw [e4, List.length_set, l3]
  obtain ⟨q1, q2⟩ := recursive_build_nodes_frame bound split threshold MAX _ _ _ _ _ _ _ g6
  simp only [List.length_append, List.length_singleton] at q1 q2
  have l5 : n5.length = s2.mNodes.length := by rw [e5, List.length_set]
  have hcl2 : curr < s2.mNodes.length := by omega
  -- the fields of node `curr` before the last assignment
  have h3 : s1.mNodes[curr]? = n2[curr]? := by
    rw [p2 curr (by omega) (by omega), List.getElem?_append_left (by omega)]
  have ha3v : a3.i0 = (n1.length : Int) := by
    rw [h3, e2, List.getElem?_set_self (by rw [l1]; exact hcl)] at ha3
    simp only [Option.some.injEq] at ha3
    rw [← ha3]
  have h5 : s2.mNodes[curr]? = n4[curr]? := by
    rw [q2 curr (by omega) (by omega), List.getElem?_append_left (by omega)]
  have ha4v : a4.i0 = (n1.length : Int) := by
    rw [e3, List.getElem?_set_self (by omega)] at ha4
    simp only [Option.some.injEq] at ha4
    rw [← ha4]
    exact ha3v
  have ha5v : a5.i0 = (n1.length : Int) ∧ a5.i1 = (n3.length : Int) := by
    rw [h5, e4, List.getElem?_set_self (by omega)] at ha5
    simp only [Option.some.injEq] at ha5
    rw [← ha5]
    exact ⟨ha4v, rfl⟩
  refine ⟨by simp only; omega, { a5 with b := merge a5.b ndR.b }, ?_, ?_, ?_, ?_, ?_⟩
  · simp only
    rw [e5]
    exact List.getElem?_set_self hcl2
  · simp only [is_leaf, decide_eq_false_iff_not, not_lt]
    omega
  · simp only
    omega
  · simp only
    omega
  · simp only
    omega

/-- C28: one call of `recursive_build` on a non-empty range `[b, e)` of `n = e - b`
primitives at the last node `curr`, with a split callback that only permutes its range and
returns a position in `[b, e]`. The call returns. When `n ≤ threshold` the result is the
same for every split callback (the callback is not invoked): node `curr` is the leaf
`(i0 = b, i1 = -n)` with the merged box of the range, and no node is appended. When
`n > threshold` the callback returns some position `m`: if `m` is `b` or `e` the node is
again that leaf, over the vector as the callback left it, and no node is appended;
otherwise nodes are appended and `curr` is an inner node. So `curr` is a leaf exactly when
`n ≤ threshold` or the callback returns `b` or `e`. And the build of a single primitive on a
default-constructed tree yields exactly one node, a leaf. -/
theorem recursive_build_leaf_rule (bound : P → Aabb T N)
    (split : List P → Nat → Nat → Option (List P × Nat)) (threshold : Int) (MAX : T)
    (hs : SplitContract split) :
    (∀ (fuel : Nat) (self : Bvh P T N) (b e curr : Nat) (depth : Int),
      b < e → e ≤ self.mPrimitives.length → curr + 1 = self.mNodes.length → e - b ≤ fuel →
      ∃ s, recursive_build bound split threshold MAX fuel self b e curr depth = some s ∧
        ((e : Int) - (b : Int) ≤ threshold →
          (∀ split2, recursive_build bound split2 threshold MAX fuel self b e curr depth
            = some s) ∧
          s = { mPrimitives := self.mPrimitives,
                mNodes := self.mNodes.set curr
                  { b := rangeBox bound MAX self.mPrimitives b e, i0 := (b : Int),
                    i1 := -((e : Int) - (b : Int)) } }) ∧
        (threshold < (e : Int) - (b : Int) →
          ∃ prims2 m, split self.mPrimitives b e = some (prims2, m) ∧
            (m = b ∨ m = e →
              s = { mPrimitives := prims2,
                    mNodes := self.mNodes.set curr
                      { b := rangeBox bound MAX prims2 b e, i0 := (b : Int),
                        i1 := -((e : Int) - (b : Int)) } }) ∧
            (m ≠ b ∧ m ≠ e →
              self.mNodes.length + 2 ≤ s.mNodes.length ∧
              ∃ nd, s.mNodes[curr]? = some nd ∧ is_leaf nd = false)) ∧
        (∀ nd, s.mNodes[curr]? = some nd →
          (is_leaf nd = true ↔
            ((e : Int) - (b : Int) ≤ threshold ∨
              ∃ prims2 m, split self.mPrimitives b e = some (prims2, m) ∧ (m = b ∨ m = e))))) ∧
    (∀ (fuel : Nat) (p : P),
      build bound split threshold MAX (fuel + 1) Bvh.empty [p] =
        some ({ mPrimitives := [p],
                mNodes := [{ b := merge (make_aabb MAX) (bound p), i0 := 0, i1 := -1 }] },
              [])) := by
  constructor
  · intro fuel self b e curr depth hbe he hc hf
    obtain ⟨f, rfl⟩ : ∃ f, fuel = f + 1 := ⟨fuel - 1, by omega⟩
    obtain ⟨s, h1, _, _, _⟩ := recursive_build_spec bound split threshold MAX hs (f + 1) self
      b e curr depth hbe he hc hf
    have hcl : curr < self.mNodes.length := by omega
    obtain ⟨nd0, hnd0⟩ : ∃ nd0, self.mNodes[curr]? = some nd0 :=
      ⟨_, List.getElem?_eq_getElem hcl⟩
    have hleafnode : ∀ (prims2 : List P) (nd : BvhNode T N),
        (self.mNodes.set curr
          { b := rangeBox bound MAX prims2 b e, i0 := (b : Int),
            i1 := -((e : Int) - (b : Int)) })[curr]? = some nd → is_leaf nd = true := by
      intro prims2 nd hnd
      rw [List.getElem?_set_self hcl] at hnd
      simp only [Option.some.injEq] at hnd
      subst hnd
      simp only [is_leaf, decide_eq_true_eq]
      omega
    by_cases hn : (e : Int) - (b : Int) > threshold
    · obtain ⟨prims2, m, hsp, hrp, hbm, hme⟩ := hs self.mPrimitives b e hbe he
      have hif : (if ((e : Int) - (b : Int)) > threshold then split self.mPrimitives b e
          else some (self.mPrimitives, e)) = some (prims2, m) := by rw [if_pos hn, hsp]
      by_cases hm : m = b ∨ m = e
      · have h2 := recursive_build_leaf_step bound split threshold MAX f self b e curr depth
          nd0 prims2 m hif hm hbe.le (by rw [hrp.1]; exact he) hnd0
        rw [h1] at h2
        have h3 := Option.some.inj h2
        refine ⟨s, h1, fun hle => absurd hn (not_lt.mpr hle), fun _ => ⟨prims2, m, hsp,
          fun _ => h3, fun hne => absurd hm (by
            rintro (h | h)
            · exact hne.1 h
            · exact hne.2 h)⟩, ?_⟩
        intro nd hnd
        rw [h3] at hnd
        exact ⟨fun _ => Or.inr ⟨prims2, m, hsp, hm⟩, fun _ => hleafnode prims2 nd hnd⟩
      · have hm1 : m ≠ b := fun h => hm (Or.inl h)
        have hm2 : m ≠ e := fun h => hm (Or.inr h)
        obtain ⟨k1, nd, k2, k3, _⟩ := recursive_build_inner_step bound split threshold MAX f
          self b e curr depth prims2 m s hif hm1 hm2 h1
        refine ⟨s, h1, fun hle => absurd hn (not_lt.mpr hle), fun _ => ⟨prims2, m, hsp,
          fun h => absurd h hm, fun _ => ⟨k1, nd, k2, k3⟩⟩, ?_⟩
        intro nd2 hnd2
        have : nd2 = nd := Option.some.inj (hnd2.symm.trans k2)
        subst this
        constructor
        · intro hl
          rw [k3] at hl
          cases hl
        · rintro (hle | ⟨p3, m3, hsp3, hm3⟩)
          · exact absurd hn (not_lt.mpr hle)
          · rw [hsp] at hsp3
            have : m = m3 := (Prod.mk.inj (Option.some.inj hsp3)).2
            subst this
            exact absurd hm3 hm
    · have hle : (e : Int) - (b : Int) ≤ threshold := not_lt.mp hn
      have hstep : ∀ split2 : List P → Nat → Nat → Option (List P × Nat),
          recursive_build bound split2 threshold MAX (f + 1) self b e curr depth =
            some { mPrimitives := self.mPrimitives,
                   mNodes := self.mNodes.set curr
                     { b := rangeBox bound MAX self.mPrimitives b e, i0 := (b : Int),
                       i1 := -((e : Int) - (b : Int)) } } := by
        intro split2
        exact recursive_build_leaf_step bound split2 threshold MAX f self b e curr depth nd0
          self.mPrimitives e (by rw [if_neg hn]) (Or.inr rfl) hbe.le he hnd0
      have h3 := Option.some.inj ((hstep split).symm.trans h1)
      refine ⟨s, h1, fun _ => ⟨fun split2 => by rw [← h3]; exact hstep split2, h3.symm⟩,
        fun hlt => absurd hlt hn, ?_⟩
      intro nd hnd
      rw [← h3] at hnd
      exact ⟨fun _ => Or.inl hle, fun _ => hleafnode self.mPrimitives nd hnd⟩
  · intro fuel p
    obtain ⟨s, h1, h2, h3⟩ := build_fresh_spec bound split threshold MAX hs (fuel + 1) [p]
      (List.cons_ne_nil _ _) (by simp)
    have hb := h3.bounds
    obtain ⟨nd, hnd⟩ : ∃ nd, s.mNodes[0]? = some nd := ⟨_, List.getElem?_eq_getElem hb.1⟩
    have hp : s.mPrimitives = [p] := by
      have := h2.perm
      exact List.perm_singleton.mp this
    rw [h1]
    rcases h3.node_cases hnd with ⟨_, c2, c3, c4, c5⟩ | ⟨r, m, _, _, _, _, hl, hr⟩
    · have hlen : s.mNodes.length = 1 := by simpa using c2
      have hnodes : s.mNodes = [nd] := by
        cases hm : s.mNodes with
        | nil => rw [hm] at hlen; simp at hlen
        | cons x l =>
          rw [hm] at hlen hnd
          simp only [List.length_cons, add_left_eq_self, List.length_eq_zero] at hlen
          subst hlen
          simp only [List.getElem?_cons_zero, Option.some.injEq] at hnd
          rw [hnd]
      have hbox : nd.b = merge (make_aabb MAX) (bound p) := by
        rw [c5, hp]
        simp [rangeBox, slice]
      have hndeq : nd = { b := merge (make_aabb MAX) (bound p), i0 := 0, i1 := -1 } := by
        cases nd with
        | mk bb j0 j1 =>
          simp only at c3 c4 hbox
          simp only [List.length_singleton, Nat.cast_one, Nat.cast_zero, sub_zero] at c3 c4
          rw [hbox, c3, c4]
      cases s with
      | mk sp sn =>
        simp only at hp hnodes
        rw [hp, hnodes, hndeq]
    · have bl := hl.bounds
      have br := hr.bounds
      simp only [List.length_singleton] at br
      omega

theorem recursive_build_leaf_rule_witness :
    SplitContract (halfSplit : List Int → _) ∧
    ((∀ (fuel : Nat) (self : Bvh Int Int 1) (b e curr : Nat) (depth : Int),
      b < e → e ≤ self.mPrimitives.length → curr + 1 = self.mNodes.length → e - b ≤ fuel →
      ∃ s, recursive_build pointBound halfSplit 1 (100 : Int) fuel self b e curr depth
          = some s ∧
        ((e : Int) - (b : Int) ≤ 1 →
          (∀ split2, recursive_build pointBound split2 1 (100 : Int) fuel self b e curr depth
            = some s) ∧
          s = { mPrimitives := self.mPrimitives,
                mNodes := self.mNodes.set curr
                  { b := rangeBox pointBound 100 self.mPrimitives b e, i0 := (b : Int),
                    i1 := -((e : Int) - (b : Int)) } }) ∧
        (1 < (e : Int) - (b : Int) →
          ∃ prims2 m, halfSplit self.mPrimitives b e = some (prims2, m) ∧
            (m = b ∨ m = e →
              s = { mPrimitives := prims2,
                    mNodes := self.mNodes.set curr
                      { b := rangeBox pointBound 100 prims2 b e, i0 := (b : Int),
                        i1 := -((e : Int) - (b : Int)) } }) ∧
            (m ≠ b ∧ m ≠ e →
              self.mNodes.length + 2 ≤ s.mNodes.length ∧
              ∃ nd, s.mNodes[curr]? = some nd ∧ is_leaf nd = false)) ∧
        (∀ nd, s.mNodes[curr]? = some nd →
          (is_leaf nd = true ↔
            ((e : Int) - (b : Int) ≤ 1 ∨
              ∃ prims2 m, halfSplit self.mPrimitives b e = some (prims2, m) ∧
                (m = b ∨ m = e))))) ∧
    (∀ (fuel : Nat) (p : Int),
      build pointBound halfSplit 1 (100 : Int) (fuel + 1) Bvh.empty [p] =
        some ({ mPrimitives := [p],
                mNodes := [{ b := merge (make_aabb 100) (pointBound p), i0 := 0, i1 := -1 }] },
              []))) :=
  ⟨halfSplit_contract, recursive_build_leaf_rule pointBound halfSplit 1 (100 : Int)
    halfSplit_contract⟩

end LeafRule

section SelectFacts

variable {P T : Type} [LinearOrderedRing T] {N : Nat}

omit [LinearOrderedRing T] in
theorem refStd_selects : (refStd : StdAlgorithms P).Selects := by
  intro cmp hsw l k _ i j x y hik hkj hx hy
  obtain ⟨hirr, htr, heq⟩ := hsw
  have hasym : ∀ a b, cmp a b = true → cmp b a = false := by
    intro a b hab
    cases hba : cmp b a with
    | false => rfl
    | true =>
      have := htr a b a hab hba
      rw [hirr a] at this
      cases this
  haveI : IsTotal P (fun a b => cmp b a = false) := ⟨by
    intro a b
    cases hba : cmp b a with
    | false => exact Or.inl rfl
    | true => exact Or.inr (hasym b a hba)⟩
  haveI : IsTrans P (fun a b => cmp b a = false) := ⟨by
    intro a b c hab hbc
    cases hca : cmp c a with
    | false => rfl
    | true =>
      have h1 : cmp b c = false := by
        cases h : cmp b c with
        | false => rfl
        | true =>
          have := htr b c a h hca
          rw [hab] at this
          cases this
      have h2 : cmp a b = false := by
        cases h : cmp a b with
        | false => rfl
        | true =>
          have := htr c a b hca h
          rw [hbc] at this
          cases this
      have := (heq a b c h2 hab h1 hbc).2
      rw [hca] at this
      cases this⟩
  have hsorted := List.sorted_insertionSort (fun a b => cmp b a = false) l
  simp only [refStd] at hx hy
  rcases Nat.eq_or_lt_of_le (le_trans hik hkj) with hij | hij
  · subst hij
    have : x = y := Option.some.inj (hx.symm.trans hy)
    subst this
    exact hirr x
  · obtain ⟨hi, hxi⟩ := List.getElem?_eq_some.mp hx
    obtain ⟨hj, hyj⟩ := List.getElem?_eq_some.mp hy
    have := (List.pairwise_iff_getElem.mp hsorted) i j hi hj hij
    rw [hxi, hyj] at this
    exact this

theorem centroidLess_strictWeak (bound : P → Aabb T N) (half : T) (dim : Fin N) :
    StrictWeak (centroidLess bound half dim) := by
  refine ⟨?_, ?_, ?_⟩
  · intro a
    simp [centroidLess]
  · intro a b c
    simp only [centroidLess, decide_eq_true_eq]
    exact lt_trans
  · intro a b c
    simp only [centroidLess, decide_eq_false_iff_not, not_lt]
    intro h1 h2 h3 h4
    exact ⟨le_trans h3 h1, le_trans h2 h4⟩

omit [LinearOrderedRing T] in
theorem slice_splice (l mid : List P) {b e : Nat} (hbe : b ≤ e) (he : e ≤ l.length)
    (hml : mid.length = e - b) : slice (l.take b ++ mid ++ l.drop e) b e = mid := by
  have htl : (l.take b).length = b := by
    rw [List.length_take]; exact Nat.min_eq_left (Nat.le_trans hbe he)
  apply List.ext_getElem?
  intro j
  rw [getElem?_slice]
  by_cases hj : b + j < e
  · rw [if_pos hj, List.getElem?_append_left (by simp [List.length_append, htl, hml]; omega),
      List.getElem?_append_right (by omega)]
    congr 1
    omega
  · rw [if_neg hj, eq_comm, List.getElem?_eq_none_iff]; omega

/-- What `EqualCountsSplit` returns on a range of the vector: the position `b + n / 2`,
and the vector with the range replaced by the output of `std::nth_element`. -/
theorem EqualCountsSplit_eq [NeZero N] (std : StdAlgorithms P) (hstd : std.Permutes)
    (bound : P → Aabb T N) (MAX half : T) (prims : List P) (b e : Nat) (hbe : b ≤ e)
    (he : e ≤ prims.length) :
    ∃ prims2, EqualCountsSplit std bound MAX half prims b e
        = some (prims2, b + (e - b) / 2) ∧
      RangePerm prims prims2 b e ∧
      slice prims2 b e = std.nth_element
        (centroidLess bound half (longest_axis (rangeBox bound MAX prims b e)))
        (slice prims b e) ((e - b) / 2) := by
  refine ⟨prims.take b ++ std.nth_element
    (centroidLess bound half (longest_axis (rangeBox bound MAX prims b e)))
    (slice prims b e) ((e - b) / 2) ++ prims.drop e, ?_, ?_, ?_⟩
  · unfold EqualCountsSplit
    rw [if_pos ⟨hbe, he⟩]
  · exact rangePerm_splice prims _ hbe he (hstd.1 _ _ _)
  · apply slice_splice prims _ hbe he
    rw [(hstd.1 _ _ _).length_eq, length_slice prims b e he]

/-- C23: with a `std::nth_element` that meets the standard (it permutes its range and
leaves no element from `nth` on less than an element up to `nth`), for every range
`[b, e)` of `n ≥ 1` primitives Equal-Counts returns `m = b + n / 2`, only permutes the
range, and leaves it so that, along the split dimension `dim`, the centroid coordinate of
every primitive in `[b, m)` is at most that of the primitive at `m`, which is at most that
of every primitive in `(m, e)`. -/
theorem equal_counts_partitions_at_median [NeZero N] (std : StdAlgorithms P)
    (hstd : std.Permutes) (hsel : std.Selects) (bound : P → Aabb T N) (MAX half : T)
    (prims : List P) (b e : Nat) (hbe : b < e) (he : e ≤ prims.length) :
    ∃ prims2 pm, EqualCountsSplit std bound MAX half prims b e
        = some (prims2, b + (e - b) / 2) ∧
      RangePerm prims prims2 b e ∧ prims2[b + (e - b) / 2]? = some pm ∧
      (∀ (i : Nat) (x : P), b ≤ i → i < b + (e - b) / 2 → prims2[i]? = some x →
        centroid half (bound x) (longest_axis (rangeBox bound MAX prims b e)) ≤
          centroid half (bound pm) (longest_axis (rangeBox bound MAX prims b e))) ∧
      (∀ (j : Nat) (y : P), b + (e - b) / 2 < j → j < e → prims2[j]? = some y →
        centroid half (bound pm) (longest_axis (rangeBox bound MAX prims b e)) ≤
          centroid half (bound y) (longest_axis (rangeBox bound MAX prims b e))) := by
  obtain ⟨prims2, h1, h2, h3⟩ := EqualCountsSplit_eq std hstd bound MAX half prims b e hbe.le he
  have hk : (e - b) / 2 < e - b := Nat.div_lt_self (by omega) (by decide)
  have hlen2 : prims2.length = prims.length := h2.1
  have hm : b + (e - b) / 2 < prims2.length := by omega
  have hsl : (slice prims b e).length = e - b := length_slice prims b e he
  have hsw := centroidLess_strictWeak bound half (longest_axis (rangeBox bound MAX prims b e))
  have hpos : ∀ (i : Nat) (x : P), b ≤ i → i < e → prims2[i]? = some x →
      (std.nth_element
        (centroidLess bound half (longest_axis (rangeBox bound MAX prims b e)))
        (slice prims b e) ((e - b) / 2))[i - b]? = some x := by
    intro i x hi1 hi2 hx
    rw [← h3, getElem?_slice, if_pos (by omega)]
    have : b + (i - b) = i := by omega
    rw [this]
    exact hx
  refine ⟨prims2, prims2[b + (e - b) / 2], h1, h2, List.getElem?_eq_getElem hm, ?_, ?_⟩
  · intro i x hi1 hi2 hx
    have hxi := hpos i x hi1 (by omega) hx
    have hpm := hpos (b + (e - b) / 2) _ (by omega) (by omega) (List.getElem?_eq_getElem hm)
    have := hsel _ hsw (slice prims b e) ((e - b) / 2) (by rw [hsl]; exact hk) (i - b)
      (b + (e - b) / 2 - b) x _ (by omega) (by omega) hxi hpm
    simpa [centroidLess] using this
  · intro j y hj1 hj2 hy
    have hyj := hpos j y (by omega) hj2 hy
    have hpm := hpos (b + (e - b) / 2) _ (by omega) (by omega) (List.getElem?_eq_getElem hm)
    have := hsel _ hsw (slice prims b e) ((e - b) / 2) (by rw [hsl]; exact hk)
      (b + (e - b) / 2 - b) (j - b) _ y (by omega) (by omega) hpm hyj
    simpa [centroidLess] using this

end SelectFacts

section MedianFacts

variable {P T : Type} [LinearOrderedRing T] {N : Nat}

omit [LinearOrderedRing T] in
theorem mem_take_getElem? {l : List P} {k : Nat} {a : P} (h : a ∈ l.take k) :
    ∃ i, i < k ∧ l[i]? = some a := by
  obtain ⟨n, hn⟩ := List.mem_iff_getElem?.mp h
  rw [List.getElem?_take] at hn
  split_ifs at hn with hlt
  · exact ⟨n, hlt, hn⟩

omit [LinearOrderedRing T] in
theorem mem_drop_getElem? {l : List P} {k : Nat} {a : P} (h : a ∈ l.drop k) :
    ∃ j, k ≤ j ∧ l[j]? = some a := by
  obtain ⟨n, hn⟩ := List.mem_iff_getElem?.mp h
  rw [List.getElem?_drop] at hn
  exact ⟨k + n, Nat.le_add_right k n, hn⟩

omit [LinearOrderedRing T] in
theorem countP_split (p : P → Bool) (l : List P) (k : Nat) :
    l.countP p = (l.take k).countP p + (l.drop k).countP p := by
  rw [← List.countP_append, List.take_append_drop]

omit [LinearOrderedRing T] in
theorem countP_le_of_tail_false (p : P → Bool) (l : List P) (k : Nat)
    (h : ∀ j a, k ≤ j → l[j]? = some a → p a = false) : l.countP p ≤ k := by
  rw [countP_split p l k]
  have h0 : (l.drop k).countP p = 0 := by
    rw [List.countP_eq_zero]
    intro a ha
    obtain ⟨j, hj, hja⟩ := mem_drop_getElem? ha
    rw [h j a hj hja]
    simp
  have h1 : (l.take k).countP p ≤ (l.take k).length := List.countP_le_length p
  have h2 : (l.take k).length ≤ k := by rw [List.length_take]; exact Nat.min_le_left _ _
  omega

omit [LinearOrderedRing T] in
theorem le_countP_of_head_true (p : P → Bool) (l : List P) (k : Nat) (hk : k ≤ l.length)
    (h : ∀ i a, i < k → l[i]? = some a → p a = true) : k ≤ l.countP p := by
  rw [countP_split p l k]
  have h0 : (l.take k).countP p = (l.take k).length := by
    rw [List.countP_eq_length]
    intro a ha
    obtain ⟨i, hi, hia⟩ := mem_take_getElem? ha
    exact h i a hi hia
  have h2 : (l.take k).length = k := by rw [List.length_take]; exact Nat.min_eq_left hk
  omega

omit [LinearOrderedRing T] in
theorem countP_le_of_head_false (p : P → Bool) (l : List P) (k : Nat)
    (h : ∀ i a, i < k → l[i]? = some a → p a = false) : l.countP p ≤ l.length - k := by
  rw [countP_split p l k]
  have h0 : (l.take k).countP p = 0 := by
    rw [List.countP_eq_zero]
    intro a ha
    obtain ⟨i, hi, hia⟩ := mem_take_getElem? ha
    rw [h i a hi hia]
    simp
  have h1 : (l.drop k).countP p ≤ (l.drop k).length := List.countP_le_length p
  have h2 : (l.drop k).length = l.length - k := List.length_drop k l
  omega

omit [LinearOrderedRing T] in
theorem le_countP_of_tail_true (p : P → Bool) (l : List P) (k : Nat)
    (h : ∀ j a, k ≤ j → l[j]? = some a → p a = true) : l.length - k ≤ l.countP p := by
  rw [countP_split p l k]
  have h0 : (l.drop k).countP p = (l.drop k).length := by
    rw [List.countP_eq_length]
    intro a ha
    obtain ⟨j, hj, hja⟩ := mem_drop_getElem? ha
    exact h j a hj hja
  have h2 : (l.drop k).length = l.length - k := List.length_drop k l
  omega

omit [LinearOrderedRing T] in
/-- A permutation `R` of a list `L` sorted by `key`, with no element from position `k` on
below an element up to position `k`, has at position `k` the key that `L` has there. -/
theorem key_at_nth_of_sorted {κ : Type} [LinearOrder κ] (key : P → κ) (L R : List P)
    (k : Nat) (hk : k < L.length) (hperm : R.Perm L)
    (hsorted : ∀ (i j : Nat) (x y : P), i ≤ j → L[i]? = some x → L[j]? = some y →
      key x ≤ key y)
    (hpart : ∀ (i j : Nat) (x y : P), i ≤ k → k ≤ j → R[i]? = some x → R[j]? = some y →
      key x ≤ key y)
    (x y : P) (hx : R[k]? = some x) (hy : L[k]? = some y) : key x = key y := by
  have hlen : R.length = L.length := hperm.length_eq
  apply le_antisymm
  · by_contra hc
    have hyx : key y < key x := not_le.mp hc
    have c1 : R.countP (fun a => decide (key a < key x)) ≤ k := by
      apply countP_le_of_tail_false
      intro j a hj hja
      simpa using hpart k j x a (le_refl k) hj hx hja
    have c2 : k + 1 ≤ L.countP (fun a => decide (key a < key x)) := by
      apply le_countP_of_head_true _ _ _ hk
      intro i a hi hia
      simpa using lt_of_le_of_lt (hsorted i k a y (by omega) hia hy) hyx
    rw [hperm.countP_eq] at c1
    omega
  · by_contra hc
    have hxy : key x < key y := not_le.mp hc
    have c1 : R.countP (fun a => decide (key x < key a)) ≤ R.length - (k + 1) := by
      apply countP_le_of_head_false
      intro i a hi hia
      simpa using hpart i k a x (by omega) (le_refl k) hia hx
    have c2 : L.length - k ≤ L.countP (fun a => decide (key x < key a)) := by
      apply le_countP_of_tail_true
      intro j a hj hja
      simpa using lt_of_lt_of_le hxy (hsorted k j y a hj hy hja)
    rw [hperm.countP_eq] at c1
    omega

/-- C25: with a `std::nth_element` that meets the standard, for every non-empty range
`[b, e)` that is sorted by centroid coordinate along the split dimension, after
Equal-Counts the primitive at the returned position `b + n / 2` has the centroid
coordinate of the primitive that stood there before the call. -/
theorem equal_counts_sorted_yields_median [NeZero N] (std : StdAlgorithms P)
    (hstd : std.Permutes) (hsel : std.Selects) (bound : P → Aabb T N) (MAX half : T)
    (prims : List P) (b e : Nat) (hbe : b < e) (he : e ≤ prims.length)
    (hsorted : ∀ (i j : Nat) (x y : P), b ≤ i → i ≤ j → j < e →
      prims[i]? = some x → prims[j]? = some y →
      centroid half (bound x) (longest_axis (rangeBox bound MAX prims b e)) ≤
        centroid half (bound y) (longest_axis (rangeBox bound MAX prims b e))) :
    ∃ prims2 pm qm, EqualCountsSplit std bound MAX half prims b e
        = some (prims2, b + (e - b) / 2) ∧
      prims2[b + (e - b) / 2]? = some pm ∧ prims[b + (e - b) / 2]? = some qm ∧
      centroid half (bound pm) (longest_axis (rangeBox bound MAX prims b e)) =
        centroid half (bound qm) (longest_axis (rangeBox bound MAX prims b e)) := by
  obtain ⟨prims2, h1, h2, h3⟩ := EqualCountsSplit_eq std hstd bound MAX half prims b e hbe.le he
  have hk : (e - b) / 2 < e - b := Nat.div_lt_self (by omega) (by decide)
  have hlen2 : prims2.length = prims.length := h2.1
  have hm2 : b + (e - b) / 2 < prims2.length := by omega
  have hm : b + (e - b) / 2 < prims.length := by omega
  have hsl : (slice prims b e).length = e - b := length_slice prims b e he
  have hsw := centroidLess_strictWeak bound half (longest_axis (rangeBox bound MAX prims b e))
  refine ⟨prims2, prims2[b + (e - b) / 2], prims[b + (e - b) / 2], h1,
    List.getElem?_eq_getElem hm2, List.getElem?_eq_getElem hm, ?_⟩
  apply key_at_nth_of_sorted
    (fun p => centroid half (bound p) (longest_axis (rangeBox bound MAX prims b e)))
    (slice prims b e) (slice prims2 b e) ((e - b) / 2) (by rw [hsl]; exact hk) h2.2.2
  · intro i j x y hij hx hy
    rw [getElem?_slice] at hx hy
    split_ifs at hx hy with c1 c2
    exact hsorted (b + i) (b + j) x y (by omega) (by omega) c2 hx hy
  · intro i j x y hik hkj hx hy
    rw [h3] at hx hy
    have := hsel _ hsw (slice prims b e) ((e - b) / 2) (by rw [hsl]; exact hk) i j x y hik hkj
      hx hy
    simpa [centroidLess] using this
  · rw [getElem?_slice, if_pos (by omega)]
    exact List.getElem?_eq_getElem hm2
  · rw [getElem?_slice, if_pos (by omega)]
    exact List.getElem?_eq_getElem hm

end MedianFacts

section StrictSplit

variable {P T : Type} [LinearOrderedRing T] {N : Nat}

/-- The SAH strategy on a non-empty vector whose primitives all have the same single-point
box: the extent of `cbox` along `dim` is zero, the quotient `offset` has no value, and the
strategy returns nothing. -/
theorem SAHSplit_same_point [NeZero N] [Div T] [FloorRing T] (std : StdAlgorithms P)
    (bound : P → Aabb T N) (area : Aabb T N → T) (MAX half : T) (nBuckets : Nat)
    (prims : List P) (v : VectorN T N) (hne : prims ≠ [])
    (hsame : ∀ p ∈ prims, bound p = make_aabb_point v)
    (hv : ∀ i, -MAX ≤ v i ∧ v i ≤ MAX) :
    SAHSplit std bound area MAX half nBuckets prims 0 prims.length = none := by
  have hbox : rangeBox bound MAX prims 0 prims.length = make_aabb_point v := by
    rw [rangeBox_same_box bound MAX _ prims hne hsame]
    exact merge_make_aabb_of_le MAX _ (fun i => ⟨(hv i).2, (hv i).1⟩)
  have hdiag : ∀ i, diagonal (rangeBox bound MAX prims 0 prims.length) i = 0 := by
    intro i
    rw [hbox]
    simp [diagonal, make_aabb_point]
  unfold SAHSplit
  rw [if_pos ⟨Nat.zero_le _, le_refl _⟩]
  simp only [slice_zero_length]
  cases prims with
  | nil => exact absurd rfl hne
  | cons p ps =>
    have hb : sahBucket bound half nBuckets (rangeBox bound MAX (p :: ps) 0 (p :: ps).length)
        (longest_axis (rangeBox bound MAX (p :: ps) 0 (p :: ps).length)) p = none := by
      unfold sahBucket
      rw [if_pos (hdiag _)]
    rw [sahFill]
    simp only [hb]

/-- C24 (the code at the failing input, with what holds of the other two strategies):
on every range of `n ≥ 2` primitives Equal-Counts and Middle-Point return a position `m`
with `b < m < e`; the SAH strategy, on a vector of primitives that all have the same
single-point box, divides by the zero extent of `cbox` before it reaches its Equal-Counts
fallback and returns nothing. -/
theorem builtin_splits_strictly_inside [NeZero N] [Div T] [FloorRing T]
    (std : StdAlgorithms P) (hstd : std.Permutes) (bound : P → Aabb T N)
    (area : Aabb T N → T) (MAX half : T) (nBuckets : Nat) :
    (∀ (prims : List P) (b e : Nat), b + 2 ≤ e → e ≤ prims.length →
      ∀ split ∈ [EqualCountsSplit std bound MAX half, MiddlePointSplit std bound MAX half],
        ∃ prims2 m, split prims b e = some (prims2, m) ∧ b < m ∧ m < e) ∧
    (∀ (prims : List P) (v : VectorN T N), 2 ≤ prims.length →
      (∀ p ∈ prims, bound p = make_aabb_point v) → (∀ i, -MAX ≤ v i ∧ v i ≤ MAX) →
      SAHSplit std bound area MAX half nBuckets prims 0 prims.length = none) := by
  constructor
  · intro prims b e hbe he split hsplit
    have hcs : SplitContract split ∧ SplitStrict split 1 := by
      simp only [List.mem_cons, List.mem_singleton, List.not_mem_nil, or_false] at hsplit
      rcases hsplit with rfl | rfl
      · exact ⟨EqualCountsSplit_contract std hstd bound MAX half,
          EqualCountsSplit_strict std bound MAX half 1 (le_refl _)⟩
      · exact ⟨MiddlePointSplit_contract std hstd bound MAX half,
          MiddlePointSplit_strict std hstd bound MAX half 1 (le_refl _)⟩
    obtain ⟨prims2, m, h1, _, _, _⟩ := hcs.1 prims b e (by omega) he
    exact ⟨prims2, m, h1, hcs.2 prims b e prims2 m (by omega) h1⟩
  · intro prims v hlen hsame hv
    exact SAHSplit_same_point std bound area MAX half nBuckets prims v
      (by intro h; rw [h] at hlen; simp at hlen) hsame hv

end StrictSplit

section SplitOrderInstances

set_option maxRecDepth 100000

theorem builtin_splits_strictly_inside_witness :
    (refStd : StdAlgorithms Int).Permutes ∧
    ((∀ (prims : List Int) (b e : Nat), b + 2 ≤ e → e ≤ prims.length →
      ∀ split ∈ [EqualCountsSplit refStd axisBound (1000 : ℚ) (1 / 2),
          MiddlePointSplit refStd axisBound (1000 : ℚ) (1 / 2)],
        ∃ prims2 m, split prims b e = some (prims2, m) ∧ b < m ∧ m < e) ∧
    (∀ (prims : List Int) (v : VectorN ℚ 3), 2 ≤ prims.length →
      (∀ p ∈ prims, axisBound p = make_aabb_point v) → (∀ i, -1000 ≤ v i ∧ v i ≤ 1000) →
      SAHSplit refStd axisBound area3 (1000 : ℚ) (1 / 2) 16 prims 0 prims.length = none)) :=
  ⟨refStd_permutes,
    builtin_splits_strictly_inside refStd refStd_permutes axisBound area3 (1000 : ℚ) (1 / 2) 16⟩

/-- The SAH strategy on two primitives at the same point: it returns nothing, and so does
the build that calls it. -/
theorem sahSplit_same_point_example :
    SAHSplit refStd axisBound area3 (1000 : ℚ) (1 / 2) 16 [5, 5] 0 2 = none ∧
    (build axisBound (SAHSplit refStd axisBound area3 (1000 : ℚ) (1 / 2) 16) 1 (1000 : ℚ) 2
      Bvh.empty [5, 5]).isSome = false := by
  decide!

theorem equal_counts_partitions_at_median_witness :
    (refStd : StdAlgorithms Int).Permutes ∧ (refStd : StdAlgorithms Int).Selects ∧
    1 < 4 ∧ 4 ≤ ([3, 1, 2, 7, 5] : List Int).length ∧
    ∃ prims2 pm, EqualCountsSplit refStd axisBound (1000 : ℚ) (1 / 2) [3, 1, 2, 7, 5] 1 4
        = some (prims2, 1 + (4 - 1) / 2) ∧
      RangePerm [3, 1, 2, 7, 5] prims2 1 4 ∧ prims2[1 + (4 - 1) / 2]? = some pm ∧
      (∀ (i : Nat) (x : Int), 1 ≤ i → i < 1 + (4 - 1) / 2 → prims2[i]? = some x →
        centroid (1 / 2) (axisBound x)
            (longest_axis (rangeBox axisBound 1000 [3, 1, 2, 7, 5] 1 4)) ≤
          centroid (1 / 2) (axisBound pm)
            (longest_axis (rangeBox axisBound 1000 [3, 1, 2, 7, 5] 1 4))) ∧
      (∀ (j : Nat) (y : Int), 1 + (4 - 1) / 2 < j → j < 4 → prims2[j]? = some y →
        centroid (1 / 2) (axisBound pm)
            (longest_axis (rangeBox axisBound 1000 [3, 1, 2, 7, 5] 1 4)) ≤
          centroid (1 / 2) (axisBound y)
            (longest_axis (rangeBox axisBound 1000 [3, 1, 2, 7, 5] 1 4))) :=
  ⟨refStd_permutes, refStd_selects, by decide, by decide,
    equal_counts_partitions_at_median refStd refStd_permutes refStd_selects axisBound
      (1000 : ℚ) (1 / 2) [3, 1, 2, 7, 5] 1 4 (by decide) (by decide)⟩

theorem equal_counts_sorted_yields_median_witness :
    (refStd : StdAlgorithms (Nat × ℚ)).Permutes ∧ (refStd : StdAlgorithms (Nat × ℚ)).Selects ∧
    0 < 3 ∧ 3 ≤ sortedTags.length ∧
    (∀ (i j : Nat) (x y : Nat × ℚ), 0 ≤ i → i ≤ j → j < 3 →
      sortedTags[i]? = some x → sortedTags[j]? = some y →
      centroid (1 / 2) (tagBoundRat x)
          (longest_axis (rangeBox tagBoundRat 1000 sortedTags 0 3)) ≤
        centroid (1 / 2) (tagBoundRat y)
          (longest_axis (rangeBox tagBoundRat 1000 sortedTags 0 3))) ∧
    ∃ prims2 pm qm, EqualCountsSplit refStd tagBoundRat 1000 (1 / 2) sortedTags 0 3
        = some (prims2, 0 + (3 - 0) / 2) ∧
      prims2[0 + (3 - 0) / 2]? = some pm ∧ sortedTags[0 + (3 - 0) / 2]? = some qm ∧
      centroid (1 / 2) (tagBoundRat pm)
          (longest_axis (rangeBox tagBoundRat 1000 sortedTags 0 3)) =
        centroid (1 / 2) (tagBoundRat qm)
          (longest_axis (rangeBox tagBoundRat 1000 sortedTags 0 3)) :=
  have hsorted : ∀ (i j : Nat) (x y : Nat × ℚ), 0 ≤ i → i ≤ j → j < 3 →
      sortedTags[i]? = some x → sortedTags[j]? = some y →
      centroid (1 / 2) (tagBoundRat x)
          (longest_axis (rangeBox tagBoundRat 1000 sortedTags 0 3)) ≤
        centroid (1 / 2) (tagBoundRat y)
          (longest_axis (rangeBox tagBoundRat 1000 sortedTags 0 3)) := by
    intro i j x y _ hij hj hx hy
    have hi : i < 3 := by omega
    generalize longest_axis (rangeBox tagBoundRat 1000 sortedTags 0 3) = dim
    interval_cases i <;> interval_cases j <;>
      simp only [sortedTags, List.getElem?_cons_zero, List.getElem?_cons_succ,
        Option.some.injEq] at hx hy <;>
      subst hx hy <;> norm_num [centroid, tagBoundRat, tagBound, make_aabb_point]
  ⟨refStd_permutes, refStd_selects, by decide, by decide, hsorted,
    equal_counts_sorted_yields_median refStd refStd_permutes refStd_selects tagBoundRat
      1000 (1 / 2) sortedTags 0 3 (by decide) (by decide) hsorted⟩

end SplitOrderInstances

section MiddleFacts

variable {P T : Type} [LinearOrderedRing T] {N : Nat}

omit [LinearOrderedRing T] in
theorem refStd_partitions : (refStd : StdAlgorithms P).Partitions := by
  intro pred l i x hx
  simp only [refStd] at hx ⊢
  by_cases hi : i < (l.filter pred).length
  · rw [List.getElem?_append_left hi] at hx
    have hmem := List.getElem?_mem hx
    simp only [List.mem_filter] at hmem
    exact ⟨fun _ => hi, fun _ => hmem.2⟩
  · rw [List.getElem?_append_right (Nat.le_of_not_lt hi)] at hx
    have hmem := List.getElem?_mem hx
    simp only [List.mem_filter, Bool.not_eq_true'] at hmem
    constructor
    · intro h
      rw [hmem.2] at h
      cases h
    · intro h
      exact absurd h hi

/-- What `MiddlePointSplit` returns on a range of the vector, in terms of the output of
`std::partition` on the range: the partition point when it is strictly inside, otherwise
`b + n / 2` with the partitioned range passed through `std::nth_element`. -/
theorem MiddlePointSplit_eq [NeZero N] (std : StdAlgorithms P) (hstd : std.Permutes)
    (bound : P → Aabb T N) (MAX half : T) (prims : List P) (b e : Nat) (hbe : b ≤ e)
    (he : e ≤ prims.length) :
    ∃ prims2 m, MiddlePointSplit std bound MAX half prims b e = some (prims2, m) ∧
      RangePerm prims prims2 b e ∧
      ((b + (std.partition (fun p => decide (centroid half (bound p)
            (longest_axis (rangeBox bound MAX prims b e)) <
          ((rangeBox bound MAX prims b e).p0 (longest_axis (rangeBox bound MAX prims b e)) +
            (rangeBox bound MAX prims b e).p1 (longest_axis (rangeBox bound MAX prims b e)))
              * half)) (slice prims b e)).2 = b ∨
        b + (std.partition (fun p => decide (centroid half (bound p)
            (longest_axis (rangeBox bound MAX prims b e)) <
          ((rangeBox bound MAX prims b e).p0 (longest_axis (rangeBox bound MAX prims b e)) +
            (rangeBox bound MAX prims b e).p1 (longest_axis (rangeBox bound MAX prims b e)))
              * half)) (slice prims b e)).2 = e) →
        m = b + (e - b) / 2 ∧
        slice prims2 b e = std.nth_element
          (centroidLess bound half (longest_axis (rangeBox bound MAX prims b e)))
          (std.partition (fun p => decide (centroid half (bound p)
              (longest_axis (rangeBox bound MAX prims b e)) <
            ((rangeBox bound MAX prims b e).p0 (longest_axis (rangeBox bound MAX prims b e)) +
              (rangeBox bound MAX prims b e).p1 (longest_axis (rangeBox bound MAX prims b e)))
                * half)) (slice prims b e)).1 ((e - b) / 2)) ∧
      (¬ (b + (std.partition (fun p => decide (centroid half (bound p)
            (longest_axis (rangeBox bound MAX prims b e)) <
          ((rangeBox bound MAX prims b e).p0 (longest_axis (rangeBox bound MAX prims b e)) +
            (rangeBox bound MAX prims b e).p1 (longest_axis (rangeBox bound MAX prims b e)))
              * half)) (slice prims b e)).2 = b ∨
        b + (std.partition (fun p => decide (centroid half (bound p)
            (longest_axis (rangeBox bound MAX prims b e)) <
          ((rangeBox bound MAX prims b e).p0 (longest_axis (rangeBox bound MAX prims b e)) +
            (rangeBox bound MAX prims b e).p1 (longest_axis (rangeBox bound MAX prims b e)))
              * half)) (slice prims b e)).2 = e) →
        m = b + (std.partition (fun p => decide (centroid half (bound p)
            (longest_axis (rangeBox bound MAX prims b e)) <
          ((rangeBox bound MAX prims b e).p0 (longest_axis (rangeBox bound MAX prims b e)) +
            (rangeBox bound MAX prims b e).p1 (longest_axis (rangeBox bound MAX prims b e)))
              * half)) (slice prims b e)).2 ∧
        slice prims2 b e = (std.partition (fun p => decide (centroid half (bound p)
            (longest_axis (rangeBox bound MAX prims b e)) <
          ((rangeBox bound MAX prims b e).p0 (longest_axis (rangeBox bound MAX prims b e)) +
            (rangeBox bound MAX prims b e).p1 (longest_axis (rangeBox bound MAX prims b e)))
              * half)) (slice prims b e)).1) := by
  have hsl : (slice prims b e).length = e - b := length_slice prims b e he
  unfold MiddlePointSplit
  rw [if_pos ⟨hbe, he⟩]
  simp only
  split_ifs with hdeg
  · refine ⟨_, _, rfl, ?_, fun _ => ⟨rfl, ?_⟩, fun h => absurd hdeg h⟩
    · exact rangePerm_splice prims _ hbe he ((hstd.1 _ _ _).trans (hstd.2 _ _).1)
    · apply slice_splice prims _ hbe he
      rw [(hstd.1 _ _ _).length_eq, (hstd.2 _ _).1.length_eq, hsl]
  · refine ⟨_, _, rfl, ?_, fun h => absurd h hdeg, fun _ => ⟨rfl, ?_⟩⟩
    · exact rangePerm_splice prims _ hbe he (hstd.2 _ _).1
    · apply slice_splice prims _ hbe he
      rw [(hstd.2 _ _).1.length_eq, hsl]

/-- C37: with library algorithms that meet the standard, on every non-empty range `[b, e)`
Middle-Point returns and only permutes the range. When the partition is not degenerate
(some primitive of the range has `centroid[dim] < mid` and some has `centroid[dim] ≥ mid`),
the position `m` it returns has `b < m < e`, every primitive in `[b, m)` has
`centroid[dim] < mid` and every primitive in `[m, e)` has `centroid[dim] ≥ mid`, with
`mid = (cbox.lo[dim] + cbox.hi[dim]) * (T)(0.5)`. When it is degenerate, it returns
`b + n / 2` with the range ordered around that position as Equal-Counts leaves it. -/
theorem middle_point_partitions_at_mid [NeZero N] (std : StdAlgorithms P)
    (hstd : std.Permutes) (hpart : std.Partitions) (hsel : std.Selects)
    (bound : P → Aabb T N) (MAX half : T) (prims : List P) (b e : Nat) (hbe : b < e)
    (he : e ≤ prims.length) :
    ∃ prims2 m, MiddlePointSplit std bound MAX half prims b e = some (prims2, m) ∧
      RangePerm prims prims2 b e ∧
      (((∃ p ∈ slice prims b e, centroid half (bound p) (splitDim bound MAX prims b e) <
            middle bound MAX half prims b e) ∧
          (∃ q ∈ slice prims b e, middle bound MAX half prims b e ≤
            centroid half (bound q) (splitDim bound MAX prims b e))) →
        b < m ∧ m < e ∧
        (∀ (i : Nat) (x : P), b ≤ i → i < m → prims2[i]? = some x →
          centroid half (bound x) (splitDim bound MAX prims b e) <
            middle bound MAX half prims b e) ∧
        (∀ (i : Nat) (x : P), m ≤ i → i < e → prims2[i]? = some x →
          middle bound MAX half prims b e ≤
            centroid half (bound x) (splitDim bound MAX prims b e))) ∧
      (¬ ((∃ p ∈ slice prims b e, centroid half (bound p) (splitDim bound MAX prims b e) <
            middle bound MAX half prims b e) ∧
          (∃ q ∈ slice prims b e, middle bound MAX half prims b e ≤
            centroid half (bound q) (splitDim bound MAX prims b e))) →
        m = b + (e - b) / 2 ∧
        ∃ pm, prims2[m]? = some pm ∧
          (∀ (i : Nat) (x : P), b ≤ i → i < m → prims2[i]? = some x →
            centroid half (bound x) (splitDim bound MAX prims b e) ≤
              centroid half (bound pm) (splitDim bound MAX prims b e)) ∧
          (∀ (j : Nat) (y : P), m < j → j < e → prims2[j]? = some y →
            centroid half (bound pm) (splitDim bound MAX prims b e) ≤
              centroid half (bound y) (splitDim bound MAX prims b e))) := by
  obtain ⟨prims2, m, h1, h2, hdeg, hnd⟩ :=
    MiddlePointSplit_eq std hstd bound MAX half prims b e hbe.le he
  simp only [splitDim, middle]
  set dim := longest_axis (rangeBox bound MAX prims b e) with hdim
  set mid := ((rangeBox bound MAX prims b e).p0 dim + (rangeBox bound MAX prims b e).p1 dim)
    * half with hmid
  set pred : P → Bool := fun p => decide (centroid half (bound p) dim < mid) with hpred
  set out := (std.partition pred (slice prims b e)).1 with hout
  set k := (std.partition pred (slice prims b e)).2 with hk
  have hsl : (slice prims b e).length = e - b := length_slice prims b e he
  have hperm : out.Perm (slice prims b e) := (hstd.2 pred (slice prims b e)).1
  have hkle : k ≤ e - b := by
    have := (hstd.2 pred (slice prims b e)).2
    rw [hsl] at this
    exact this
  have holen : out.length = e - b := by rw [hperm.length_eq, hsl]
  have hlen2 : prims2.length = prims.length := h2.1
  have hpos : ∀ (i : Nat) (x : P), b ≤ i → i < e → prims2[i]? = some x →
      (slice prims2 b e)[i - b]? = some x := by
    intro i x hi1 hi2 hx
    rw [getElem?_slice, if_pos (by omega)]
    have : b + (i - b) = i := by omega
    rw [this]
    exact hx
  have hcon := hpart pred (slice prims b e)
  refine ⟨prims2, m, h1, h2, ?_, ?_⟩
  · rintro ⟨⟨p, hp, hpl⟩, ⟨q, hq, hql⟩⟩
    have hk0 : 0 < k := by
      obtain ⟨i, hi, hpi⟩ := List.getElem_of_mem (hperm.mem_iff.mpr hp)
      have := (hcon i p (by rw [List.getElem?_eq_getElem hi, hpi])).mp
        (by simpa [hpred] using hpl)
      omega
    have hkn : k < e - b := by
      obtain ⟨j, hj, hqj⟩ := List.getElem_of_mem (hperm.mem_iff.mpr hq)
      have hnot : ¬ (j < k) := by
        intro hjk
        have := (hcon j q (by rw [List.getElem?_eq_getElem hj, hqj])).mpr hjk
        simp only [hpred, decide_eq_true_eq] at this
        exact absurd this (not_lt.mpr hql)
      omega
    obtain ⟨hm, hs⟩ := hnd (by
      rintro (h | h)
      · omega
      · omega)
    refine ⟨by omega, by omega, ?_, ?_⟩
    · intro i x hi1 hi2 hx
      have h3 := hpos i x hi1 (by omega) hx
      rw [hs] at h3
      have := (hcon (i - b) x h3).mpr (by omega)
      simpa [hpred] using this
    · intro i x hi1 hi2 hx
      have h3 := hpos i x (by omega) hi2 hx
      rw [hs] at h3
      by_contra hc
      have := (hcon (i - b) x h3).mp (by simpa [hpred] using not_le.mp hc)
      omega
  · intro hno
    have hd : b + k = b ∨ b + k = e := by
      by_contra hc
      apply hno
      have hk0 : 0 < k := by
        rcases Nat.eq_zero_or_pos k with h | h
        · exact absurd (Or.inl (by omega)) hc
        · exact h
      have hkn : k < e - b := by
        rcases Nat.lt_or_ge k (e - b) with h | h
        · exact h
        · exact absurd (Or.inr (by omega)) hc
      constructor
      · have h0 : 0 < out.length := by omega
        refine ⟨out[0], hperm.mem_iff.mp (List.getElem_mem h0), ?_⟩
        have := (hcon 0 out[0] (List.getElem?_eq_getElem h0)).mpr hk0
        simpa [hpred] using this
      · have hkl : k < out.length := by omega
        refine ⟨out[k], hperm.mem_iff.mp (List.getElem_mem hkl), ?_⟩
        by_contra hcc
        have := (hcon k out[k] (List.getElem?_eq_getElem hkl)).mp
          (by simpa [hpred] using not_le.mp hcc)
        omega
    obtain ⟨hm, hs⟩ := hdeg hd
    have hkk : (e - b) / 2 < e - b := Nat.div_lt_self (by omega) (by decide)
    have hmlt : m < prims2.length := by omega
    have hsw := centroidLess_strictWeak bound half dim
    refine ⟨hm, prims2[m], List.getElem?_eq_getElem hmlt, ?_, ?_⟩
    · intro i x hi1 hi2 hx
      have hxi := hpos i x hi1 (by omega) hx
      have hpm := hpos m _ (by omega) (by omega) (List.getElem?_eq_getElem hmlt)
      rw [hs] at hxi hpm
      have := hsel _ hsw out ((e - b) / 2) (by rw [holen]; exact hkk) (i - b) (m - b) x _
        (by omega) (by omega) hxi hpm
      simpa [centroidLess] using this
    · intro j y hj1 hj2 hy
      have hyj := hpos j y (by omega) hj2 hy
      have hpm := hpos m _ (by omega) (by omega) (List.getElem?_eq_getElem hmlt)
      rw [hs] at hyj hpm
      have := hsel _ hsw out ((e - b) / 2) (by rw [holen]; exact hkk) (m - b) (j - b) _ y
        (by omega) (by omega) hpm hyj
      simpa [centroidLess] using this

end MiddleFacts

section MiddleInstances

theorem middle_point_partitions_at_mid_witness :
    (refStd : StdAlgorithms (Nat × ℚ)).Permutes ∧
    (refStd : StdAlgorithms (Nat × ℚ)).Partitions ∧
    (refStd : StdAlgorithms (Nat × ℚ)).Selects ∧ 0 < 3 ∧ 3 ≤ sortedTags.length ∧
    ∃ prims2 m, MiddlePointSplit refStd tagBoundRat 1000 (1 / 2) sortedTags 0 3
        = some (prims2, m) ∧
      RangePerm sortedTags prims2 0 3 ∧
      (((∃ p ∈ slice sortedTags 0 3,
            centroid (1 / 2) (tagBoundRat p) (splitDim tagBoundRat 1000 sortedTags 0 3) <
              middle tagBoundRat 1000 (1 / 2) sortedTags 0 3) ∧
          (∃ q ∈ slice sortedTags 0 3, middle tagBoundRat 1000 (1 / 2) sortedTags 0 3 ≤
            centroid (1 / 2) (tagBoundRat q) (splitDim tagBoundRat 1000 sortedTags 0 3))) →
        0 < m ∧ m < 3 ∧
        (∀ (i : Nat) (x : Nat × ℚ), 0 ≤ i → i < m → prims2[i]? = some x →
          centroid (1 / 2) (tagBoundRat x) (splitDim tagBoundRat 1000 sortedTags 0 3) <
            middle tagBoundRat 1000 (1 / 2) sortedTags 0 3) ∧
        (∀ (i : Nat) (x : Nat × ℚ), m ≤ i → i < 3 → prims2[i]? = some x →
          middle tagBoundRat 1000 (1 / 2) sortedTags 0 3 ≤
            centroid (1 / 2) (tagBoundRat x) (splitDim tagBoundRat 1000 sortedTags 0 3))) ∧
      (¬ ((∃ p ∈ slice sortedTags 0 3,
            centroid (1 / 2) (tagBoundRat p) (splitDim tagBoundRat 1000 sortedTags 0 3) <
              middle tagBoundRat 1000 (1 / 2) sortedTags 0 3) ∧
          (∃ q ∈ slice sortedTags 0 3, middle tagBoundRat 1000 (1 / 2) sortedTags 0 3 ≤
            centroid (1 / 2) (tagBoundRat q) (splitDim tagBoundRat 1000 sortedTags 0 3))) →
        m = 0 + (3 - 0) / 2 ∧
        ∃ pm, prims2[m]? = some pm ∧
          (∀ (i : Nat) (x : Nat × ℚ), 0 ≤ i → i < m → prims2[i]? = some x →
            centroid (1 / 2) (tagBoundRat x) (splitDim tagBoundRat 1000 sortedTags 0 3) ≤
              centroid (1 / 2) (tagBoundRat pm) (splitDim tagBoundRat 1000 sortedTags 0 3)) ∧
          (∀ (j : Nat) (y : Nat × ℚ), m < j → j < 3 → prims2[j]? = some y →
            centroid (1 / 2) (tagBoundRat pm) (splitDim tagBoundRat 1000 sortedTags 0 3) ≤
              centroid (1 / 2) (tagBoundRat y) (splitDim tagBoundRat 1000 sortedTags 0 3))) :=
  ⟨refStd_permutes, refStd_partitions, refStd_selects, by decide, by decide,
    middle_point_partitions_at_mid refStd refStd_permutes refStd_partitions refStd_selects
      tagBoundRat 1000 (1 / 2) sortedTags 0 3 (by decide) (by decide)⟩

end MiddleInstances

section ThresholdFacts

variable {P T : Type} [LinearOrderedRing T] {N : Nat}

omit [LinearOrderedRing T] in
theorem splice_slice (l : List P) {b e : Nat} (hbe : b ≤ e) :
    l.take b ++ slice l b e ++ l.drop e = l := by
  have h1 : l.take b ++ slice l b e = l.take e := by
    have : l.take b = (l.take e).take b := by
      rw [List.take_take, Nat.min_eq_left hbe]
    rw [this, slice, List.take_append_drop]
  rw [h1, List.take_append_drop]

/-- With a split callback that only permutes its range whenever it returns, and that on a
range of one primitive changes nothing, `recursive_build` with a threshold `t ≤ 0` gives
what it gives with the threshold 1. -/
theorem recursive_build_threshold_nonpos (bound : P → Aabb T N)
    (split : List P → Nat → Nat → Option (List P × Nat)) (t : Int) (MAX : T)
    (hfr : SplitFrame split) (hsing : SplitSingleton split) (ht : t ≤ 0) :
    ∀ (fuel : Nat) (self : Bvh P T N) (b e curr : Nat) (depth : Int),
      b < e → e ≤ self.mPrimitives.length →
      recursive_build bound split t MAX fuel self b e curr depth =
        recursive_build bound split 1 MAX fuel self b e curr depth := by
  intro fuel
  induction fuel with
  | zero =>
    intro self b e curr depth _ _
    rw [recursive_build, recursive_build]
  | succ fuel ih =>
    intro self b e curr depth hbe he
    rw [recursive_build, recursive_build]
    simp only
    have c1 : (e : Int) - (b : Int) > t := by omega
    rw [if_pos c1]
    rcases Nat.eq_or_lt_of_le (Nat.succ_le_of_lt hbe) with h1 | h2
    · -- one primitive
      have h1' : e = b + 1 := h1.symm
      subst h1'
      obtain ⟨m, hm, hmm⟩ := hsing self.mPrimitives b (by omega)
      have c2 : ¬ (((b + 1 : Nat) : Int) - (b : Int) > 1) := by omega
      rw [if_neg c2, hm]
      simp only
      rw [if_pos hmm]
      simp only [or_true, if_true]
    · have c2 : (e : Int) - (b : Int) > 1 := by omega
      rw [if_pos c2]
      cases hsp : split self.mPrimitives b e with
      | none => rfl
      | some r =>
        obtain ⟨prims2, piter⟩ := r
        simp only
        obtain ⟨hrp, hbp, hpe⟩ := hfr _ _ _ _ _ hbe.le he hsp
        by_cases hleaf : piter = b ∨ piter = e
        · simp only [if_pos hleaf]
        · simp only [if_neg hleaf]
          have hbp2 : b < piter := by
            rcases Nat.lt_or_ge b piter with h | h
            · exact h
            · exact absurd (Or.inl (by omega)) hleaf
          have hpe2 : piter < e := by
            rcases Nat.lt_or_ge piter e with h | h
            · exact h
            · exact absurd (Or.inr (by omega)) hleaf
          refine Option.bind_congr fun n1 _ => ?_
          refine Option.bind_congr fun n2 _ => ?_
          rw [ih _ b piter _ _ hbp2 (by simp only; rw [hrp.1]; omega)]
          refine Option.bind_congr fun s1 hs1 => ?_
          have hlen1 : s1.mPrimitives.length = self.mPrimitives.length := by
            have := recursive_build_permutes bound split 1 MAX hfr fuel _ b piter _ _ s1 hbp
              (by simp only; rw [hrp.1]; omega) (Option.mem_def.mp hs1)
            simp only at this
            rw [this.1, hrp.1]
          refine Option.bind_congr fun ndL _ => ?_
          refine Option.bind_congr fun n3 _ => ?_
          refine Option.bind_congr fun n4 _ => ?_
          rw [ih _ piter e _ _ hpe2 (by simp only; omega)]

/-- The builds on a default-constructed tree with a threshold `t ≤ 0` and with the
threshold 1 give the same result, for a split callback as above. -/
theorem build_threshold_nonpos (bound : P → Aabb T N)
    (split : List P → Nat → Nat → Option (List P × Nat)) (t : Int) (MAX : T)
    (hfr : SplitFrame split) (hsing : SplitSingleton split) (ht : t ≤ 0) (fuel : Nat)
    (prims : List P) :
    build bound split t MAX fuel Bvh.empty prims =
      build bound split 1 MAX fuel Bvh.empty prims := by
  unfold build
  cases prims with
  | nil => rfl
  | cons p ps =>
    simp only [List.isEmpty_cons, Bool.false_eq_true, if_false]
    rw [recursive_build_threshold_nonpos bound split t MAX hfr hsing ht fuel _ 0
      (p :: ps).length 0 0 (by simp) (le_refl _)]

theorem EqualCountsSplit_singleton [NeZero N] (std : StdAlgorithms P) (hstd : std.Permutes)
    (bound : P → Aabb T N) (MAX half : T) :
    SplitSingleton (EqualCountsSplit std bound MAX half) := by
  intro prims b hb
  refine ⟨b, ?_, Or.inl rfl⟩
  unfold EqualCountsSplit
  rw [if_pos ⟨Nat.le_succ b, hb⟩]
  simp only [Nat.add_sub_cancel_left, Nat.reduceDiv, Nat.add_zero]
  have hs : slice prims b (b + 1) = [prims[b]] :=
    slice_succ_eq prims b _ (List.getElem?_eq_getElem hb)
  have hr := hstd.1 (centroidLess bound half (longest_axis (rangeBox bound MAX prims b (b + 1))))
    (slice prims b (b + 1)) 0
  rw [hs] at hr
  rw [hs, List.perm_singleton.mp hr, ← hs, splice_slice prims (Nat.le_succ b)]

theorem MiddlePointSplit_singleton [NeZero N] (std : StdAlgorithms P) (hstd : std.Permutes)
    (bound : P → Aabb T N) (MAX half : T) :
    SplitSingleton (MiddlePointSplit std bound MAX half) := by
  intro prims b hb
  obtain ⟨prims2, m, h1, h2, hdeg, hnd⟩ :=
    MiddlePointSplit_eq std hstd bound MAX half prims b (b + 1) (Nat.le_succ b) hb
  have hs : slice prims b (b + 1) = [prims[b]] :=
    slice_succ_eq prims b _ (List.getElem?_eq_getElem hb)
  have hk := (hstd.2 (fun p => decide (centroid half (bound p)
      (longest_axis (rangeBox bound MAX prims b (b + 1))) <
    ((rangeBox bound MAX prims b (b + 1)).p0
        (longest_axis (rangeBox bound MAX prims b (b + 1))) +
      (rangeBox bound MAX prims b (b + 1)).p1
        (longest_axis (rangeBox bound MAX prims b (b + 1)))) * half))
    (slice prims b (b + 1)))
  have hl : (slice prims b (b + 1)).length = 1 := by rw [hs]; rfl
  have hk2 := hk.2
  rw [hl] at hk2
  obtain ⟨hm, hsl⟩ := hdeg (by omega)
  have hperm := h2.2.2
  rw [hs] at hperm
  have hs2 : slice prims2 b (b + 1) = [prims[b]] := List.perm_singleton.mp hperm
  have heq : prims2 = prims := by
    apply List.ext_getElem?
    intro i
    by_cases hi : i = b
    · subst hi
      have e1 := getElem?_slice prims2 i (i + 1) 0
      have e2 := getElem?_slice prims i (i + 1) 0
      rw [hs2] at e1
      rw [hs] at e2
      simp only [Nat.add_zero, Nat.lt_succ_self, if_true] at e1 e2
      rw [← e1, ← e2]
    · exact h2.2.1 i (by omega)
  refine ⟨m, ?_, Or.inl (by rw [hm]; simp)⟩
  rw [h1, heq]

/-- C40 (the code at the failing input, with what holds of the other two strategies): for
every threshold `t ≤ 0`, with the Equal-Counts and Middle-Point strategies the build on a
default-constructed tree gives the same result as with the threshold 1, for every
sequence, and it returns given fuel for every primitive. With the SAH strategy and a single
primitive whose box is one point, the build with the threshold 1 makes one leaf, while with
`t ≤ 0` the strategy is called on that primitive, divides by the zero extent of `cbox`, and
the build returns nothing. -/
theorem build_nonpositive_threshold [NeZero N] [Div T] [FloorRing T]
    (std : StdAlgorithms P) (hstd : std.Permutes) (bound : P → Aabb T N)
    (area : Aabb T N → T) (MAX half : T) (nBuckets : Nat) (t : Int) (ht : t ≤ 0) :
    (∀ (fuel : Nat) (prims : List P),
      ∀ split ∈ [EqualCountsSplit std bound MAX half, MiddlePointSplit std bound MAX half],
        build bound split t MAX fuel Bvh.empty prims =
          build bound split 1 MAX fuel Bvh.empty prims ∧
        (prims.length ≤ fuel →
          ∃ s, build bound split t MAX fuel Bvh.empty prims = some (s, []))) ∧
    (∀ (fuel : Nat) (p : P) (v : VectorN T N), bound p = make_aabb_point v →
      (∀ i, -MAX ≤ v i ∧ v i ≤ MAX) →
      build bound (SAHSplit std bound area MAX half nBuckets) t MAX (fuel + 1) Bvh.empty [p]
        = none ∧
      build bound (SAHSplit std bound area MAX half nBuckets) 1 MAX (fuel + 1) Bvh.empty [p]
        = some ({ mPrimitives := [p],
                  mNodes := [{ b := rangeBox bound MAX [p] 0 1, i0 := 0, i1 := -1 }] },
                [])) := by
  constructor
  · intro fuel prims split hsplit
    have hcs : SplitContract split ∧ SplitFrame split ∧ SplitSingleton split := by
      simp only [List.mem_cons, List.mem_singleton, List.not_mem_nil, or_false] at hsplit
      rcases hsplit with rfl | rfl
      · exact ⟨EqualCountsSplit_contract std hstd bound MAX half,
          EqualCountsSplit_frame std hstd bound MAX half,
          EqualCountsSplit_singleton std hstd bound MAX half⟩
      · exact ⟨MiddlePointSplit_contract std hstd bound MAX half,
          MiddlePointSplit_frame std hstd bound MAX half,
          MiddlePointSplit_singleton std hstd bound MAX half⟩
    refine ⟨build_threshold_nonpos bound split t MAX hcs.2.1 hcs.2.2 ht fuel prims, ?_⟩
    intro hf
    cases hp : prims with
    | nil => exact ⟨Bvh.empty, rfl⟩
    | cons p ps =>
      obtain ⟨s, h1, _⟩ := build_fresh_spec bound split t MAX hcs.1 fuel (p :: ps)
        (List.cons_ne_nil _ _) (by rw [← hp]; exact hf)
      exact ⟨s, h1⟩
  · intro fuel p v hp hv
    constructor
    · have hnone := SAHSplit_same_point std bound area MAX half nBuckets [p] v
        (List.cons_ne_nil _ _) (by intro q hq; rw [List.mem_singleton.mp hq]; exact hp) hv
      simp only [List.length_singleton] at hnone
      unfold build
      simp only [List.isEmpty_cons, Bool.false_eq_true, if_false, List.length_singleton]
      rw [recursive_build]
      have c1 : (((1 : Nat) : Int) - ((0 : Nat) : Int)) > t := by
        simp only [Nat.cast_one, Nat.cast_zero, sub_zero]
        omega
      simp only [if_pos c1, hnone, Option.map_none']
    · have := build_of_le_threshold bound (SAHSplit std bound area MAX half nBuckets) 1 MAX
        (fuel + 1) [p] (List.cons_ne_nil _ _) (by simp) (by simp)
      simpa using this

end ThresholdFacts

section ThresholdInstances

set_option maxRecDepth 100000

theorem build_nonpositive_threshold_witness :
    (refStd : StdAlgorithms Int).Permutes ∧ (0 : Int) ≤ 0 ∧
    ((∀ (fuel : Nat) (prims : List Int),
      ∀ split ∈ [EqualCountsSplit refStd axisBound (1000 : ℚ) (1 / 2),
          MiddlePointSplit refStd axisBound (1000 : ℚ) (1 / 2)],
        build axisBound split 0 1000 fuel Bvh.empty prims =
          build axisBound split 1 1000 fuel Bvh.empty prims ∧
        (prims.length ≤ fuel →
          ∃ s, build axisBound split 0 1000 fuel Bvh.empty prims = some (s, []))) ∧
    (∀ (fuel : Nat) (p : Int) (v : VectorN ℚ 3), axisBound p = make_aabb_point v →
      (∀ i, -1000 ≤ v i ∧ v i ≤ 1000) →
      build axisBound (SAHSplit refStd axisBound area3 (1000 : ℚ) (1 / 2) 16) 0 1000 (fuel + 1)
        Bvh.empty [p] = none ∧
      build axisBound (SAHSplit refStd axisBound area3 (1000 : ℚ) (1 / 2) 16) 1 1000 (fuel + 1)
        Bvh.empty [p]
        = some ({ mPrimitives := [p],
                  mNodes := [{ b := rangeBox axisBound 1000 [p] 0 1, i0 := 0, i1 := -1 }] },
                []))) :=
  ⟨refStd_permutes, le_refl _,
    build_nonpositive_threshold refStd refStd_permutes axisBound area3 (1000 : ℚ) (1 / 2) 16 0
      (le_refl _)⟩

/-- The builds with the SAH strategy of two points: with the threshold 1 the tree has three
nodes, with the threshold 0 the build returns nothing. -/
theorem sah_build_threshold_zero_example :
    (build axisBound (SAHSplit refStd axisBound area3 (1000 : ℚ) (1 / 2) 16) 1 (1000 : ℚ) 3
        Bvh.empty [-3, -1]).map (fun r => (r.1.mPrimitives, r.1.mNodes.map (fun nd => (nd.i0, nd.i1))))
      = some ([-3, -1], [(1, 2), (0, -1), (1, -1)]) ∧
    (build axisBound (SAHSplit refStd axisBound area3 (1000 : ℚ) (1 / 2) 16) 0 (1000 : ℚ) 3
        Bvh.empty [-3, -1]).isSome = false := by
  decide!

end ThresholdInstances

section DimFacts

theorem argmax_two {T : Type} [LinearOrder T] (p : VectorN T 2) :
    (p 1 ≤ p 0 → argmax p = 0) ∧ (p 0 < p 1 → argmax p = 1) := by
  obtain ⟨h1, h2⟩ := argmax_spec p
  have hc : argmax p = 0 ∨ argmax p = 1 := by
    generalize argmax p = k
    fin_cases k <;> simp
  constructor
  · intro h
    rcases hc with hc | hc
    · exact hc
    · have := h2 0 (by rw [hc]; decide)
      rw [hc] at this
      exact absurd this (not_lt.mpr h)
  · intro h
    rcases hc with hc | hc
    · have := h1 1
      rw [hc] at this
      exact absurd h (not_lt.mpr this)
    · exact hc

/-- C36 (the code at the failing input): for the two strips `[0, 10] × [2, 3]` and
`[0, 10] × [0, 1]`, in that order, the split dimension of the strategies, `longest_axis` of
the merge of the primitives' boxes, is 0 (that box is `[0, 10] × [0, 3]`), while
`longest_axis` of the centroid bounding box, which has the extent 0 in dimension 0 and 2 in
dimension 1, is 1. Equal-Counts (with insertion sort for `std::nth_element`) compares along
dimension 0, where both centroids are 5, and leaves the strips as they are, although along
dimension 1 the first centroid (5/2) is greater than the second (1/2). -/
theorem split_dim_is_not_of_centroid_box :
    splitDim stripBound 1000 [1, 0] 0 2 = 0 ∧
    longest_axis (rangeBox stripBound 1000 [1, 0] 0 2) = 0 ∧
    longest_axis (centroidBox stripBound 1000 (1 / 2) [1, 0] 0 2) = 1 ∧
    EqualCountsSplit refStd stripBound 1000 (1 / 2) [1, 0] 0 2 = some ([1, 0], 1) ∧
    centroid (1 / 2) (stripBound 0) 1 < centroid (1 / 2) (stripBound 1) 1 := by
  have d0 : diagonal (rangeBox stripBound 1000 [1, 0] 0 2) 0 = 10 := by
    simp [diagonal, rangeBox, slice, merge, vmin, vmax, stdMin_eq_min, stdMax_eq_max,
      make_aabb, stripBound]
    norm_num
  have d1 : diagonal (rangeBox stripBound 1000 [1, 0] 0 2) 1 = 3 := by
    simp [diagonal, rangeBox, slice, merge, vmin, vmax, stdMin_eq_min, stdMax_eq_max,
      make_aabb, stripBound]
    norm_num
  have c0 : diagonal (centroidBox stripBound 1000 (1 / 2) [1, 0] 0 2) 0 = 0 := by
    simp [diagonal, centroidBox, slice, merge, vmin, vmax, stdMin_eq_min, stdMax_eq_max,
      make_aabb, make_aabb_point, centroid, stripBound]
    norm_num
  have c1 : diagonal (centroidBox stripBound 1000 (1 / 2) [1, 0] 0 2) 1 = 2 := by
    simp [diagonal, centroidBox, slice, merge, vmin, vmax, stdMin_eq_min, stdMax_eq_max,
      make_aabb, make_aabb_point, centroid, stripBound]
    norm_num
  have h1 : longest_axis (rangeBox stripBound 1000 [1, 0] 0 2) = 0 :=
    (argmax_two _).1 (by rw [d0, d1]; norm_num)
  have hless : ∀ (half : ℚ) (a b : Nat), centroidLess stripBound half 0 a b = false := by
    intro half a b
    simp [centroidLess, centroid, stripBound]
  refine ⟨h1, h1, (argmax_two _).2 (by rw [c0, c1]; norm_num), ?_, ?_⟩
  · obtain ⟨prims2, e1, _, e3⟩ := EqualCountsSplit_eq refStd refStd_permutes stripBound 1000
      (1 / 2) [1, 0] 0 2 (by decide) (by decide)
    rw [h1] at e3
    have e4 : slice prims2 0 2 = [1, 0] := by
      rw [e3]
      simp [refStd, slice, List.insertionSort, List.orderedInsert, hless]
    have e5 : prims2 = [1, 0] := by
      have hl : prims2.length = 2 := by
        have := congrArg List.length e4
        simp only [slice, List.drop_zero, List.length_take, List.length_cons,
          List.length_nil] at this
        have h2 := EqualCountsSplit_frame refStd refStd_permutes stripBound 1000 (1 / 2)
          [1, 0] 0 2 prims2 _ (by decide) (by decide) e1
        have := h2.1.1
        simpa using this
      rw [← e4, slice, List.drop_zero, ← hl, List.take_length]
    rw [e1, e5]
  · simp [centroid, stripBound]
    norm_num

end DimFacts

section SahFacts

variable {P T : Type} {N : Nat}

/-- The first loop of the SAH strategy returns whenever every bucket index is an index of
the two vectors; the vectors keep their length and the counts grow by the number of
primitives. -/
theorem sahFill_returns [LinearOrderedRing T] (bound : P → Aabb T N)
    (bucket : P → Option Int) (nB : Nat) :
    ∀ (l : List P) (acc : List (Aabb T N) × List Int),
      (∀ p ∈ l, ∃ k : Int, bucket p = some k ∧ 0 ≤ k ∧ k < nB) →
      acc.1.length = nB → acc.2.length = nB →
      ∃ boxes counts, sahFill bound bucket l acc = some (boxes, counts) ∧
        boxes.length = nB ∧ counts.length = nB ∧ counts.sum = acc.2.sum + (l.length : Int) := by
  intro l
  induction l with
  | nil =>
    intro acc _ h1 h2
    exact ⟨acc.1, acc.2, by simp [sahFill], h1, h2, by simp⟩
  | cons p ps ih =>
    intro acc h h1 h2
    obtain ⟨k, hk, hk0, hkn⟩ := h p (List.mem_cons_self _ _)
    have hi1 : k.toNat < acc.1.length := by omega
    have hi2 : k.toNat < acc.2.length := by omega
    have hbox : acc.1[k.toNat]? = some acc.1[k.toNat] := List.getElem?_eq_getElem hi1
    have hc : acc.2[k.toNat]? = some acc.2[k.toNat] := List.getElem?_eq_getElem hi2
    obtain ⟨boxes, counts, h3, h4, h5, h6⟩ :=
      ih (acc.1.set k.toNat (merge acc.1[k.toNat] (bound p)),
          acc.2.set k.toNat (acc.2[k.toNat] + 1))
        (fun q hq => h q (List.mem_cons_of_mem _ hq))
        (by simp only [List.length_set]; exact h1)
        (by simp only [List.length_set]; exact h2)
    refine ⟨boxes, counts, ?_, h4, h5, ?_⟩
    · simp only [sahFill, hk, if_neg (not_lt.mpr hk0), hbox, hc]
      exact h3
    · rw [h6]
      simp only [List.sum_set', dif_pos hi2, List.length_cons, Nat.cast_add, Nat.cast_one]
      ring

/-- The conversion of a value in `[0, nBuckets]` to a bucket index: the floor, capped at
`nBuckets - 1`. -/
theorem toInt_bucket [LinearOrderedRing T] [FloorRing T] (nB : Nat) (hnB : 0 < nB) (x : T)
    (h0 : 0 ≤ x) (h1 : x ≤ (nB : T)) :
    (if toInt x = (nB : Int) then (nB : Int) - 1 else toInt x) =
        min (Int.floor x) ((nB : Int) - 1) ∧
      0 ≤ (if toInt x = (nB : Int) then (nB : Int) - 1 else toInt x) ∧
      (if toInt x = (nB : Int) then (nB : Int) - 1 else toInt x) ≤ (nB : Int) - 1 := by
  have hf0 : 0 ≤ Int.floor x := Int.floor_nonneg.mpr h0
  have hf1 : Int.floor x ≤ (nB : Int) := by
    have := Int.floor_le_floor h1
    rwa [Int.floor_natCast] at this
  have ht : toInt x = Int.floor x := by simp [toInt, h0]
  rw [ht]
  by_cases hc : Int.floor x = (nB : Int)
  · rw [if_pos hc, hc]
    refine ⟨?_, by omega, le_refl _⟩
    rw [min_eq_right (by omega)]
  · rw [if_neg hc]
    refine ⟨?_, hf0, by omega⟩
    rw [min_eq_left (by omega)]

/-- The normalised centroid position of a primitive with a valid box lies in `[0, 1]` when
the extent of `cbox` along the dimension is not zero. -/
theorem sah_offset_range [LinearOrderedField T] (bound : P → Aabb T N) (MAX : T)
    (prims : List P) (b e : Nat) (dim : Fin N) (p : P) (hp : p ∈ slice prims b e)
    (hv : is_valid (bound p) = true)
    (hd : diagonal (rangeBox bound MAX prims b e) dim ≠ 0) :
    0 < diagonal (rangeBox bound MAX prims b e) dim ∧
    0 ≤ (centroid (1 / 2) (bound p) dim - (rangeBox bound MAX prims b e).p0 dim) /
        diagonal (rangeBox bound MAX prims b e) dim ∧
    (centroid (1 / 2) (bound p) dim - (rangeBox bound MAX prims b e).p0 dim) /
        diagonal (rangeBox bound MAX prims b e) dim ≤ 1 := by
  have henc := rangeBox_encloses bound MAX prims b e p hp dim
  have hval : (bound p).p0 dim ≤ (bound p).p1 dim := (vle_iff _ _).mp hv dim
  have hd0 : 0 ≤ diagonal (rangeBox bound MAX prims b e) dim := by
    simp only [diagonal]; linarith [henc.1, henc.2]
  have hpos : 0 < diagonal (rangeBox bound MAX prims b e) dim := lt_of_le_of_ne hd0 (Ne.symm hd)
  have hc1 : (rangeBox bound MAX prims b e).p0 dim ≤ centroid (1 / 2) (bound p) dim := by
    simp only [centroid]; linarith [henc.1]
  have hc2 : centroid (1 / 2) (bound p) dim ≤ (rangeBox bound MAX prims b e).p1 dim := by
    simp only [centroid]; linarith [henc.2]
  refine ⟨hpos, div_nonneg (by linarith) hpos.le, ?_⟩
  rw [div_le_one hpos]
  simp only [diagonal]
  linarith

/-- C38: in the SAH strategy, on a non-empty range `[b, e)` of primitives with valid boxes
and with at least one bucket. When the extent of `cbox` along `dim` is not zero, the bucket
index of every primitive of the range is `min(floor(nBuckets * t), nBuckets - 1)` with
`t = (centroid[dim] - cbox.lo[dim]) / diagonal(cbox)[dim]` and lies in `[0, nBuckets - 1]`,
the filling loop never indexes outside its two vectors, which keep `nBuckets` entries, and
the counts sum to `n = e - b`. When the extent is zero (every box of the range is the same
point along each dimension), no primitive has a bucket index and the strategy returns
nothing. -/
theorem sah_bucket_index_in_range [LinearOrderedField T] [FloorRing T] [NeZero N]
    (std : StdAlgorithms P) (bound : P → Aabb T N) (area : Aabb T N → T) (MAX : T)
    (nBuckets : Nat) (prims : List P) (b e : Nat) (hbe : b < e) (he : e ≤ prims.length)
    (hnB : 0 < nBuckets) (hvalid : ∀ p ∈ slice prims b e, is_valid (bound p) = true) :
    (diagonal (rangeBox bound MAX prims b e) (splitDim bound MAX prims b e) ≠ 0 →
      (∀ p ∈ slice prims b e, ∃ k : Int,
        sahBucket bound (1 / 2) nBuckets (rangeBox bound MAX prims b e)
          (splitDim bound MAX prims b e) p = some k ∧
        k = min (Int.floor ((nBuckets : T) *
              ((centroid (1 / 2) (bound p) (splitDim bound MAX prims b e) -
                  (rangeBox bound MAX prims b e).p0 (splitDim bound MAX prims b e)) /
                diagonal (rangeBox bound MAX prims b e) (splitDim bound MAX prims b e))))
            ((nBuckets : Int) - 1) ∧
        0 ≤ k ∧ k ≤ (nBuckets : Int) - 1) ∧
      ∃ boxes counts,
        sahFill bound (sahBucket bound (1 / 2) nBuckets (rangeBox bound MAX prims b e)
            (splitDim bound MAX prims b e)) (slice prims b e)
          (List.replicate nBuckets (make_aabb MAX), List.replicate nBuckets 0) =
            some (boxes, counts) ∧
        boxes.length = nBuckets ∧ counts.length = nBuckets ∧
        counts.sum = ((e - b : Nat) : Int)) ∧
    (diagonal (rangeBox bound MAX prims b e) (splitDim bound MAX prims b e) = 0 →
      (∀ p, sahBucket bound (1 / 2) nBuckets (rangeBox bound MAX prims b e)
          (splitDim bound MAX prims b e) p = none) ∧
      SAHSplit std bound area MAX (1 / 2) nBuckets prims b e = none) := by
  have hsl : (slice prims b e).length = e - b := length_slice prims b e he
  constructor
  · intro hd
    have hbk : ∀ p ∈ slice prims b e, ∃ k : Int,
        sahBucket bound (1 / 2) nBuckets (rangeBox bound MAX prims b e)
          (splitDim bound MAX prims b e) p = some k ∧
        k = min (Int.floor ((nBuckets : T) *
              ((centroid (1 / 2) (bound p) (splitDim bound MAX prims b e) -
                  (rangeBox bound MAX prims b e).p0 (splitDim bound MAX prims b e)) /
                diagonal (rangeBox bound MAX prims b e) (splitDim bound MAX prims b e))))
            ((nBuckets : Int) - 1) ∧
        0 ≤ k ∧ k ≤ (nBuckets : Int) - 1 := by
      intro p hp
      obtain ⟨hpos, h0, h1⟩ := sah_offset_range bound MAX prims b e
        (splitDim bound MAX prims b e) p hp (hvalid p hp) hd
      have hn0 : (0 : T) ≤ (nBuckets : T) := Nat.cast_nonneg _
      obtain ⟨e1, e2, e3⟩ := toInt_bucket nBuckets hnB _ (mul_nonneg hn0 h0)
        (by calc (nBuckets : T) * _ ≤ (nBuckets : T) * 1 := mul_le_mul_of_nonneg_left h1 hn0
              _ = (nBuckets : T) := mul_one _)
      refine ⟨_, ?_, e1, e2, e3⟩
      simp only [sahBucket, if_neg hd]
    refine ⟨hbk, ?_⟩
    obtain ⟨boxes, counts, h1, h2, h3, h4⟩ := sahFill_returns bound
      (sahBucket bound (1 / 2) nBuckets (rangeBox bound MAX prims b e)
        (splitDim bound MAX prims b e)) nBuckets (slice prims b e)
      (List.replicate nBuckets (make_aabb MAX), List.replicate nBuckets 0)
      (fun p hp => by
        obtain ⟨k, hk, _, hk0, hk1⟩ := hbk p hp
        exact ⟨k, hk, hk0, by omega⟩)
      (by simp) (by simp)
    refine ⟨boxes, counts, h1, h2, h3, ?_⟩
    rw [h4, hsl]
    simp
  · intro hd
    have hnone : ∀ p, sahBucket bound (1 / 2) nBuckets (rangeBox bound MAX prims b e)
        (splitDim bound MAX prims b e) p = none := by
      intro p
      simp only [sahBucket, if_pos hd]
    refine ⟨hnone, ?_⟩
    obtain ⟨x, rest, hx⟩ : ∃ x rest, slice prims b e = x :: rest := by
      cases hs : slice prims b e with
      | nil => rw [hs] at hsl; simp at hsl; omega
      | cons x rest => exact ⟨x, rest, rfl⟩
    unfold SAHSplit
    rw [if_pos ⟨hbe.le, he⟩]
    simp only [splitDim] at hnone
    simp only [hx, sahFill, hnone]

/-- What `SAHSplit` returns once its filling loop has returned, in terms of the output of
`std::partition` with a predicate that holds exactly of the primitives whose bucket index
is at most `splitBucketId`. -/
theorem SAHSplit_eq [LinearOrderedRing T] [NeZero N] [Div T] [FloorRing T]
    (std : StdAlgorithms P) (bound : P → Aabb T N) (area : Aabb T N → T) (MAX half : T)
    (nBuckets : Nat) (prims : List P) (b e : Nat) (hbe : b ≤ e) (he : e ≤ prims.length)
    (filled : List (Aabb T N) × List Int)
    (hfill : sahFill bound (sahBucket bound half nBuckets (rangeBox bound MAX prims b e)
        (splitDim bound MAX prims b e)) (slice prims b e)
      (List.replicate nBuckets (make_aabb MAX), List.replicate nBuckets 0) = some filled) :
    ∃ pred : P → Bool,
      (∀ p, pred p = true ↔ ∃ k : Int,
        sahBucket bound half nBuckets (rangeBox bound MAX prims b e)
          (splitDim bound MAX prims b e) p = some k ∧
        k ≤ ((sahSplitBucket area MAX filled.1 filled.2 nBuckets : Nat) : Int)) ∧
      SAHSplit std bound area MAX half nBuckets prims b e =
        (if b + (std.partition pred (slice prims b e)).2 = b ∨
            b + (std.partition pred (slice prims b e)).2 = e then
          some (prims.take b ++
            std.nth_element (centroidLess bound half (splitDim bound MAX prims b e))
              (std.partition pred (slice prims b e)).1 ((e - b) / 2) ++ prims.drop e,
            b + (e - b) / 2)
        else some (prims.take b ++ (std.partition pred (slice prims b e)).1 ++ prims.drop e,
            b + (std.partition pred (slice prims b e)).2)) := by
  refine ⟨fun p =>
    match sahBucket bound half nBuckets (rangeBox bound MAX prims b e)
        (splitDim bound MAX prims b e) p with
    | some b2 => decide (b2 ≤ ((sahSplitBucket area MAX filled.1 filled.2 nBuckets : Nat) : Int))
    | none => false, ?_, ?_⟩
  · intro p
    simp only
    cases h : sahBucket bound half nBuckets (rangeBox bound MAX prims b e)
      (splitDim bound MAX prims b e) p with
    | none => simp
    | some k => simp
  · unfold SAHSplit
    rw [if_pos ⟨hbe, he⟩]
    simp only [splitDim] at hfill ⊢
    simp only [hfill]
    try rfl

end SahFacts

section SahInstances

set_option maxRecDepth 100000

/-- Every box of the instance `cubeBound` is valid. -/
theorem cubeBound_valid (p : Int) : is_valid (cubeBound p) = true := by
  rw [is_valid, vle_iff]
  intro i
  simp only [cubeBound]
  split_ifs
  · linarith
  · norm_num

/-- The theorem `sah_bucket_index_in_range` at four unit cubes in a row. -/
theorem sah_bucket_index_in_range_witness :
    0 < 4 ∧ 4 ≤ ([0, 1, 10, 11] : List Int).length ∧ 0 < 16 ∧
    (∀ p ∈ slice ([0, 1, 10, 11] : List Int) 0 4, is_valid (cubeBound p) = true) ∧
    (diagonal (rangeBox cubeBound 1000 [0, 1, 10, 11] 0 4)
          (splitDim cubeBound 1000 [0, 1, 10, 11] 0 4) ≠ 0 →
      (∀ p ∈ slice ([0, 1, 10, 11] : List Int) 0 4, ∃ k : Int,
        sahBucket cubeBound (1 / 2) 16 (rangeBox cubeBound 1000 [0, 1, 10, 11] 0 4)
          (splitDim cubeBound 1000 [0, 1, 10, 11] 0 4) p = some k ∧
        k = min (Int.floor (((16 : Nat) : ℚ) *
              ((centroid (1 / 2) (cubeBound p) (splitDim cubeBound 1000 [0, 1, 10, 11] 0 4) -
                  (rangeBox cubeBound 1000 [0, 1, 10, 11] 0 4).p0
                    (splitDim cubeBound 1000 [0, 1, 10, 11] 0 4)) /
                diagonal (rangeBox cubeBound 1000 [0, 1, 10, 11] 0 4)
                  (splitDim cubeBound 1000 [0, 1, 10, 11] 0 4))))
            (((16 : Nat) : Int) - 1) ∧
        0 ≤ k ∧ k ≤ ((16 : Nat) : Int) - 1) ∧
      ∃ boxes counts,
        sahFill cubeBound (sahBucket cubeBound (1 / 2) 16
            (rangeBox cubeBound 1000 [0, 1, 10, 11] 0 4)
            (splitDim cubeBound 1000 [0, 1, 10, 11] 0 4)) (slice [0, 1, 10, 11] 0 4)
          (List.replicate 16 (make_aabb 1000), List.replicate 16 0) = some (boxes, counts) ∧
        boxes.length = 16 ∧ counts.length = 16 ∧
        counts.sum = ((4 - 0 : Nat) : Int)) ∧
    (diagonal (rangeBox cubeBound 1000 [0, 1, 10, 11] 0 4)
          (splitDim cubeBound 1000 [0, 1, 10, 11] 0 4) = 0 →
      (∀ p, sahBucket cubeBound (1 / 2) 16 (rangeBox cubeBound 1000 [0, 1, 10, 11] 0 4)
          (splitDim cubeBound 1000 [0, 1, 10, 11] 0 4) p = none) ∧
      SAHSplit refStd cubeBound area3 1000 (1 / 2) 16 [0, 1, 10, 11] 0 4 = none) :=
  ⟨by decide, by decide, by decide, fun p _ => cubeBound_valid p,
    sah_bucket_index_in_range refStd cubeBound area3 1000 16 [0, 1, 10, 11] 0 4
      (by decide) (by decide) (by decide) (fun p _ => cubeBound_valid p)⟩

/-- The bucket assignment at four unit cubes in a row, at `x = 0, 1, 10, 11`: the extent
of `cbox` along `dim = 0` is 12, the bucket indices are 0, 2, 14 and 15, and the counts
sum to 4. -/
theorem sah_bucket_example :
    splitDim cubeBound 1000 [0, 1, 10, 11] 0 4 = 0 ∧
    diagonal (rangeBox cubeBound 1000 [0, 1, 10, 11] 0 4) 0 = 12 ∧
    ([0, 1, 10, 11] : List Int).map (sahBucket cubeBound (1 / 2) 16
      (rangeBox cubeBound 1000 [0, 1, 10, 11] 0 4) 0) = [some 0, some 2, some 14, some 15] ∧
    (sahFill cubeBound (sahBucket cubeBound (1 / 2) 16
        (rangeBox cubeBound 1000 [0, 1, 10, 11] 0 4) 0) [0, 1, 10, 11]
      (List.replicate 16 (make_aabb 1000), List.replicate 16 0)).map (fun f => f.2) =
      some [1, 0, 1, 0, 0, 0, 0, 0, 0, 0, 0, 0, 0, 0, 1, 1] := by
  decide!

/-- The SAH strategy on a range whose boxes are one point: the extent of `cbox` is zero in
every dimension, no primitive has a bucket index and the strategy returns nothing. -/
theorem sah_bucket_zero_extent_example :
    (∀ p ∈ slice ([5, 5] : List Int) 0 2, is_valid (axisBound p) = true) ∧
    diagonal (rangeBox axisBound 1000 [5, 5] 0 2) (splitDim axisBound 1000 [5, 5] 0 2) = 0 ∧
    sahBucket axisBound (1 / 2) 16 (rangeBox axisBound 1000 [5, 5] 0 2)
      (splitDim axisBound 1000 [5, 5] 0 2) 5 = none ∧
    SAHSplit refStd axisBound area3 1000 (1 / 2) 16 [5, 5] 0 2 = none := by
  decide!

end SahInstances

section SahCostFacts

variable {P T : Type} [LinearOrderedRing T] {N : Nat}

theorem Ieee.lt_irrefl_ieee (x : Ieee T) : Ieee.lt x x = false := by
  cases x <;> simp [Ieee.lt]

theorem Ieee.lt_trans_ieee {x y z : Ieee T} (h1 : Ieee.lt x y = true) (h2 : Ieee.lt y z = true) :
    Ieee.lt x z = true := by
  cases x <;> cases y <;> cases z <;> simp [Ieee.lt] at h1 h2 ⊢
  exact lt_trans h1 h2

theorem Ieee.lt_of_le_of_lt_ieee {x y z : Ieee T} (h1 : Ieee.le x y = true)
    (h2 : Ieee.lt y z = true) : Ieee.lt x z = true := by
  cases x <;> cases y <;> cases z <;> simp [Ieee.lt, Ieee.le] at h1 h2 ⊢
  exact lt_of_le_of_lt h1 h2

theorem Ieee.lt_nan_left (x : Ieee T) : Ieee.lt Ieee.nan x = false := by
  cases x <;> simp [Ieee.lt]

theorem Ieee.add_nan_right (x : Ieee T) : Ieee.add x Ieee.nan = Ieee.nan := by
  cases x <;> simp [Ieee.add]

theorem Ieee.add_nan_left (x : Ieee T) : Ieee.add Ieee.nan x = Ieee.nan := by
  cases x <;> simp [Ieee.add]

theorem Ieee.overflow_of_inRange (MAX x : T) (h1 : -MAX ≤ x) (h2 : x ≤ MAX) :
    Ieee.overflow MAX x = Ieee.fin x := by
  simp [Ieee.overflow, not_lt.mpr h1, not_lt.mpr h2]

/-- The value `area(bbox) * count` of the cost scan for a side without primitives, whose box
is `make_aabb()` and whose area is an infinity: a NaN. -/
theorem Ieee.empty_side_nan (MAX a : T) (h : MAX < a ∨ a < -MAX) (hM : 0 ≤ MAX) :
    Ieee.ovf MAX (Ieee.mul (Ieee.overflow MAX a) (Ieee.fin 0)) = Ieee.nan := by
  rcases h with h | h
  · simp [Ieee.overflow, h, Ieee.mul, Ieee.mulInf, Ieee.ovf]
  · have h2 : ¬ MAX < a := not_lt.mpr (le_trans h.le (le_trans (neg_nonpos.mpr hM) hM))
    simp [Ieee.overflow, h, h2, Ieee.mul, Ieee.mulInf, Ieee.ovf]

/-- The scan for the cheapest candidate on floating-point costs: starting from `(M, 0)` and
replacing the pair whenever the next cost is less than the running minimum, either no cost
was below `M` and the loop ends with `(M, 0)`, or it ends with an index whose cost is below
`M`, with no cost below that cost and no earlier cost at most that cost. -/
theorem sahScan_spec (f : Nat → Ieee T) (M : T) :
    ∀ n : Nat,
      ((List.range n).foldl
            (fun (acc : Ieee T × Nat) b => if Ieee.lt (f b) acc.1 then (f b, b) else acc)
            (Ieee.fin M, 0) = (Ieee.fin M, 0) ∧
          ∀ c, c < n → Ieee.lt (f c) (Ieee.fin M) = false) ∨
        (((List.range n).foldl
            (fun (acc : Ieee T × Nat) b => if Ieee.lt (f b) acc.1 then (f b, b) else acc)
            (Ieee.fin M, 0)).2 < n ∧
          ((List.range n).foldl
            (fun (acc : Ieee T × Nat) b => if Ieee.lt (f b) acc.1 then (f b, b) else acc)
            (Ieee.fin M, 0)).1 =
            f ((List.range n).foldl
              (fun (acc : Ieee T × Nat) b => if Ieee.lt (f b) acc.1 then (f b, b) else acc)
              (Ieee.fin M, 0)).2 ∧
          Ieee.lt (f ((List.range n).foldl
              (fun (acc : Ieee T × Nat) b => if Ieee.lt (f b) acc.1 then (f b, b) else acc)
              (Ieee.fin M, 0)).2) (Ieee.fin M) = true ∧
          (∀ c, c < n → Ieee.lt (f c) (f ((List.range n).foldl
              (fun (acc : Ieee T × Nat) b => if Ieee.lt (f b) acc.1 then (f b, b) else acc)
              (Ieee.fin M, 0)).2) = false) ∧
          ∀ c, c < ((List.range n).foldl
              (fun (acc : Ieee T × Nat) b => if Ieee.lt (f b) acc.1 then (f b, b) else acc)
              (Ieee.fin M, 0)).2 →
            Ieee.le (f c) (f ((List.range n).foldl
              (fun (acc : Ieee T × Nat) b => if Ieee.lt (f b) acc.1 then (f b, b) else acc)
              (Ieee.fin M, 0)).2) = false) := by
  intro n
  induction n with
  | zero => left; simp
  | succ n ih =>
    rw [List.range_succ, List.foldl_append, List.foldl_cons, List.foldl_nil]
    generalize (List.range n).foldl
      (fun (acc : Ieee T × Nat) b => if Ieee.lt (f b) acc.1 then (f b, b) else acc)
      (Ieee.fin M, 0) = r at ih ⊢
    by_cases hlt : Ieee.lt (f n) r.1 = true
    · rw [if_pos hlt]
      right
      rcases ih with ⟨h4, h5⟩ | ⟨h4, h5, h6, h7, h8⟩
      · subst h4
        simp only at hlt
        refine ⟨Nat.lt_succ_self n, rfl, hlt, ?_, ?_⟩
        · intro c hc
          rcases Nat.lt_succ_iff_lt_or_eq.mp hc with h | h
          · cases hx : Ieee.lt (f c) (f n) with
            | false => rfl
            | true =>
              have := h5 c h
              rw [Ieee.lt_trans_ieee hx hlt] at this
              exact absurd this (by simp)
          · rw [h]; exact Ieee.lt_irrefl_ieee _
        · intro c hc
          simp only at hc
          cases hx : Ieee.le (f c) (f n) with
          | false => rfl
          | true =>
            have := h5 c hc
            rw [Ieee.lt_of_le_of_lt_ieee hx hlt] at this
            exact absurd this (by simp)
      · rw [h5] at hlt
        refine ⟨Nat.lt_succ_self n, rfl, Ieee.lt_trans_ieee hlt h6, ?_, ?_⟩
        · intro c hc
          rcases Nat.lt_succ_iff_lt_or_eq.mp hc with h | h
          · cases hx : Ieee.lt (f c) (f n) with
            | false => rfl
            | true =>
              have := h7 c h
              rw [Ieee.lt_trans_ieee hx hlt] at this
              exact absurd this (by simp)
          · rw [h]; exact Ieee.lt_irrefl_ieee _
        · intro c hc
          simp only at hc
          cases hx : Ieee.le (f c) (f n) with
          | false => rfl
          | true =>
            have := h7 c hc
            rw [Ieee.lt_of_le_of_lt_ieee hx hlt] at this
            exact absurd this (by simp)
    · rw [if_neg hlt]
      have hlt2 : Ieee.lt (f n) r.1 = false := by
        cases hx : Ieee.lt (f n) r.1 with
        | false => rfl
        | true => exact absurd hx hlt
      rcases ih with ⟨h4, h5⟩ | ⟨h4, h5, h6, h7, h8⟩
      · left
        refine ⟨h4, ?_⟩
        intro c hc
        rcases Nat.lt_succ_iff_lt_or_eq.mp hc with h | h
        · exact h5 c h
        · rw [h]
          rw [h4] at hlt2
          exact hlt2
      · right
        refine ⟨Nat.lt_succ_of_lt h4, h5, h6, ?_, h8⟩
        intro c hc
        rcases Nat.lt_succ_iff_lt_or_eq.mp hc with h | h
        · exact h7 c h
        · rw [h, ← h5]; exact hlt2

/-- The bucket the cost scan of the SAH strategy ends with: 0 when no candidate has a cost
below `MAX`; otherwise a candidate whose cost is below `MAX`, with no candidate of a lower
cost and no lower candidate of the same cost or less. -/
theorem sahSplitBucket_lowest_min (area : Aabb T N → T) (MAX : T)
    (boxes : List (Aabb T N)) (counts : List Int) (nBuckets : Nat) :
    ((∀ c, c < nBuckets - 1 →
        Ieee.lt (sahCost area MAX boxes counts c) (Ieee.fin MAX) = false) →
      sahSplitBucket area MAX boxes counts nBuckets = 0) ∧
    ((∃ c, c < nBuckets - 1 ∧
        Ieee.lt (sahCost area MAX boxes counts c) (Ieee.fin MAX) = true) →
      sahSplitBucket area MAX boxes counts nBuckets < nBuckets - 1 ∧
      Ieee.lt (sahCost area MAX boxes counts (sahSplitBucket area MAX boxes counts nBuckets))
        (Ieee.fin MAX) = true ∧
      (∀ c, c < nBuckets - 1 →
        Ieee.lt (sahCost area MAX boxes counts c)
          (sahCost area MAX boxes counts (sahSplitBucket area MAX boxes counts nBuckets))
          = false) ∧
      (∀ c, c < sahSplitBucket area MAX boxes counts nBuckets →
        Ieee.le (sahCost area MAX boxes counts c)
          (sahCost area MAX boxes counts (sahSplitBucket area MAX boxes counts nBuckets))
          = false)) := by
  have h := sahScan_spec (sahCost area MAX boxes counts) MAX (nBuckets - 1)
  unfold sahSplitBucket
  generalize (List.range (nBuckets - 1)).foldl
      (fun (acc : Ieee T × Nat) b =>
        if Ieee.lt (sahCost area MAX boxes counts b) acc.1 then
          (sahCost area MAX boxes counts b, b)
        else acc) (Ieee.fin MAX, 0) = r at h ⊢
  rcases h with ⟨h4, h5⟩ | ⟨h4, h5, h6, h7, h8⟩
  · subst h4
    refine ⟨fun _ => rfl, ?_⟩
    rintro ⟨c, hc, hlt⟩
    rw [h5 c hc] at hlt
    exact absurd hlt (by simp)
  · refine ⟨?_, fun _ => ⟨h4, h6, h7, h8⟩⟩
    intro hall
    rw [hall r.2 h4] at h6
    exact absurd h6 (by simp)

end SahCostFacts

section SahFillFacts

variable {P T : Type} [LinearOrderedRing T] {N : Nat}

/-- A reduction over a vector one of whose entries `a` is replaced by `g a`, when the step
of the reduction turns that replacement into an action `G` on the result. -/
theorem foldl_set_slot {α : Type} (f : α → α → α) (g G : α → α)
    (h1 : ∀ z a, f z (g a) = G (f z a)) (h2 : ∀ z a, f (G z) a = G (f z a)) :
    ∀ (l : List α) (k : Nat) (a z : α), l[k]? = some a →
      (l.set k (g a)).foldl f z = G (l.foldl f z) := by
  have hG : ∀ (l : List α) (w : α), l.foldl f (G w) = G (l.foldl f w) := by
    intro l
    induction l with
    | nil => intro w; rfl
    | cons x l ih => intro w; rw [List.foldl_cons, List.foldl_cons, h2, ih]
  intro l
  induction l with
  | nil => intro k a z h; simp at h
  | cons x l ih =>
    intro k a z h
    cases k with
    | zero =>
      simp only [List.getElem?_cons_zero, Option.some.injEq] at h
      subst h
      simp only [List.set_cons_zero, List.foldl_cons]
      rw [h1, hG]
    | succ k =>
      simp only [List.getElem?_cons_succ] at h
      simp only [List.set_cons_succ, List.foldl_cons]
      exact ih k a _ h

omit [LinearOrderedRing T] in
/-- The side of a candidate split on which a primitive with the bucket index `k` is. -/
theorem sahInSide_of_bucket (bucket : P → Option Int) (side : Int → Bool) (p : P) (k : Int)
    (h : bucket p = some k) : sahInSide bucket side p = side k := by
  simp [sahInSide, h]

/-- The two vectors that the filling loop of the SAH strategy leaves, read as the cost scan
reads them: the merge of the boxes and the sum of the counts of the buckets `[0, b]` and of
the buckets from `b + 1` on are the merge of the boxes and the number of the primitives whose
bucket index is at most `b`, or greater than `b`, added to what the vectors held. -/
theorem sahFill_sides (bound : P → Aabb T N) (bucket : P → Option Int) (b : Nat)
    (z : Aabb T N) (zc : Int) :
    ∀ (l : List P) (acc out : List (Aabb T N) × List Int),
      sahFill bound bucket l acc = some out →
      (out.1.take (b + 1)).foldl merge z =
        (l.filter (sahInSide bucket (fun k => decide (k ≤ (b : Int))))).foldl
          (fun box p => merge box (bound p)) ((acc.1.take (b + 1)).foldl merge z) ∧
      (out.1.drop (b + 1)).foldl merge z =
        (l.filter (sahInSide bucket (fun k => decide ((b : Int) < k)))).foldl
          (fun box p => merge box (bound p)) ((acc.1.drop (b + 1)).foldl merge z) ∧
      (out.2.take (b + 1)).foldl (fun c x => c + x) zc =
        (acc.2.take (b + 1)).foldl (fun c x => c + x) zc +
          ((l.filter (sahInSide bucket (fun k => decide (k ≤ (b : Int))))).length : Int) ∧
      (out.2.drop (b + 1)).foldl (fun c x => c + x) zc =
        (acc.2.drop (b + 1)).foldl (fun c x => c + x) zc +
          ((l.filter (sahInSide bucket (fun k => decide ((b : Int) < k)))).length : Int) := by
  intro l
  induction l with
  | nil =>
    intro acc out h
    simp only [sahFill, Option.some.injEq] at h
    subst h
    simp
  | cons p ps ih =>
    intro acc out h
    rw [sahFill] at h
    cases hk : bucket p with
    | none => rw [hk] at h; exact absurd h (by simp)
    | some k =>
      rw [hk] at h
      simp only at h
      by_cases hneg : k < 0
      · rw [if_pos hneg] at h; exact absurd h (by simp)
      · rw [if_neg hneg] at h
        cases hbox : acc.1[k.toNat]? with
        | none => rw [hbox] at h; exact absurd h (by simp)
        | some box =>
          cases hc : acc.2[k.toNat]? with
          | none => rw [hbox, hc] at h; exact absurd h (by simp)
          | some c =>
            rw [hbox, hc] at h
            simp only at h
            obtain ⟨e1, e2, e3, e4⟩ := ih _ out h
            simp only at e1 e2 e3 e4
            have hm1 : ∀ w a : Aabb T N, merge w (merge a (bound p)) = merge (merge w a) (bound p) :=
              fun w a => (merge_assoc w a (bound p)).symm
            have hm2 : ∀ w a : Aabb T N,
                merge (merge w (bound p)) a = merge (merge w a) (bound p) := by
              intro w a
              rw [merge_assoc, merge_comm (bound p) a, ← merge_assoc]
            have hc1 : ∀ w a : Int, w + (a + 1) = w + a + 1 := fun w a => by ring
            have hc2 : ∀ w a : Int, w + 1 + a = w + a + 1 := fun w a => by ring
            by_cases hside : k ≤ (b : Int)
            · have hlt : k.toNat < b + 1 := by omega
              have s1 : sahInSide bucket (fun k => decide (k ≤ (b : Int))) p = true := by
                rw [sahInSide_of_bucket bucket _ p k hk]; simpa using hside
              have s2 : sahInSide bucket (fun k => decide ((b : Int) < k)) p = false := by
                rw [sahInSide_of_bucket bucket _ p k hk]; simpa using hside
              rw [List.filter_cons_of_pos s1, List.filter_cons_of_neg (by simp [s2])]
              rw [List.drop_set_of_lt _ _ hlt] at e2
              rw [List.drop_set_of_lt _ _ hlt] at e4
              rw [List.set_take, foldl_set_slot merge (fun a => merge a (bound p))
                (fun a => merge a (bound p)) hm1 hm2 _ _ box z
                (by rw [List.getElem?_take_of_lt hlt]; exact hbox)] at e1
              rw [List.set_take, foldl_set_slot (fun c x : Int => c + x) (fun a => a + 1)
                (fun a => a + 1) hc1 hc2 _ _ c zc
                (by rw [List.getElem?_take_of_lt hlt]; exact hc)] at e3
              refine ⟨?_, e2, ?_, e4⟩
              · rw [e1, List.foldl_cons]
              · rw [e3, List.length_cons]
                push_cast
                ring
            · have hge : b + 1 ≤ k.toNat := by omega
              have s1 : sahInSide bucket (fun k => decide (k ≤ (b : Int))) p = false := by
                rw [sahInSide_of_bucket bucket _ p k hk]; simpa using hside
              have s2 : sahInSide bucket (fun k => decide ((b : Int) < k)) p = true := by
                rw [sahInSide_of_bucket bucket _ p k hk]; simpa using hside
              rw [List.filter_cons_of_neg (by simp [s1]), List.filter_cons_of_pos s2]
              rw [List.set_take, List.set_eq_of_length_le
                (by rw [List.length_take]; omega)] at e1
              rw [List.set_take, List.set_eq_of_length_le
                (by rw [List.length_take]; omega)] at e3
              rw [List.drop_set, if_neg (by omega),
                foldl_set_slot merge (fun a => merge a (bound p))
                (fun a => merge a (bound p)) hm1 hm2 _ _ box z
                (by rw [List.getElem?_drop]
                    have : b + 1 + (k.toNat - (b + 1)) = k.toNat := by omega
                    rw [this]; exact hbox)] at e2
              rw [List.drop_set, if_neg (by omega),
                foldl_set_slot (fun c x : Int => c + x) (fun a => a + 1)
                (fun a => a + 1) hc1 hc2 _ _ c zc
                (by rw [List.getElem?_drop]
                    have : b + 1 + (k.toNat - (b + 1)) = k.toNat := by omega
                    rw [this]; exact hc)] at e4
              refine ⟨e1, ?_, e3, ?_⟩
              · rw [e2, List.foldl_cons]
              · rw [e4, List.length_cons]
                push_cast
                ring

end SahFillFacts

section SahCostTheorems

variable {P T : Type} {N : Nat}

theorem foldl_merge_replicate [LinearOrderedRing T] (e : Aabb T N) (m : Nat) :
    (List.replicate m e).foldl merge e = e := by
  induction m with
  | zero => rfl
  | succ m ih =>
    rw [List.replicate_succ, List.foldl_cons]
    have : merge e e = e := by
      ext i
      · rw [merge_p0, min_self]
      · rw [merge_p1, max_self]
    rw [this, ih]

theorem foldl_add_replicate_zero (m : Nat) :
    (List.replicate m (0 : Int)).foldl (fun c x => c + x) 0 = 0 := by
  induction m with
  | zero => rfl
  | succ m ih => rw [List.replicate_succ, List.foldl_cons]; simpa using ih

/-- The cost of a candidate split as the cost scan computes it from the two vectors that the
filling loop leaves: the floating-point value of `area(B0) * c0 + area(B1) * c1`, with `B0`,
`c0` the union box and the number of the primitives whose bucket index is at most `b`, and
`B1`, `c1` those of the primitives whose bucket index is greater. -/
theorem sahCost_filled [LinearOrderedRing T] (bound : P → Aabb T N) (area : Aabb T N → T)
    (MAX : T) (bucket : P → Option Int) (nBuckets : Nat) (l : List P)
    (filled : List (Aabb T N) × List Int)
    (h : sahFill bound bucket l
      (List.replicate nBuckets (make_aabb MAX), List.replicate nBuckets 0) = some filled)
    (b : Nat) :
    sahCost area MAX filled.1 filled.2 b =
      Ieee.ovf MAX (Ieee.add
        (Ieee.ovf MAX (Ieee.mul
          (Ieee.overflow MAX
            (area (sahSideBox bound MAX bucket (fun k => decide (k ≤ (b : Int))) l)))
          (Ieee.fin ((sahSideCount bucket (fun k => decide (k ≤ (b : Int))) l : Int) : T))))
        (Ieee.ovf MAX (Ieee.mul
          (Ieee.overflow MAX
            (area (sahSideBox bound MAX bucket (fun k => decide ((b : Int) < k)) l)))
          (Ieee.fin ((sahSideCount bucket (fun k => decide ((b : Int) < k)) l : Int) : T))))) := by
  obtain ⟨e1, e2, e3, e4⟩ := sahFill_sides bound bucket b (make_aabb MAX) 0 l _ filled h
  simp only [List.take_replicate, List.drop_replicate, foldl_merge_replicate,
    foldl_add_replicate_zero, zero_add] at e1 e2 e3 e4
  unfold sahCost sahSideBox sahSideCount
  simp only [e1, e2, e3, e4]

/-- The cost of a candidate split one of whose sides holds no primitive is a NaN, when the
area of the box `make_aabb()` is an infinity. -/
theorem sahCost_empty_side [LinearOrderedRing T] (bound : P → Aabb T N) (area : Aabb T N → T)
    (MAX : T) (hM : 0 ≤ MAX) (harea : MAX < area (make_aabb MAX) ∨ area (make_aabb MAX) < -MAX)
    (bucket : P → Option Int) (nBuckets : Nat) (l : List P)
    (filled : List (Aabb T N) × List Int)
    (h : sahFill bound bucket l
      (List.replicate nBuckets (make_aabb MAX), List.replicate nBuckets 0) = some filled)
    (b : Nat)
    (hside : sahSideCount bucket (fun k => decide (k ≤ (b : Int))) l = 0 ∨
      sahSideCount bucket (fun k => decide ((b : Int) < k)) l = 0) :
    sahCost area MAX filled.1 filled.2 b = Ieee.nan := by
  rw [sahCost_filled bound area MAX bucket nBuckets l filled h b]
  have hbox : ∀ side, sahSideCount bucket side l = 0 →
      sahSideBox bound MAX bucket side l = make_aabb MAX := by
    intro side h0
    unfold sahSideCount at h0
    unfold sahSideBox
    have : l.filter (sahInSide bucket side) = [] := by
      apply List.eq_nil_of_length_eq_zero
      exact_mod_cast h0
    rw [this]
    rfl
  rcases hside with h0 | h0
  · rw [hbox _ h0, h0, Int.cast_zero, Ieee.empty_side_nan MAX _ harea hM,
      Ieee.add_nan_left]
    rfl
  · rw [hbox _ h0, h0, Int.cast_zero, Ieee.empty_side_nan MAX _ harea hM,
      Ieee.add_nan_right]
    rfl

/-- The cost of a candidate split is the exact `area(B0) * c0 + area(B1) * c1` when the two
areas, the two products and the sum are within the finite range of the type. -/
theorem sahCost_in_range [LinearOrderedRing T] (bound : P → Aabb T N) (area : Aabb T N → T)
    (MAX : T) (bucket : P → Option Int) (nBuckets : Nat) (l : List P)
    (filled : List (Aabb T N) × List Int)
    (h : sahFill bound bucket l
      (List.replicate nBuckets (make_aabb MAX), List.replicate nBuckets 0) = some filled)
    (b : Nat)
    (h0 : Ieee.InRange MAX
      (area (sahSideBox bound MAX bucket (fun k => decide (k ≤ (b : Int))) l)))
    (h1 : Ieee.InRange MAX
      (area (sahSideBox bound MAX bucket (fun k => decide ((b : Int) < k)) l)))
    (h2 : Ieee.InRange MAX
      (area (sahSideBox bound MAX bucket (fun k => decide (k ≤ (b : Int))) l) *
        ((sahSideCount bucket (fun k => decide (k ≤ (b : Int))) l : Int) : T)))
    (h3 : Ieee.InRange MAX
      (area (sahSideBox bound MAX bucket (fun k => decide ((b : Int) < k)) l) *
        ((sahSideCount bucket (fun k => decide ((b : Int) < k)) l : Int) : T)))
    (h4 : Ieee.InRange MAX (sahCostSpec bound area MAX bucket l b)) :
    sahCost area MAX filled.1 filled.2 b = Ieee.fin (sahCostSpec bound area MAX bucket l b) := by
  rw [sahCost_filled bound area MAX bucket nBuckets l filled h b]
  rw [Ieee.overflow_of_inRange MAX _ h0.1 h0.2, Ieee.overflow_of_inRange MAX _ h1.1 h1.2]
  simp only [Ieee.mul, Ieee.ovf]
  rw [Ieee.overflow_of_inRange MAX _ h2.1 h2.2, Ieee.overflow_of_inRange MAX _ h3.1 h3.2]
  simp only [Ieee.add, Ieee.ovf]
  unfold sahCostSpec at h4 ⊢
  rw [Ieee.overflow_of_inRange MAX _ h4.1 h4.2]

/-- The area of the box `make_aabb()` for `N = 3` is beyond `MAX`, for every `MAX` that is at
least 1. -/
theorem area3_make_aabb [LinearOrderedRing T] (MAX : T) (h : 1 ≤ MAX) :
    MAX < area3 (make_aabb MAX) := by
  have e : area3 (make_aabb MAX) = MAX * MAX * 24 := by
    simp only [area3, diagonal, make_aabb, make_vector_apply]
    noncomm_ring
  rw [e]
  have h0 : 0 < MAX := lt_of_lt_of_le one_pos h
  have h1 : MAX ≤ MAX * MAX := by
    calc MAX = MAX * 1 := (mul_one _).symm
      _ ≤ MAX * MAX := mul_le_mul_of_nonneg_left h h0.le
  have h2 : 0 < MAX * MAX := mul_pos h0 h0
  calc MAX ≤ MAX * MAX := h1
    _ = MAX * MAX * 1 := (mul_one _).symm
    _ < MAX * MAX * 24 := mul_lt_mul_of_pos_left (by norm_num) h2

/-- The area of the box `make_aabb()` for `N = 2` is below `-MAX`, for every positive
`MAX`. -/
theorem area2_make_aabb [LinearOrderedRing T] (MAX : T) (h : 0 < MAX) :
    area2 (make_aabb MAX) < -MAX := by
  have e : area2 (make_aabb MAX) = -(MAX * 8) := by
    simp only [area2, diagonal, make_aabb, make_vector_apply]
    noncomm_ring
  rw [e, neg_lt_neg_iff]
  calc MAX = MAX * 1 := (mul_one _).symm
    _ < MAX * 8 := mul_lt_mul_of_pos_left (by norm_num) h

end SahCostTheorems

section SahTheorems

variable {P T : Type} {N : Nat}

/-- The filling loop of the SAH strategy returns on a range of valid boxes whose `cbox` has
an extent along `dim` that is not zero. -/
theorem sahFill_of_extent [LinearOrderedField T] [FloorRing T] [NeZero N]
    (bound : P → Aabb T N) (MAX : T) (nBuckets : Nat) (prims : List P) (b e : Nat)
    (hnB : 0 < nBuckets) (hvalid : ∀ p ∈ slice prims b e, is_valid (bound p) = true)
    (hd : diagonal (rangeBox bound MAX prims b e) (splitDim bound MAX prims b e) ≠ 0) :
    ∃ filled, sahFill bound (sahBucket bound (1 / 2) nBuckets (rangeBox bound MAX prims b e)
        (splitDim bound MAX prims b e)) (slice prims b e)
      (List.replicate nBuckets (make_aabb MAX), List.replicate nBuckets 0) = some filled := by
  obtain ⟨boxes, counts, h1, _⟩ := sahFill_returns bound
    (sahBucket bound (1 / 2) nBuckets (rangeBox bound MAX prims b e)
      (splitDim bound MAX prims b e)) nBuckets (slice prims b e)
    (List.replicate nBuckets (make_aabb MAX), List.replicate nBuckets 0)
    (fun p hp => by
      obtain ⟨hpos, h0, h1⟩ := sah_offset_range bound MAX prims b e
        (splitDim bound MAX prims b e) p hp (hvalid p hp) hd
      have hn0 : (0 : T) ≤ (nBuckets : T) := Nat.cast_nonneg _
      obtain ⟨_, e2, e3⟩ := toInt_bucket nBuckets hnB _ (mul_nonneg hn0 h0)
        (by calc (nBuckets : T) * _ ≤ (nBuckets : T) * 1 := mul_le_mul_of_nonneg_left h1 hn0
              _ = (nBuckets : T) := mul_one _)
      refine ⟨_, ?_, e2, by omega⟩
      simp only [sahBucket, if_neg hd])
    (by simp) (by simp)
  exact ⟨(boxes, counts), h1⟩

/-- C39 (amended): in the SAH strategy for a floating-point `T` (rounding apart), with
library algorithms that meet the standard, on a non-empty range `[b, e)` of valid boxes
whose `cbox` has an extent along `dim` that is not zero, the area of the box `make_aabb()`
being an infinity. The filling loop returns. The cost of a candidate `c` in
`[0, nBuckets - 2]` is a NaN when no primitive of the range has a bucket index at most `c`
or none has a greater one, and it is the exact `area(B0) * c0 + area(B1) * c1` when the two
areas, the two products and the sum are within the finite range of `T`, with `B0`, `c0` the
union box and the number of the primitives whose bucket index is at most `c` and `B1`, `c1`
those of the primitives whose bucket index is greater. The `splitBucketId` the cost scan
ends with is 0 when no candidate has a cost below `numeric_limits<T>::max()`; otherwise it
is a candidate with primitives on both sides whose cost is below that maximum, no candidate
has a lower cost, and no lower candidate has the same cost or less. The strategy returns and
only permutes the range; when the split is not degenerate (some primitive of the range has a
bucket index at most `splitBucketId` and some has a greater one) the position `m` it returns
has `b < m < e`, and a position of `[b, e)` is in `[b, m)` exactly when the bucket index of
its primitive is at most `splitBucketId`. -/
theorem sah_lowest_min_and_partition [LinearOrderedField T] [FloorRing T] [NeZero N]
    (std : StdAlgorithms P) (hstd : std.Permutes) (hpart : std.Partitions)
    (bound : P → Aabb T N) (area : Aabb T N → T) (MAX : T) (nBuckets : Nat)
    (prims : List P) (b e : Nat) (hbe : b < e) (he : e ≤ prims.length)
    (hnB : 0 < nBuckets) (hvalid : ∀ p ∈ slice prims b e, is_valid (bound p) = true)
    (hd : diagonal (rangeBox bound MAX prims b e) (splitDim bound MAX prims b e) ≠ 0)
    (hM : 0 ≤ MAX) (harea : MAX < area (make_aabb MAX) ∨ area (make_aabb MAX) < -MAX) :
    ∃ filled : List (Aabb T N) × List Int,
      sahFill bound (sahBucket bound (1 / 2) nBuckets (rangeBox bound MAX prims b e)
          (splitDim bound MAX prims b e)) (slice prims b e)
        (List.replicate nBuckets (make_aabb MAX), List.replicate nBuckets 0) = some filled ∧
      (∀ c : Nat, c < nBuckets - 1 →
        ((sahSideCount (sahBucket bound (1 / 2) nBuckets (rangeBox bound MAX prims b e)
              (splitDim bound MAX prims b e)) (fun k => decide (k ≤ (c : Int)))
              (slice prims b e) = 0 ∨
            sahSideCount (sahBucket bound (1 / 2) nBuckets (rangeBox bound MAX prims b e)
              (splitDim bound MAX prims b e)) (fun k => decide ((c : Int) < k))
              (slice prims b e) = 0) →
          sahCost area MAX filled.1 filled.2 c = Ieee.nan) ∧
        (Ieee.InRange MAX (area (sahSideBox bound MAX
              (sahBucket bound (1 / 2) nBuckets (rangeBox bound MAX prims b e)
                (splitDim bound MAX prims b e)) (fun k => decide (k ≤ (c : Int)))
              (slice prims b e))) →
          Ieee.InRange MAX (area (sahSideBox bound MAX
              (sahBucket bound (1 / 2) nBuckets (rangeBox bound MAX prims b e)
                (splitDim bound MAX prims b e)) (fun k => decide ((c : Int) < k))
              (slice prims b e))) →
          Ieee.InRange MAX (area (sahSideBox bound MAX
              (sahBucket bound (1 / 2) nBuckets (rangeBox bound MAX prims b e)
                (splitDim bound MAX prims b e)) (fun k => decide (k ≤ (c : Int)))
              (slice prims b e)) *
            ((sahSideCount (sahBucket bound (1 / 2) nBuckets (rangeBox bound MAX prims b e)
              (splitDim bound MAX prims b e)) (fun k => decide (k ≤ (c : Int)))
              (slice prims b e) : Int) : T)) →
          Ieee.InRange MAX (area (sahSideBox bound MAX
              (sahBucket bound (1 / 2) nBuckets (rangeBox bound MAX prims b e)
                (splitDim bound MAX prims b e)) (fun k => decide ((c : Int) < k))
              (slice prims b e)) *
            ((sahSideCount (sahBucket bound (1 / 2) nBuckets (rangeBox bound MAX prims b e)
              (splitDim bound MAX prims b e)) (fun k => decide ((c : Int) < k))
              (slice prims b e) : Int) : T)) →
          Ieee.InRange MAX (sahCostSpec bound area MAX
            (sahBucket bound (1 / 2) nBuckets (rangeBox bound MAX prims b e)
              (splitDim bound MAX prims b e)) (slice prims b e) c) →
          sahCost area MAX filled.1 filled.2 c =
            Ieee.fin (sahCostSpec bound area MAX
              (sahBucket bound (1 / 2) nBuckets (rangeBox bound MAX prims b e)
                (splitDim bound MAX prims b e)) (slice prims b e) c))) ∧
      ((∀ c : Nat, c < nBuckets - 1 →
          Ieee.lt (sahCost area MAX filled.1 filled.2 c) (Ieee.fin MAX) = false) →
        sahSplitBucket area MAX filled.1 filled.2 nBuckets = 0) ∧
      ((∃ c : Nat, c < nBuckets - 1 ∧
          Ieee.lt (sahCost area MAX filled.1 filled.2 c) (Ieee.fin MAX) = true) →
        sahSplitBucket area MAX filled.1 filled.2 nBuckets < nBuckets - 1 ∧
        0 < sahSideCount (sahBucket bound (1 / 2) nBuckets (rangeBox bound MAX prims b e)
            (splitDim bound MAX prims b e))
          (fun k => decide (k ≤ ((sahSplitBucket area MAX filled.1 filled.2 nBuckets : Nat) : Int)))
          (slice prims b e) ∧
        0 < sahSideCount (sahBucket bound (1 / 2) nBuckets (rangeBox bound MAX prims b e)
            (splitDim bound MAX prims b e))
          (fun k => decide (((sahSplitBucket area MAX filled.1 filled.2 nBuckets : Nat) : Int) < k))
          (slice prims b e) ∧
        Ieee.lt (sahCost area MAX filled.1 filled.2
          (sahSplitBucket area MAX filled.1 filled.2 nBuckets)) (Ieee.fin MAX) = true ∧
        (∀ c : Nat, c < nBuckets - 1 →
          Ieee.lt (sahCost area MAX filled.1 filled.2 c)
            (sahCost area MAX filled.1 filled.2
              (sahSplitBucket area MAX filled.1 filled.2 nBuckets)) = false) ∧
        (∀ c : Nat, c < sahSplitBucket area MAX filled.1 filled.2 nBuckets →
          Ieee.le (sahCost area MAX filled.1 filled.2 c)
            (sahCost area MAX filled.1 filled.2
              (sahSplitBucket area MAX filled.1 filled.2 nBuckets)) = false)) ∧
      ∃ prims2 m, SAHSplit std bound area MAX (1 / 2) nBuckets prims b e = some (prims2, m) ∧
        RangePerm prims prims2 b e ∧
        (((∃ p ∈ slice prims b e, ∃ k : Int,
              sahBucket bound (1 / 2) nBuckets (rangeBox bound MAX prims b e)
                (splitDim bound MAX prims b e) p = some k ∧
              k ≤ ((sahSplitBucket area MAX filled.1 filled.2 nBuckets : Nat) : Int)) ∧
            (∃ q ∈ slice prims b e, ∃ k : Int,
              sahBucket bound (1 / 2) nBuckets (rangeBox bound MAX prims b e)
                (splitDim bound MAX prims b e) q = some k ∧
              ((sahSplitBucket area MAX filled.1 filled.2 nBuckets : Nat) : Int) < k)) →
          b < m ∧ m < e ∧
          ∀ (i : Nat) (x : P), b ≤ i → i < e → prims2[i]? = some x →
            (i < m ↔ ∃ k : Int,
              sahBucket bound (1 / 2) nBuckets (rangeBox bound MAX prims b e)
                (splitDim bound MAX prims b e) x = some k ∧
              k ≤ ((sahSplitBucket area MAX filled.1 filled.2 nBuckets : Nat) : Int))) := by
  obtain ⟨filled, hfill⟩ := sahFill_of_extent bound MAX nBuckets prims b e hnB hvalid hd
  have hscan := sahSplitBucket_lowest_min area MAX filled.1 filled.2 nBuckets
  refine ⟨filled, hfill, ?_, hscan.1, ?_, ?_⟩
  · intro c _
    exact ⟨sahCost_empty_side bound area MAX hM harea _ nBuckets _ filled hfill c,
      sahCost_in_range bound area MAX _ nBuckets _ filled hfill c⟩
  · intro hex
    obtain ⟨g1, g2, g3, g4⟩ := hscan.2 hex
    have hnn : ∀ side, 0 ≤ sahSideCount (sahBucket bound (1 / 2) nBuckets
        (rangeBox bound MAX prims b e) (splitDim bound MAX prims b e)) side
        (slice prims b e) := by
      intro side
      unfold sahSideCount
      exact Int.natCast_nonneg _
    have hnot : ¬ (sahSideCount (sahBucket bound (1 / 2) nBuckets
          (rangeBox bound MAX prims b e) (splitDim bound MAX prims b e))
          (fun k => decide (k ≤ ((sahSplitBucket area MAX filled.1 filled.2 nBuckets : Nat) : Int)))
          (slice prims b e) = 0 ∨
        sahSideCount (sahBucket bound (1 / 2) nBuckets
          (rangeBox bound MAX prims b e) (splitDim bound MAX prims b e))
          (fun k => decide (((sahSplitBucket area MAX filled.1 filled.2 nBuckets : Nat) : Int) < k))
          (slice prims b e) = 0) := by
      intro hside
      rw [sahCost_empty_side bound area MAX hM harea _ nBuckets _ filled hfill _ hside,
        Ieee.lt_nan_left] at g2
      exact absurd g2 (by simp)
    refine ⟨g1, ?_, ?_, g2, g3, g4⟩
    · exact lt_of_le_of_ne (hnn _) (fun h => hnot (Or.inl h.symm))
    · exact lt_of_le_of_ne (hnn _) (fun h => hnot (Or.inr h.symm))
  · obtain ⟨pred, hpred, heq⟩ := SAHSplit_eq std bound area MAX (1 / 2) nBuckets prims b e
      hbe.le he filled hfill
    have hsl : (slice prims b e).length = e - b := length_slice prims b e he
    have hperm : (std.partition pred (slice prims b e)).1.Perm (slice prims b e) :=
      (hstd.2 pred (slice prims b e)).1
    have hkle : (std.partition pred (slice prims b e)).2 ≤ e - b := by
      have := (hstd.2 pred (slice prims b e)).2
      rw [hsl] at this
      exact this
    have hcon := hpart pred (slice prims b e)
    generalize (std.partition pred (slice prims b e)).1 = out at heq hperm hcon
    generalize (std.partition pred (slice prims b e)).2 = k at heq hkle hcon
    have holen : out.length = e - b := by rw [hperm.length_eq, hsl]
    by_cases hdeg : b + k = b ∨ b + k = e
    · rw [if_pos hdeg] at heq
      refine ⟨_, _, heq, ?_, ?_⟩
      · exact rangePerm_splice prims _ hbe.le he ((hstd.1 _ _ _).trans hperm)
      · rintro ⟨⟨p, hp, hpl⟩, ⟨q, hq, kq, hq1, hq2⟩⟩
        exfalso
        rcases hdeg with h | h
        · obtain ⟨i, hi, hpi⟩ := List.getElem_of_mem (hperm.mem_iff.mpr hp)
          have := (hcon i p (by rw [List.getElem?_eq_getElem hi, hpi])).mp ((hpred p).mpr hpl)
          omega
        · obtain ⟨j, hj, hqj⟩ := List.getElem_of_mem (hperm.mem_iff.mpr hq)
          have := (hcon j q (by rw [List.getElem?_eq_getElem hj, hqj])).mpr (by omega)
          obtain ⟨k2, hk2, hk3⟩ := (hpred q).mp this
          rw [hq1] at hk2
          simp only [Option.some.injEq] at hk2
          omega
    · rw [if_neg hdeg] at heq
      refine ⟨_, _, heq, ?_, ?_⟩
      · exact rangePerm_splice prims _ hbe.le he hperm
      · intro _
        have hs : slice (prims.take b ++ out ++ prims.drop e) b e = out :=
          slice_splice prims out hbe.le he holen
        refine ⟨by omega, by omega, ?_⟩
        intro i x hi1 hi2 hx
        have h3 : (slice (prims.take b ++ out ++ prims.drop e) b e)[i - b]? = some x := by
          rw [getElem?_slice, if_pos (by omega)]
          have : b + (i - b) = i := by omega
          rw [this]
          exact hx
        rw [hs] at h3
        rw [← hpred x, hcon (i - b) x h3]
        omega

end SahTheorems

section SahCostInstances

set_option maxRecDepth 100000

/-- The extent of `cbox` along `dim` for four unit cubes in a row is not zero. -/
theorem cubeRow_extent :
    diagonal (rangeBox cubeBound 1000 [0, 1, 10, 11] 0 4)
      (splitDim cubeBound 1000 [0, 1, 10, 11] 0 4) ≠ 0 := by
  decide!

/-- The theorem `sah_lowest_min_and_partition` at four unit cubes in a row. -/
theorem sah_lowest_min_and_partition_witness :
    (refStd : StdAlgorithms Int).Permutes ∧ (refStd : StdAlgorithms Int).Partitions ∧
    0 < 4 ∧ 4 ≤ ([0, 1, 10, 11] : List Int).length ∧ 0 < 16 ∧
    (∀ p ∈ slice ([0, 1, 10, 11] : List Int) 0 4, is_valid (cubeBound p) = true) ∧
    diagonal (rangeBox cubeBound 1000 [0, 1, 10, 11] 0 4)
      (splitDim cubeBound 1000 [0, 1, 10, 11] 0 4) ≠ 0 ∧
    (0 : ℚ) ≤ 1000 ∧
    ((1000 : ℚ) < area3 (make_aabb 1000) ∨ area3 (make_aabb (1000 : ℚ)) < -1000) ∧
    ∃ filled : List (Aabb ℚ 3) × List Int,
      sahFill cubeBound (sahBucket cubeBound (1 / 2) 16
          (rangeBox cubeBound 1000 [0, 1, 10, 11] 0 4)
          (splitDim cubeBound 1000 [0, 1, 10, 11] 0 4)) (slice [0, 1, 10, 11] 0 4)
        (List.replicate 16 (make_aabb 1000), List.replicate 16 0) = some filled ∧
      (∀ c : Nat, c < 16 - 1 →
        ((sahSideCount (sahBucket cubeBound (1 / 2) 16
              (rangeBox cubeBound 1000 [0, 1, 10, 11] 0 4)
              (splitDim cubeBound 1000 [0, 1, 10, 11] 0 4)) (fun k => decide (k ≤ (c : Int)))
              (slice [0, 1, 10, 11] 0 4) = 0 ∨
            sahSideCount (sahBucket cubeBound (1 / 2) 16
              (rangeBox cubeBound 1000 [0, 1, 10, 11] 0 4)
              (splitDim cubeBound 1000 [0, 1, 10, 11] 0 4)) (fun k => decide ((c : Int) < k))
              (slice [0, 1, 10, 11] 0 4) = 0) →
          sahCost area3 1000 filled.1 filled.2 c = Ieee.nan) ∧
        (Ieee.InRange 1000 (area3 (sahSideBox cubeBound 1000
              (sahBucket cubeBound (1 / 2) 16 (rangeBox cubeBound 1000 [0, 1, 10, 11] 0 4)
                (splitDim cubeBound 1000 [0, 1, 10, 11] 0 4)) (fun k => decide (k ≤ (c : Int)))
              (slice [0, 1, 10, 11] 0 4))) →
          Ieee.InRange 1000 (area3 (sahSideBox cubeBound 1000
              (sahBucket cubeBound (1 / 2) 16 (rangeBox cubeBound 1000 [0, 1, 10, 11] 0 4)
                (splitDim cubeBound 1000 [0, 1, 10, 11] 0 4)) (fun k => decide ((c : Int) < k))
              (slice [0, 1, 10, 11] 0 4))) →
          Ieee.InRange 1000 (area3 (sahSideBox cubeBound 1000
              (sahBucket cubeBound (1 / 2) 16 (rangeBox cubeBound 1000 [0, 1, 10, 11] 0 4)
                (splitDim cubeBound 1000 [0, 1, 10, 11] 0 4)) (fun k => decide (k ≤ (c : Int)))
              (slice [0, 1, 10, 11] 0 4)) *
            ((sahSideCount (sahBucket cubeBound (1 / 2) 16
              (rangeBox cubeBound 1000 [0, 1, 10, 11] 0 4)
              (splitDim cubeBound 1000 [0, 1, 10, 11] 0 4)) (fun k => decide (k ≤ (c : Int)))
              (slice [0, 1, 10, 11] 0 4) : Int) : ℚ)) →
          Ieee.InRange 1000 (area3 (sahSideBox cubeBound 1000
              (sahBucket cubeBound (1 / 2) 16 (rangeBox cubeBound 1000 [0, 1, 10, 11] 0 4)
                (splitDim cubeBound 1000 [0, 1, 10, 11] 0 4)) (fun k => decide ((c : Int) < k))
              (slice [0, 1, 10, 11] 0 4)) *
            ((sahSideCount (sahBucket cubeBound (1 / 2) 16
              (rangeBox cubeBound 1000 [0, 1, 10, 11] 0 4)
              (splitDim cubeBound 1000 [0, 1, 10, 11] 0 4)) (fun k => decide ((c : Int) < k))
              (slice [0, 1, 10, 11] 0 4) : Int) : ℚ)) →
          Ieee.InRange 1000 (sahCostSpec cubeBound area3 1000
            (sahBucket cubeBound (1 / 2) 16 (rangeBox cubeBound 1000 [0, 1, 10, 11] 0 4)
              (splitDim cubeBound 1000 [0, 1, 10, 11] 0 4)) (slice [0, 1, 10, 11] 0 4) c) →
          sahCost area3 1000 filled.1 filled.2 c =
            Ieee.fin (sahCostSpec cubeBound area3 1000
              (sahBucket cubeBound (1 / 2) 16 (rangeBox cubeBound 1000 [0, 1, 10, 11] 0 4)
                (splitDim cubeBound 1000 [0, 1, 10, 11] 0 4)) (slice [0, 1, 10, 11] 0 4) c))) ∧
      ((∀ c : Nat, c < 16 - 1 →
          Ieee.lt (sahCost area3 1000 filled.1 filled.2 c) (Ieee.fin 1000) = false) →
        sahSplitBucket area3 1000 filled.1 filled.2 16 = 0) ∧
      ((∃ c : Nat, c < 16 - 1 ∧
          Ieee.lt (sahCost area3 1000 filled.1 filled.2 c) (Ieee.fin 1000) = true) →
        sahSplitBucket area3 1000 filled.1 filled.2 16 < 16 - 1 ∧
        0 < sahSideCount (sahBucket cubeBound (1 / 2) 16
            (rangeBox cubeBound 1000 [0, 1, 10, 11] 0 4)
            (splitDim cubeBound 1000 [0, 1, 10, 11] 0 4))
          (fun k => decide (k ≤ ((sahSplitBucket area3 1000 filled.1 filled.2 16 : Nat) : Int)))
          (slice [0, 1, 10, 11] 0 4) ∧
        0 < sahSideCount (sahBucket cubeBound (1 / 2) 16
            (rangeBox cubeBound 1000 [0, 1, 10, 11] 0 4)
            (splitDim cubeBound 1000 [0, 1, 10, 11] 0 4))
          (fun k => decide (((sahSplitBucket area3 1000 filled.1 filled.2 16 : Nat) : Int) < k))
          (slice [0, 1, 10, 11] 0 4) ∧
        Ieee.lt (sahCost area3 1000 filled.1 filled.2
          (sahSplitBucket area3 1000 filled.1 filled.2 16)) (Ieee.fin 1000) = true ∧
        (∀ c : Nat, c < 16 - 1 →
          Ieee.lt (sahCost area3 1000 filled.1 filled.2 c)
            (sahCost area3 1000 filled.1 filled.2
              (sahSplitBucket area3 1000 filled.1 filled.2 16)) = false) ∧
        (∀ c : Nat, c < sahSplitBucket area3 1000 filled.1 filled.2 16 →
          Ieee.le (sahCost area3 1000 filled.1 filled.2 c)
            (sahCost area3 1000 filled.1 filled.2
              (sahSplitBucket area3 1000 filled.1 filled.2 16)) = false)) ∧
      ∃ prims2 m, SAHSplit refStd cubeBound area3 1000 (1 / 2) 16 [0, 1, 10, 11] 0 4
          = some (prims2, m) ∧
        RangePerm [0, 1, 10, 11] prims2 0 4 ∧
        (((∃ p ∈ slice ([0, 1, 10, 11] : List Int) 0 4, ∃ k : Int,
              sahBucket cubeBound (1 / 2) 16 (rangeBox cubeBound 1000 [0, 1, 10, 11] 0 4)
                (splitDim cubeBound 1000 [0, 1, 10, 11] 0 4) p = some k ∧
              k ≤ ((sahSplitBucket area3 1000 filled.1 filled.2 16 : Nat) : Int)) ∧
            (∃ q ∈ slice ([0, 1, 10, 11] : List Int) 0 4, ∃ k : Int,
              sahBucket cubeBound (1 / 2) 16 (rangeBox cubeBound 1000 [0, 1, 10, 11] 0 4)
                (splitDim cubeBound 1000 [0, 1, 10, 11] 0 4) q = some k ∧
              ((sahSplitBucket area3 1000 filled.1 filled.2 16 : Nat) : Int) < k)) →
          0 < m ∧ m < 4 ∧
          ∀ (i : Nat) (x : Int), 0 ≤ i → i < 4 → prims2[i]? = some x →
            (i < m ↔ ∃ k : Int,
              sahBucket cubeBound (1 / 2) 16 (rangeBox cubeBound 1000 [0, 1, 10, 11] 0 4)
                (splitDim cubeBound 1000 [0, 1, 10, 11] 0 4) x = some k ∧
              k ≤ ((sahSplitBucket area3 1000 filled.1 filled.2 16 : Nat) : Int))) :=
  ⟨refStd_permutes, refStd_partitions, by decide, by decide, by decide,
    fun p _ => cubeBound_valid p, cubeRow_extent, by norm_num,
    Or.inl (area3_make_aabb 1000 (by norm_num)),
    sah_lowest_min_and_partition refStd refStd_permutes refStd_partitions cubeBound area3
      1000 16 [0, 1, 10, 11] 0 4 (by decide) (by decide) (by decide)
      (fun p _ => cubeBound_valid p) cubeRow_extent (by norm_num)
      (Or.inl (area3_make_aabb 1000 (by norm_num)))⟩

/-- The cost scan at four unit cubes in a row, at `x = 0, 1, 10, 11` (buckets 0, 2, 14 and
15): every candidate has primitives on both sides; the candidates cost 144, 144, 40 (twelve
times) and 144, all below `MAX = 1000`; the scan ends with `splitBucketId = 2`, the lowest of
the cheapest, and the strategy returns position 2 with the cubes at 0 and 1 before it. -/
theorem sah_cost_scan_example :
    (sahFill cubeBound (sahBucket cubeBound (1 / 2) 16
        (rangeBox cubeBound 1000 [0, 1, 10, 11] 0 4) 0) [0, 1, 10, 11]
      (List.replicate 16 (make_aabb 1000), List.replicate 16 0)).map
        (fun f => ((List.range 15).map (sahCost area3 1000 f.1 f.2),
          sahSplitBucket area3 1000 f.1 f.2 16)) =
      some ([Ieee.fin 144, Ieee.fin 144, Ieee.fin 40, Ieee.fin 40, Ieee.fin 40, Ieee.fin 40,
        Ieee.fin 40, Ieee.fin 40, Ieee.fin 40, Ieee.fin 40, Ieee.fin 40, Ieee.fin 40,
        Ieee.fin 40, Ieee.fin 40, Ieee.fin 144], 2) ∧
    (List.range 15).map (sahCostSpec cubeBound area3 1000 (sahBucket cubeBound (1 / 2) 16
        (rangeBox cubeBound 1000 [0, 1, 10, 11] 0 4) 0) [0, 1, 10, 11]) =
      [144, 144, 40, 40, 40, 40, 40, 40, 40, 40, 40, 40, 40, 40, 144] ∧
    SAHSplit refStd cubeBound area3 1000 (1 / 2) 16 [10, 0, 11, 1] 0 4 =
      some ([0, 1, 10, 11], 2) := by
  decide!

/-- The cost scan at two unit cubes, at `x = 0` and `x = 7` (buckets 1 and 15): the
candidate 0 has no primitive on its left side and its cost is a NaN, the candidates 1 to 14
cost 12, and the scan ends with `splitBucketId = 1`. -/
theorem sah_cost_nan_example :
    ([0, 7] : List Int).map (sahBucket cubeBound (1 / 2) 16
      (rangeBox cubeBound 1000 [0, 7] 0 2) 0) = [some 1, some 15] ∧
    (sahFill cubeBound (sahBucket cubeBound (1 / 2) 16
        (rangeBox cubeBound 1000 [0, 7] 0 2) 0) [0, 7]
      (List.replicate 16 (make_aabb 1000), List.replicate 16 0)).map
        (fun f => ((List.range 15).map (sahCost area3 1000 f.1 f.2),
          sahSplitBucket area3 1000 f.1 f.2 16)) =
      some ([Ieee.nan, Ieee.fin 12, Ieee.fin 12, Ieee.fin 12, Ieee.fin 12, Ieee.fin 12,
        Ieee.fin 12, Ieee.fin 12, Ieee.fin 12, Ieee.fin 12, Ieee.fin 12, Ieee.fin 12,
        Ieee.fin 12, Ieee.fin 12, Ieee.fin 12], 1) := by
  decide!

/-- C39 as stated fails. Four segments on the first axis, `[0, 4]` and three times `[8, 12]`,
have the bucket indices 2, 13, 13, 13, and every box has the area 0. In exact arithmetic
every candidate costs `area(B0) * c0 + area(B1) * c1 = 0`, so the lowest candidate of least
cost is 0. The cost scan ends with `splitBucketId = 2`: the candidates 0, 1, 13 and 14 have a
side without primitives, their cost is `inf * 0`, a NaN, and `minCost > cost` is false of
it. The strategy returns position 1, the partition by `bucket <= 2`. -/
theorem sah_scan_skips_empty_sides :
    ([0, 8, 8, 8] : List Int).map (sahBucket segmentBound (1 / 2) 16
      (rangeBox segmentBound 1000 [0, 8, 8, 8] 0 4) 0) =
      [some 2, some 13, some 13, some 13] ∧
    (List.range 15).map (sahCostSpec segmentBound area3 1000 (sahBucket segmentBound (1 / 2) 16
        (rangeBox segmentBound 1000 [0, 8, 8, 8] 0 4) 0) [0, 8, 8, 8]) =
      [0, 0, 0, 0, 0, 0, 0, 0, 0, 0, 0, 0, 0, 0, 0] ∧
    (sahFill segmentBound (sahBucket segmentBound (1 / 2) 16
        (rangeBox segmentBound 1000 [0, 8, 8, 8] 0 4) 0) [0, 8, 8, 8]
      (List.replicate 16 (make_aabb 1000), List.replicate 16 0)).map
        (fun f => ((List.range 15).map (sahCost area3 1000 f.1 f.2),
          sahSplitBucket area3 1000 f.1 f.2 16)) =
      some ([Ieee.nan, Ieee.nan, Ieee.fin 0, Ieee.fin 0, Ieee.fin 0, Ieee.fin 0, Ieee.fin 0,
        Ieee.fin 0, Ieee.fin 0, Ieee.fin 0, Ieee.fin 0, Ieee.fin 0, Ieee.fin 0, Ieee.nan,
        Ieee.nan], 2) ∧
    SAHSplit refStd segmentBound area3 1000 (1 / 2) 16 [0, 8, 8, 8] 0 4 =
      some ([0, 8, 8, 8], 1) := by
  decide!

end SahCostInstances

section SahBuild

variable {P T : Type} {N : Nat}

/-- The extent of `cbox` along `dim` is not zero on a range of two or more primitives with
valid boxes no two of which share a box that is a single point. -/
theorem sah_extent_ne_zero [LinearOrderedRing T] [NeZero N] (bound : P → Aabb T N) (MAX : T)
    (prims : List P) (b e : Nat) (hbe : b + 2 ≤ e) (he : e ≤ prims.length)
    (hvalid : ∀ p ∈ slice prims b e, is_valid (bound p) = true)
    (hpw : (slice prims b e).Pairwise
      (fun p q => bound p ≠ bound q ∨ (bound p).p0 ≠ (bound p).p1)) :
    diagonal (rangeBox bound MAX prims b e) (splitDim bound MAX prims b e) ≠ 0 := by
  intro h0
  have hall : ∀ i, diagonal (rangeBox bound MAX prims b e) i ≤ 0 := by
    intro i
    have := (argmax_spec (diagonal (rangeBox bound MAX prims b e))).1 i
    unfold splitDim longest_axis at h0
    rw [h0] at this
    exact this
  have hpt : ∀ p ∈ slice prims b e, ∀ i,
      (bound p).p0 i = (rangeBox bound MAX prims b e).p0 i ∧
      (bound p).p1 i = (rangeBox bound MAX prims b e).p0 i := by
    intro p hp i
    have henc := rangeBox_encloses bound MAX prims b e p hp i
    have hv : (bound p).p0 i ≤ (bound p).p1 i := (vle_iff _ _).mp (hvalid p hp) i
    have hd := hall i
    simp only [diagonal, sub_nonpos] at hd
    exact ⟨le_antisymm (le_trans hv (le_trans henc.2 hd)) henc.1,
      le_antisymm (le_trans henc.2 hd) (le_trans henc.1 hv)⟩
  have hlen : (slice prims b e).length = e - b := length_slice prims b e he
  cases hs : slice prims b e with
  | nil => rw [hs] at hlen; simp at hlen; omega
  | cons x l =>
    cases hl : l with
    | nil => rw [hs, hl] at hlen; simp at hlen; omega
    | cons y l2 =>
      rw [hs, hl] at hpw hpt
      have hx := hpt x (List.mem_cons_self _ _)
      have hy := hpt y (List.mem_cons_of_mem _ (List.mem_cons_self _ _))
      have hR := (List.pairwise_cons.mp hpw).1 y (List.mem_cons_self _ _)
      rcases hR with hR | hR
      · apply hR
        ext i
        · rw [(hx i).1, (hy i).1]
        · rw [(hx i).2, (hy i).2]
      · apply hR
        funext i
        rw [(hx i).1, (hx i).2]

/-- The SAH strategy meets the contract of a split callback on every range of two or more
primitives with valid boxes no two of which share a box that is a single point. -/
theorem SAHSplit_contract_on [LinearOrderedField T] [FloorRing T] [NeZero N]
    (std : StdAlgorithms P) (hstd : std.Permutes) (bound : P → Aabb T N)
    (area : Aabb T N → T) (MAX : T) (nBuckets : Nat) (hnB : 0 < nBuckets)
    (prims : List P) (b e : Nat) (hbe : b + 2 ≤ e) (he : e ≤ prims.length)
    (hvalid : ∀ p ∈ slice prims b e, is_valid (bound p) = true)
    (hpw : (slice prims b e).Pairwise
      (fun p q => bound p ≠ bound q ∨ (bound p).p0 ≠ (bound p).p1)) :
    ∃ prims2 m, SAHSplit std bound area MAX (1 / 2) nBuckets prims b e = some (prims2, m) ∧
      RangePerm prims prims2 b e ∧ b ≤ m ∧ m ≤ e := by
  have hd := sah_extent_ne_zero bound MAX prims b e hbe he hvalid hpw
  obtain ⟨filled, hfill⟩ := sahFill_of_extent bound MAX nBuckets prims b e hnB hvalid hd
  obtain ⟨pred, _, heq⟩ := SAHSplit_eq std bound area MAX (1 / 2) nBuckets prims b e
    (by omega) he filled hfill
  have hex : ∃ r, SAHSplit std bound area MAX (1 / 2) nBuckets prims b e = some r := by
    rw [heq]
    split_ifs
    · exact ⟨_, rfl⟩
    · exact ⟨_, rfl⟩
  obtain ⟨⟨prims2, m⟩, hr⟩ := hex
  exact ⟨prims2, m, hr,
    SAHSplit_frame std hstd bound area MAX (1 / 2) nBuckets prims b e prims2 m (by omega) he hr⟩

/-- The build with the SAH strategy and a threshold of at least 1 returns, given fuel for
every primitive, on every sequence of primitives with valid boxes no two of which share a
box that is a single point; the primitive array of the tree is a permutation of the
sequence. -/
theorem sah_build_returns [LinearOrderedField T] [FloorRing T] [NeZero N]
    (std : StdAlgorithms P) (hstd : std.Permutes) (bound : P → Aabb T N)
    (area : Aabb T N → T) (MAX : T) (nBuckets : Nat) (hnB : 0 < nBuckets)
    (threshold : Int) (hth : 1 ≤ threshold) (fuel : Nat) (prims : List P)
    (hf : prims.length ≤ fuel)
    (hvalid : ∀ p ∈ prims, is_valid (bound p) = true)
    (hpw : prims.Pairwise (fun p q => bound p ≠ bound q ∨ (bound p).p0 ≠ (bound p).p1)) :
    ∃ s rest, build bound (SAHSplit std bound area MAX (1 / 2) nBuckets) threshold MAX fuel
        Bvh.empty prims = some (s, rest) ∧
      s.mPrimitives.Perm prims ∧ s.mPrimitives.length = prims.length := by
  cases hp : prims with
  | nil => exact ⟨Bvh.empty, [], rfl, List.Perm.refl _, rfl⟩
  | cons p ps =>
    rw [← hp]
    have hne : prims ≠ [] := by rw [hp]; exact List.cons_ne_nil _ _
    have hpos : 0 < prims.length := List.length_pos.mpr hne
    have hsymm : ∀ {x y : P}, (bound x ≠ bound y ∨ (bound x).p0 ≠ (bound x).p1) →
        (bound y ≠ bound x ∨ (bound y).p0 ≠ (bound y).p1) := by
      intro x y h
      by_cases hxy : bound y = bound x
      · rcases h with h | h
        · exact absurd hxy.symm h
        · right; rw [hxy]; exact h
      · exact Or.inl hxy
    obtain ⟨s, h1, h2, _, _⟩ := recursive_build_spec_on bound
      (SAHSplit std bound area MAX (1 / 2) nBuckets) threshold MAX
      (fun l => (∀ p ∈ l, is_valid (bound p) = true) ∧
        l.Pairwise (fun p q => bound p ≠ bound q ∨ (bound p).p0 ≠ (bound p).p1))
      (fun l l2 hperm hG => ⟨fun p hp => hG.1 p (hperm.subset hp),
        (hperm.pairwise_iff hsymm).mpr hG.2⟩)
      (fun l1 l2 hG => ⟨⟨fun p hp => hG.1 p (List.mem_append_left _ hp),
          (List.pairwise_append.mp hG.2).1⟩,
        ⟨fun p hp => hG.1 p (List.mem_append_right _ hp),
          (List.pairwise_append.mp hG.2).2.1⟩⟩)
      (fun l b e hbe he hn hG =>
        SAHSplit_contract_on std hstd bound area MAX nBuckets hnB l b e (by omega) he
          hG.1 hG.2)
      fuel { mPrimitives := prims, mNodes := [BvhNode.fresh] } 0 prims.length 0 0 hpos
      (le_refl _) rfl (by omega)
      (by simp only [slice_zero_length]; exact ⟨hvalid, hpw⟩)
    refine ⟨s, [], ?_, h2.perm, h2.1⟩
    unfold build
    have : prims.isEmpty = false := by
      cases prims with
      | nil => exact absurd rfl hne
      | cons a l => rfl
    simp only [this, Bvh.empty, List.nil_append]
    rw [if_neg (by simp), h1]
    rfl

/-- The build with the SAH strategy has no value, whatever the fuel, on more than
`threshold` primitives that all have the same single-point box. -/
theorem sah_build_same_point [LinearOrderedRing T] [NeZero N] [Div T] [FloorRing T]
    (std : StdAlgorithms P) (bound : P → Aabb T N) (area : Aabb T N → T) (MAX half : T)
    (nBuckets : Nat) (threshold : Int) (fuel : Nat) (prims : List P) (v : VectorN T N)
    (hne : prims ≠ []) (hth : threshold < (prims.length : Int))
    (hsame : ∀ p ∈ prims, bound p = make_aabb_point v)
    (hv : ∀ i, -MAX ≤ v i ∧ v i ≤ MAX) :
    build bound (SAHSplit std bound area MAX half nBuckets) threshold MAX fuel
      Bvh.empty prims = none := by
  have hsp := SAHSplit_same_point std bound area MAX half nBuckets prims v hne hsame hv
  unfold build
  have : prims.isEmpty = false := by
    cases prims with
    | nil => exact absurd rfl hne
    | cons a l => rfl
  simp only [this, Bvh.empty, List.nil_append]
  rw [if_neg (by simp)]
  cases fuel with
  | zero => rw [recursive_build]; rfl
  | succ fuel =>
    rw [recursive_build]
    have hn : ((prims.length : Nat) : Int) - ((0 : Nat) : Int) > threshold := by
      simp only [Nat.cast_zero, sub_zero, gt_iff_lt]
      exact hth
    simp only [if_pos hn, hsp]
    rfl

end SahBuild

section SplitPermute

/-- C8 (the code at the failing input, with what holds otherwise): with library algorithms
that permute their range. For each built-in split strategy (Equal-Counts, Middle-Point,
SAH), each call that returns has only permuted the primitives at positions `[begin, end)`,
every primitive outside staying in place. With Equal-Counts and Middle-Point the build
returns for every input sequence, given fuel for every primitive, and the primitive array of
the tree is a permutation of the input sequence, of the same length. With SAH, a threshold
of at least 1 and at least one bucket, the same holds for every input sequence of valid boxes
no two of which share a box that is a single point; on more than `threshold` primitives that
all have the same single-point box the build has no value, whatever the fuel: the strategy
divides by the zero extent of `cbox`. -/
theorem builtin_splits_permute :
    (∀ (P T : Type) [LinearOrderedRing T] [Div T] [FloorRing T] (N : Nat) [NeZero N]
      (std : StdAlgorithms P), std.Permutes →
      ∀ (bound : P → Aabb T N) (area : Aabb T N → T) (MAX half : T) (nBuckets : Nat)
        (threshold : Int) (fuel : Nat) (prims : List P),
      (∀ split ∈ [EqualCountsSplit std bound MAX half, MiddlePointSplit std bound MAX half,
          SAHSplit std bound area MAX half nBuckets],
        ∀ l b e l2 m, b ≤ e → e ≤ l.length → split l b e = some (l2, m) →
          RangePerm l l2 b e) ∧
      (prims.length ≤ fuel →
        ∀ split ∈ [EqualCountsSplit std bound MAX half, MiddlePointSplit std bound MAX half],
          ∃ s rest, build bound split threshold MAX fuel Bvh.empty prims = some (s, rest) ∧
            s.mPrimitives.Perm prims ∧ s.mPrimitives.length = prims.length) ∧
      (∀ v : VectorN T N, prims ≠ [] → threshold < (prims.length : Int) →
        (∀ p ∈ prims, bound p = make_aabb_point v) → (∀ i, -MAX ≤ v i ∧ v i ≤ MAX) →
        build bound (SAHSplit std bound area MAX half nBuckets) threshold MAX fuel
          Bvh.empty prims = none)) ∧
    (∀ (P T : Type) [LinearOrderedField T] [FloorRing T] (N : Nat) [NeZero N]
      (std : StdAlgorithms P), std.Permutes →
      ∀ (bound : P → Aabb T N) (area : Aabb T N → T) (MAX : T) (nBuckets : Nat)
        (threshold : Int) (fuel : Nat) (prims : List P),
      prims.length ≤ fuel → 1 ≤ threshold → 0 < nBuckets →
      (∀ p ∈ prims, is_valid (bound p) = true) →
      prims.Pairwise (fun p q => bound p ≠ bound q ∨ (bound p).p0 ≠ (bound p).p1) →
      ∃ s rest, build bound (SAHSplit std bound area MAX (1 / 2) nBuckets) threshold MAX fuel
          Bvh.empty prims = some (s, rest) ∧
        s.mPrimitives.Perm prims ∧ s.mPrimitives.length = prims.length) := by
  constructor
  · intro P T _ _ _ N _ std hstd bound area MAX half nBuckets threshold fuel prims
    refine ⟨?_, ?_, ?_⟩
    · intro split hsplit l b e l2 m hbe he h
      simp only [List.mem_cons, List.mem_singleton, List.not_mem_nil, or_false] at hsplit
      rcases hsplit with rfl | rfl | rfl
      · exact (EqualCountsSplit_frame std hstd bound MAX half l b e l2 m hbe he h).1
      · exact (MiddlePointSplit_frame std hstd bound MAX half l b e l2 m hbe he h).1
      · exact (SAHSplit_frame std hstd bound area MAX half nBuckets l b e l2 m hbe he h).1
    · intro hf split hsplit
      have hc : SplitContract split := by
        simp only [List.mem_cons, List.mem_singleton, List.not_mem_nil, or_false] at hsplit
        rcases hsplit with rfl | rfl
        · exact EqualCountsSplit_contract std hstd bound MAX half
        · exact MiddlePointSplit_contract std hstd bound MAX half
      cases hp : prims with
      | nil => exact ⟨Bvh.empty, [], rfl, List.Perm.refl _, rfl⟩
      | cons p ps =>
        obtain ⟨s, h1, h2, _⟩ := build_fresh_spec bound split threshold MAX hc fuel (p :: ps)
          (List.cons_ne_nil _ _) (by rw [← hp]; exact hf)
        exact ⟨s, [], h1, h2.perm, h2.1⟩
    · intro v hne hth hsame hv
      exact sah_build_same_point std bound area MAX half nBuckets threshold fuel prims v hne
        hth hsame hv
  · intro P T _ _ N _ std hstd bound area MAX nBuckets threshold fuel prims hf hth hnB hvalid
      hpw
    exact sah_build_returns std hstd bound area MAX nBuckets hnB threshold hth fuel prims hf
      hvalid hpw

end SplitPermute

section SplitPermuteInstances

set_option maxRecDepth 100000

/-- The builds with the three strategies at four unit cubes in a row, given as
`[10, 0, 11, 1]`: each returns and its primitive array is a permutation of the input. -/
theorem builtin_splits_build_example :
    (build cubeBound (EqualCountsSplit refStd cubeBound (1000 : ℚ) (1 / 2)) 1 1000 4
        Bvh.empty [10, 0, 11, 1]).map (fun r => (r.1.mPrimitives, r.1.mNodes.length))
      = some ([0, 1, 10, 11], 7) ∧
    (build cubeBound (MiddlePointSplit refStd cubeBound (1000 : ℚ) (1 / 2)) 1 1000 4
        Bvh.empty [10, 0, 11, 1]).map (fun r => (r.1.mPrimitives, r.1.mNodes.length))
      = some ([0, 1, 10, 11], 7) ∧
    (build cubeBound (SAHSplit refStd cubeBound area3 (1000 : ℚ) (1 / 2) 16) 1 1000 4
        Bvh.empty [10, 0, 11, 1]).map (fun r => (r.1.mPrimitives, r.1.mNodes.length))
      = some ([0, 1, 10, 11], 7) := by
  decide!

/-- The failing input of C8: the build with the SAH strategy and the threshold 1 on two
points at the same place has no value, and no more on the three points `[5, 5, 7]`, whose
first split leaves the range `[5, 5]`; with Equal-Counts the build of `[5, 5, 7]` returns a
permutation. -/
theorem sah_build_same_point_example :
    (build axisBound (SAHSplit refStd axisBound area3 (1000 : ℚ) (1 / 2) 16) 1 1000 2
        Bvh.empty [5, 5]).isSome = false ∧
    (build axisBound (SAHSplit refStd axisBound area3 (1000 : ℚ) (1 / 2) 16) 1 1000 3
        Bvh.empty [5, 5, 7]).isSome = false ∧
    (build axisBound (EqualCountsSplit refStd axisBound (1000 : ℚ) (1 / 2)) 1 1000 3
        Bvh.empty [5, 5, 7]).map (fun r => (r.1.mPrimitives, r.1.mNodes.length))
      = some ([5, 5, 7], 5) := by
  decide!

end SplitPermuteInstances

section PopFacts

variable {P T S : Type} [LinearOrderedRing T] {N : Nat}

omit [LinearOrderedRing T] in
/-- The record of the popped indices does not change what the loop of `search` computes. -/
theorem searchLoopPops_erase (query : RangeQuery P T N S) (self : Bvh P T N) :
    ∀ (fuel : Nat) (stack : List Int) (hit : Bool) (s : S),
      (searchLoopPops query self fuel stack hit s).map (fun t => t.2) =
        searchLoop query self fuel stack hit s := by
  intro fuel
  induction fuel with
  | zero =>
    intro stack hit s
    cases stack with
    | nil => simp [searchLoopPops, searchLoop]
    | cons c rest => simp [searchLoopPops, searchLoop]
  | succ fuel ih =>
    intro stack hit s
    cases stack with
    | nil => simp [searchLoopPops, searchLoop]
    | cons c rest =>
      rw [searchLoopPops, searchLoop]
      cases nodeAt self.mNodes c with
      | none => rfl
      | some node =>
        simp only
        split_ifs
        · cases leafPrims self.mPrimitives node.i0 (node.i0 + length node) with
          | none => rfl
          | some ps =>
            simp only [Option.map_map]
            exact ih _ _ _
        · simp only [Option.map_map]
          exact ih _ _ _
        · simp only [Option.map_map]
          exact ih _ _ _

omit [LinearOrderedRing T] in
/-- The record of the popped indices does not change what `search` computes. -/
theorem searchPops_erase (query : RangeQuery P T N S) (fuel : Nat) (self : Bvh P T N)
    (s : S) :
    (searchPops query fuel self s).map (fun t => t.2) = search query fuel self s := by
  unfold searchPops search
  split_ifs
  · rfl
  · exact searchLoopPops_erase query self fuel [0] false s

/-- The record of the popped indices does not change what the loop of `intersect`
computes. -/
theorem intersectLoopPops_erase [NeZero N]
    (collide : P → VectorN T N → VectorN T N → T → S → Bool × T × S)
    (self : Bvh P T N) (org dir inv : VectorN T N) (neg : Fin N → Bool) :
    ∀ (fuel : Nat) (stack : List Int) (hit : Bool) (d : T) (s : S),
      (intersectLoopPops collide self org dir inv neg fuel stack hit d s).map (fun t => t.2) =
        intersectLoop collide self org dir inv neg fuel stack hit d s := by
  intro fuel
  induction fuel with
  | zero =>
    intro stack hit d s
    cases stack with
    | nil => simp [intersectLoopPops, intersectLoop]
    | cons c rest => simp [intersectLoopPops, intersectLoop]
  | succ fuel ih =>
    intro stack hit d s
    cases stack with
    | nil => simp [intersectLoopPops, intersectLoop]
    | cons c rest =>
      rw [intersectLoopPops, intersectLoop]
      cases nodeAt self.mNodes c with
      | none => rfl
      | some node =>
        simp only
        split_ifs
        · cases leafPrims self.mPrimitives node.i0 (node.i0 + length node) with
          | none => rfl
          | some ps =>
            simp only [Option.map_map]
            exact ih _ _ _ _
        · simp only [Option.map_map]
          exact ih _ _ _ _
        · simp only [Option.map_map]
          exact ih _ _ _ _
        · simp only [Option.map_map]
          exact ih _ _ _ _

/-- The record of the popped indices does not change what `intersect` computes. -/
theorem intersectPops_erase [NeZero N] [Div T]
    (collide : P → VectorN T N → VectorN T N → T → S → Bool × T × S) (fuel : Nat)
    (self : Bvh P T N) (org dir : VectorN T N) (dist : T) (s : S) :
    (intersectPops collide fuel self org dir dist s).map (fun t => t.2) =
      intersect collide fuel self org dir dist s := by
  unfold intersectPops intersect
  split_ifs
  · rfl
  · exact intersectLoopPops_erase collide self org dir _ _ fuel [0] false dist s

/-- The descendants of the root of a subtree, the root included, have their indices in the
block `[k, hi)` of the subtree. -/
theorem Subtree.descendant_range {bound : P → Aabb T N} {MAX : T}
    {nodes : List (BvhNode T N)} {prims : List P} {k hi b e : Nat}
    (h : Subtree bound MAX nodes prims k hi b e) {x : Nat}
    (hx : Relation.ReflTransGen (IsChild nodes) k x) : k ≤ x ∧ x < hi := by
  induction hx with
  | refl => exact ⟨le_refl _, h.bounds.1⟩
  | @tail y z _ hc ih =>
    obtain ⟨nd, hy, hin, hor⟩ := (isChild_iff nodes y z).mp hc
    obtain ⟨r, h0, h1, h2, h3⟩ := h.inner_node ih.1 ih.2 hy hin
    rcases hor with hz | hz <;> omega

/-- Popping the root `k` of a subtree in `search`, for any query: the loop goes on with the
rest of the stack after popping a list `w` of indices that starts with `k`, lies in the
block `[k, hi)` of the subtree and is strictly increasing. -/
theorem searchLoopPops_subtree (bound : P → Aabb T N) (MAX : T) (self : Bvh P T N)
    (query : RangeQuery P T N S) {k hi b e : Nat}
    (h : Subtree bound MAX self.mNodes self.mPrimitives k hi b e) :
    ∀ (rest : List Int) (hit : Bool) (s : S),
      ∃ (w : List Int) (a : Bool × S), w.length ≤ hi - k ∧
        (∀ c ∈ w, (k : Int) ≤ c ∧ c < (hi : Int)) ∧
        w.Pairwise (fun x y => x < y) ∧
        ∀ F res, searchLoopPops query self F rest a.1 a.2 = some res →
          searchLoopPops query self (F + w.length) ((k : Int) :: rest) hit s
            = some (w ++ res.1, res.2) := by
  induction h with
  | leaf k b e nd hk hbe he h0 h1 hb =>
    intro rest hit s
    have hnode : nodeAt self.mNodes (k : Int) = some nd := by rw [nodeAt_natCast]; exact hk
    have hleaf : is_leaf nd = true := by simp [is_leaf, h1]; omega
    have hlp : leafPrims self.mPrimitives nd.i0 (nd.i0 + length nd)
        = some (slice self.mPrimitives b e) := by
      have e1 : nd.i0 + length nd = (e : Int) := by rw [h0, length, h1]; omega
      rw [e1, h0]
      unfold leafPrims
      rw [if_neg (by omega), if_pos ⟨by omega, by omega⟩]
      simp
    by_cases hs : (query.onBox nd.b s).1 = true
    · refine ⟨[(k : Int)], searchLeaf query (slice self.mPrimitives b e) hit
        (query.onBox nd.b s).2, by simp, ?_, by simp, ?_⟩
      · intro c hc
        simp only [List.mem_singleton] at hc
        omega
      · intro F res hres
        simp only [List.length_singleton]
        rw [searchLoopPops]
        simp only [hnode, hs, hleaf, hlp, if_true, hres, Option.map_some']
        rfl
    · refine ⟨[(k : Int)], (hit, (query.onBox nd.b s).2), by simp, ?_, by simp, ?_⟩
      · intro c hc
        simp only [List.mem_singleton] at hc
        omega
      · intro F res hres
        simp only [List.length_singleton]
        rw [searchLoopPops]
        simp only [hnode, hs, hres, Option.map_some']
        rfl
  | inner k r hi b m e nd hk h0 h1 hb hl hr ihl ihr =>
    intro rest hit s
    have bl := hl.bounds
    have br := hr.bounds
    have hnode : nodeAt self.mNodes (k : Int) = some nd := by rw [nodeAt_natCast]; exact hk
    have hleaf : is_leaf nd = false := by simp [is_leaf, h1]
    by_cases hs : (query.onBox nd.b s).1 = true
    · obtain ⟨w1, a1, hc1, hm1, hp1, k1⟩ := ihl ((r : Int) :: rest) hit (query.onBox nd.b s).2
      obtain ⟨w2, a2, hc2, hm2, hp2, k2⟩ := ihr rest a1.1 a1.2
      refine ⟨(k : Int) :: (w1 ++ w2), a2, ?_, ?_, ?_, ?_⟩
      · simp only [List.length_cons, List.length_append]; omega
      · intro c hc
        simp only [List.mem_cons, List.mem_append] at hc
        rcases hc with hc | hc | hc
        · omega
        · have := hm1 c hc; omega
        · have := hm2 c hc; omega
      · rw [List.pairwise_cons, List.pairwise_append]
        refine ⟨?_, hp1, hp2, ?_⟩
        · intro c hc
          simp only [List.mem_append] at hc
          rcases hc with hc | hc
          · have := hm1 c hc; omega
          · have := hm2 c hc; omega
        · intro x hx y hy
          have := hm1 x hx
          have := hm2 y hy
          omega
      · intro F res hres
        have e1 : F + ((k : Int) :: (w1 ++ w2)).length = (F + w2.length + w1.length) + 1 := by
          simp only [List.length_cons, List.length_append]; omega
        rw [e1, searchLoopPops]
        simp only [hnode, hs, hleaf, if_true, h0, h1]
        rw [k1 _ _ (k2 _ _ hres)]
        simp
    · refine ⟨[(k : Int)], (hit, (query.onBox nd.b s).2), ?_, ?_, by simp, ?_⟩
      · simp only [List.length_singleton]; omega
      · intro c hc
        simp only [List.mem_singleton] at hc
        omega
      · intro F res hres
        simp only [List.length_singleton]
        rw [searchLoopPops]
        simp only [hnode, hs, hres, Option.map_some']
        rfl

/-- The two children of an inner node `j` of a subtree: the left child is `j + 1`, the
right child is some `r`, the descendants of the left child (the child included) have their
indices in `[j + 1, r)` and those of the right child in `[r, hi2)`, within the block of the
subtree. -/
theorem Subtree.child_blocks {bound : P → Aabb T N} {MAX : T} {nodes : List (BvhNode T N)}
    {prims : List P} {k hi b e : Nat} (h : Subtree bound MAX nodes prims k hi b e)
    {j : Nat} {nd : BvhNode T N} (hj1 : k ≤ j) (hj2 : j < hi) (hnd : nodes[j]? = some nd)
    (hlf : is_leaf nd = false) :
    ∃ r hi2 : Nat, j + 1 < r ∧ r < hi2 ∧ hi2 ≤ hi ∧ nd.i0 = ((j + 1 : Nat) : Int) ∧
      nd.i1 = (r : Int) ∧
      (∀ l, Relation.ReflTransGen (IsChild nodes) nd.i0.toNat l → j + 1 ≤ l ∧ l < r) ∧
      (∀ y, Relation.ReflTransGen (IsChild nodes) nd.i1.toNat y → r ≤ y ∧ y < hi2) := by
  obtain ⟨hi2, b2, e2, hs, h1, _, _⟩ := h.sub j hj1 hj2
  have hin : ¬ nd.i1 < 0 := by simpa [is_leaf] using hlf
  rcases hs.node_cases hnd with hc | ⟨r, m, _, h0, h1r, _, hl, hr⟩
  · exact absurd hc.1 hin
  · have bl := hl.bounds
    have br := hr.bounds
    refine ⟨r, hi2, bl.1, br.1, h1, h0, h1r, ?_, ?_⟩
    · intro l hl2
      rw [h0, Int.toNat_ofNat] at hl2
      exact hl.descendant_range hl2
    · intro y hy
      rw [h1r, Int.toNat_ofNat] at hy
      exact hr.descendant_range hy

/-- Popping the root `k` of a subtree in `intersect`, for any callback and any ray: the
loop goes on with the rest of the stack after popping a list `w` of indices that lies in the
block `[k, hi)` of the subtree, has no index twice, and in which, for every inner node of
the subtree, no descendant of the left child comes before a descendant of the right child
when `neg[dim]` holds, and no descendant of the right child before one of the left child
otherwise. -/
theorem intersectLoopPops_subtree [NeZero N] (bound : P → Aabb T N) (MAX : T)
    (self : Bvh P T N) (collide : P → VectorN T N → VectorN T N → T → S → Bool × T × S)
    (org dir inv : VectorN T N) (neg : Fin N → Bool)
    {k hi b e : Nat} (h : Subtree bound MAX self.mNodes self.mPrimitives k hi b e) :
    ∀ (rest : List Int) (hit : Bool) (d : T) (s : S),
      ∃ (w : List Int) (a : Bool × T × S), w.length ≤ hi - k ∧
        (∀ c ∈ w, (k : Int) ≤ c ∧ c < (hi : Int)) ∧
        w.Nodup ∧
        w.Pairwise (fun x y => ∀ (j : Nat) (ndj : BvhNode T N), k ≤ j → j < hi →
          self.mNodes[j]? = some ndj → is_leaf ndj = false →
          ∀ (l r : Nat), Relation.ReflTransGen (IsChild self.mNodes) ndj.i0.toNat l →
            Relation.ReflTransGen (IsChild self.mNodes) ndj.i1.toNat r →
            (neg (longest_axis ndj.b) = true → ¬ (x = (l : Int) ∧ y = (r : Int))) ∧
            (neg (longest_axis ndj.b) = false → ¬ (x = (r : Int) ∧ y = (l : Int)))) ∧
        ∀ F res, intersectLoopPops collide self org dir inv neg F rest a.1 a.2.1 a.2.2
            = some res →
          intersectLoopPops collide self org dir inv neg (F + w.length) ((k : Int) :: rest)
            hit d s = some (w ++ res.1, res.2) := by
  induction h with
  | leaf k b e nd hk hbe he h0 h1 hb =>
    intro rest hit d s
    have hnode : nodeAt self.mNodes (k : Int) = some nd := by rw [nodeAt_natCast]; exact hk
    have hleaf : is_leaf nd = true := by simp [is_leaf, h1]; omega
    have hlp : leafPrims self.mPrimitives nd.i0 (nd.i0 + length nd)
        = some (slice self.mPrimitives b e) := by
      have e1 : nd.i0 + length nd = (e : Int) := by rw [h0, length, h1]; omega
      rw [e1, h0]
      unfold leafPrims
      rw [if_neg (by omega), if_pos ⟨by omega, by omega⟩]
      simp
    by_cases hs : is_intersecting_inv nd.b org inv d = true
    · refine ⟨[(k : Int)], collideLeaf collide org dir (slice self.mPrimitives b e) hit d s,
        by simp, ?_, by simp, by simp, ?_⟩
      · intro c hc
        simp only [List.mem_singleton] at hc
        omega
      · intro F res hres
        simp only [List.length_singleton]
        rw [intersectLoopPops]
        simp only [hnode, hs, hleaf, hlp, if_true, hres, Option.map_some']
        rfl
    · refine ⟨[(k : Int)], (hit, d, s), by simp, ?_, by simp, by simp, ?_⟩
      · intro c hc
        simp only [List.mem_singleton] at hc
        omega
      · intro F res hres
        simp only [List.length_singleton]
        rw [intersectLoopPops]
        simp only [hnode, hs, hres, Option.map_some']
        rfl
  | inner k r hi b m e nd hk h0 h1 hb hl hr ihl ihr =>
    intro rest hit d s
    have bl := hl.bounds
    have br := hr.bounds
    have hnode : nodeAt self.mNodes (k : Int) = some nd := by rw [nodeAt_natCast]; exact hk
    have hleaf : is_leaf nd = false := by simp [is_leaf, h1]
    have hwhole : Subtree bound MAX self.mNodes self.mPrimitives k hi b e :=
      Subtree.inner k r hi b m e nd hk h0 h1 hb hl hr
    -- where the descendants of the children of a node `j` of the block lie
    have hblock : ∀ (j : Nat) (ndj : BvhNode T N), k ≤ j → j < hi →
        self.mNodes[j]? = some ndj → is_leaf ndj = false →
        ∀ (l y : Nat), Relation.ReflTransGen (IsChild self.mNodes) ndj.i0.toNat l →
          Relation.ReflTransGen (IsChild self.mNodes) ndj.i1.toNat y →
          (j = k ∧ ndj = nd ∧ k + 1 ≤ l ∧ l < r ∧ r ≤ y ∧ y < hi) ∨
          (k + 1 ≤ j ∧ j < r ∧ k + 1 ≤ l ∧ l < r ∧ k + 1 ≤ y ∧ y < r) ∨
          (r ≤ j ∧ r ≤ l ∧ l < hi ∧ r ≤ y ∧ y < hi) := by
      intro j ndj hj1 hj2 hnj hlf l y hl2 hy2
      rcases Nat.eq_or_lt_of_le hj1 with hjk | hjk
      · subst hjk
        have hnd : ndj = nd := Option.some.inj (hnj.symm.trans hk)
        subst hnd
        obtain ⟨r2, hi2, c1, c2, c3, c4, c5, c6, c7⟩ := hwhole.child_blocks hj1 hj2 hnj hlf
        have := c6 l hl2
        have := c7 y hy2
        left
        refine ⟨rfl, rfl, ?_⟩
        omega
      · rcases Nat.lt_or_ge j r with hjr | hjr
        · obtain ⟨r2, hi2, c1, c2, c3, c4, c5, c6, c7⟩ := hl.child_blocks hjk hjr hnj hlf
          have := c6 l hl2
          have := c7 y hy2
          right; left
          omega
        · obtain ⟨r2, hi2, c1, c2, c3, c4, c5, c6, c7⟩ := hr.child_blocks hjr hj2 hnj hlf
          have := c6 l hl2
          have := c7 y hy2
          right; right
          omega
    by_cases hs : is_intersecting_inv nd.b org inv d = true
    · by_cases hneg : neg (longest_axis nd.b) = true
      · obtain ⟨w2, a2, hc2, hm2, hn2, hp2, k2⟩ := ihr (((k + 1 : Nat) : Int) :: rest) hit d s
        obtain ⟨w1, a1, hc1, hm1, hn1, hp1, k1⟩ := ihl rest a2.1 a2.2.1 a2.2.2
        refine ⟨(k : Int) :: (w2 ++ w1), a1, ?_, ?_, ?_, ?_, ?_⟩
        · simp only [List.length_cons, List.length_append]; omega
        · intro c hc
          simp only [List.mem_cons, List.mem_append] at hc
          rcases hc with hc | hc | hc
          · omega
          · have := hm2 c hc; omega
          · have := hm1 c hc; omega
        · rw [List.nodup_cons, List.nodup_append]
          refine ⟨?_, hn2, hn1, ?_⟩
          · intro hc
            simp only [List.mem_append] at hc
            rcases hc with hc | hc
            · have := hm2 _ hc; omega
            · have := hm1 _ hc; omega
          · intro x hx2 hx1
            have := hm2 x hx2
            have := hm1 x hx1
            omega
        · rw [List.pairwise_cons, List.pairwise_append]
          refine ⟨?_, ?_, ?_, ?_⟩
          · intro c hc j ndj hj1 hj2 hnj hlf l y hl2 hy2
            rcases hblock j ndj hj1 hj2 hnj hlf l y hl2 hy2 with hh | hh | hh <;>
              constructor <;> intro _ <;> rintro ⟨e1, e2⟩ <;> omega
          · refine List.Pairwise.imp_of_mem ?_ hp2
            intro x y hx hy hR j ndj hj1 hj2 hnj hlf l y2 hl2 hy2
            have hxr := hm2 x hx
            have hyr := hm2 y hy
            rcases hblock j ndj hj1 hj2 hnj hlf l y2 hl2 hy2 with hh | hh | hh
            · constructor <;> intro _ <;> rintro ⟨e1, e2⟩ <;> omega
            · constructor <;> intro _ <;> rintro ⟨e1, e2⟩ <;> omega
            · exact hR j ndj hh.1 hj2 hnj hlf l y2 hl2 hy2
          · refine List.Pairwise.imp_of_mem ?_ hp1
            intro x y hx hy hR j ndj hj1 hj2 hnj hlf l y2 hl2 hy2
            have hxr := hm1 x hx
            have hyr := hm1 y hy
            rcases hblock j ndj hj1 hj2 hnj hlf l y2 hl2 hy2 with hh | hh | hh
            · constructor <;> intro _ <;> rintro ⟨e1, e2⟩ <;> omega
            · exact hR j ndj hh.1 hh.2.1 hnj hlf l y2 hl2 hy2
            · constructor <;> intro _ <;> rintro ⟨e1, e2⟩ <;> omega
          · intro x hx y hy j ndj hj1 hj2 hnj hlf l y2 hl2 hy2
            have hxr := hm2 x hx
            have hyr := hm1 y hy
            rcases hblock j ndj hj1 hj2 hnj hlf l y2 hl2 hy2 with hh | hh | hh
            · constructor
              · intro _; rintro ⟨e1, e2⟩; omega
              · intro hn
                rw [hh.2.1, hneg] at hn
                cases hn
            · constructor <;> intro _ <;> rintro ⟨e1, e2⟩ <;> omega
            · constructor <;> intro _ <;> rintro ⟨e1, e2⟩ <;> omega
        · intro F res hres
          have e1 : F + ((k : Int) :: (w2 ++ w1)).length = (F + w1.length + w2.length) + 1 := by
            simp only [List.length_cons, List.length_append]; omega
          rw [e1, intersectLoopPops]
          simp only [hnode, hs, hleaf, hneg, if_true, h0, h1]
          rw [k2 _ _ (k1 _ _ hres)]
          simp
      · obtain ⟨w1, a1, hc1, hm1, hn1, hp1, k1⟩ := ihl ((r : Int) :: rest) hit d s
        obtain ⟨w2, a2, hc2, hm2, hn2, hp2, k2⟩ := ihr rest a1.1 a1.2.1 a1.2.2
        have hnegf : neg (longest_axis nd.b) = false := by simpa using hneg
        refine ⟨(k : Int) :: (w1 ++ w2), a2, ?_, ?_, ?_, ?_, ?_⟩
        · simp only [List.length_cons, List.length_append]; omega
        · intro c hc
          simp only [List.mem_cons, List.mem_append] at hc
          rcases hc with hc | hc | hc
          · omega
          · have := hm1 c hc; omega
          · have := hm2 c hc; omega
        · rw [List.nodup_cons, List.nodup_append]
          refine ⟨?_, hn1, hn2, ?_⟩
          · intro hc
            simp only [List.mem_append] at hc
            rcases hc with hc | hc
            · have := hm1 _ hc; omega
            · have := hm2 _ hc; omega
          · intro x hx1 hx2
            have := hm2 x hx2
            have := hm1 x hx1
            omega
        · rw [List.pairwise_cons, List.pairwise_append]
          refine ⟨?_, ?_, ?_, ?_⟩
          · intro c hc j ndj hj1 hj2 hnj hlf l y hl2 hy2
            rcases hblock j ndj hj1 hj2 hnj hlf l y hl2 hy2 with hh | hh | hh <;>
              constructor <;> intro _ <;> rintro ⟨e1, e2⟩ <;> omega
          · refine List.Pairwise.imp_of_mem ?_ hp1
            intro x y hx hy hR j ndj hj1 hj2 hnj hlf l y2 hl2 hy2
            have hxr := hm1 x hx
            have hyr := hm1 y hy
            rcases hblock j ndj hj1 hj2 hnj hlf l y2 hl2 hy2 with hh | hh | hh
            · constructor <;> intro _ <;> rintro ⟨e1, e2⟩ <;> omega
            · exact hR j ndj hh.1 hh.2.1 hnj hlf l y2 hl2 hy2
            · constructor <;> intro _ <;> rintro ⟨e1, e2⟩ <;> omega
          · refine List.Pairwise.imp_of_mem ?_ hp2
            intro x y hx hy hR j ndj hj1 hj2 hnj hlf l y2 hl2 hy2
            have hxr := hm2 x hx
            have hyr := hm2 y hy
            rcases hblock j ndj hj1 hj2 hnj hlf l y2 hl2 hy2 with hh | hh | hh
            · constructor <;> intro _ <;> rintro ⟨e1, e2⟩ <;> omega
            · constructor <;> intro _ <;> rintro ⟨e1, e2⟩ <;> omega
            · exact hR j ndj hh.1 hj2 hnj hlf l y2 hl2 hy2
          · intro x hx y hy j ndj hj1 hj2 hnj hlf l y2 hl2 hy2
            have hxr := hm1 x hx
            have hyr := hm2 y hy
            rcases hblock j ndj hj1 hj2 hnj hlf l y2 hl2 hy2 with hh | hh | hh
            · constructor
              · intro hn
                rw [hh.2.1, hnegf] at hn
                cases hn
              · intro _; rintro ⟨e1, e2⟩; omega
            · constructor <;> intro _ <;> rintro ⟨e1, e2⟩ <;> omega
            · constructor <;> intro _ <;> rintro ⟨e1, e2⟩ <;> omega
        · intro F res hres
          have e1 : F + ((k : Int) :: (w1 ++ w2)).length = (F + w2.length + w1.length) + 1 := by
            simp only [List.length_cons, List.length_append]; omega
          rw [e1, intersectLoopPops]
          simp only [hnode, hs, hleaf, hneg, if_true, h0, h1]
          rw [k1 _ _ (k2 _ _ hres)]
          simp
    · refine ⟨[(k : Int)], (hit, d, s), ?_, ?_, by simp, by simp, ?_⟩
      · simp only [List.length_singleton]; omega
      · intro c hc
        simp only [List.mem_singleton] at hc
        omega
      · intro F res hres
        simp only [List.length_singleton]
        rw [intersectLoopPops]
        simp only [hnode, hs, hres, Option.map_some']
        rfl

omit [LinearOrderedRing T] in
/-- The leaf loop of `search` with a recording query: the record grows by one entry for
every primitive of the leaf, in order, and the result is true when it was true before or
one of these calls returned true. -/
theorem searchLeaf_logQuery (query : RangeQuery P T N S) (l : List P) :
    ∀ (hit : Bool) (st : S × List (P × Bool)),
      ∃ ext : List (P × Bool),
        (searchLeaf (logQuery query) l hit st).2.2 = st.2 ++ ext ∧
        ext.map Prod.fst = l ∧
        (searchLeaf (logQuery query) l hit st).1 = (hit || ext.any Prod.snd) := by
  induction l with
  | nil =>
    intro hit st
    exact ⟨[], by simp [searchLeaf], rfl, by simp [searchLeaf]⟩
  | cons p l ih =>
    intro hit st
    rw [searchLeaf]
    obtain ⟨ext, h1, h2, h3⟩ := ih
      (if ((logQuery query).onPrim p st).1 then true else hit) ((logQuery query).onPrim p st).2
    refine ⟨(p, (query.onPrim p st.1).1) :: ext, ?_, ?_, ?_⟩
    · rw [h1]
      simp [logQuery]
    · simp [h2]
    · rw [h3]
      simp only [logQuery, List.any_cons]
      by_cases hq : (query.onPrim p st.1).1 = true
      · simp [hq]
      · simp [hq]

omit [LinearOrderedRing T] in
/-- The record of a recording query does not change what the leaf loop of `search`
computes. -/
theorem searchLeaf_logQuery_erase (query : RangeQuery P T N S) (l : List P) :
    ∀ (hit : Bool) (st : S × List (P × Bool)),
      ((searchLeaf (logQuery query) l hit st).1, (searchLeaf (logQuery query) l hit st).2.1) =
        searchLeaf query l hit st.1 := by
  induction l with
  | nil => intro hit st; rfl
  | cons p l ih =>
    intro hit st
    rw [searchLeaf, searchLeaf]
    exact ih _ _

omit [LinearOrderedRing T] in
/-- The record of a recording query does not change what the loop of `search` computes. -/
theorem searchLoop_logQuery_erase (query : RangeQuery P T N S) (self : Bvh P T N) :
    ∀ (fuel : Nat) (stack : List Int) (hit : Bool) (st : S × List (P × Bool)),
      (searchLoop (logQuery query) self fuel stack hit st).map (fun r => (r.1, r.2.1)) =
        searchLoop query self fuel stack hit st.1 := by
  intro fuel
  induction fuel with
  | zero =>
    intro stack hit st
    cases stack with
    | nil => simp [searchLoop]
    | cons c rest => simp [searchLoop]
  | succ fuel ih =>
    intro stack hit st
    cases stack with
    | nil => simp [searchLoop]
    | cons c rest =>
      rw [searchLoop, searchLoop]
      cases nodeAt self.mNodes c with
      | none => rfl
      | some node =>
        simp only
        have hb : ((logQuery query).onBox node.b st).1 = (query.onBox node.b st.1).1 := rfl
        rw [hb]
        split_ifs
        · cases leafPrims self.mPrimitives node.i0 (node.i0 + length node) with
          | none => rfl
          | some ps =>
            simp only
            rw [ih]
            have := searchLeaf_logQuery_erase query ps hit ((logQuery query).onBox node.b st).2
            simp only [Prod.ext_iff] at this
            rw [this.1, this.2]
            rfl
        · rw [ih]
          rfl
        · rw [ih]
          rfl

/-- Popping the root `k` of a subtree in `search` with a recording query whose arm on boxes
always returns true: the loop goes on with the rest of the stack after at most `hi - k`
pops, the record has grown by one entry for every primitive of the subtree, in storage
order, and the result is true when it was true before or one of these calls returned
true. -/
theorem searchLoop_subtree_all (bound : P → Aabb T N) (MAX : T) (self : Bvh P T N)
    (query : RangeQuery P T N S) (hbox : ∀ box s, (query.onBox box s).1 = true)
    {k hi b e : Nat} (h : Subtree bound MAX self.mNodes self.mPrimitives k hi b e) :
    ∀ (rest : List Int) (hit : Bool) (st : S × List (P × Bool)),
      ∃ (c : Nat) (a : Bool × S × List (P × Bool)), c ≤ hi - k ∧
        (∀ F res, searchLoop (logQuery query) self F rest a.1 a.2 = some res →
          searchLoop (logQuery query) self (F + c) ((k : Int) :: rest) hit st = some res) ∧
        ∃ ext : List (P × Bool), a.2.2 = st.2 ++ ext ∧
          ext.map Prod.fst = slice self.mPrimitives b e ∧
          a.1 = (hit || ext.any Prod.snd) := by
  induction h with
  | leaf k b e nd hk hbe he h0 h1 hb =>
    intro rest hit st
    have hnode : nodeAt self.mNodes (k : Int) = some nd := by rw [nodeAt_natCast]; exact hk
    have hleaf : is_leaf nd = true := by simp [is_leaf, h1]; omega
    have hlp : leafPrims self.mPrimitives nd.i0 (nd.i0 + length nd)
        = some (slice self.mPrimitives b e) := by
      have e1 : nd.i0 + length nd = (e : Int) := by rw [h0, length, h1]; omega
      rw [e1, h0]
      unfold leafPrims
      rw [if_neg (by omega), if_pos ⟨by omega, by omega⟩]
      simp
    have hs : ((logQuery query).onBox nd.b st).1 = true := hbox nd.b st.1
    obtain ⟨ext, e1, e2, e3⟩ := searchLeaf_logQuery query (slice self.mPrimitives b e) hit
      ((logQuery query).onBox nd.b st).2
    refine ⟨1, searchLeaf (logQuery query) (slice self.mPrimitives b e) hit
      ((logQuery query).onBox nd.b st).2, by omega, ?_, ext, e1, e2, e3⟩
    intro F res hres
    rw [searchLoop]
    simp only [hnode, hs, hleaf, hlp, if_true]
    exact hres
  | inner k r hi b m e nd hk h0 h1 hb hl hr ihl ihr =>
    intro rest hit st
    have bl := hl.bounds
    have br := hr.bounds
    have hnode : nodeAt self.mNodes (k : Int) = some nd := by rw [nodeAt_natCast]; exact hk
    have hleaf : is_leaf nd = false := by simp [is_leaf, h1]
    have hs : ((logQuery query).onBox nd.b st).1 = true := hbox nd.b st.1
    obtain ⟨c1, a1, hc1, k1, ext1, x1, x2, x3⟩ :=
      ihl ((r : Int) :: rest) hit ((logQuery query).onBox nd.b st).2
    obtain ⟨c2, a2, hc2, k2, ext2, y1, y2, y3⟩ := ihr rest a1.1 a1.2
    refine ⟨c1 + c2 + 1, a2, by omega, ?_, ext1 ++ ext2, ?_, ?_, ?_⟩
    · intro F res hres
      have e1 : F + (c1 + c2 + 1) = (F + c2 + c1) + 1 := by omega
      rw [e1, searchLoop]
      simp only [hnode, hs, hleaf, if_true, h0, h1]
      exact k1 _ _ (k2 _ _ hres)
    · rw [y1, x1]
      simp [logQuery]
    · rw [List.map_append, x2, y2]
      exact (slice_append self.mPrimitives (by omega) (by omega)).symm
    · rw [y3, x3, List.any_append, Bool.or_assoc]

omit [LinearOrderedRing T] in
/-- The leaf loop of `intersect` with a recording callback: the record grows by one entry
for every primitive of the leaf, in order, whatever the calls return, and the result is true
when it was true before or one of these calls returned true. -/
theorem collideLeaf_logCollide
    (collide : P → VectorN T N → VectorN T N → T → S → Bool × T × S)
    (org dir : VectorN T N) (l : List P) :
    ∀ (hit : Bool) (d : T) (st : S × List (P × Bool)),
      ∃ ext : List (P × Bool),
        (collideLeaf (logCollide collide) org dir l hit d st).2.2.2 = st.2 ++ ext ∧
        ext.map Prod.fst = l ∧
        (collideLeaf (logCollide collide) org dir l hit d st).1 = (hit || ext.any Prod.snd) := by
  induction l with
  | nil =>
    intro hit d st
    exact ⟨[], by simp [collideLeaf], rfl, by simp [collideLeaf]⟩
  | cons p l ih =>
    intro hit d st
    rw [collideLeaf]
    obtain ⟨ext, h1, h2, h3⟩ := ih
      (if (logCollide collide p org dir d st).1 then true else hit)
      (logCollide collide p org dir d st).2.1 (logCollide collide p org dir d st).2.2
    refine ⟨(p, (collide p org dir d st.1).1) :: ext, ?_, ?_, ?_⟩
    · rw [h1]
      simp [logCollide]
    · simp [h2]
    · rw [h3]
      simp only [logCollide, List.any_cons]
      by_cases hq : (collide p org dir d st.1).1 = true
      · simp [hq]
      · simp [hq]

/-- The top of `search` on a tree with a root subtree: what the continuation lemma gives for
the stack `[0]`. -/
theorem searchPops_of_subtree (bound : P → Aabb T N) (MAX : T) (t : Bvh P T N)
    (query : RangeQuery P T N S) {e : Nat}
    (h : Subtree bound MAX t.mNodes t.mPrimitives 0 t.mNodes.length 0 e) (s0 : S)
    (fuel2 : Nat) (hf2 : t.mNodes.length ≤ fuel2) :
    ∃ pops res, searchPops query fuel2 t s0 = some (pops, res) ∧
      search query fuel2 t s0 = some res ∧
      pops.length ≤ t.mNodes.length ∧
      (∀ c ∈ pops, (0 : Int) ≤ c ∧ c < (t.mNodes.length : Int)) ∧
      pops.Pairwise (fun x y => x < y) := by
  obtain ⟨w, a, hc, hm, hp, hk⟩ := searchLoopPops_subtree bound MAX t query h [] false s0
  have hb := h.bounds
  have hne : t.mNodes.isEmpty = false := by
    cases hn : t.mNodes with
    | nil => rw [hn] at hb; simp at hb
    | cons x l => rfl
  have h4 := hk (fuel2 - w.length) ([], a) (by rw [searchLoopPops])
  have e1 : fuel2 - w.length + w.length = fuel2 := by omega
  rw [e1] at h4
  simp only [Nat.cast_zero, List.append_nil] at h4
  have h5 : searchPops query fuel2 t s0 = some (w, a) := by
    unfold searchPops
    rw [hne]
    simpa using h4
  refine ⟨w, a, h5, ?_, by omega, ?_, hp⟩
  · rw [← searchPops_erase, h5]
    rfl
  · intro c hc2
    have := hm c hc2
    simpa using this

/-- The top of `intersect` on a tree with a root subtree: what the continuation lemma gives
for the stack `[0]`. -/
theorem intersectPops_of_subtree [NeZero N] [Div T] (bound : P → Aabb T N) (MAX : T)
    (t : Bvh P T N) (collide : P → VectorN T N → VectorN T N → T → S → Bool × T × S)
    (org dir : VectorN T N) {e : Nat}
    (h : Subtree bound MAX t.mNodes t.mPrimitives 0 t.mNodes.length 0 e) (dist : T) (s0 : S)
    (fuel2 : Nat) (hf2 : t.mNodes.length ≤ fuel2) :
    ∃ pops res, intersectPops collide fuel2 t org dir dist s0 = some (pops, res) ∧
      intersect collide fuel2 t org dir dist s0 = some res ∧
      pops.length ≤ t.mNodes.length ∧
      (∀ c ∈ pops, (0 : Int) ≤ c ∧ c < (t.mNodes.length : Int)) ∧
      pops.Nodup ∧
      pops.Pairwise (fun x y => ∀ (j : Nat) (ndj : BvhNode T N), j < t.mNodes.length →
          t.mNodes[j]? = some ndj → is_leaf ndj = false →
          ∀ (l r : Nat), Relation.ReflTransGen (IsChild t.mNodes) ndj.i0.toNat l →
            Relation.ReflTransGen (IsChild t.mNodes) ndj.i1.toNat r →
            (dir (longest_axis ndj.b) < 0 → ¬ (x = (l : Int) ∧ y = (r : Int))) ∧
            (¬ dir (longest_axis ndj.b) < 0 → ¬ (x = (r : Int) ∧ y = (l : Int)))) := by
  obtain ⟨w, a, hc, hm, hn, hp, hk⟩ := intersectLoopPops_subtree bound MAX t collide org dir
    (fun i => (make_vector 1 : VectorN T N) i / dir i) (fun i => decide (dir i < 0)) h
    [] false dist s0
  have hb := h.bounds
  have hne : t.mNodes.isEmpty = false := by
    cases hn : t.mNodes with
    | nil => rw [hn] at hb; simp at hb
    | cons x l => rfl
  have h4 := hk (fuel2 - w.length) ([], a) (by rw [intersectLoopPops])
  have e1 : fuel2 - w.length + w.length = fuel2 := by omega
  rw [e1] at h4
  simp only [Nat.cast_zero, List.append_nil] at h4
  have h5 : intersectPops collide fuel2 t org dir dist s0 = some (w, a) := by
    unfold intersectPops
    rw [hne]
    simpa using h4
  refine ⟨w, a, h5, ?_, by omega, ?_, hn, ?_⟩
  · rw [← intersectPops_erase, h5]
    rfl
  · intro c hc2
    have := hm c hc2
    simpa using this
  · refine List.Pairwise.imp ?_ hp
    intro x y hR j ndj hj hnj hlf l r hl hr
    have := hR j ndj (Nat.zero_le _) hj hnj hlf l r hl hr
    simpa using this

/-- C33: on a tree built on a default-constructed `Bvh` (with a split callback that only
permutes its own range and returns a position in `[begin, end]`), `search` with any query
returns, and the indices it pops come in strictly increasing order. For every inner node,
every descendant of its left child (the child included) has a smaller index than every
descendant of its right child, so whenever a node `x` of the left child's subtree and a node
`y` of the right child's subtree are both popped, `x` is popped before `y`. -/
theorem search_left_before_right (bound : P → Aabb T N)
    (split : List P → Nat → Nat → Option (List P × Nat)) (threshold : Int) (MAX : T)
    (fuel : Nat) (prims : List P) (hs : SplitContract split) (hf : prims.length ≤ fuel)
    (query : RangeQuery P T N S) (s0 : S) :
    ∃ t, build bound split threshold MAX fuel Bvh.empty prims = some (t, []) ∧
      ∀ fuel2, t.mNodes.length ≤ fuel2 →
        ∃ pops res, searchPops query fuel2 t s0 = some (pops, res) ∧
          search query fuel2 t s0 = some res ∧
          pops.Pairwise (fun x y => x < y) ∧
          ∀ (k : Nat) (nd : BvhNode T N), t.mNodes[k]? = some nd → is_leaf nd = false →
            ∀ (x y : Nat), Relation.ReflTransGen (IsChild t.mNodes) nd.i0.toNat x →
              Relation.ReflTransGen (IsChild t.mNodes) nd.i1.toNat y →
              x < y ∧
              ∀ i j : Nat, pops[i]? = some (x : Int) → pops[j]? = some (y : Int) → i < j := by
  by_cases hne : prims = []
  · subst hne
    refine ⟨Bvh.empty, rfl, fun fuel2 _ => ⟨[], (false, s0), rfl, rfl, List.Pairwise.nil, ?_⟩⟩
    intro k nd hk
    simp [Bvh.empty] at hk
  obtain ⟨t, h1, h2, h3⟩ := build_fresh_spec bound split threshold MAX hs fuel prims hne hf
  refine ⟨t, h1, ?_⟩
  intro fuel2 hf2
  obtain ⟨pops, res, e1, e2, _, _, hp⟩ :=
    searchPops_of_subtree bound MAX t query h3 s0 fuel2 hf2
  refine ⟨pops, res, e1, e2, hp, ?_⟩
  intro k nd hk hlf x y hx hy
  have hklt : k < t.mNodes.length := (List.getElem?_eq_some.mp hk).1
  obtain ⟨r, hi2, c1, c2, c3, c4, c5, c6, c7⟩ :=
    h3.child_blocks (Nat.zero_le k) hklt hk hlf
  have hxr := c6 x hx
  have hyr := c7 y hy
  refine ⟨by omega, ?_⟩
  intro i j hi hj
  obtain ⟨hil, hie⟩ := List.getElem?_eq_some.mp hi
  obtain ⟨hjl, hje⟩ := List.getElem?_eq_some.mp hj
  by_contra hij
  rcases Nat.eq_or_lt_of_le (Nat.le_of_not_lt hij) with h | h
  · subst h
    rw [hie] at hje
    omega
  · have := List.pairwise_iff_getElem.mp hp j i hjl hil h
    rw [hie, hje] at this
    omega

/-- C35: on a tree built on a default-constructed `Bvh` (with a split callback that only
permutes its own range and returns a position in `[begin, end]`), for every query and every
callback `collide`, every ray and every initial distance, the loops of `search` and
`intersect` return once they may pop as many indices as there are nodes: no index read is
outside its array (the model returns nothing on such a read), no index is popped twice, at
most `|nodes|` indices are popped, and each is an index of the node array. -/
theorem traversals_terminate [NeZero N] [Div T] (bound : P → Aabb T N)
    (split : List P → Nat → Nat → Option (List P × Nat)) (threshold : Int) (MAX : T)
    (fuel : Nat) (prims : List P) (hs : SplitContract split) (hf : prims.length ≤ fuel) :
    ∃ t, build bound split threshold MAX fuel Bvh.empty prims = some (t, []) ∧
      (∀ (query : RangeQuery P T N S) (s0 : S) (fuel2 : Nat), t.mNodes.length ≤ fuel2 →
        ∃ pops res, searchPops query fuel2 t s0 = some (pops, res) ∧
          search query fuel2 t s0 = some res ∧
          pops.Nodup ∧ pops.length ≤ t.mNodes.length ∧
          ∀ c ∈ pops, (0 : Int) ≤ c ∧ c < (t.mNodes.length : Int)) ∧
      (∀ (collide : P → VectorN T N → VectorN T N → T → S → Bool × T × S)
        (org dir : VectorN T N) (dist : T) (s0 : S) (fuel2 : Nat), t.mNodes.length ≤ fuel2 →
        ∃ pops res, intersectPops collide fuel2 t org dir dist s0 = some (pops, res) ∧
          intersect collide fuel2 t org dir dist s0 = some res ∧
          pops.Nodup ∧ pops.length ≤ t.mNodes.length ∧
          ∀ c ∈ pops, (0 : Int) ≤ c ∧ c < (t.mNodes.length : Int)) := by
  by_cases hne : prims = []
  · subst hne
    refine ⟨Bvh.empty, rfl, ?_, ?_⟩
    · intro query s0 fuel2 _
      exact ⟨[], (false, s0), rfl, rfl, List.nodup_nil, Nat.zero_le _,
        fun c hc => absurd hc (List.not_mem_nil c)⟩
    · intro collide org dir dist s0 fuel2 _
      exact ⟨[], (false, dist, s0), rfl, rfl, List.nodup_nil, Nat.zero_le _,
        fun c hc => absurd hc (List.not_mem_nil c)⟩
  obtain ⟨t, h1, h2, h3⟩ := build_fresh_spec bound split threshold MAX hs fuel prims hne hf
  refine ⟨t, h1, ?_, ?_⟩
  · intro query s0 fuel2 hf2
    obtain ⟨pops, res, e1, e2, e3, e4, hp⟩ :=
      searchPops_of_subtree bound MAX t query h3 s0 fuel2 hf2
    refine ⟨pops, res, e1, e2, ?_, e3, e4⟩
    exact hp.imp (fun h => ne_of_lt h)
  · intro collide org dir dist s0 fuel2 hf2
    obtain ⟨pops, res, e1, e2, e3, e4, e5, _⟩ :=
      intersectPops_of_subtree bound MAX t collide org dir h3 dist s0 fuel2 hf2
    exact ⟨pops, res, e1, e2, e5, e3, e4⟩

/-- C34: on a tree built on a default-constructed `Bvh` from `n` primitives (with a split
callback that only permutes its own range and returns a position in `[begin, end]`),
`search` with a query whose arm on boxes always returns true returns; the record of the
calls of its arm on primitives has `n` entries, the primitives `primitives[0]`, ...,
`primitives[n - 1]` of the tree in that order, and the result is true exactly when one of
these calls returned true. The record changes neither the result nor the state of the
query. -/
theorem search_all_boxes_calls_every_primitive (bound : P → Aabb T N)
    (split : List P → Nat → Nat → Option (List P × Nat)) (threshold : Int) (MAX : T)
    (fuel : Nat) (prims : List P) (hs : SplitContract split) (hf : prims.length ≤ fuel)
    (query : RangeQuery P T N S) (hbox : ∀ box s, (query.onBox box s).1 = true) (s0 : S) :
    ∃ t, build bound split threshold MAX fuel Bvh.empty prims = some (t, []) ∧
      ∀ fuel2, t.mNodes.length ≤ fuel2 →
        ∃ (hit : Bool) (sfin : S) (log : List (P × Bool)),
          search (logQuery query) fuel2 t (s0, []) = some (hit, (sfin, log)) ∧
          search query fuel2 t s0 = some (hit, sfin) ∧
          log.map Prod.fst = t.mPrimitives ∧
          log.length = prims.length ∧
          (hit = true ↔ ∃ c ∈ log, c.2 = true) := by
  by_cases hne : prims = []
  · subst hne
    exact ⟨Bvh.empty, rfl, fun fuel2 _ => ⟨false, s0, [], rfl, rfl, rfl, rfl, by simp⟩⟩
  obtain ⟨t, h1, h2, h3⟩ := build_fresh_spec bound split threshold MAX hs fuel prims hne hf
  refine ⟨t, h1, ?_⟩
  intro fuel2 hf2
  obtain ⟨c, a, hc, hk, ext, x1, x2, x3⟩ :=
    searchLoop_subtree_all bound MAX t query hbox h3 [] false (s0, [])
  have hb := h3.bounds
  have hne2 : t.mNodes.isEmpty = false := by
    cases hn : t.mNodes with
    | nil => rw [hn] at hb; simp at hb
    | cons x l => rfl
  have h4 := hk (fuel2 - c) a (by rw [searchLoop])
  have e1 : fuel2 - c + c = fuel2 := by omega
  rw [e1] at h4
  have h5 : search (logQuery query) fuel2 t (s0, []) = some (a.1, (a.2.1, a.2.2)) := by
    unfold search
    rw [hne2]
    simpa using h4
  have hlog : a.2.2 = ext := by simpa using x1
  have hprims : ext.map Prod.fst = t.mPrimitives := by
    rw [x2, ← h2.1, slice_zero_length]
  refine ⟨a.1, a.2.1, a.2.2, h5, ?_, ?_, ?_, ?_⟩
  · have h6 := searchLoop_logQuery_erase query t fuel2 [0] false (s0, [])
    unfold search
    rw [hne2]
    simp only [Bool.false_eq_true, if_false]
    have h7 : searchLoop (logQuery query) t fuel2 [0] false (s0, []) = some a := by
      simpa using h4
    rw [h7] at h6
    exact h6.symm
  · rw [hlog]; exact hprims
  · rw [hlog, ← List.length_map ext Prod.fst, hprims, h2.1]
  · rw [x3, hlog]
    simp

/-- C32: in `intersect`, for any callback and any ray. (1) When the popped node is an inner
node that passes the slab test, the loop goes on with its two children on top of the stack:
the right child on top when `neg[dim]` holds, `dim = longest_axis(node.b)`, the left child
otherwise. (2) When it is a leaf that passes the slab test and whose range lies within the
primitive array, `collide` is called on `primitives[offset]`, ...,
`primitives[offset + length - 1]` in that order, whatever the calls return, and the result
is true when it was true before or one of these calls returned true. (3) On a tree built on
a default-constructed `Bvh`, `intersect` returns, and for every inner node, whenever a node
`x` of its left child's subtree and a node `y` of its right child's subtree are both popped,
`y` is popped before `x` when `dir[dim] < 0` and `x` before `y` otherwise. -/
theorem intersect_near_child_first [NeZero N] [Div T] (bound : P → Aabb T N)
    (split : List P → Nat → Nat → Option (List P × Nat)) (threshold : Int) (MAX : T)
    (fuel : Nat) (prims : List P) (hs : SplitContract split) (hf : prims.length ≤ fuel)
    (collide : P → VectorN T N → VectorN T N → T → S → Bool × T × S)
    (org dir : VectorN T N) :
    (∀ (self : Bvh P T N) (inv : VectorN T N) (neg : Fin N → Bool) (F : Nat) (curr : Int)
        (rest : List Int) (hit : Bool) (d : T) (s : S) (node : BvhNode T N),
      nodeAt self.mNodes curr = some node → is_intersecting_inv node.b org inv d = true →
      is_leaf node = false →
      intersectLoopPops collide self org dir inv neg (F + 1) (curr :: rest) hit d s =
        (intersectLoopPops collide self org dir inv neg F
          (if neg (longest_axis node.b) = true then node.i1 :: node.i0 :: rest
            else node.i0 :: node.i1 :: rest) hit d s).map (fun r => (curr :: r.1, r.2))) ∧
    (∀ (self : Bvh P T N) (inv : VectorN T N) (neg : Fin N → Bool) (F : Nat) (curr : Int)
        (rest : List Int) (hit : Bool) (d : T) (st : S × List (P × Bool))
        (node : BvhNode T N),
      nodeAt self.mNodes curr = some node → is_intersecting_inv node.b org inv d = true →
      is_leaf node = true → 0 ≤ node.i0 →
      node.i0 + length node ≤ (self.mPrimitives.length : Int) →
      ∃ ext : List (P × Bool),
        ext.map Prod.fst =
          slice self.mPrimitives node.i0.toNat (node.i0 + length node).toNat ∧
        ext.length = (length node).toNat ∧
        (collideLeaf (logCollide collide) org dir
          (slice self.mPrimitives node.i0.toNat (node.i0 + length node).toNat)
          hit d st).2.2.2 = st.2 ++ ext ∧
        (collideLeaf (logCollide collide) org dir
          (slice self.mPrimitives node.i0.toNat (node.i0 + length node).toNat)
          hit d st).1 = (hit || ext.any Prod.snd) ∧
        intersectLoop (logCollide collide) self org dir inv neg (F + 1) (curr :: rest)
            hit d st =
          intersectLoop (logCollide collide) self org dir inv neg F rest
            (collideLeaf (logCollide collide) org dir
              (slice self.mPrimitives node.i0.toNat (node.i0 + length node).toNat)
              hit d st).1
            (collideLeaf (logCollide collide) org dir
              (slice self.mPrimitives node.i0.toNat (node.i0 + length node).toNat)
              hit d st).2.1
            (collideLeaf (logCollide collide) org dir
              (slice self.mPrimitives node.i0.toNat (node.i0 + length node).toNat)
              hit d st).2.2) ∧
    (∃ t, build bound split threshold MAX fuel Bvh.empty prims = some (t, []) ∧
      ∀ (dist : T) (s0 : S) (fuel2 : Nat), t.mNodes.length ≤ fuel2 →
        ∃ pops res, intersectPops collide fuel2 t org dir dist s0 = some (pops, res) ∧
          intersect collide fuel2 t org dir dist s0 = some res ∧
          ∀ (k : Nat) (nd : BvhNode T N), t.mNodes[k]? = some nd → is_leaf nd = false →
            ∀ (x y : Nat), Relation.ReflTransGen (IsChild t.mNodes) nd.i0.toNat x →
              Relation.ReflTransGen (IsChild t.mNodes) nd.i1.toNat y →
              ∀ i j : Nat, pops[i]? = some (x : Int) → pops[j]? = some (y : Int) →
                (dir (longest_axis nd.b) < 0 → j < i) ∧
                (¬ dir (longest_axis nd.b) < 0 → i < j)) := by
  refine ⟨?_, ?_, ?_⟩
  · intro self inv neg F curr rest hit d s node hnode hs2 hlf
    rw [intersectLoopPops]
    simp only [hnode, hs2, hlf, if_true, Bool.false_eq_true, if_false]
    split_ifs <;> rfl
  · intro self inv neg F curr rest hit d st node hnode hs2 hlf h0 hend
    have hlen : 0 < length node := by
      have : node.i1 < 0 := by simpa [is_leaf] using hlf
      simp only [length]
      omega
    have hlp : leafPrims self.mPrimitives node.i0 (node.i0 + length node)
        = some (slice self.mPrimitives node.i0.toNat (node.i0 + length node).toNat) := by
      unfold leafPrims
      rw [if_neg (by omega), if_pos ⟨h0, hend⟩]
    obtain ⟨ext, e1, e2, e3⟩ := collideLeaf_logCollide collide org dir
      (slice self.mPrimitives node.i0.toNat (node.i0 + length node).toNat) hit d st
    refine ⟨ext, e2, ?_, e1, e3, ?_⟩
    · rw [← List.length_map ext Prod.fst, e2, length_slice _ _ _ (by omega)]
      omega
    · rw [intersectLoop]
      simp only [hnode, hs2, hlf, hlp, if_true]
  · by_cases hne : prims = []
    · subst hne
      refine ⟨Bvh.empty, rfl, fun dist s0 fuel2 _ => ⟨[], (false, dist, s0), rfl, rfl, ?_⟩⟩
      intro k nd hk
      simp [Bvh.empty] at hk
    obtain ⟨t, h1, h2, h3⟩ := build_fresh_spec bound split threshold MAX hs fuel prims hne hf
    refine ⟨t, h1, ?_⟩
    intro dist s0 fuel2 hf2
    obtain ⟨pops, res, e1, e2, _, _, _, hp⟩ :=
      intersectPops_of_subtree bound MAX t collide org dir h3 dist s0 fuel2 hf2
    refine ⟨pops, res, e1, e2, ?_⟩
    intro k nd hk hlf x y hx hy i j hi hj
    have hklt : k < t.mNodes.length := (List.getElem?_eq_some.mp hk).1
    obtain ⟨r, hi2, c1, c2, c3, c4, c5, c6, c7⟩ :=
      h3.child_blocks (Nat.zero_le k) hklt hk hlf
    have hxr := c6 x hx
    have hyr := c7 y hy
    obtain ⟨hil, hie⟩ := List.getElem?_eq_some.mp hi
    obtain ⟨hjl, hje⟩ := List.getElem?_eq_some.mp hj
    have hne2 : i ≠ j := by
      intro h
      subst h
      rw [hie] at hje
      omega
    constructor
    · intro hneg
      by_contra hji
      have hlt : i < j := by omega
      have := (List.pairwise_iff_getElem.mp hp i j hil hjl hlt k nd hklt hk hlf x y hx hy).1 hneg
      exact this ⟨hie, hje⟩
    · intro hneg
      by_contra hij
      have hlt : j < i := by omega
      have := (List.pairwise_iff_getElem.mp hp j i hjl hil hlt k nd hklt hk hlf x y hx hy).2 hneg
      exact this ⟨hje, hie⟩

end PopFacts

section PopInstances

set_option maxRecDepth 100000

/-- The theorem `search_left_before_right` at three points of a line. -/
theorem search_left_before_right_witness :
    SplitContract (halfSplit : List Int → _) ∧ [3, 1, 2].length ≤ 3 ∧
    ∃ t, build pointBound halfSplit 1 (100 : Int) 3 Bvh.empty [3, 1, 2] = some (t, []) ∧
      ∀ fuel2, t.mNodes.length ≤ fuel2 →
        ∃ pops res, searchPops everyQuery fuel2 t () = some (pops, res) ∧
          search everyQuery fuel2 t () = some res ∧
          pops.Pairwise (fun x y => x < y) ∧
          ∀ (k : Nat) (nd : BvhNode Int 1), t.mNodes[k]? = some nd → is_leaf nd = false →
            ∀ (x y : Nat), Relation.ReflTransGen (IsChild t.mNodes) nd.i0.toNat x →
              Relation.ReflTransGen (IsChild t.mNodes) nd.i1.toNat y →
              x < y ∧
              ∀ i j : Nat, pops[i]? = some (x : Int) → pops[j]? = some (y : Int) → i < j :=
  ⟨halfSplit_contract, by decide,
    search_left_before_right pointBound halfSplit 1 (100 : Int) 3 [3, 1, 2]
      halfSplit_contract (by decide) everyQuery ()⟩

/-- The tree of the points 3, 1, 2 (root 0, leaf 1, inner node 2 with the leaves 3 and 4):
`search` with a query whose arm on boxes always returns true pops the indices 0, 1, 2, 3, 4
in that order, and its arm on primitives is called on 3, 1, 2 in that order. -/
theorem search_pops_example :
    (build pointBound halfSplit 1 (100 : Int) 3 Bvh.empty [3, 1, 2]).map
        (fun r => r.1.mNodes.map (fun nd => (nd.i0, nd.i1))) =
      some [(1, 2), (0, -1), (3, 4), (1, -1), (2, -1)] ∧
    (build pointBound halfSplit 1 (100 : Int) 3 Bvh.empty [3, 1, 2]).bind
        (fun r => searchPops everyQuery 5 r.1 ()) = some ([0, 1, 2, 3, 4], true, ()) ∧
    (build pointBound halfSplit 1 (100 : Int) 3 Bvh.empty [3, 1, 2]).bind
        (fun r => search (logQuery everyQuery) 5 r.1 ((), [])) =
      some (true, (), [(3, false), (1, false), (2, true)]) := by
  decide

/-- The theorem `search_all_boxes_calls_every_primitive` at three points of a line. -/
theorem search_all_boxes_calls_every_primitive_witness :
    SplitContract (halfSplit : List Int → _) ∧ [3, 1, 2].length ≤ 3 ∧
    (∀ (box : Aabb Int 1) (s : Unit), (everyQuery.onBox box s).1 = true) ∧
    ∃ t, build pointBound halfSplit 1 (100 : Int) 3 Bvh.empty [3, 1, 2] = some (t, []) ∧
      ∀ fuel2, t.mNodes.length ≤ fuel2 →
        ∃ (hit : Bool) (sfin : Unit) (log : List (Int × Bool)),
          search (logQuery everyQuery) fuel2 t ((), []) = some (hit, (sfin, log)) ∧
          search everyQuery fuel2 t () = some (hit, sfin) ∧
          log.map Prod.fst = t.mPrimitives ∧
          log.length = [3, 1, 2].length ∧
          (hit = true ↔ ∃ c ∈ log, c.2 = true) :=
  ⟨halfSplit_contract, by decide, fun _ _ => rfl,
    search_all_boxes_calls_every_primitive pointBound halfSplit 1 (100 : Int) 3 [3, 1, 2]
      halfSplit_contract (by decide) everyQuery (fun _ _ => rfl) ()⟩

/-- The theorem `traversals_terminate` at three points of a line. -/
theorem traversals_terminate_witness :
    SplitContract (halfSplit : List Int → _) ∧ [3, 1, 2].length ≤ 3 ∧
    ∃ t, build pointBound halfSplit 1 (100 : Int) 3 Bvh.empty [3, 1, 2] = some (t, []) ∧
      (∀ (query : RangeQuery Int Int 1 Unit) (s0 : Unit) (fuel2 : Nat),
        t.mNodes.length ≤ fuel2 →
        ∃ pops res, searchPops query fuel2 t s0 = some (pops, res) ∧
          search query fuel2 t s0 = some res ∧
          pops.Nodup ∧ pops.length ≤ t.mNodes.length ∧
          ∀ c ∈ pops, (0 : Int) ≤ c ∧ c < (t.mNodes.length : Int)) ∧
      (∀ (collide : Int → VectorN Int 1 → VectorN Int 1 → Int → Unit → Bool × Int × Unit)
        (org dir : VectorN Int 1) (dist : Int) (s0 : Unit) (fuel2 : Nat),
        t.mNodes.length ≤ fuel2 →
        ∃ pops res, intersectPops collide fuel2 t org dir dist s0 = some (pops, res) ∧
          intersect collide fuel2 t org dir dist s0 = some res ∧
          pops.Nodup ∧ pops.length ≤ t.mNodes.length ∧
          ∀ c ∈ pops, (0 : Int) ≤ c ∧ c < (t.mNodes.length : Int)) :=
  ⟨halfSplit_contract, by decide,
    traversals_terminate pointBound halfSplit 1 (100 : Int) 3 [3, 1, 2]
      halfSplit_contract (by decide)⟩

/-- The theorem `intersect_near_child_first` at three tagged points of a line and the ray
from 10 in direction `-1`. -/
theorem intersect_near_child_first_witness :
    SplitContract (halfSplit : List (Nat × Int) → _) ∧
    [((0 : Nat), (3 : Int)), (1, 1), (2, 2)].length ≤ 3 ∧
    ((∀ (self : Bvh (Nat × Int) Int 1) (inv : VectorN Int 1) (neg : Fin 1 → Bool) (F : Nat)
        (curr : Int) (rest : List Int) (hit : Bool) (d : Int) (s : Option (Nat × Int))
        (node : BvhNode Int 1),
      nodeAt self.mNodes curr = some node →
      is_intersecting_inv node.b (fun _ => 10) inv d = true →
      is_leaf node = false →
      intersectLoopPops (nearestCollide rayDistance) self (fun _ => 10) (fun _ => -1) inv neg
          (F + 1) (curr :: rest) hit d s =
        (intersectLoopPops (nearestCollide rayDistance) self (fun _ => 10) (fun _ => -1) inv
          neg F
          (if neg (longest_axis node.b) = true then node.i1 :: node.i0 :: rest
            else node.i0 :: node.i1 :: rest) hit d s).map (fun r => (curr :: r.1, r.2))) ∧
    (∀ (self : Bvh (Nat × Int) Int 1) (inv : VectorN Int 1) (neg : Fin 1 → Bool) (F : Nat)
        (curr : Int) (rest : List Int) (hit : Bool) (d : Int)
        (st : Option (Nat × Int) × List ((Nat × Int) × Bool)) (node : BvhNode Int 1),
      nodeAt self.mNodes curr = some node →
      is_intersecting_inv node.b (fun _ => 10) inv d = true →
      is_leaf node = true → 0 ≤ node.i0 →
      node.i0 + length node ≤ (self.mPrimitives.length : Int) →
      ∃ ext : List ((Nat × Int) × Bool),
        ext.map Prod.fst =
          slice self.mPrimitives node.i0.toNat (node.i0 + length node).toNat ∧
        ext.length = (length node).toNat ∧
        (collideLeaf (logCollide (nearestCollide rayDistance)) (fun _ => 10) (fun _ => -1)
          (slice self.mPrimitives node.i0.toNat (node.i0 + length node).toNat)
          hit d st).2.2.2 = st.2 ++ ext ∧
        (collideLeaf (logCollide (nearestCollide rayDistance)) (fun _ => 10) (fun _ => -1)
          (slice self.mPrimitives node.i0.toNat (node.i0 + length node).toNat)
          hit d st).1 = (hit || ext.any Prod.snd) ∧
        intersectLoop (logCollide (nearestCollide rayDistance)) self (fun _ => 10)
            (fun _ => -1) inv neg (F + 1) (curr :: rest) hit d st =
          intersectLoop (logCollide (nearestCollide rayDistance)) self (fun _ => 10)
            (fun _ => -1) inv neg F rest
            (collideLeaf (logCollide (nearestCollide rayDistance)) (fun _ => 10)
              (fun _ => -1)
              (slice self.mPrimitives node.i0.toNat (node.i0 + length node).toNat)
              hit d st).1
            (collideLeaf (logCollide (nearestCollide rayDistance)) (fun _ => 10)
              (fun _ => -1)
              (slice self.mPrimitives node.i0.toNat (node.i0 + length node).toNat)
              hit d st).2.1
            (collideLeaf (logCollide (nearestCollide rayDistance)) (fun _ => 10)
              (fun _ => -1)
              (slice self.mPrimitives node.i0.toNat (node.i0 + length node).toNat)
              hit d st).2.2) ∧
    (∃ t, build tagBound halfSplit 1 (100 : Int) 3 Bvh.empty [(0, 3), (1, 1), (2, 2)]
        = some (t, []) ∧
      ∀ (dist : Int) (s0 : Option (Nat × Int)) (fuel2 : Nat), t.mNodes.length ≤ fuel2 →
        ∃ pops res, intersectPops (nearestCollide rayDistance) fuel2 t (fun _ => 10)
            (fun _ => -1) dist s0 = some (pops, res) ∧
          intersect (nearestCollide rayDistance) fuel2 t (fun _ => 10) (fun _ => -1) dist s0
            = some res ∧
          ∀ (k : Nat) (nd : BvhNode Int 1), t.mNodes[k]? = some nd → is_leaf nd = false →
            ∀ (x y : Nat), Relation.ReflTransGen (IsChild t.mNodes) nd.i0.toNat x →
              Relation.ReflTransGen (IsChild t.mNodes) nd.i1.toNat y →
              ∀ i j : Nat, pops[i]? = some (x : Int) → pops[j]? = some (y : Int) →
                (((fun _ => -1) : VectorN Int 1) (longest_axis nd.b) < 0 → j < i) ∧
                (¬ ((fun _ => -1) : VectorN Int 1) (longest_axis nd.b) < 0 → i < j))) :=
  ⟨halfSplit_contract, by decide,
    intersect_near_child_first tagBound halfSplit 1 (100 : Int) 3 [(0, 3), (1, 1), (2, 2)]
      halfSplit_contract (by decide) (nearestCollide rayDistance) (fun _ => 10)
      (fun _ => -1)⟩

/-- The tree of the tagged points at 3, 1, 2 with the threshold 1 (root 0, leaf 1, inner
node 2 with the leaves 3 and 4) and rays with initial distance 100. From 10 with `dir = -1`
the right child is popped first at both inner nodes: the pops are 0, 2, 4, 3, 1. From 0 with
`dir = +1` the pops are 0, 1, 2, 3, 4. With the threshold 3 the tree is one leaf, and on
the ray from 0 `collide` is called on the points at 3, 1, 2 in that storage order; the
calls after the first hit are still made. -/
theorem intersect_pops_example :
    (build tagBound halfSplit 1 (100 : Int) 3 Bvh.empty [(0, 3), (1, 1), (2, 2)]).bind
        (fun r => (intersectPops (nearestCollide rayDistance) 5 r.1 (fun _ => 10)
          (fun _ => -1) 100 none).map (fun t => t.1)) = some [0, 2, 4, 3, 1] ∧
    (build tagBound halfSplit 1 (100 : Int) 3 Bvh.empty [(0, 3), (1, 1), (2, 2)]).bind
        (fun r => (intersectPops (nearestCollide rayDistance) 5 r.1 (fun _ => 0)
          (fun _ => 1) 100 none).map (fun t => t.1)) = some [0, 1, 2, 3, 4] ∧
    (build tagBound halfSplit 3 (100 : Int) 3 Bvh.empty [(0, 3), (1, 1), (2, 2)]).bind
        (fun r => (intersect (logCollide (nearestCollide rayDistance)) 1 r.1 (fun _ => 0)
          (fun _ => 1) 100 (none, [])).map (fun t => (t.1, t.2.1, t.2.2.2))) =
      some (true, 1, [((0, 3), true), ((1, 1), true), ((2, 2), false)]) := by
  refine ⟨?_, ?_, ?_⟩ <;> decide

end PopInstances

section IeeeFacts

variable {T : Type} [LinearOrderedRing T] {N : Nat}

theorem Ieee.stdMax_negInf (r : Ieee T) : Ieee.stdMax r .negInf = r := by
  cases r <;> simp [Ieee.stdMax, Ieee.lt]

theorem Ieee.stdMin_posInf (r : Ieee T) : Ieee.stdMin r .posInf = r := by
  cases r <;> simp [Ieee.stdMin, Ieee.lt]

theorem Ieee.negInf_stdMax (x : Ieee T) (hx : x ≠ .nan) : Ieee.stdMax .negInf x = x := by
  cases x <;> simp [Ieee.stdMax, Ieee.lt] at hx ⊢

theorem Ieee.posInf_stdMin (x : Ieee T) (hx : x ≠ .nan) : Ieee.stdMin .posInf x = x := by
  cases x <;> simp [Ieee.stdMin, Ieee.lt] at hx ⊢

/-- A reduction whose step at `i` leaves the accumulator as it is gives the same value when
the component `i` is left out. -/
theorem foldl_skip {α ι : Type} [DecidableEq ι] (f : α → ι → α) (i : ι)
    (hi : ∀ r, f r i = r) :
    ∀ (l : List ι) (init : α), l.foldl f init = (l.filter (fun j => decide (j ≠ i))).foldl f init := by
  intro l
  induction l with
  | nil => intro init; rfl
  | cons j l ih =>
    intro init
    by_cases hj : j = i
    · subst hj
      simp only [List.foldl_cons, hi, ne_eq, not_true_eq_false, decide_False,
        Bool.false_eq_true, not_false_eq_true, List.filter_cons_of_neg]
      exact ih init
    · simp only [List.foldl_cons, ne_eq, hj, not_false_eq_true, decide_True,
        List.filter_cons_of_pos]
      exact ih _

/-- A reduction ends in a set `A` that its step never leaves and that the step at `i`
always enters, when `i` is among the components. -/
theorem foldl_absorb {α ι : Type} (f : α → ι → α) (A : α → Prop) (i : ι)
    (hstay : ∀ r j, A r → A (f r j)) (henter : ∀ r, A (f r i)) :
    ∀ (l : List ι) (init : α), i ∈ l → A (l.foldl f init) := by
  have hall : ∀ (l : List ι) (init : α), A init → A (l.foldl f init) := by
    intro l
    induction l with
    | nil => intro init h; exact h
    | cons j l ih => intro init h; exact ih _ (hstay init j h)
  intro l
  induction l with
  | nil => intro init h; cases h
  | cons j l ih =>
    intro init h
    rcases List.mem_cons.mp h with h | h
    · subst h
      exact hall l _ (henter init)
    · exact ih _ h

theorem Ieee.mulInf_of_pos (pos : Bool) (a : T) (h : 0 < a) :
    Ieee.mulInf pos a = if pos then .posInf else .negInf := by
  simp [Ieee.mulInf, h]

theorem Ieee.mulInf_of_neg (pos : Bool) (a : T) (h : a < 0) :
    Ieee.mulInf pos a = if pos then .negInf else .posInf := by
  simp [Ieee.mulInf, h, not_lt.mpr h.le]

/-- C31: the slab test `is_intersecting(b, org, inv, dist, true)` on IEEE-754 values, in a
dimension `i` where `inv[i]` is an infinity (the direction component is zero) and
`b.lo[i]`, `b.hi[i]`, `org[i]` are finite. If `org[i]` lies strictly between `b.lo[i]` and
`b.hi[i]`, then `k0[i]` and `k1[i]` are infinities of opposite sign, the reduction steps
`r = std::max(r, min(k0[i], k1[i]))` and `r = std::min(r, max(k0[i], k1[i]))` leave every
accumulator `r` as it is, a reduction that starts from these two values takes the next
value that is not a NaN, and `t0`, `t1` are the reductions with the component `i` left out.
If `org[i]` lies strictly outside the slab, then `k0[i]` and `k1[i]` are infinities of the
same sign and the test returns false, whatever the other components and `dist` are. -/
theorem zero_direction_slab [NeZero N] (b : Aabb (Ieee T) N) (org inv : VectorN (Ieee T) N)
    (dist : Ieee T) (i : Fin N) (lo hi o : T)
    (hlo : b.p0 i = .fin lo) (hhi : b.p1 i = .fin hi) (ho : org i = .fin o)
    (hinv : inv i = .posInf ∨ inv i = .negInf) :
    (lo < o → o < hi →
      ((Ieee.k0 b org inv i = .negInf ∧ Ieee.k1 b org inv i = .posInf) ∨
        (Ieee.k0 b org inv i = .posInf ∧ Ieee.k1 b org inv i = .negInf)) ∧
      (∀ r, Ieee.stdMax r (Ieee.stdMin (Ieee.k0 b org inv i) (Ieee.k1 b org inv i)) = r) ∧
      (∀ r, Ieee.stdMin r (Ieee.stdMax (Ieee.k0 b org inv i) (Ieee.k1 b org inv i)) = r) ∧
      (∀ x, x ≠ .nan →
        Ieee.stdMax (Ieee.stdMin (Ieee.k0 b org inv i) (Ieee.k1 b org inv i)) x = x ∧
        Ieee.stdMin (Ieee.stdMax (Ieee.k0 b org inv i) (Ieee.k1 b org inv i)) x = x) ∧
      Ieee.t0 b org inv =
        ((List.finRange N).filter (fun j => decide (j ≠ i))).foldl
          (fun r j => Ieee.stdMax r (Ieee.stdMin (Ieee.k0 b org inv j) (Ieee.k1 b org inv j)))
          (Ieee.stdMin (Ieee.k0 b org inv 0) (Ieee.k1 b org inv 0)) ∧
      Ieee.t1 b org inv =
        ((List.finRange N).filter (fun j => decide (j ≠ i))).foldl
          (fun r j => Ieee.stdMin r (Ieee.stdMax (Ieee.k0 b org inv j) (Ieee.k1 b org inv j)))
          (Ieee.stdMax (Ieee.k0 b org inv 0) (Ieee.k1 b org inv 0))) ∧
    (lo ≤ hi → (o < lo ∨ hi < o) →
      ((Ieee.k0 b org inv i = .posInf ∧ Ieee.k1 b org inv i = .posInf) ∨
        (Ieee.k0 b org inv i = .negInf ∧ Ieee.k1 b org inv i = .negInf)) ∧
      Ieee.is_intersecting b org inv dist = false) := by
  have hk0 : Ieee.k0 b org inv i = Ieee.mul (.fin (lo - o)) (inv i) := by
    simp only [Ieee.k0, hlo, ho, Ieee.sub]
  have hk1 : Ieee.k1 b org inv i = Ieee.mul (.fin (hi - o)) (inv i) := by
    simp only [Ieee.k1, hhi, ho, Ieee.sub]
  constructor
  · intro h1 h2
    have hn : lo - o < 0 := sub_neg.mpr h1
    have hp : 0 < hi - o := sub_pos.mpr h2
    have hmin : Ieee.stdMin (Ieee.k0 b org inv i) (Ieee.k1 b org inv i) = .negInf := by
      rcases hinv with h | h
      · rw [hk0, hk1, h]
        simp [Ieee.mul, Ieee.mulInf_of_neg _ _ hn, Ieee.mulInf_of_pos _ _ hp, Ieee.stdMin,
          Ieee.lt]
      · rw [hk0, hk1, h]
        simp [Ieee.mul, Ieee.mulInf_of_neg _ _ hn, Ieee.mulInf_of_pos _ _ hp, Ieee.stdMin,
          Ieee.lt]
    have hmax : Ieee.stdMax (Ieee.k0 b org inv i) (Ieee.k1 b org inv i) = .posInf := by
      rcases hinv with h | h
      · rw [hk0, hk1, h]
        simp [Ieee.mul, Ieee.mulInf_of_neg _ _ hn, Ieee.mulInf_of_pos _ _ hp, Ieee.stdMax,
          Ieee.lt]
      · rw [hk0, hk1, h]
        simp [Ieee.mul, Ieee.mulInf_of_neg _ _ hn, Ieee.mulInf_of_pos _ _ hp, Ieee.stdMax,
          Ieee.lt]
    refine ⟨?_, ?_, ?_, ?_, ?_, ?_⟩
    · rcases hinv with h | h
      · left
        rw [hk0, hk1, h]
        simp [Ieee.mul, Ieee.mulInf_of_neg _ _ hn, Ieee.mulInf_of_pos _ _ hp]
      · right
        rw [hk0, hk1, h]
        simp [Ieee.mul, Ieee.mulInf_of_neg _ _ hn, Ieee.mulInf_of_pos _ _ hp]
    · intro r
      rw [hmin]
      exact Ieee.stdMax_negInf r
    · intro r
      rw [hmax]
      exact Ieee.stdMin_posInf r
    · intro x hx
      rw [hmin, hmax]
      exact ⟨Ieee.negInf_stdMax x hx, Ieee.posInf_stdMin x hx⟩
    · unfold Ieee.t0
      exact foldl_skip _ i (fun r => by simp only [hmin]; exact Ieee.stdMax_negInf r) _ _
    · unfold Ieee.t1
      exact foldl_skip _ i (fun r => by simp only [hmax]; exact Ieee.stdMin_posInf r) _ _
  · intro hle hout
    have hmem : i ∈ List.finRange N := List.mem_finRange i
    have hsame : (Ieee.k0 b org inv i = .posInf ∧ Ieee.k1 b org inv i = .posInf) ∨
        (Ieee.k0 b org inv i = .negInf ∧ Ieee.k1 b org inv i = .negInf) := by
      rcases hout with h | h
      · have hp0 : 0 < lo - o := sub_pos.mpr h
        have hp1 : 0 < hi - o := sub_pos.mpr (lt_of_lt_of_le h hle)
        rcases hinv with hi2 | hi2
        · left
          rw [hk0, hk1, hi2]
          simp [Ieee.mul, Ieee.mulInf_of_pos _ _ hp0, Ieee.mulInf_of_pos _ _ hp1]
        · right
          rw [hk0, hk1, hi2]
          simp [Ieee.mul, Ieee.mulInf_of_pos _ _ hp0, Ieee.mulInf_of_pos _ _ hp1]
      · have hn0 : lo - o < 0 := sub_neg.mpr (lt_of_le_of_lt hle h)
        have hn1 : hi - o < 0 := sub_neg.mpr h
        rcases hinv with hi2 | hi2
        · right
          rw [hk0, hk1, hi2]
          simp [Ieee.mul, Ieee.mulInf_of_neg _ _ hn0, Ieee.mulInf_of_neg _ _ hn1]
        · left
          rw [hk0, hk1, hi2]
          simp [Ieee.mul, Ieee.mulInf_of_neg _ _ hn0, Ieee.mulInf_of_neg _ _ hn1]
    refine ⟨hsame, ?_⟩
    rcases hsame with ⟨e0, e1⟩ | ⟨e0, e1⟩
    · have ht0 : Ieee.t0 b org inv = .posInf ∨ Ieee.t0 b org inv = .nan := by
        unfold Ieee.t0
        refine foldl_absorb _ (fun r : Ieee T => r = Ieee.posInf ∨ r = Ieee.nan) i ?_ ?_ _ _ hmem
        · intro r j hr
          rcases hr with hr | hr
          · left; rw [hr]
            cases Ieee.stdMin (Ieee.k0 b org inv j) (Ieee.k1 b org inv j) <;>
              simp [Ieee.stdMax, Ieee.lt]
          · right; rw [hr]
            simp [Ieee.stdMax, Ieee.lt]
        · intro r
          simp only [e0, e1]
          cases r <;> simp [Ieee.stdMax, Ieee.stdMin, Ieee.lt]
      unfold Ieee.is_intersecting
      rcases ht0 with h | h
      · rw [h]
        cases dist <;> simp [Ieee.lt]
      · rw [h]
        simp [Ieee.lt]
    · have ht1 : Ieee.t1 b org inv = .negInf ∨ Ieee.t1 b org inv = .nan := by
        unfold Ieee.t1
        refine foldl_absorb _ (fun r : Ieee T => r = Ieee.negInf ∨ r = Ieee.nan) i ?_ ?_ _ _ hmem
        · intro r j hr
          rcases hr with hr | hr
          · left; rw [hr]
            cases Ieee.stdMax (Ieee.k0 b org inv j) (Ieee.k1 b org inv j) <;>
              simp [Ieee.stdMin, Ieee.lt]
          · right; rw [hr]
            cases Ieee.stdMax (Ieee.k0 b org inv j) (Ieee.k1 b org inv j) <;>
              simp [Ieee.stdMin, Ieee.lt]
        · intro r
          simp only [e0, e1]
          cases r <;> simp [Ieee.stdMax, Ieee.stdMin, Ieee.lt]
      unfold Ieee.is_intersecting
      rcases ht1 with h | h
      · rw [h]
        simp [Ieee.lt]
      · rw [h]
        simp [Ieee.lt]

end IeeeFacts

section IeeeInstances

/-- The theorem `zero_direction_slab` at the square `[0, 2] × [0, 2]`, the origin
`(1, -1)` and the direction `(0, 1)`. -/
theorem zero_direction_slab_witness :
    squareBox.p0 0 = Ieee.fin 0 ∧ squareBox.p1 0 = Ieee.fin 2 ∧ originAt 1 0 = Ieee.fin 1 ∧
    (upInv 0 = Ieee.posInf ∨ upInv 0 = Ieee.negInf) ∧
    ((0 : Int) < 1 → (1 : Int) < 2 →
      ((Ieee.k0 squareBox (originAt 1) upInv 0 = Ieee.negInf ∧
          Ieee.k1 squareBox (originAt 1) upInv 0 = Ieee.posInf) ∨
        (Ieee.k0 squareBox (originAt 1) upInv 0 = Ieee.posInf ∧
          Ieee.k1 squareBox (originAt 1) upInv 0 = Ieee.negInf)) ∧
      (∀ r, Ieee.stdMax r (Ieee.stdMin (Ieee.k0 squareBox (originAt 1) upInv 0)
        (Ieee.k1 squareBox (originAt 1) upInv 0)) = r) ∧
      (∀ r, Ieee.stdMin r (Ieee.stdMax (Ieee.k0 squareBox (originAt 1) upInv 0)
        (Ieee.k1 squareBox (originAt 1) upInv 0)) = r) ∧
      (∀ x, x ≠ Ieee.nan →
        Ieee.stdMax (Ieee.stdMin (Ieee.k0 squareBox (originAt 1) upInv 0)
          (Ieee.k1 squareBox (originAt 1) upInv 0)) x = x ∧
        Ieee.stdMin (Ieee.stdMax (Ieee.k0 squareBox (originAt 1) upInv 0)
          (Ieee.k1 squareBox (originAt 1) upInv 0)) x = x) ∧
      Ieee.t0 squareBox (originAt 1) upInv =
        ((List.finRange 2).filter (fun j => decide (j ≠ 0))).foldl
          (fun r j => Ieee.stdMax r (Ieee.stdMin (Ieee.k0 squareBox (originAt 1) upInv j)
            (Ieee.k1 squareBox (originAt 1) upInv j)))
          (Ieee.stdMin (Ieee.k0 squareBox (originAt 1) upInv 0)
            (Ieee.k1 squareBox (originAt 1) upInv 0)) ∧
      Ieee.t1 squareBox (originAt 1) upInv =
        ((List.finRange 2).filter (fun j => decide (j ≠ 0))).foldl
          (fun r j => Ieee.stdMin r (Ieee.stdMax (Ieee.k0 squareBox (originAt 1) upInv j)
            (Ieee.k1 squareBox (originAt 1) upInv j)))
          (Ieee.stdMax (Ieee.k0 squareBox (originAt 1) upInv 0)
            (Ieee.k1 squareBox (originAt 1) upInv 0))) ∧
    ((0 : Int) ≤ 2 → ((1 : Int) < 0 ∨ (2 : Int) < 1) →
      ((Ieee.k0 squareBox (originAt 1) upInv 0 = Ieee.posInf ∧
          Ieee.k1 squareBox (originAt 1) upInv 0 = Ieee.posInf) ∨
        (Ieee.k0 squareBox (originAt 1) upInv 0 = Ieee.negInf ∧
          Ieee.k1 squareBox (originAt 1) upInv 0 = Ieee.negInf)) ∧
      Ieee.is_intersecting squareBox (originAt 1) upInv (Ieee.fin 100) = false) :=
  ⟨rfl, rfl, rfl, Or.inl rfl,
    zero_direction_slab squareBox (originAt 1) upInv (Ieee.fin 100) 0 0 2 1 rfl rfl rfl
      (Or.inl rfl)⟩

/-- The slab test on the square `[0, 2] × [0, 2]` for rays from `(x, -1)` with the
direction `(0, 1)` or `(-0, 1)` and `dist = 100`. From `x = 1`, inside the slab of
dimension 0, `k0[0]` and `k1[0]` are `-inf` and `+inf` (or `+inf` and `-inf`), `t0 = 1` and
`t1 = 3` are the values of dimension 1, and the test is true. From `x = 3` and from
`x = -1`, outside the slab, both are the same infinity and the test is false. -/
theorem zero_direction_slab_example :
    (Ieee.k0 squareBox (originAt 1) upInv 0, Ieee.k1 squareBox (originAt 1) upInv 0) =
      (Ieee.negInf, Ieee.posInf) ∧
    (Ieee.k0 squareBox (originAt 1) upInvNeg 0, Ieee.k1 squareBox (originAt 1) upInvNeg 0) =
      (Ieee.posInf, Ieee.negInf) ∧
    (Ieee.t0 squareBox (originAt 1) upInv, Ieee.t1 squareBox (originAt 1) upInv) =
      (Ieee.fin 1, Ieee.fin 3) ∧
    Ieee.is_intersecting squareBox (originAt 1) upInv (Ieee.fin 100) = true ∧
    Ieee.is_intersecting squareBox (originAt 1) upInvNeg (Ieee.fin 100) = true ∧
    (Ieee.k0 squareBox (originAt 3) upInv 0, Ieee.k1 squareBox (originAt 3) upInv 0) =
      (Ieee.negInf, Ieee.negInf) ∧
    Ieee.is_intersecting squareBox (originAt 3) upInv (Ieee.fin 100) = false ∧
    (Ieee.k0 squareBox (originAt (-1)) upInv 0, Ieee.k1 squareBox (originAt (-1)) upInv 0) =
      (Ieee.posInf, Ieee.posInf) ∧
    Ieee.is_intersecting squareBox (originAt (-1)) upInv (Ieee.fin 100) = false := by
  decide

end IeeeInstances

section IeeeSlabFacts

variable {T : Type} [LinearOrderedField T] {N : Nat}

/-- A reduction whose step returns the accumulator or the component ends in every set that
holds the initial value and the components. -/
theorem foldl_pick {α ι : Type} (f : α → ι → α) (g : ι → α) (A : α → Prop)
    (hpick : ∀ r i, f r i = r ∨ f r i = g i) :
    ∀ (l : List ι) (init : α), A init → (∀ i ∈ l, A (g i)) → A (l.foldl f init) := by
  intro l
  induction l with
  | nil => intro init h _; exact h
  | cons j l ih =>
    intro init h hl
    rw [List.foldl_cons]
    apply ih
    · rcases hpick init j with e | e
      · rw [e]; exact h
      · rw [e]; exact hl j (List.mem_cons_self _ _)
    · intro i hi
      exact hl i (List.mem_cons_of_mem _ hi)

omit [LinearOrderedField T] in
theorem Ieee.round_id [LinearOrderedRing T] (x : Ieee T) : Ieee.round (fun a => a) x = x := by
  cases x <;> rfl

/-- The values `min(k0[i], k1[i])` and `max(k0[i], k1[i])` of the slab test in exact
arithmetic, for a box that holds the point `org + t * dir` of the ray: the first is `-inf`
or a number that is at most `t`, the second is `+inf` or a number that is at least `t`, when
`org[i]` lies strictly inside the slab in case `dir[i]` is zero. -/
theorem Ieee.slab_component (negZero : Bool) (lo hi o d t : T)
    (hin : lo ≤ o + t * d ∧ o + t * d ≤ hi) (hzero : d = 0 → lo < o ∧ o < hi) :
    (Ieee.stdMin
        (Ieee.mul (Ieee.sub (.fin lo) (.fin o)) (Ieee.div negZero (.fin 1) (.fin d)))
        (Ieee.mul (Ieee.sub (.fin hi) (.fin o)) (Ieee.div negZero (.fin 1) (.fin d)))
        = Ieee.negInf ∨
      ∃ v, Ieee.stdMin
        (Ieee.mul (Ieee.sub (.fin lo) (.fin o)) (Ieee.div negZero (.fin 1) (.fin d)))
        (Ieee.mul (Ieee.sub (.fin hi) (.fin o)) (Ieee.div negZero (.fin 1) (.fin d)))
        = Ieee.fin v ∧ v ≤ t) ∧
    (Ieee.stdMax
        (Ieee.mul (Ieee.sub (.fin lo) (.fin o)) (Ieee.div negZero (.fin 1) (.fin d)))
        (Ieee.mul (Ieee.sub (.fin hi) (.fin o)) (Ieee.div negZero (.fin 1) (.fin d)))
        = Ieee.posInf ∨
      ∃ v, Ieee.stdMax
        (Ieee.mul (Ieee.sub (.fin lo) (.fin o)) (Ieee.div negZero (.fin 1) (.fin d)))
        (Ieee.mul (Ieee.sub (.fin hi) (.fin o)) (Ieee.div negZero (.fin 1) (.fin d)))
        = Ieee.fin v ∧ t ≤ v) := by
  by_cases hd : d = 0
  · obtain ⟨h1, h2⟩ := hzero hd
    have n1 : lo - o < 0 := sub_neg.mpr h1
    have n2 : 0 < hi - o := sub_pos.mpr h2
    subst hd
    cases negZero
    · simp [Ieee.div, Ieee.sub, Ieee.mul, Ieee.mulInf, Ieee.stdMin, Ieee.stdMax, Ieee.lt, n1,
        n2, not_lt.mpr n1.le, not_lt.mpr n2.le]
    · simp [Ieee.div, Ieee.sub, Ieee.mul, Ieee.mulInf, Ieee.stdMin, Ieee.stdMax, Ieee.lt, n1,
        n2, not_lt.mpr n1.le, not_lt.mpr n2.le]
  · have e0 : Ieee.mul (Ieee.sub (.fin lo) (.fin o)) (Ieee.div negZero (.fin 1) (.fin d))
        = Ieee.fin ((lo - o) / d) := by
      simp [Ieee.div, Ieee.sub, Ieee.mul, hd, div_eq_mul_inv]
    have e1 : Ieee.mul (Ieee.sub (.fin hi) (.fin o)) (Ieee.div negZero (.fin 1) (.fin d))
        = Ieee.fin ((hi - o) / d) := by
      simp [Ieee.div, Ieee.sub, Ieee.mul, hd, div_eq_mul_inv]
    rw [e0, e1]
    have hmin : Ieee.stdMin (Ieee.fin ((lo - o) / d)) (Ieee.fin ((hi - o) / d))
        = Ieee.fin (min ((lo - o) / d) ((hi - o) / d)) := by
      simp only [Ieee.stdMin, Ieee.lt]
      by_cases h : (hi - o) / d < (lo - o) / d
      · simp [h, min_eq_right h.le]
      · simp [h, min_eq_left (not_lt.mp h)]
    have hmax : Ieee.stdMax (Ieee.fin ((lo - o) / d)) (Ieee.fin ((hi - o) / d))
        = Ieee.fin (max ((lo - o) / d) ((hi - o) / d)) := by
      simp only [Ieee.stdMax, Ieee.lt]
      by_cases h : (lo - o) / d < (hi - o) / d
      · simp [h, max_eq_right h.le]
      · simp [h, max_eq_left (not_lt.mp h)]
    rw [hmin, hmax]
    refine ⟨Or.inr ⟨_, rfl, ?_⟩, Or.inr ⟨_, rfl, ?_⟩⟩
    · rw [min_le_iff]
      rcases lt_or_gt_of_ne hd with hneg | hpos
      · right
        rw [div_le_iff_of_neg hneg]
        linarith [hin.2]
      · left
        rw [div_le_iff₀ hpos]
        linarith [hin.1]
    · rw [le_max_iff]
      rcases lt_or_gt_of_ne hd with hneg | hpos
      · left
        rw [le_div_iff_of_neg hneg]
        linarith [hin.1]
      · right
        rw [le_div_iff₀ hpos]
        linarith [hin.2]

omit [LinearOrderedField T] in
theorem Ieee.stdMax_pick [LinearOrderedRing T] (r x : Ieee T) :
    Ieee.stdMax r x = r ∨ Ieee.stdMax r x = x := by
  unfold Ieee.stdMax
  split_ifs
  · right; rfl
  · left; rfl

omit [LinearOrderedField T] in
theorem Ieee.stdMin_pick [LinearOrderedRing T] (r x : Ieee T) :
    Ieee.stdMin r x = r ∨ Ieee.stdMin r x = x := by
  unfold Ieee.stdMin
  split_ifs
  · right; rfl
  · left; rfl

/-- The slab test of `Bvh::intersect` in exact arithmetic accepts a box that holds a point
`org + t * dir` of the ray with `0 < t < dist`, when `org` lies strictly inside the slab of
the box in every dimension where `dir` is zero. -/
theorem Ieee.slab_accepts_point [NeZero N] (negZero : Fin N → Bool) (b : Aabb T N)
    (org dir : VectorN T N) (dist t : T) (ht0 : 0 < t) (htd : t < dist)
    (hin : ∀ i, b.p0 i ≤ org i + t * dir i ∧ org i + t * dir i ≤ b.p1 i)
    (hzero : ∀ i, dir i = 0 → b.p0 i < org i ∧ org i < b.p1 i) :
    Ieee.is_intersecting_inv (fun x => x) (Ieee.ofBox b) (Ieee.ofVec org)
      (Ieee.inv (fun x => x) negZero dir) (Ieee.fin dist) = true := by
  unfold Ieee.is_intersecting_inv Ieee.slab
  simp only [Ieee.round_id, Ieee.ofBox, Ieee.ofVec, Ieee.inv, make_vector_apply]
  have hcomp := fun i => Ieee.slab_component (negZero i) (b.p0 i) (b.p1 i) (org i) (dir i) t
    (hin i) (hzero i)
  have h0 := foldl_pick
    (fun r i => Ieee.stdMax r (Ieee.stdMin
      (Ieee.mul (Ieee.sub (.fin (b.p0 i)) (.fin (org i)))
        (Ieee.div (negZero i) (.fin 1) (.fin (dir i))))
      (Ieee.mul (Ieee.sub (.fin (b.p1 i)) (.fin (org i)))
        (Ieee.div (negZero i) (.fin 1) (.fin (dir i))))))
    (fun i => Ieee.stdMin
      (Ieee.mul (Ieee.sub (.fin (b.p0 i)) (.fin (org i)))
        (Ieee.div (negZero i) (.fin 1) (.fin (dir i))))
      (Ieee.mul (Ieee.sub (.fin (b.p1 i)) (.fin (org i)))
        (Ieee.div (negZero i) (.fin 1) (.fin (dir i)))))
    (fun x => x = Ieee.negInf ∨ ∃ v, x = Ieee.fin v ∧ v ≤ t)
    (fun r i => Ieee.stdMax_pick r _) (List.finRange N) _ (hcomp 0).1
    (fun i _ => (hcomp i).1)
  have h1 := foldl_pick
    (fun r i => Ieee.stdMin r (Ieee.stdMax
      (Ieee.mul (Ieee.sub (.fin (b.p0 i)) (.fin (org i)))
        (Ieee.div (negZero i) (.fin 1) (.fin (dir i))))
      (Ieee.mul (Ieee.sub (.fin (b.p1 i)) (.fin (org i)))
        (Ieee.div (negZero i) (.fin 1) (.fin (dir i))))))
    (fun i => Ieee.stdMax
      (Ieee.mul (Ieee.sub (.fin (b.p0 i)) (.fin (org i)))
        (Ieee.div (negZero i) (.fin 1) (.fin (dir i))))
      (Ieee.mul (Ieee.sub (.fin (b.p1 i)) (.fin (org i)))
        (Ieee.div (negZero i) (.fin 1) (.fin (dir i)))))
    (fun x => x = Ieee.posInf ∨ ∃ v, x = Ieee.fin v ∧ t ≤ v)
    (fun r i => Ieee.stdMin_pick r _) (List.finRange N) _ (hcomp 0).2
    (fun i _ => (hcomp i).2)
  simp only at h0 h1
  rcases h0 with e0 | ⟨v0, e0, hv0⟩ <;> rcases h1 with e1 | ⟨v1, e1, hv1⟩ <;>
    rw [e0, e1] <;> simp [Ieee.lt, Ieee.le]
  · exact lt_of_lt_of_le ht0 hv1
  · exact lt_of_le_of_lt hv0 htd
  · exact ⟨⟨lt_of_lt_of_le ht0 hv1, le_trans hv0 hv1⟩, lt_of_le_of_lt hv0 htd⟩

/-- When the slab test on a box is computed without rounding error, the test with rounded
operations is the test in exact arithmetic. -/
theorem Ieee.is_intersecting_inv_exact [NeZero N] (rnd : T → T) (negZero : Fin N → Bool)
    (b : Aabb T N) (org dir : VectorN T N) (dist : T)
    (h : Ieee.SlabExact rnd negZero b org dir) :
    Ieee.is_intersecting_inv rnd (Ieee.ofBox b) (Ieee.ofVec org) (Ieee.inv rnd negZero dir)
        (Ieee.fin dist) =
      Ieee.is_intersecting_inv (fun x => x) (Ieee.ofBox b) (Ieee.ofVec org)
        (Ieee.inv (fun x => x) negZero dir) (Ieee.fin dist) := by
  unfold Ieee.is_intersecting_inv
  have e0 : (fun i => Ieee.round rnd (Ieee.mul (Ieee.round rnd
        (Ieee.sub ((Ieee.ofBox b).p0 i) (Ieee.ofVec org i))) (Ieee.inv rnd negZero dir i))) =
      (fun i => Ieee.round (fun x => x) (Ieee.mul (Ieee.round (fun x => x)
        (Ieee.sub ((Ieee.ofBox b).p0 i) (Ieee.ofVec org i)))
        (Ieee.inv (fun x => x) negZero dir i))) := by
    funext i
    simp only [Ieee.round_id]
    exact (h i).1
  have e1 : (fun i => Ieee.round rnd (Ieee.mul (Ieee.round rnd
        (Ieee.sub ((Ieee.ofBox b).p1 i) (Ieee.ofVec org i))) (Ieee.inv rnd negZero dir i))) =
      (fun i => Ieee.round (fun x => x) (Ieee.mul (Ieee.round (fun x => x)
        (Ieee.sub ((Ieee.ofBox b).p1 i) (Ieee.ofVec org i)))
        (Ieee.inv (fun x => x) negZero dir i))) := by
    funext i
    simp only [Ieee.round_id]
    exact (h i).2
  rw [e0, e1]

end IeeeSlabFacts

section IeeeIntersectFacts

variable {P T S : Type} [LinearOrderedField T] {N : Nat} [NeZero N]

/-- Popping the root `k` of a subtree, when the slab test on the boxes of the tree is computed
without rounding error: the loop goes on with the rest of the stack after at most `hi - k`
pops, in a state related to the entry state by every relation `R` that each call of
`collide` keeps; and a target primitive of the subtree that `collide` hits at a distance `t`
below the entry distance brings the distance down to `t` or less. -/
theorem ieee_intersectLoop_subtree (bound : P → Aabb T N) (MAX : T) (self : Bvh P T N)
    (rnd : T → T) (negZero : Fin N → Bool)
    (collide : P → VectorN T N → VectorN T N → T → S → Bool × T × S)
    (org dir : VectorN T N) (neg : Fin N → Bool)
    (hexact : ∀ nd ∈ self.mNodes, Ieee.SlabExact rnd negZero nd.b org dir)
    (R : Bool × T × S → Bool × T × S → Prop)
    (hrefl : ∀ a, R a a) (htrans : ∀ a b c, R a b → R b c → R a c)
    (hmono : ∀ a b, R a b → b.2.1 ≤ a.2.1)
    (hstep : ∀ p ∈ self.mPrimitives, ∀ hit d s, R (hit, d, s)
      (if (collide p org dir d s).1 then true else hit, (collide p org dir d s).2.1,
        (collide p org dir d s).2.2))
    (targets : P → T → Prop)
    (htar : ∀ p t, targets p t → 0 < t ∧
      (∀ i, (bound p).p0 i ≤ org i + t * dir i ∧ org i + t * dir i ≤ (bound p).p1 i) ∧
      (∀ i, dir i = 0 → (bound p).p0 i < org i ∧ org i < (bound p).p1 i) ∧
      ∀ d s, t < d → (collide p org dir d s).2.1 ≤ t)
    {k hi b e : Nat} (h : Subtree bound MAX self.mNodes self.mPrimitives k hi b e) :
    ∀ (rest : List Int) (hit : Bool) (d : T) (s : S),
      ∃ (c : Nat) (a : Bool × T × S), c ≤ hi - k ∧
        (∀ F res,
          Ieee.intersectLoop rnd collide self org dir (Ieee.inv rnd negZero dir)
            neg F rest a.1 a.2.1 a.2.2 = some res →
          Ieee.intersectLoop rnd collide self org dir (Ieee.inv rnd negZero dir)
            neg (F + c) ((k : Int) :: rest) hit d s = some res) ∧
        R (hit, d, s) a ∧
        ∀ p t, targets p t → p ∈ slice self.mPrimitives b e → t < d → a.2.1 ≤ t := by
  have hslab : ∀ (nd : BvhNode T N) (b e : Nat) (d : T), nd ∈ self.mNodes →
      nd.b = rangeBox bound MAX self.mPrimitives b e →
      Ieee.is_intersecting_inv rnd (Ieee.ofBox nd.b) (Ieee.ofVec org)
        (Ieee.inv rnd negZero dir) (Ieee.fin d) ≠ true →
      ∀ p t, targets p t → p ∈ slice self.mPrimitives b e → t < d → False := by
    intro nd b e d hmem hb hno p t hpt hp htd
    obtain ⟨ht0, hin, hzero, _⟩ := htar p t hpt
    apply hno
    rw [Ieee.is_intersecting_inv_exact rnd negZero nd.b org dir d (hexact nd hmem)]
    apply Ieee.slab_accepts_point negZero nd.b org dir d t ht0 htd
    · intro i
      have he := rangeBox_encloses bound MAX self.mPrimitives b e p hp i
      rw [hb]
      exact ⟨le_trans he.1 (hin i).1, le_trans (hin i).2 he.2⟩
    · intro i hi
      have he := rangeBox_encloses bound MAX self.mPrimitives b e p hp i
      rw [hb]
      exact ⟨lt_of_le_of_lt he.1 (hzero i hi).1, lt_of_lt_of_le (hzero i hi).2 he.2⟩
  induction h with
  | leaf k b e nd hk hbe he h0 h1 hb =>
    intro rest hit d s
    have hnode : nodeAt self.mNodes (k : Int) = some nd := by rw [nodeAt_natCast]; exact hk
    have hleaf : is_leaf nd = true := by simp [is_leaf, h1]; omega
    have hlp : leafPrims self.mPrimitives nd.i0 (nd.i0 + length nd)
        = some (slice self.mPrimitives b e) := by
      have e1 : nd.i0 + length nd = (e : Int) := by rw [h0, length, h1]; omega
      rw [e1, h0]
      unfold leafPrims
      rw [if_neg (by omega), if_pos ⟨by omega, by omega⟩]
      simp
    by_cases hs : Ieee.is_intersecting_inv rnd (Ieee.ofBox nd.b) (Ieee.ofVec org)
        (Ieee.inv rnd negZero dir) (Ieee.fin d) = true
    · have hcl := collideLeaf_spec collide org dir R hrefl htrans hmono targets
        (fun p t hpt => (htar p t hpt).2.2.2) (slice self.mPrimitives b e)
        (fun p hp => hstep p (by
          obtain ⟨i, _, _, hi⟩ := (mem_slice_iff _ _ _ _).mp hp
          exact List.getElem?_mem hi)) hit d s
      refine ⟨1, collideLeaf collide org dir (slice self.mPrimitives b e) hit d s, by omega,
        ?_, hcl.1, hcl.2⟩
      intro F res hres
      rw [Ieee.intersectLoop]
      simp only [hnode, hs, hleaf, hlp, if_true]
      exact hres
    · refine ⟨1, (hit, d, s), by omega, ?_, hrefl _, ?_⟩
      · intro F res hres
        rw [Ieee.intersectLoop]
        simp only [hnode, hs]
        exact hres
      · intro p t hpt hp htd
        exact absurd (hslab nd b e d (List.getElem?_mem hk) hb hs p t hpt hp htd) id
  | inner k r hi b m e nd hk h0 h1 hb hl hr ihl ihr =>
    intro rest hit d s
    have bl := hl.bounds
    have br := hr.bounds
    have hnode : nodeAt self.mNodes (k : Int) = some nd := by rw [nodeAt_natCast]; exact hk
    have hleaf : is_leaf nd = false := by simp [is_leaf, h1]
    by_cases hs : Ieee.is_intersecting_inv rnd (Ieee.ofBox nd.b) (Ieee.ofVec org)
        (Ieee.inv rnd negZero dir) (Ieee.fin d) = true
    · by_cases hneg : neg (longest_axis nd.b) = true
      · -- the right child is popped first
        obtain ⟨c2, a2, hc2, k2, r2, t2⟩ := ihr (((k + 1 : Nat) : Int) :: rest) hit d s
        obtain ⟨c1, a1, hc1, k1, r1, t1⟩ := ihl rest a2.1 a2.2.1 a2.2.2
        have hm1 := hmono _ _ r1
        have hm2 := hmono _ _ r2
        simp only at hm1 hm2
        refine ⟨c1 + c2 + 1, a1, by omega, ?_, htrans _ _ _ r2 r1, ?_⟩
        · intro F res hres
          have e1 : F + (c1 + c2 + 1) = (F + c1 + c2) + 1 := by omega
          rw [e1, Ieee.intersectLoop]
          simp only [hnode, hs, hleaf, hneg, if_true, h0, h1]
          exact k2 _ _ (k1 _ _ hres)
        · intro p t hpt hp htd
          rw [slice_append self.mPrimitives bl.2.2.1.le br.2.2.1.le, List.mem_append] at hp
          rcases hp with hp | hp
          · rcases lt_or_le t a2.2.1 with h | h
            · exact t1 p t hpt hp h
            · exact le_trans hm1 h
          · exact le_trans hm1 (t2 p t hpt hp htd)
      · -- the left child is popped first
        obtain ⟨c1, a1, hc1, k1, r1, t1⟩ := ihl ((r : Int) :: rest) hit d s
        obtain ⟨c2, a2, hc2, k2, r2, t2⟩ := ihr rest a1.1 a1.2.1 a1.2.2
        have hm1 := hmono _ _ r1
        have hm2 := hmono _ _ r2
        simp only at hm1 hm2
        refine ⟨c1 + c2 + 1, a2, by omega, ?_, htrans _ _ _ r1 r2, ?_⟩
        · intro F res hres
          have e1 : F + (c1 + c2 + 1) = (F + c2 + c1) + 1 := by omega
          rw [e1, Ieee.intersectLoop]
          simp only [hnode, hs, hleaf, hneg, if_true, h0, h1]
          exact k1 _ _ (k2 _ _ hres)
        · intro p t hpt hp htd
          rw [slice_append self.mPrimitives bl.2.2.1.le br.2.2.1.le, List.mem_append] at hp
          rcases hp with hp | hp
          · exact le_trans hm2 (t1 p t hpt hp htd)
          · rcases lt_or_le t a1.2.1 with h | h
            · exact t2 p t hpt hp h
            · exact le_trans hm2 h
    · refine ⟨1, (hit, d, s), by omega, ?_, hrefl _, ?_⟩
      · intro F res hres
        rw [Ieee.intersectLoop]
        simp only [hnode, hs]
        exact hres
      · intro p t hpt hp htd
        exact absurd (hslab nd b e d (List.getElem?_mem hk) hb hs p t hpt hp htd) id

/-- The method `intersect` on a tree that is one subtree rooted at 0, when the slab test on
the boxes of the tree is computed without rounding error: with fuel for every node it
returns, in a state related to the entry state by every relation `R` that each call of
`collide` keeps, and with a distance at most that of every target below the initial
distance. -/
theorem ieee_intersect_built (bound : P → Aabb T N) (MAX : T) (self : Bvh P T N)
    (rnd : T → T) (negZero : Fin N → Bool)
    (collide : P → VectorN T N → VectorN T N → T → S → Bool × T × S)
    (org dir : VectorN T N)
    (hexact : ∀ nd ∈ self.mNodes, Ieee.SlabExact rnd negZero nd.b org dir)
    (R : Bool × T × S → Bool × T × S → Prop)
    (hrefl : ∀ a, R a a) (htrans : ∀ a b c, R a b → R b c → R a c)
    (hmono : ∀ a b, R a b → b.2.1 ≤ a.2.1)
    (hstep : ∀ p ∈ self.mPrimitives, ∀ hit d s, R (hit, d, s)
      (if (collide p org dir d s).1 then true else hit, (collide p org dir d s).2.1,
        (collide p org dir d s).2.2))
    (targets : P → T → Prop)
    (htar : ∀ p t, targets p t → 0 < t ∧
      (∀ i, (bound p).p0 i ≤ org i + t * dir i ∧ org i + t * dir i ≤ (bound p).p1 i) ∧
      (∀ i, dir i = 0 → (bound p).p0 i < org i ∧ org i < (bound p).p1 i) ∧
      ∀ d s, t < d → (collide p org dir d s).2.1 ≤ t)
    (n : Nat) (h : Subtree bound MAX self.mNodes self.mPrimitives 0 self.mNodes.length 0 n)
    (fuel : Nat) (hf : self.mNodes.length ≤ fuel) (d0 : T) (s0 : S) :
    ∃ a, Ieee.intersect rnd negZero collide fuel self org dir d0 s0 = some a ∧ R (false, d0, s0) a ∧
      ∀ p t, targets p t → p ∈ slice self.mPrimitives 0 n → t < d0 → a.2.1 ≤ t := by
  obtain ⟨c, a, hc, hk, hr, ht⟩ := ieee_intersectLoop_subtree bound MAX self rnd negZero
    collide org dir (fun i => decide (dir i < 0)) hexact R hrefl htrans hmono hstep targets
    htar h [] false d0 s0
  refine ⟨a, ?_, hr, ht⟩
  have hb := h.bounds
  have hne : self.mNodes.isEmpty = false := by
    cases hn : self.mNodes with
    | nil => rw [hn] at hb; simp at hb
    | cons x l => rfl
  unfold Ieee.intersect
  rw [hne]
  simp only [Bool.false_eq_true, if_false]
  have h2 := hk (fuel - c) a (by rw [Ieee.intersectLoop])
  have e1 : fuel - c + c = fuel := by omega
  rw [e1] at h2
  simpa using h2

end IeeeIntersectFacts

section IeeeIntersectTheorems

variable {P T S : Type} [LinearOrderedField T] {N : Nat} [NeZero N]

/-- C4 (amended): on a tree built on a default-constructed `Bvh`, for a floating-point `T`
whose operations round with `rnd`, every ray, also one with zero components of either sign
in its direction, and a callback `collide` that never raises `dist` and leaves it unchanged
when it returns false. If `collide` takes the primitive `p` for a hit at a distance `t` with
`0 < t < dist`, the hit point lies inside `bound p`, and the origin lies strictly inside the
slab of `bound p` in every dimension where the direction is zero, then, the slab test on the
boxes of the tree being computed without rounding error, `intersect` returns true and the
final `dist` is at most `t`. -/
theorem intersect_finds_hit (bound : P → Aabb T N)
    (split : List P → Nat → Nat → Option (List P × Nat)) (threshold : Int) (MAX : T)
    (fuel : Nat) (prims : List P) (hs : SplitContract split) (hf : prims.length ≤ fuel)
    (rnd : T → T) (negZero : Fin N → Bool)
    (collide : P → VectorN T N → VectorN T N → T → S → Bool × T × S)
    (org dir : VectorN T N) (dist : T) (s0 : S) (p : P) (t : T)
    (hcol : ∀ q d s, (collide q org dir d s).2.1 ≤ d ∧
      ((collide q org dir d s).1 = false → (collide q org dir d s).2.1 = d))
    (hp : p ∈ prims) (ht0 : 0 < t) (htd : t < dist)
    (hin : is_inside (bound p) (fun i => org i + t * dir i) = true)
    (hzero : ∀ i, dir i = 0 → (bound p).p0 i < org i ∧ org i < (bound p).p1 i)
    (hhit : ∀ d s, t < d → (collide p org dir d s).2.1 ≤ t) :
    ∃ s, build bound split threshold MAX fuel Bvh.empty prims = some (s, []) ∧
      ((∀ nd ∈ s.mNodes, Ieee.SlabExact rnd negZero nd.b org dir) →
        ∀ fuel2, s.mNodes.length ≤ fuel2 →
          ∃ d sfin, Ieee.intersect rnd negZero collide fuel2 s org dir dist s0
            = some (true, d, sfin) ∧ d ≤ t) := by
  obtain ⟨s, h1, h2, h3⟩ := build_fresh_spec bound split threshold MAX hs fuel prims
    (List.ne_nil_of_mem hp) hf
  refine ⟨s, h1, ?_⟩
  intro hexact fuel2 hf2
  obtain ⟨a, ha, hr, ht⟩ := ieee_intersect_built bound MAX s rnd negZero collide org dir hexact
    HitMono HitMono.refl_hit (fun _ _ _ => HitMono.trans_hit) (fun _ _ hab => hab.1)
    (fun q _ hit d s => HitMono.step_hit collide org dir q hit d s (hcol q d s))
    (fun q u => q = p ∧ u = t)
    (fun q u hqu => by
      obtain ⟨rfl, rfl⟩ := hqu
      exact ⟨ht0, (is_inside_iff _ _).mp hin, hzero, hhit⟩)
    prims.length h3 fuel2 hf2 dist s0
  have hmem : p ∈ slice s.mPrimitives 0 prims.length := by
    rw [← h2.1, slice_zero_length]
    exact h2.perm.symm.subset hp
  have hle : a.2.1 ≤ t := ht p t ⟨rfl, rfl⟩ hmem htd
  have hhit2 : a.1 = true := hr.2.2 (lt_of_le_of_lt hle htd)
  refine ⟨a.2.1, a.2.2, ?_, hle⟩
  rw [ha, ← hhit2]

/-- C5 (amended): on a tree built on a default-constructed `Bvh`, for a floating-point `T`
whose operations round with `rnd`, every ray, also one with zero components of either sign
in its direction, and the callback `nearestCollide` of a ray-primitive distance. If every
ray-primitive distance is positive with its hit point inside the box of the primitive, and
the origin lies strictly inside the slab of that box in every dimension where the direction
is zero, then, the slab test on the boxes of the tree being computed without rounding
error, `intersect` returns the result and the final `dist` of the linear scan over all
primitives in storage order, and the same hit-id whenever only one primitive is at that
final distance. -/
theorem intersect_eq_linearScan (bound : P → Aabb T N)
    (split : List P → Nat → Nat → Option (List P × Nat)) (threshold : Int) (MAX : T)
    (fuel : Nat) (prims : List P) (hs : SplitContract split) (hf : prims.length ≤ fuel)
    (rnd : T → T) (negZero : Fin N → Bool)
    (rayDist : P → VectorN T N → VectorN T N → Option T)
    (org dir : VectorN T N) (dist : T) (id0 : Option P)
    (hray : ∀ p ∈ prims, ∀ t, rayDist p org dir = some t →
      0 < t ∧ is_inside (bound p) (fun i => org i + t * dir i) = true ∧
      ∀ i, dir i = 0 → (bound p).p0 i < org i ∧ org i < (bound p).p1 i) :
    ∃ s, build bound split threshold MAX fuel Bvh.empty prims = some (s, []) ∧
      ((∀ nd ∈ s.mNodes, Ieee.SlabExact rnd negZero nd.b org dir) →
        ∀ fuel2, s.mNodes.length ≤ fuel2 →
          ∃ a, Ieee.intersect rnd negZero (nearestCollide rayDist) fuel2 s org dir dist id0
              = some a ∧
            a.1 = (linearScan (nearestCollide rayDist) org dir s.mPrimitives dist id0).1 ∧
            a.2.1 = (linearScan (nearestCollide rayDist) org dir s.mPrimitives dist id0).2.1 ∧
            ((∀ p ∈ prims, ∀ q ∈ prims, rayDist p org dir = some a.2.1 →
                rayDist q org dir = some a.2.1 → p = q) →
              a.2.2 =
                (linearScan (nearestCollide rayDist) org dir s.mPrimitives dist id0).2.2))
    := by
  by_cases hne : prims = []
  · subst hne
    exact ⟨Bvh.empty, rfl, fun _ fuel2 _ => ⟨(false, dist, id0), rfl, rfl, rfl, fun _ => rfl⟩⟩
  obtain ⟨s, h1, h2, h3⟩ := build_fresh_spec bound split threshold MAX hs fuel prims hne hf
  refine ⟨s, h1, ?_⟩
  intro hexact fuel2 hf2
  have hmem : ∀ p, p ∈ s.mPrimitives ↔ p ∈ prims := fun p => h2.perm.mem_iff
  have hsl : slice s.mPrimitives 0 prims.length = s.mPrimitives := by
    rw [← h2.1, slice_zero_length]
  obtain ⟨a, ha, hr, ht⟩ := ieee_intersect_built bound MAX s rnd negZero
    (nearestCollide rayDist) org dir hexact
    (NearestRel rayDist org dir prims)
    (NearestRel.refl_nearest rayDist org dir prims) (fun _ _ _ => NearestRel.trans_nearest)
    (fun _ _ hab => hab.1)
    (fun q hq hit d s => NearestRel.step_nearest rayDist org dir prims q ((hmem q).mp hq) hit d s)
    (fun q u => q ∈ prims ∧ rayDist q org dir = some u)
    (fun q u hqu => ⟨(hray q hqu.1 u hqu.2).1,
      (is_inside_iff _ _).mp (hray q hqu.1 u hqu.2).2.1, (hray q hqu.1 u hqu.2).2.2,
      fun d s htd => nearestCollide_hit rayDist q org dir u hqu.2 d s htd⟩)
    prims.length h3 fuel2 hf2 dist id0
  have hscan := collideLeaf_spec (nearestCollide rayDist) org dir
    (NearestRel rayDist org dir prims)
    (NearestRel.refl_nearest rayDist org dir prims) (fun _ _ _ => NearestRel.trans_nearest)
    (fun _ _ hab => hab.1)
    (fun q u => q ∈ prims ∧ rayDist q org dir = some u)
    (fun q u hqu d s htd => nearestCollide_hit rayDist q org dir u hqu.2 d s htd)
    s.mPrimitives
    (fun q hq hit d s => NearestRel.step_nearest rayDist org dir prims q ((hmem q).mp hq) hit d s)
    false dist id0
  rw [← linearScan_eq_collideLeaf] at hscan
  refine ⟨a, ha, ?_⟩
  exact NearestRel.unique hr hscan.1
    (fun p hp t hpt htd => ht p t ⟨hp, hpt⟩ (by rw [hsl]; exact (hmem p).mpr hp) htd)
    (fun p hp t hpt htd => hscan.2 p t ⟨hp, hpt⟩ ((hmem p).mpr hp) htd)

end IeeeIntersectTheorems

section IeeeIntersectInstances

set_option maxRecDepth 100000

theorem stripRayDistance_up (p : Nat) :
    stripRayDistance p belowStrips upRay = some (2 * (p : ℚ) + 1) := by
  simp only [stripRayDistance, belowStrips, upRay]
  norm_num

theorem stripBound_up (p : Nat) :
    is_inside (stripBound p) (fun i => belowStrips i + (2 * (p : ℚ) + 1) * upRay i) = true ∧
    ∀ i, upRay i = 0 → (stripBound p).p0 i < belowStrips i ∧ belowStrips i < (stripBound p).p1 i
    := by
  constructor
  · rw [is_inside_iff]
    intro i
    fin_cases i
    · simp [stripBound, belowStrips, upRay]
      norm_num
    · simp [stripBound, belowStrips, upRay]
  · intro i hi
    fin_cases i
    · simp [stripBound, belowStrips]
      norm_num
    · simp [upRay] at hi

/-- The slab test on the boxes of the tree built from three strips of the plane, for the ray
from `(5, -1)` in the direction `(0, 1)`, is computed without rounding error by binary64. -/
theorem strips_tree_exact :
    (build stripBound halfSplit 1 (1000 : ℚ) 3 Bvh.empty [2, 0, 1]).map
        (fun r => decide (∀ nd ∈ r.1.mNodes,
          Ieee.SlabExact binary64 (fun _ => false) nd.b belowStrips upRay))
      = some true := by
  decide!

/-- The theorem `intersect_finds_hit` at three strips of the plane, the ray from `(5, -1)`
in the direction `(0, 1)`, whose first component is zero, and the strip at distance 1, with
the rounding of binary64, for which the slab test on the boxes of the tree is exact. -/
theorem intersect_finds_hit_witness :
    ∃ s, build stripBound halfSplit 1 (1000 : ℚ) 3 Bvh.empty [2, 0, 1] = some (s, []) ∧
      (∀ nd ∈ s.mNodes, Ieee.SlabExact binary64 (fun _ => false) nd.b belowStrips upRay) ∧
      ∀ fuel2, s.mNodes.length ≤ fuel2 →
        ∃ d sfin, Ieee.intersect binary64 (fun _ => false) (nearestCollide stripRayDistance)
          fuel2 s belowStrips upRay 10 none = some (true, d, sfin) ∧
          d ≤ 2 * ((0 : Nat) : ℚ) + 1 := by
  obtain ⟨s, h1, h2⟩ := intersect_finds_hit stripBound halfSplit 1 (1000 : ℚ) 3 [2, 0, 1]
    halfSplit_contract (by simp) binary64 (fun _ => false)
    (nearestCollide stripRayDistance) belowStrips upRay 10 none 0 (2 * ((0 : Nat) : ℚ) + 1)
    (fun q d s => nearestCollide_mono stripRayDistance q _ _ d s)
    (by simp) (by norm_num) (by norm_num)
    (stripBound_up 0).1 (stripBound_up 0).2
    (fun d s htd => nearestCollide_hit stripRayDistance 0 _ _ _ (stripRayDistance_up 0) d s htd)
  have hex : ∀ nd ∈ s.mNodes,
      Ieee.SlabExact binary64 (fun _ => false) nd.b belowStrips upRay := by
    have h := strips_tree_exact
    rw [h1] at h
    simpa using h
  exact ⟨s, h1, hex, h2 hex⟩

/-- The traversal of the witness evaluated: the tree has five nodes, and `intersect` returns
true with the distance 1 and the strip 0, as the linear scan does. -/
theorem intersect_strips_example :
    (build stripBound halfSplit 1 (1000 : ℚ) 3 Bvh.empty [2, 0, 1]).map
        (fun r => r.1.mNodes.length) = some 5 ∧
    (build stripBound halfSplit 1 (1000 : ℚ) 3 Bvh.empty [2, 0, 1]).bind
        (fun r => Ieee.intersect binary64 (fun _ => false) (nearestCollide stripRayDistance) 5
          r.1 belowStrips upRay 10 none) = some (true, 1, some 0) ∧
    (build stripBound halfSplit 1 (1000 : ℚ) 3 Bvh.empty [2, 0, 1]).map
        (fun r => linearScan (nearestCollide stripRayDistance) belowStrips upRay
          r.1.mPrimitives 10 none) = some (true, 1, some 0) := by
  refine ⟨?_, ?_, ?_⟩ <;> decide!

/-- C4 as stated fails, with the arithmetic of binary64. First input: one point at `x = -3`,
the ray from 0 in direction `+1`, initial `dist = 10`; `collide` takes the point for a hit at
the distance `-3 < 10`, the hit point lies inside its box, and `intersect` returns false: the
slab test asks for `t1 > 0`. Second input: the point `(1, 49)` of the plane, the ray from
`(1, 0)` in direction `(0, 1)`, initial `dist = 100`; the hit is at the distance 49, the
origin lies on the box in dimension 0, where the direction is zero, `k0[0]` is
`0 * inf`, a NaN, and `intersect` returns false. Third input: the same point, the ray from
`(0, 0)` in direction `(1, 49)`, initial `dist = 10`; the hit is at the distance 1, but
`49 * (1 / 49)` is rounded to a number below 1, `t1 < t0`, and `intersect` returns false;
in exact arithmetic it returns true. -/
theorem intersect_misses_hits :
    (nearestCollide rayDistance ((0 : Nat), (-3 : ℚ)) (fun _ => 0) (fun _ => 1) 10 none
        = (true, -3, some (0, -3)) ∧
      is_inside (tagBoundRat (0, -3)) (fun _ => 0 + (-3) * 1) = true ∧
      (build tagBoundRat halfSplit 1 (100 : ℚ) 1 Bvh.empty [(0, -3)]).bind
        (fun r => Ieee.intersect binary64 (fun _ => false) (nearestCollide rayDistance) 1 r.1
          (fun _ => 0) (fun _ => 1) 10 none) = some (false, 10, none)) ∧
    (nearestCollide planeRayDistance (1, 49) (fun i => if i = 0 then 1 else 0) upRay 100 none
        = (true, 49, some (1, 49)) ∧
      is_inside (planeBound (1, 49))
        (fun i => (if i = 0 then 1 else 0) + 49 * upRay i) = true ∧
      (build planeBound halfSplit 1 (1000 : ℚ) 1 Bvh.empty [(1, 49)]).bind
        (fun r => Ieee.intersect binary64 (fun _ => false) (nearestCollide planeRayDistance) 1
          r.1 (fun i => if i = 0 then 1 else 0) upRay 100 none) = some (false, 100, none)) ∧
    (nearestCollide planeRayDistance (1, 49) (fun _ => 0) (fun i => if i = 0 then 1 else 49)
        10 none = (true, 1, some (1, 49)) ∧
      is_inside (planeBound (1, 49))
        (fun i => 0 + 1 * (if i = 0 then 1 else 49)) = true ∧
      (build planeBound halfSplit 1 (1000 : ℚ) 1 Bvh.empty [(1, 49)]).bind
        (fun r => Ieee.intersect binary64 (fun _ => false) (nearestCollide planeRayDistance) 1
          r.1 (fun _ => 0) (fun i => if i = 0 then 1 else 49) 10 none)
        = some (false, 10, none) ∧
      (build planeBound halfSplit 1 (1000 : ℚ) 1 Bvh.empty [(1, 49)]).bind
        (fun r => Ieee.intersect (fun x => x) (fun _ => false)
          (nearestCollide planeRayDistance) 1 r.1 (fun _ => 0)
          (fun i => if i = 0 then 1 else 49) 10 none) = some (true, 1, some (1, 49))) := by
  refine ⟨⟨?_, ?_, ?_⟩, ⟨?_, ?_, ?_⟩, ?_, ?_, ?_, ?_⟩ <;> decide!

/-- The theorem `intersect_eq_linearScan` at three strips of the plane and the ray from
`(5, -1)` in the direction `(0, 1)`, whose first component is zero, with the rounding of
binary64, for which the slab test on the boxes of the tree is exact. -/
theorem intersect_eq_linearScan_witness :
    ∃ s, build stripBound halfSplit 1 (1000 : ℚ) 3 Bvh.empty [2, 0, 1] = some (s, []) ∧
      (∀ nd ∈ s.mNodes, Ieee.SlabExact binary64 (fun _ => false) nd.b belowStrips upRay) ∧
      ∀ fuel2, s.mNodes.length ≤ fuel2 →
        ∃ a, Ieee.intersect binary64 (fun _ => false) (nearestCollide stripRayDistance)
            fuel2 s belowStrips upRay 10 none = some a ∧
          a.1 = (linearScan (nearestCollide stripRayDistance) belowStrips upRay
            s.mPrimitives 10 none).1 ∧
          a.2.1 = (linearScan (nearestCollide stripRayDistance) belowStrips upRay
            s.mPrimitives 10 none).2.1 ∧
          ((∀ p ∈ ([2, 0, 1] : List Nat), ∀ q ∈ ([2, 0, 1] : List Nat),
              stripRayDistance p belowStrips upRay = some a.2.1 →
              stripRayDistance q belowStrips upRay = some a.2.1 → p = q) →
            a.2.2 = (linearScan (nearestCollide stripRayDistance) belowStrips upRay
              s.mPrimitives 10 none).2.2) := by
  obtain ⟨s, h1, h2⟩ := intersect_eq_linearScan stripBound halfSplit 1 (1000 : ℚ) 3 [2, 0, 1]
    halfSplit_contract (by simp) binary64 (fun _ => false) stripRayDistance belowStrips upRay
    10 none
    (by
      intro p _ t ht
      rw [stripRayDistance_up p] at ht
      simp only [Option.some.injEq] at ht
      subst ht
      exact ⟨by positivity, (stripBound_up p).1, (stripBound_up p).2⟩)
  have hex : ∀ nd ∈ s.mNodes,
      Ieee.SlabExact binary64 (fun _ => false) nd.b belowStrips upRay := by
    have h := strips_tree_exact
    rw [h1] at h
    simpa using h
  exact ⟨s, h1, hex, h2 hex⟩

/-- C5 as stated fails, with the arithmetic of binary64. First input: two points at the same
distance 1 from the origin of a ray in direction `-1`; `intersect` visits the right leaf
first and reports the hit-id 1, the linear scan reports the hit-id 0. Second input: one
point behind the origin of a ray in direction `+1`; the linear scan takes the hit at the
distance `-3`, `intersect` never tests the point. Third input: the point `(1, 49)` of the
plane and the ray from `(1, 0)` in direction `(0, 1)`; the origin lies on the box in
dimension 0, where the direction is zero, the slab test meets a NaN and `intersect` never
tests the point, which the linear scan takes at the distance 49. Fourth input: the same
point and the ray from `(0, 0)` in direction `(1, 49)`; `49 * (1 / 49)` is rounded to a
number below 1, the slab test fails and `intersect` never tests the point, which the linear
scan takes at the distance 1. -/
theorem intersect_ne_linearScan :
    ((build tagBoundRat halfSplit 1 (100 : ℚ) 2 Bvh.empty [(0, -1), (1, -1)]).bind
        (fun r => Ieee.intersect binary64 (fun _ => false) (nearestCollide rayDistance) 3 r.1
          (fun _ => 0) (fun _ => -1) 10 none) = some (true, 1, some (1, -1)) ∧
      (build tagBoundRat halfSplit 1 (100 : ℚ) 2 Bvh.empty [(0, -1), (1, -1)]).map
        (fun r => linearScan (nearestCollide rayDistance) (fun _ => 0) (fun _ => -1)
          r.1.mPrimitives 10 none) = some (true, 1, some (0, -1))) ∧
    ((build tagBoundRat halfSplit 1 (100 : ℚ) 1 Bvh.empty [(0, -3)]).bind
        (fun r => Ieee.intersect binary64 (fun _ => false) (nearestCollide rayDistance) 1 r.1
          (fun _ => 0) (fun _ => 1) 10 none) = some (false, 10, none) ∧
      (build tagBoundRat halfSplit 1 (100 : ℚ) 1 Bvh.empty [(0, -3)]).map
        (fun r => linearScan (nearestCollide rayDistance) (fun _ => 0) (fun _ => 1)
          r.1.mPrimitives 10 none) = some (true, -3, some (0, -3))) ∧
    ((build planeBound halfSplit 1 (1000 : ℚ) 1 Bvh.empty [(1, 49)]).bind
        (fun r => Ieee.intersect binary64 (fun _ => false) (nearestCollide planeRayDistance) 1
          r.1 (fun i => if i = 0 then 1 else 0) upRay 100 none) = some (false, 100, none) ∧
      (build planeBound halfSplit 1 (1000 : ℚ) 1 Bvh.empty [(1, 49)]).map
        (fun r => linearScan (nearestCollide planeRayDistance)
          (fun i => if i = 0 then 1 else 0) upRay r.1.mPrimitives 100 none)
        = some (true, 49, some (1, 49))) ∧
    ((build planeBound halfSplit 1 (1000 : ℚ) 1 Bvh.empty [(1, 49)]).bind
        (fun r => Ieee.intersect binary64 (fun _ => false) (nearestCollide planeRayDistance) 1
          r.1 (fun _ => 0) (fun i => if i = 0 then 1 else 49) 10 none)
        = some (false, 10, none) ∧
      (build planeBound halfSplit 1 (1000 : ℚ) 1 Bvh.empty [(1, 49)]).map
        (fun r => linearScan (nearestCollide planeRayDistance) (fun _ => 0)
          (fun i => if i = 0 then 1 else 49) r.1.mPrimitives 10 none)
        = some (true, 1, some (1, 49))) := by
  refine ⟨⟨?_, ?_⟩, ⟨?_, ?_⟩, ⟨?_, ?_⟩, ?_, ?_⟩ <;> decide!

end IeeeIntersectInstances

section SlabOverloads

variable {T : Type} [LinearOrderedField T] {N : Nat}

end SlabOverloads

section SlabOverloadInstances

set_option maxRecDepth 100000

/-- The two overloads of the slab test in exact arithmetic at the direction `(0, 1)`: the
quotient by the zero component and the product with the infinite inverse are the same
infinities, and both overloads return true for the origin `(5, -1)` and a strip above it. -/
theorem slab_overloads_zero_component_example :
    Ieee.inv (fun x => x) (fun _ => false) upRay 0 = Ieee.posInf ∧
    Ieee.is_intersecting_dir (fun x => x) (fun _ => false) (Ieee.ofBox (stripBound 0))
      (Ieee.ofVec belowStrips) (Ieee.ofVec upRay) (Ieee.fin 10) = true ∧
    Ieee.is_intersecting_inv (fun x => x) (Ieee.ofBox (stripBound 0)) (Ieee.ofVec belowStrips)
      (Ieee.inv (fun x => x) (fun _ => false) upRay) (Ieee.fin 10) = true := by
  refine ⟨?_, ?_, ?_⟩ <;> decide!

end SlabOverloadInstances

end Nbvh
